import Mathlib

/-!
The package `gfont`: the font-face model, its selector and accessors, its
serializers and its declaration parser.

A shallow embedding of `typeface.go`.

* Go `string` values are Lean `String`s (valid UTF-8 text), Go `int` is `Int`.
* `*url.URL` is a nullable pointer: `Option URL`.  A `URL` value is modelled by
  what this package observes of it: the text returned by its `String()` method
  and the `Path` and `RawQuery` fields.
* A call that dereferences a nil `*url.URL` panics in Go; such functions return
  `Option`, with `none` standing for the run-time panic.
* The tokenizer and `url.Parse` are external packages: the parser takes the
  token stream and the URL parser as arguments.  So is `URL.Query().Get`, an
  argument of `Version` and `FileName`.
* An index out of range is a run-time panic as well, `none`.
* The loops of the parser take a number of steps; it is always the number of
  tokens left plus one, which is enough (`UnmarshalCSS_steps`).
-/

namespace Gfont

/-! ## Data model -/

/-- The value behind a `*url.URL`: `str` is the result of `String()`. -/
structure URL where
  str : String
  Path : String
  RawQuery : String
deriving DecidableEq

/-- The `String()` method of `*url.URL`. -/
def URL.String (u : URL) : String := u.str

/-- Typeface represents a font face. -/
structure Typeface where
  Format : String
  Weight : Int
  Family : String
  Style : String
  URL : Option URL
  UnicodeRange : List String
deriving DecidableEq

/-- Typefaces represents a collection of Typeface. -/
structure Typefaces where
  Fonts : List Typeface
deriving DecidableEq

/-! ## Helpers -/

/-- The loop of `isUniqueString`: `found` becomes true at the first equal element. -/
def isUniqueString (sl : List String) (s : String) : Bool :=
  let found := sl.foldl (fun found r => if found then true else if s = r then true else false) false
  !found

/-- The loop of `isUniqueInt`. -/
def isUniqueInt (sl : List Int) (s : Int) : Bool :=
  let found := sl.foldl (fun found r => if found then true else if s = r then true else false) false
  !found

/-! ## Selector -/

/-- One iteration of the loop of `Select`: the four `continue` guards, then `append`. -/
def selectStep (format family style : String) (weight : Int)
    (filtered : List Typeface) (v : Typeface) : List Typeface :=
  if format ≠ "" ∧ v.Format ≠ format then filtered
  else if family ≠ "" ∧ v.Family ≠ family then filtered
  else if style ≠ "" ∧ v.Style ≠ style then filtered
  else if weight ≠ -1 ∧ v.Weight ≠ weight then filtered
  else filtered ++ [v]

/-- Select returns a slice of Typeface based on the selection criteria. -/
def Typefaces.Select (ts : Typefaces) (format family style : String) (weight : Int) :
    List Typeface :=
  ts.Fonts.foldl (selectStep format family style weight) []

/-! ## Distinct-value accessors -/

/-- Format returns a unique list of font formats. -/
def Typefaces.Format (ts : Typefaces) : List String :=
  ts.Fonts.foldl (fun result v =>
    if v.Format = "" then result
    else if !isUniqueString result v.Format then result
    else result ++ [v.Format]) []

/-- Family returns a unique list of font families. -/
def Typefaces.Family (ts : Typefaces) : List String :=
  ts.Fonts.foldl (fun result v =>
    if v.Family = "" then result
    else if !isUniqueString result v.Family then result
    else result ++ [v.Family]) []

/-- Style returns a unique list of font style. -/
def Typefaces.Style (ts : Typefaces) : List String :=
  ts.Fonts.foldl (fun result v =>
    if v.Style = "" then result
    else if !isUniqueString result v.Style then result
    else result ++ [v.Style]) []

/-- Weight returns a unique list of font weights. -/
def Typefaces.Weight (ts : Typefaces) : List Int :=
  ts.Fonts.foldl (fun result v =>
    if v.Weight < 1 then result
    else if !isUniqueInt result v.Weight then result
    else result ++ [v.Weight]) []

/-- The state of the loop of `Typefaces.URL`: the two slices `result` and
`resultString`. -/
structure URLAcc where
  result : List URL
  resultString : List String
deriving DecidableEq

/-- One iteration of the loop of `Typefaces.URL`.  `v.URL.String()` is evaluated
for every record that passes the `Style` guard, and panics on a nil URL. The
body appends to `result` only: `resultString` is never written. -/
def urlStep (acc : Option URLAcc) (v : Typeface) : Option URLAcc :=
  match acc with
  | none => none
  | some a =>
    if v.Style = "" then some a
    else
      match v.URL with
      | none => none
      | some u =>
        if !isUniqueString a.resultString u.String then some a
        else some { a with result := a.result ++ [u] }

/-- URL returns a unique list of font URLs. -/
def Typefaces.URL (ts : Typefaces) : Option (List URL) :=
  (ts.Fonts.foldl urlStep (some ⟨[], []⟩)).map URLAcc.result

/-- The values of a list, each once, in the order of first occurrence: the
head is kept and removed from what follows. -/
def firstSeen {α : Type} [DecidableEq α] : List α → List α
  | [] => []
  | x :: xs => x :: (firstSeen xs).filter (fun y => y ≠ x)

/-- The selection criterion of `Select` as a predicate on one record. -/
def matchesFilter (format family style : String) (weight : Int) (r : Typeface) : Bool :=
  decide ((format = "" ∨ r.Format = format) ∧ (family = "" ∨ r.Family = family) ∧
    (style = "" ∨ r.Style = style) ∧ (weight = -1 ∨ r.Weight = weight))


/-! ## Go string helpers -/

/-- The predicate `unicode.IsSpace`. -/
def isSpace (c : Char) : Bool :=
  c = '\t' || c = '\n' || c = '\x0b' || c = '\x0c' || c = '\r' || c = ' ' ||
  c.toNat = 0x85 || c.toNat = 0xA0 || c.toNat = 0x1680 ||
  (decide (0x2000 ≤ c.toNat) && decide (c.toNat ≤ 0x200a)) ||
  c.toNat = 0x2028 || c.toNat = 0x2029 || c.toNat = 0x202f || c.toNat = 0x205f ||
  c.toNat = 0x3000

/-- The function `strings.TrimSpace`: leading and trailing white space removed. -/
def TrimSpace (s : String) : String :=
  ⟨List.rdropWhile isSpace (s.data.dropWhile isSpace)⟩

/-- The function `strings.HasSuffix`. -/
def HasSuffix (s suffix : String) : Bool :=
  decide (suffix.data <:+ s.data)

/-- The function `strings.TrimSuffix`: `s` without the given trailing suffix,
or `s` itself when it does not end with it. -/
def TrimSuffix (s suffix : String) : String :=
  if HasSuffix s suffix then ⟨s.data.take (s.data.length - suffix.data.length)⟩ else s

/-- The function `strings.Contains`. -/
def Contains (s substr : String) : Bool :=
  decide (substr.data <:+: s.data)

/-- The function `strings.Join`. -/
def Join : List String → String → String
  | [], _ => ""
  | [a], _ => a
  | a :: b :: rest, sep => a ++ sep ++ Join (b :: rest) sep

/-- The verb `%d` of `fmt.Sprintf` on an `int`. -/
def fmtInt (n : Int) : String := toString n

/-! ## Go maps keyed by strings -/

/-- The assignment `m[k] = v` on a map held as an association list with distinct
keys: an earlier entry for `k` is dropped. -/
def mapSet {V : Type} (m : List (String × V)) (k : String) (v : V) : List (String × V) :=
  m.filter (fun p => decide (p.1 ≠ k)) ++ [(k, v)]

/-- The lookup `v, ok := m[k]`. -/
def mapGet {V : Type} (m : List (String × V)) (k : String) : Option V :=
  (m.find? (fun p => p.1 = k)).map Prod.snd

/-! ## Consolidated serializers -/

/-- The quoting of the family name shared by all four serializers. -/
def quoteFamily (fam : String) : String :=
  if Contains fam " " then "'" ++ fam ++ "'" else fam

/-- The loop that fills the map `selected`, one `Select` per format. -/
def selectFormats (ts : Typefaces) (formats : List String) (fam s : String) (w : Int) :
    List (String × List Typeface) :=
  formats.foldl (fun selected m =>
    let filtered := ts.Select m fam s w
    if filtered.length > 0 then mapSet selected m filtered else selected) []

/-- The expression `v[0].URL.String()`: fails on an empty slice or a nil URL. -/
def firstURLString (v : List Typeface) : Option String :=
  match v with
  | [] => none
  | t :: _ => t.URL.map URL.String

/-- The `if v, ok := selected[m]; ok` statements for woff2, woff, ttf and svg:
the entry is appended, followed by `sep`. -/
def appendEntry (selected : List (String × List Typeface)) (m sep : String)
    (cssPart : String) : Option String :=
  match mapGet selected m with
  | some v =>
    match firstURLString v with
    | some u => some (cssPart ++ ("url('" ++ u ++ "') format('" ++ m ++ "')," ++ sep))
    | none => none
  | none => some cssPart

/-- The template `cssTpl` of `Typefaces.CSS` filled in by `fmt.Sprintf`. -/
def cssTpl (fontFamily s : String) (w : Int) : String :=
  "@font-face\x7bfont-family:" ++ fontFamily ++ ";font-style:" ++ s ++
    ";font-weight:" ++ fmtInt w ++ ";"

/-- The template `cssTpl` of `Typefaces.PrettyCSS` filled in by `fmt.Sprintf`. -/
def prettyTpl (fontFamily s : String) (w : Int) : String :=
  "@font-face \x7b\n\tfont-family: " ++ fontFamily ++ ";\n\tfont-style: " ++ s ++
    "; \n\tfont-weight: " ++ fmtInt w ++ ";"

/-- The body of the innermost loop of `Typefaces.CSS`: the rule of one
combination of family, weight and style. -/
def cssRule (ts : Typefaces) (formats : List String) (fam : String) (w : Int) (s : String) :
    Option String :=
  let cssPart := cssTpl (quoteFamily fam) s w
  let selected := selectFormats ts formats fam s w
  let withEot : Option String :=
    match mapGet selected "eot" with
    | some v =>
      match firstURLString v with
      | some u =>
        let cssPart := cssPart ++ ("src:url('" ++ u ++ "');")
        let cssPart := cssPart ++ ("src:url('" ++ (u ++ "?#iefix") ++
          "') format('embedded-opentype')")
        if selected.length = 1 then some (cssPart ++ ";") else some (cssPart ++ ",")
      | none => none
    | none => some (cssPart ++ "src:")
  match withEot >>= appendEntry selected "woff2" "" >>= appendEntry selected "woff" ""
      >>= appendEntry selected "ttf" "" >>= appendEntry selected "svg" "" with
  | some cssPart =>
    let cssPart := TrimSpace cssPart
    let cssPart := TrimSuffix cssPart ","
    let cssPart := TrimSuffix cssPart ";"
    some (cssPart ++ "\x7d")
  | none => none

/-- The body of the innermost loop of `Typefaces.PrettyCSS`. -/
def prettyRule (ts : Typefaces) (formats : List String) (fam : String) (w : Int) (s : String) :
    Option String :=
  let cssPart := prettyTpl (quoteFamily fam) s w
  let selected := selectFormats ts formats fam s w
  let withEot : Option String :=
    match mapGet selected "eot" with
    | some v =>
      match firstURLString v with
      | some u =>
        let cssPart := cssPart ++ ("\n\tsrc: url('" ++ u ++ "');")
        let cssPart := cssPart ++ ("\n\tsrc: url('" ++ (u ++ "?#iefix") ++
          "') format('embedded-opentype')")
        if selected.length = 1 then some (cssPart ++ ";") else some (cssPart ++ ",\n\t\t")
      | none => none
    | none => some (cssPart ++ "\n\tsrc: ")
  match withEot >>= appendEntry selected "woff2" "\n\t\t" >>= appendEntry selected "woff" "\n\t\t"
      >>= appendEntry selected "ttf" "\n\t\t" >>= appendEntry selected "svg" "\n\t\t" with
  | some cssPart =>
    let cssPart := TrimSpace cssPart
    let cssPart := TrimSuffix cssPart ","
    let cssPart := if !HasSuffix cssPart ";" then cssPart ++ ";" else cssPart
    some (cssPart ++ "\n\x7d")
  | none => none

/-- The three nested loops shared by `Typefaces.CSS` and `Typefaces.PrettyCSS`,
over the families, then the weights, then the styles; `rule` is the loop body
and its result is appended to `result`. -/
def rulesLoop (families : List String) (weights : List Int) (styles : List String)
    (rule : String → Int → String → Option String) : Option (List String) :=
  families.foldl (fun result fam =>
    weights.foldl (fun result w =>
      styles.foldl (fun result s =>
        match result with
        | none => none
        | some parts =>
          match rule fam w s with
          | none => none
          | some cssPart => some (parts ++ [cssPart])) result) result) (some [])

/-- The slice `result` of `Typefaces.CSS` at the end of the loops. -/
def Typefaces.cssParts (ts : Typefaces) : Option (List String) :=
  rulesLoop ts.Family ts.Weight ts.Style (cssRule ts ts.Format)

/-- CSS returns the CSS for all fonts in the collection, in the most legacy
compatible manner. -/
def Typefaces.CSS (ts : Typefaces) : Option String :=
  ts.cssParts.map (fun result => Join result "")

/-- The slice `result` of `Typefaces.PrettyCSS` at the end of the loops. -/
def Typefaces.prettyParts (ts : Typefaces) : Option (List String) :=
  rulesLoop ts.Family ts.Weight ts.Style (prettyRule ts ts.Format)

/-- PrettyCSS is the human readable version of method CSS. -/
def Typefaces.PrettyCSS (ts : Typefaces) : Option String :=
  ts.prettyParts.map (fun result => Join result "\n" ++ "\n")

/-- The combinations of a distinct family, a distinct weight and a distinct
style, family-major, then weight, then style. -/
def Typefaces.triples (ts : Typefaces) : List (String × Int × String) :=
  ts.Family.flatMap (fun fam => ts.Weight.flatMap (fun w => ts.Style.map (fun s => (fam, w, s))))

/-! ## First and last characters of a string -/

/-- The string `s` begins with the character `c`. -/
def StartsWith (s : String) (c : Char) : Prop := ∃ l, s.data = c :: l

/-- The string `s` ends with the character `d`. -/
def EndsWith (s : String) (d : Char) : Prop := ∃ l, s.data = l ++ [d]

/-- A list of results, or `none` as soon as one element fails. -/
def mapOpt {α β : Type} (g : α → Option β) : List α → Option (List β)
  | [] => some []
  | x :: xs =>
    match g x with
    | none => none
    | some b =>
      match mapOpt g xs with
      | none => none
      | some bs => some (b :: bs)

/-! ## The text of a consolidated rule, by format priority -/

/-- One `src` entry: `url('u') format('m')`. -/
def srcEntry (u m : String) : String :=
  "url('" ++ u ++ "') format('" ++ m ++ "')"

/-- The URL text of the first record, in collection order, that matches the
format and the combination; `none` when there is no such record (or when it
carries no URL). -/
def firstMatchURL (ts : Typefaces) (m fam s : String) (w : Int) : Option String :=
  firstURLString (ts.Select m fam s w)

/-- The entries of the formats woff2, woff, ttf and svg that have a matching
record, in that fixed order. -/
def srcEntries (ts : Typefaces) (fam s : String) (w : Int) : List String :=
  ["woff2", "woff", "ttf", "svg"].filterMap
    (fun m => (firstMatchURL ts m fam s w).map (fun u => srcEntry u m))

/-- The `src` part of the compact rule of one combination: with an eot record,
the bare entry closed by `;`, a second `src:` with the `?#iefix` entry, and the
other entries each preceded by a comma; without one, `src:` and the entries
joined by commas. -/
def cssSrc (ts : Typefaces) (fam s : String) (w : Int) : String :=
  match firstMatchURL ts "eot" fam s w with
  | some e =>
    "src:url('" ++ e ++ "');" ++ ("src:url('" ++ (e ++ "?#iefix") ++
      "') format('embedded-opentype')") ++
      Join ((srcEntries ts fam s w).map (fun x => "," ++ x)) ""
  | none => "src:" ++ Join (srcEntries ts fam s w) ","

/-- Every record in one of the five formats that the consolidated serializers
emit carries a URL. -/
def HasURLs (ts : Typefaces) : Prop :=
  ∀ r ∈ ts.Fonts, r.Format ∈ ["eot", "woff2", "woff", "ttf", "svg"] → r.URL ≠ none

/-- The `src` part of the pretty rule of one combination, closed by `;`: the
same entries in the same order as in `cssSrc`, separated by a comma, a line
break and two tabs. -/
def prettySrc (ts : Typefaces) (fam s : String) (w : Int) : String :=
  match firstMatchURL ts "eot" fam s w with
  | some e =>
    "\n\tsrc: url('" ++ e ++ "');" ++ ("\n\tsrc: url('" ++ (e ++ "?#iefix") ++
      "') format('embedded-opentype')") ++
      Join ((srcEntries ts fam s w).map (fun x => ",\n\t\t" ++ x)) "" ++ ";"
  | none =>
    if srcEntries ts fam s w = [] then "\n\tsrc:;"
    else "\n\tsrc: " ++ Join (srcEntries ts fam s w) ",\n\t\t" ++ ";"

/-- The compact rule of one combination, as text. -/
def cssRuleText (ts : Typefaces) (t : String × Int × String) : String :=
  cssTpl (quoteFamily t.1) t.2.2 t.2.1 ++ cssSrc ts t.1 t.2.2 t.2.1 ++ "\x7d"

/-- The pretty rule of one combination, as text. -/
def prettyRuleText (ts : Typefaces) (t : String × Int × String) : String :=
  prettyTpl (quoteFamily t.1) t.2.2 t.2.1 ++ prettySrc ts t.1 t.2.2 t.2.1 ++ "\n\x7d"

/-! ## Single-record serializers -/

/-- The verb `%s` of `fmt.Sprintf` on a `*url.URL`: the `String()` method, and
`<nil>` for a nil pointer. -/
def fmtURL (u : Option URL) : String :=
  match u with
  | some v => v.String
  | none => "<nil>"

/-- CSS returns the CSS representation of a TypeFace.  The template is the
constant `cssTpl`, with `unicode-range:%s;` added when there are ranges, its
last `;` removed by `TrimSuffix` and `}` appended. -/
def Typeface.CSS (t : Typeface) : String :=
  if t.UnicodeRange.length > 0 then
    "@font-face\x7bfont-family:" ++ quoteFamily t.Family ++ ";font-style:" ++ t.Style ++
      ";font-weight:" ++ fmtInt t.Weight ++ ";src:url('" ++ fmtURL t.URL ++ "') format('" ++
      t.Format ++ "');unicode-range:" ++ Join t.UnicodeRange "," ++ "\x7d"
  else
    "@font-face\x7bfont-family:" ++ quoteFamily t.Family ++ ";font-style:" ++ t.Style ++
      ";font-weight:" ++ fmtInt t.Weight ++ ";src:url('" ++ fmtURL t.URL ++ "') format('" ++
      t.Format ++ "')\x7d"

/-- PrettyCSS is the human readable version of method CSS. -/
def Typeface.PrettyCSS (t : Typeface) : String :=
  if t.UnicodeRange.length > 0 then
    "@font-face \x7b\n\tfont-family: " ++ quoteFamily t.Family ++ ";\n\tfont-style: " ++ t.Style ++
      ";\n\tfont-weight: " ++ fmtInt t.Weight ++ ";\n\tsrc: url('" ++ fmtURL t.URL ++
      "') format('" ++ t.Format ++ "');" ++ "\n\tunicode-range: " ++
      Join t.UnicodeRange ", " ++ ";" ++ "\n\x7d"
  else
    "@font-face \x7b\n\tfont-family: " ++ quoteFamily t.Family ++ ";\n\tfont-style: " ++ t.Style ++
      ";\n\tfont-weight: " ++ fmtInt t.Weight ++ ";\n\tsrc: url('" ++ fmtURL t.URL ++
      "') format('" ++ t.Format ++ "');" ++ "\n\x7d"

/-! ## Tokens -/

/-- The token types of the scanner package. -/
inductive TokenType where
  | TokenError | TokenEOF | TokenIdent | TokenAtKeyword | TokenString | TokenHash
  | TokenNumber | TokenPercentage | TokenDimension | TokenURI | TokenUnicodeRange
  | TokenCDO | TokenCDC | TokenS | TokenComment | TokenFunction | TokenIncludes
  | TokenDashMatch | TokenPrefixMatch | TokenSuffixMatch | TokenSubstringMatch
  | TokenChar | TokenBOM
deriving DecidableEq

open TokenType

/-- A token of the scanner: its type (the field `Type`) and its text.  Line and
column are only printed in the error messages and are left out here: an error
of `UnmarshalCSS` below stands for its message up to the positions of the tokens
it quotes.  The tokens with their position are `LToken`. -/
structure Token where
  Typ : TokenType
  Value : String
deriving DecidableEq

/-- The method `Next` of the scanner, on the list of the tokens still to come:
at the end of the input it returns the end-of-stream token, and an
end-of-stream or error token is returned again by every later call. -/
def scannerNext : List Token → Token × List Token
  | [] => (⟨TokenEOF, ""⟩, [])
  | t :: rest =>
    if t.Typ = TokenEOF ∨ t.Typ = TokenError then (t, t :: rest) else (t, rest)

/-- The helper `nextSig`: the next token that is neither white space nor a
comment. -/
def nextSig : List Token → Token × List Token
  | [] => (⟨TokenEOF, ""⟩, [])
  | t :: rest =>
    if t.Typ = TokenS ∨ t.Typ = TokenComment then nextSig rest
    else scannerNext (t :: rest)

/-! ## More Go string helpers -/

/-- The function `strings.Trim`: all leading and trailing characters that occur
in `cutset` removed. -/
def Trim (s cutset : String) : String :=
  ⟨List.rdropWhile (fun c => decide (c ∈ cutset.data))
    (s.data.dropWhile (fun c => decide (c ∈ cutset.data)))⟩

/-- The function `strings.TrimPrefix`. -/
def TrimPrefix (s pre : String) : String :=
  if pre.data <+: s.data then ⟨s.data.drop pre.data.length⟩ else s

/-- The value of a run of decimal digits, `none` when a character is not a digit. -/
def digitsValue : List Char → Nat → Option Nat
  | [], acc => some acc
  | c :: cs, acc =>
    if '0' ≤ c ∧ c ≤ '9' then digitsValue cs (acc * 10 + (c.toNat - '0'.toNat)) else none

/-- The function `strconv.Atoi` on a 64-bit `int`: an optional sign and decimal
digits, `none` for a syntax or range error. -/
def Atoi (s : String) : Option Int :=
  match s.data with
  | [] => none
  | '-' :: ds =>
    if ds = [] then none
    else match digitsValue ds 0 with
      | some n => if n ≤ 2 ^ 63 then some (-(n : Int)) else none
      | none => none
  | '+' :: ds =>
    if ds = [] then none
    else match digitsValue ds 0 with
      | some n => if n < 2 ^ 63 then some (n : Int) else none
      | none => none
  | ds =>
    match digitsValue ds 0 with
    | some n => if n < 2 ^ 63 then some (n : Int) else none
    | none => none

/-! ## The declaration parser -/

/-- The errors returned by `UnmarshalCSS`, one constructor per message;
`lastGoodToken` is the token the message quotes. -/
inductive ParseError where
  /-- The message `typefaces cannot be nil`. -/
  | nilTypefaces
  /-- The message `expect <what> after <lastGoodToken>`. -/
  | expect (what : String) (lastGoodToken : Token)
  /-- The message `expect format( after <lastGoodToken> but got <got>`. -/
  | expectFormat (lastGoodToken got : Token)
  /-- The message `unexpected EOF after <lastGoodToken>`. -/
  | unexpectedEOF (lastGoodToken : Token)
  /-- The message `convert token to number failed after <lastGoodToken>`. -/
  | convertNumber (lastGoodToken : Token)
  /-- The message `parse url failed after <lastGoodToken>`. -/
  | parseURL (lastGoodToken : Token)
  /-- Not a message of the program: a loop of the model was given too few steps. -/
  | outOfSteps
deriving DecidableEq

/-- The test `token.Typ == TokenChar && token.Value == v`. -/
def Token.isChar (t : Token) (v : String) : Bool :=
  decide (t.Typ = TokenChar) && decide (t.Value = v)

/-- The test `token.Typ == TokenEOF || token.Typ == TokenError`. -/
def Token.isEnd (t : Token) : Bool :=
  decide (t.Typ = TokenEOF) || decide (t.Typ = TokenError)

/-- The inner loop of the `unicode-range` branch.  A token that is neither a
unicode-range, an end, a comma nor a semicolon falls through to the `append`. -/
def unicodeRangeLoop : Nat → List Token → Token → List String →
    Except ParseError (List String × Token × List Token)
  | 0, _, _, _ => .error .outOfSteps
  | steps + 1, s, lastGoodToken, unicodeRange =>
    let (subtoken, s) := nextSig s
    if subtoken.Typ ≠ TokenUnicodeRange ∧ subtoken.isEnd then
      .error (.unexpectedEOF lastGoodToken)
    else if subtoken.Typ ≠ TokenUnicodeRange ∧ subtoken.isChar "," then
      unicodeRangeLoop steps s lastGoodToken unicodeRange
    else if subtoken.Typ ≠ TokenUnicodeRange ∧ subtoken.isChar ";" then
      .ok (unicodeRange, lastGoodToken, s)
    else
      unicodeRangeLoop steps s subtoken (unicodeRange ++ [subtoken.Value])

/-- The `font-family` branch, after its identifier `token`: `:`, a string, `;`.
The result is the record, `lastGoodToken` and the rest of the tokens. -/
def familyDecl (s : List Token) (token : Token) (fface : Typeface) :
    Except ParseError (Typeface × Token × List Token) :=
  let lastGoodToken := token
  let (token, s) := nextSig s
  if !token.isChar ":" then .error (.expect ":" lastGoodToken) else
  let lastGoodToken := token
  let (token, s) := nextSig s
  if token.Typ ≠ TokenString then .error (.expect "<string>" lastGoodToken) else
  let fface := { fface with Family := Trim token.Value "'" }
  let lastGoodToken := token
  let (token, s) := nextSig s
  if !token.isChar ";" then .error (.expect ";" lastGoodToken) else
  .ok (fface, lastGoodToken, s)

/-- The `font-style` branch, after its identifier `token`: `:`, an identifier,
`;`. -/
def styleDecl (s : List Token) (token : Token) (fface : Typeface) :
    Except ParseError (Typeface × Token × List Token) :=
  let lastGoodToken := token
  let (token, s) := nextSig s
  if !token.isChar ":" then .error (.expect ":" lastGoodToken) else
  let lastGoodToken := token
  let (token, s) := nextSig s
  if token.Typ ≠ TokenIdent then .error (.expect "<ident>" lastGoodToken) else
  let fface := { fface with Style := token.Value }
  let lastGoodToken := token
  let (token, s) := nextSig s
  if !token.isChar ";" then .error (.expect ";" lastGoodToken) else
  .ok (fface, lastGoodToken, s)

/-- The `font-weight` branch, after its identifier `token`: `:`, a number that
`strconv.Atoi` accepts, `;`. -/
def weightDecl (s : List Token) (token : Token) (fface : Typeface) :
    Except ParseError (Typeface × Token × List Token) :=
  let lastGoodToken := token
  let (token, s) := nextSig s
  if !token.isChar ":" then .error (.expect ":" lastGoodToken) else
  let lastGoodToken := token
  let (token, s) := nextSig s
  if token.Typ ≠ TokenNumber then .error (.expect "<number>" lastGoodToken) else
  match Atoi token.Value with
  | none => .error (.convertNumber lastGoodToken)
  | some n =>
    let fface := { fface with Weight := n }
    let lastGoodToken := token
    let (token, s) := nextSig s
    if !token.isChar ";" then .error (.expect ";" lastGoodToken) else
    .ok (fface, lastGoodToken, s)

/-- The `src` branch, after its identifier `token`: `:`, a URI, then either `;`
(the format is `eot`) or `format(`, a string, `)`, `;`.  `parse` is
`url.Parse`. -/
def srcDecl (parse : String → Option URL) (s : List Token) (token : Token)
    (fface : Typeface) : Except ParseError (Typeface × Token × List Token) :=
  let lastGoodToken := token
  let (token, s) := nextSig s
  if !token.isChar ":" then .error (.expect ":" lastGoodToken) else
  let lastGoodToken := token
  let (token, s) := nextSig s
  if token.Typ ≠ TokenURI then .error (.expect "<uri>" lastGoodToken) else
  let urlString := Trim (TrimSuffix (TrimPrefix token.Value "url(") ")") "'"
  match parse urlString with
  | none => .error (.parseURL lastGoodToken)
  | some u =>
    let fface := { fface with URL := some u }
    let lastGoodToken := token
    let (token, s) := nextSig s
    if token.isChar ";" then .ok ({ fface with Format := "eot" }, lastGoodToken, s)
    else if token.Typ ≠ TokenFunction ∨ token.Value ≠ "format(" then
      .error (.expectFormat lastGoodToken token)
    else
    let lastGoodToken := token
    let (token, s) := nextSig s
    if token.Typ ≠ TokenString then .error (.expect "<string>" lastGoodToken) else
    let fface := { fface with Format := Trim token.Value "'" }
    let lastGoodToken := token
    let (token, s) := nextSig s
    if !token.isChar ")" then .error (.expect ")" lastGoodToken) else
    let lastGoodToken := token
    let (token, s) := nextSig s
    if !token.isChar ";" then .error (.expect ";" lastGoodToken) else
    .ok (fface, lastGoodToken, s)

/-- The `unicode-range` branch, after its identifier `token`: `:`, then the
inner loop up to `;`. -/
def unicodeRangeDecl (s : List Token) (token : Token) (fface : Typeface) :
    Except ParseError (Typeface × Token × List Token) :=
  let lastGoodToken := token
  let (token, s) := nextSig s
  if !token.isChar ":" then .error (.expect ":" lastGoodToken) else
  match unicodeRangeLoop (s.length + 1) s lastGoodToken [] with
  | .error e => .error e
  | .ok (unicodeRange, lastGoodToken, s) =>
    .ok ({ fface with UnicodeRange := unicodeRange }, lastGoodToken, s)

/-- The branch of the declaration loop for the token at a declaration
boundary: one of the five known properties, or no branch at all (`none`), in
which case the token is skipped. -/
def declaration (parse : String → Option URL) (s : List Token) (token : Token)
    (fface : Typeface) : Option (Except ParseError (Typeface × Token × List Token)) :=
  if token.Typ = TokenIdent ∧ token.Value = "font-family" then some (familyDecl s token fface)
  else if token.Typ = TokenIdent ∧ token.Value = "font-style" then some (styleDecl s token fface)
  else if token.Typ = TokenIdent ∧ token.Value = "font-weight" then
    some (weightDecl s token fface)
  else if token.Typ = TokenIdent ∧ token.Value = "src" then some (srcDecl parse s token fface)
  else if token.Typ = TokenIdent ∧ token.Value = "unicode-range" then
    some (unicodeRangeDecl s token fface)
  else none

/-- The loop over the declarations of one block, from after `{` to `}`: the
end of the stream is an error, `}` ends the block, a property runs its branch
and the loop continues, any other token is skipped. -/
def declarationLoop (parse : String → Option URL) : Nat → List Token → Token → Typeface →
    Except ParseError (Typeface × List Token)
  | 0, _, _, _ => .error .outOfSteps
  | steps + 1, s, lastGoodToken, fface =>
    let (token, s) := nextSig s
    if token.isEnd then .error (.unexpectedEOF lastGoodToken)
    else if token.isChar "\x7d" then .ok (fface, s)
    else
      match declaration parse s token fface with
      | some (.error e) => .error e
      | some (.ok (fface, lastGoodToken, s)) => declarationLoop parse steps s lastGoodToken fface
      | none => declarationLoop parse steps s lastGoodToken fface

/-- The zero value `Typeface{}`. -/
def Typeface.zero : Typeface := ⟨"", 0, "", "", none, []⟩

/-- The outer loop of `UnmarshalCSS`, over the `@font-face` blocks. -/
def blockLoop (parse : String → Option URL) : Nat → List Token → List Typeface →
    Except ParseError (List Typeface)
  | 0, _, _ => .error .outOfSteps
  | steps + 1, s, result =>
    let (ptoken, s) := nextSig s
    if ptoken.isEnd then .ok result
    else if ptoken.Typ ≠ TokenAtKeyword ∨ ptoken.Value ≠ "@font-face" then
      blockLoop parse steps s result
    else
      let lastGoodToken := ptoken
      let (ptoken, s) := nextSig s
      if !ptoken.isChar "\x7b" then .error (.expect "\x7b" lastGoodToken) else
      match declarationLoop parse (s.length + 1) s ptoken Typeface.zero with
      | .error e => .error e
      | .ok (fface, s) => blockLoop parse steps s (result ++ [fface])

/-- UnmarshalCSS unmarshals a byte slice to Typefaces.  `tokens` is the token
stream of the scanner on the byte slice, `typefaces` the collection behind
the pointer argument (`none` for a nil pointer); the result is the collection
after the call and the returned error. -/
def UnmarshalCSS (parse : String → Option URL) (tokens : List Token)
    (typefaces : Option Typefaces) : Option Typefaces × Option ParseError :=
  match typefaces with
  | none => (none, some .nilTypefaces)
  | some tf =>
    match blockLoop parse (tokens.length + 1) tokens [] with
    | .error e => (some tf, some e)
    | .ok result => (some { tf with Fonts := result }, none)

/-! ## The tokenizer

The scanner is an external package.  The model below follows the token
grammar it implements, that of CSS 2.1 with the package's wider class of URL
characters, for input without escape sequences: it is used to run the parser on
the text that the serializers emit. -/

/-- Modelled from the spec: the white-space characters of the tokenizer. -/
def isWc (c : Char) : Bool :=
  c = '\t' || c = '\n' || c = '\x0c' || c = '\r' || c = ' '

/-- Modelled from the spec: a decimal digit. -/
def isDigit (c : Char) : Bool := decide ('0' ≤ c) && decide (c ≤ '9')

/-- Modelled from the spec: a character outside ASCII (`nonascii`); the two
code points U+FFFE and U+FFFF are not in the class. -/
def isNonAscii (c : Char) : Bool :=
  decide (0x80 ≤ c.toNat) && decide (c.toNat ≠ 0xFFFE) && decide (c.toNat ≠ 0xFFFF)

/-- Modelled from the spec: a character that may start a name (`nmstart`). -/
def isNmStart (c : Char) : Bool :=
  (decide ('a' ≤ c) && decide (c ≤ 'z')) || (decide ('A' ≤ c) && decide (c ≤ 'Z')) ||
    c = '_' || isNonAscii c

/-- Modelled from the spec: a character that may continue a name (`nmchar`). -/
def isNmChar (c : Char) : Bool := isNmStart c || isDigit c || c = '-'

/-- Modelled from the spec: a character allowed inside a string quoted by `q`:
a blank, a printable ASCII character or a character outside ASCII, not a
backslash and not the quote itself. -/
def isStringChar (q c : Char) : Bool :=
  ((decide (0x20 ≤ c.toNat) && decide (c.toNat ≤ 0x7e)) || isNonAscii c) &&
    c != '\\' && c != q

/-- Modelled from the spec: a character of the body of an unquoted URL: a
printable ASCII character other than the blank, the two quotes and the
backslash, or a character outside ASCII (`urlchar`), up to the first `)`, which
ends the body. -/
def isUrlChar (c : Char) : Bool :=
  ((decide (0x21 ≤ c.toNat) && decide (c.toNat ≤ 0x7e)) || isNonAscii c) &&
    c != '\\' && c != '"' && c != '\'' && c != ')'

/-- Modelled from the spec: an upper-case hexadecimal digit of a unicode range. -/
def isHex (c : Char) : Bool :=
  isDigit c || (decide ('A' ≤ c) && decide (c ≤ 'F'))

/-- Modelled from the spec: the production `ident`, an optional `-`, a name
start and name characters; the matched text and the rest. -/
def matchIdent (input : List Char) : Option (List Char × List Char) :=
  match input with
  | '-' :: c :: rest =>
    if isNmStart c then some ('-' :: c :: rest.takeWhile isNmChar, rest.dropWhile isNmChar)
    else none
  | c :: rest =>
    if isNmStart c then some (c :: rest.takeWhile isNmChar, rest.dropWhile isNmChar) else none
  | [] => none

/-- Modelled from the spec: the production `num`, digits with an optional
fraction. -/
def matchNum (input : List Char) : Option (List Char × List Char) :=
  let ds := input.takeWhile isDigit
  let rest := input.dropWhile isDigit
  match rest with
  | '.' :: c :: rest2 =>
    if isDigit c then
      some (ds ++ '.' :: c :: rest2.takeWhile isDigit, rest2.dropWhile isDigit)
    else if ds = [] then none else some (ds, rest)
  | _ => if ds = [] then none else some (ds, rest)

/-- Modelled from the spec: the production `string`, from a quote to the next
occurrence of the same quote. -/
def matchString (input : List Char) : Option (List Char × List Char) :=
  match input with
  | q :: rest =>
    if q = '"' ∨ q = '\'' then
      match rest.dropWhile (isStringChar q) with
      | c :: rest2 =>
        if c = q then some (q :: rest.takeWhile (isStringChar q) ++ [q], rest2) else none
      | [] => none
    else none
  | [] => none

/-- Modelled from the spec: the production `uri`: `url(`, white space, a string
or unquoted URL characters, white space, `)`. -/
def matchURI (input : List Char) : Option (List Char × List Char) :=
  match input with
  | 'u' :: 'r' :: 'l' :: '(' :: rest =>
    let w1 := rest.takeWhile isWc
    let r1 := rest.dropWhile isWc
    let body : List Char × List Char :=
      match matchString r1 with
      | some (str, r2) => (str, r2)
      | none => (r1.takeWhile isUrlChar, r1.dropWhile isUrlChar)
    let w2 := body.2.takeWhile isWc
    match body.2.dropWhile isWc with
    | ')' :: r3 => some ('u' :: 'r' :: 'l' :: '(' :: w1 ++ body.1 ++ w2 ++ [')'], r3)
    | _ => none
  | _ => none

/-- Modelled from the spec: the production `unicode-range`: `U+`, one to six
hexadecimal digits or `?`, and an optional `-` with one to six digits. -/
def matchUnicodeRange (input : List Char) : Option (List Char × List Char) :=
  match input with
  | 'U' :: '+' :: rest =>
    let a := (rest.takeWhile (fun c => isHex c || c = '?')).take 6
    if a = [] then none
    else
      let r1 := rest.drop a.length
      match r1 with
      | '-' :: r2 =>
        let b := (r2.takeWhile isHex).take 6
        if b = [] then some ('U' :: '+' :: a, r1)
        else some ('U' :: '+' :: a ++ '-' :: b, r2.drop b.length)
      | _ => some ('U' :: '+' :: a, r1)
  | _ => none

/-- Modelled from the spec: a comment, from `/*` to the next `*/`; the matched
text and the rest. -/
def matchComment : List Char → List Char → Option (List Char × List Char)
  | '*' :: '/' :: rest, acc => some (acc ++ ['*', '/'], rest)
  | c :: rest, acc => matchComment rest (acc ++ [c])
  | [], _ => none

/-- Modelled from the spec: the next token of the tokenizer and the rest of the
input; `none` at the end of the input. -/
def scanToken (input : List Char) : Option (Token × List Char) :=
  match input with
  | [] => none
  | c :: rest =>
    if isWc c then
      some (⟨TokenS, ⟨input.takeWhile isWc⟩⟩, input.dropWhile isWc)
    else if c = '@' then
      match matchIdent rest with
      | some (name, r) => some (⟨TokenAtKeyword, ⟨'@' :: name⟩⟩, r)
      | none => some (⟨TokenChar, "@"⟩, rest)
    else if c = '#' then
      if (rest.takeWhile isNmChar) = [] then some (⟨TokenChar, "#"⟩, rest)
      else some (⟨TokenHash, ⟨'#' :: rest.takeWhile isNmChar⟩⟩, rest.dropWhile isNmChar)
    else if c = '"' ∨ c = '\'' then
      match matchString input with
      | some (str, r) => some (⟨TokenString, ⟨str⟩⟩, r)
      | none => some (⟨TokenError, "unclosed quotation mark"⟩, input)
    else if c = '/' then
      match rest with
      | '*' :: r =>
        match matchComment r ['/', '*'] with
        | some (text, r2) => some (⟨TokenComment, ⟨text⟩⟩, r2)
        | none => some (⟨TokenError, "unclosed comment"⟩, input)
      | _ => some (⟨TokenChar, "/"⟩, rest)
    else
      match matchURI input with
      | some (text, r) => some (⟨TokenURI, ⟨text⟩⟩, r)
      | none =>
      match matchIdent input with
      | some (name, '(' :: r) => some (⟨TokenFunction, ⟨name ++ ['(']⟩⟩, r)
      | idt =>
      match matchUnicodeRange input with
      | some (text, r) => some (⟨TokenUnicodeRange, ⟨text⟩⟩, r)
      | none =>
      match idt with
      | some (name, r) => some (⟨TokenIdent, ⟨name⟩⟩, r)
      | none =>
      match matchNum input with
      | some (num, r) =>
        match matchIdent r with
        | some (unit, r2) => some (⟨TokenDimension, ⟨num ++ unit⟩⟩, r2)
        | none =>
          match r with
          | '%' :: r2 => some (⟨TokenPercentage, ⟨num ++ ['%']⟩⟩, r2)
          | _ => some (⟨TokenNumber, ⟨num⟩⟩, r)
      | none => some (⟨TokenChar, ⟨[c]⟩⟩, rest)

/-- Modelled from the spec: the tokens of a text, up to its end or to the first
error token; `steps` bounds the number of tokens. -/
def scanLoop : Nat → List Char → List Token
  | 0, _ => []
  | steps + 1, input =>
    match scanToken input with
    | none => []
    | some (t, rest) => if t.Typ = TokenError then [t] else t :: scanLoop steps rest

/-- Modelled from the spec: the token stream of the tokenizer on a text. -/
def scan (css : String) : List Token := scanLoop css.data.length css.data

/-- A stand-in for `url.Parse` on plain URLs: the text is kept as the string
form, the path and the query are not taken apart. -/
def parsePlain (s : String) : Option URL := some ⟨s, "", ""⟩

/-- The tokens of the unicode ranges of the pretty output: the ranges, separated
by a comma and a blank. -/
def rangeTokens : List String → List Token
  | [] => []
  | [a] => [⟨TokenUnicodeRange, a⟩]
  | a :: b :: rest =>
    ⟨TokenUnicodeRange, a⟩ :: ⟨TokenChar, ","⟩ :: ⟨TokenS, " "⟩ :: rangeTokens (b :: rest)

/-- The pieces that `Typeface.PrettyCSS` emits between the braces, as tokens,
when the family is quoted: one token per keyword, punctuation mark and field
value, and the white space between them. -/
def prettyBody (r : Typeface) : List Token :=
  [⟨TokenS, "\n\t"⟩,
    ⟨TokenIdent, "font-family"⟩, ⟨TokenChar, ":"⟩, ⟨TokenS, " "⟩,
    ⟨TokenString, quoteFamily r.Family⟩, ⟨TokenChar, ";"⟩, ⟨TokenS, "\n\t"⟩,
    ⟨TokenIdent, "font-style"⟩, ⟨TokenChar, ":"⟩, ⟨TokenS, " "⟩,
    ⟨TokenIdent, r.Style⟩, ⟨TokenChar, ";"⟩, ⟨TokenS, "\n\t"⟩,
    ⟨TokenIdent, "font-weight"⟩, ⟨TokenChar, ":"⟩, ⟨TokenS, " "⟩,
    ⟨TokenNumber, fmtInt r.Weight⟩, ⟨TokenChar, ";"⟩, ⟨TokenS, "\n\t"⟩,
    ⟨TokenIdent, "src"⟩, ⟨TokenChar, ":"⟩, ⟨TokenS, " "⟩,
    ⟨TokenURI, "url('" ++ fmtURL r.URL ++ "')"⟩, ⟨TokenS, " "⟩, ⟨TokenFunction, "format("⟩,
    ⟨TokenString, "'" ++ r.Format ++ "'"⟩, ⟨TokenChar, ")"⟩, ⟨TokenChar, ";"⟩]
  ++ (if r.UnicodeRange.length > 0 then
        [⟨TokenS, "\n\t"⟩, ⟨TokenIdent, "unicode-range"⟩, ⟨TokenChar, ":"⟩, ⟨TokenS, " "⟩]
          ++ rangeTokens r.UnicodeRange ++ [⟨TokenChar, ";"⟩]
      else [])

/-- The pieces that `Typeface.PrettyCSS` emits, as tokens. -/
def prettyTokens (r : Typeface) : List Token :=
  ⟨TokenAtKeyword, "@font-face"⟩ :: ⟨TokenS, " "⟩ :: ⟨TokenChar, "\x7b"⟩ ::
    (prettyBody r ++ [⟨TokenS, "\n"⟩, ⟨TokenChar, "\x7d"⟩])

/-- The last element of the non-empty list `b :: rs`. -/
def lastOf (b : String) : List String → String
  | [] => b
  | c :: rs => lastOf c rs

/-! ## Lexical conditions on the fields of a record -/

/-- Every character of `s` may stand inside a string quoted by apostrophes. -/
def IsStringText (s : String) : Prop := ∀ c ∈ s.data, isStringChar '\'' c = true

/-- The text `s` is an identifier: a name start followed by name characters. -/
def IsIdentText (s : String) : Prop :=
  ∃ c cs, s.data = c :: cs ∧ isNmStart c = true ∧ ∀ x ∈ cs, isNmChar x = true

/-- The text `s` is a unicode range: `U+`, one to six hexadecimal digits or `?`,
and possibly `-` and one to six hexadecimal digits. -/
def IsRangeText (s : String) : Prop :=
  ∃ a b, (s.data = 'U' :: '+' :: a ∧ b = []
        ∨ s.data = 'U' :: '+' :: a ++ '-' :: b ∧ b ≠ [] ∧ b.length ≤ 6 ∧ ∀ c ∈ b, isHex c = true)
      ∧ a ≠ [] ∧ a.length ≤ 6 ∧ ∀ c ∈ a, (isHex c || c = '?') = true

/-! ## The first record of a format in a combination -/

/-- The first record, in collection order, whose format, family, style and
weight are all the given ones. -/
def firstRecord (ts : Typefaces) (m fam s : String) (w : Int) : Option Typeface :=
  ts.Fonts.find? (fun r => decide (r.Format = m ∧ r.Family = fam ∧ r.Style = s ∧ r.Weight = w))

/-- What the first record of a format gives to the rule of a combination:
`some none` when no record matches (no entry), `some (some u)` when the first
record carries a URL with text `u`, and `none` when the first record carries no
URL (the call fails on it). -/
def firstRecordURL (ts : Typefaces) (m fam s : String) (w : Int) : Option (Option String) :=
  match firstRecord ts m fam s w with
  | none => some none
  | some r =>
    match r.URL with
    | none => none
    | some u => some (some u.String)

/-- The entries of woff2, woff, ttf and svg, in that fixed order, from the URL
texts of the formats that are present. -/
def entriesOfURLs (woff2 woff ttf svg : Option String) : List String :=
  (woff2.map (fun u => srcEntry u "woff2")).toList
    ++ ((woff.map (fun u => srcEntry u "woff")).toList
    ++ ((ttf.map (fun u => srcEntry u "ttf")).toList
    ++ (svg.map (fun u => srcEntry u "svg")).toList))

/-- The `src` part of a compact rule from the URL texts of the five formats, in
the fixed order eot, woff2, woff, ttf, svg. -/
def srcOfURLs (eot woff2 woff ttf svg : Option String) : String :=
  match eot with
  | some e =>
    "src:url('" ++ e ++ "');" ++ ("src:url('" ++ (e ++ "?#iefix") ++
      "') format('embedded-opentype')") ++
      Join ((entriesOfURLs woff2 woff ttf svg).map (fun x => "," ++ x)) ""
  | none => "src:" ++ Join (entriesOfURLs woff2 woff ttf svg) ","

/-- The compact rule of a combination built from the first record of each of
the five formats only; `none` when one of these first records carries no URL. -/
def ruleOfFirst (ts : Typefaces) (fam s : String) (w : Int) : Option String :=
  match firstRecordURL ts "eot" fam s w, firstRecordURL ts "woff2" fam s w,
      firstRecordURL ts "woff" fam s w, firstRecordURL ts "ttf" fam s w,
      firstRecordURL ts "svg" fam s w with
  | some e, some a, some b, some c, some d =>
    some (cssTpl (quoteFamily fam) s w ++ srcOfURLs e a b c d ++ "\x7d")
  | _, _, _, _, _ => none

/-- The URL text of the record of format `m` in a list of records. -/
def urlOfFormat (l : List Typeface) (m : String) : Option String :=
  ((l.find? (fun r => decide (r.Format = m))).bind Typeface.URL).map URL.String

/-! ## Version and file name from the URL -/

/-- The function `strings.HasPrefix`. -/
def HasPrefix (s pre : String) : Bool := decide (pre.data <+: s.data)

/-- The pieces of a text between the occurrences of the character `sep`; `acc`
is the piece being read. -/
def splitChars (sep : Char) : List Char → List Char → List String
  | [], acc => [⟨acc⟩]
  | c :: cs, acc => if c = sep then ⟨acc⟩ :: splitChars sep cs [] else splitChars sep cs (acc ++ [c])

/-- The function `strings.Split` for a separator of one character. -/
def Split (s : String) (sep : Char) : List String := splitChars sep s.data []

/-- The index expression `pathParts[i]` with an `int` index: out of range it is
a run-time panic, `none`. -/
def indexAt (l : List String) (i : Int) : Option String :=
  if 0 ≤ i ∧ i < l.length then l.get? i.toNat else none

/-- Version returns the font version by parsing the URL.  `query` stands for
the call chain `URL.Query().Get(key)` of package `net/url`, as a function of
the raw query and the key. -/
def Typeface.Version (query : String → String → String) (t : Typeface) : Option String :=
  match t.URL with
  | none => some ""
  | some u =>
    if u.RawQuery ≠ "" then some (query u.RawQuery "v")
    else
      let pathParts := Split u.Path '/'
      match indexAt pathParts ((pathParts.length : Int) - 2) with
      | none => none
      | some part => if !HasPrefix part "v" then some "" else some part

/-- FileName returns the font filename by parsing the URL. -/
def Typeface.FileName (query : String → String → String) (t : Typeface) : Option String :=
  match t.URL with
  | none => some ""
  | some u =>
    if u.RawQuery ≠ "" then
      let kitUID := query u.RawQuery "kit"
      if kitUID = "" then some "" else some (kitUID ++ ".svg")
    else
      let pathParts := Split u.Path '/'
      indexAt pathParts ((pathParts.length : Int) - 1)

/-- A stand-in for `URL.Query().Get` on raw queries without escape sequences:
the pairs are separated by `&`, a key ends at the first `=`, and the first pair
with the key gives the value. -/
def queryPlain (rawQuery key : String) : String :=
  match (Split rawQuery '&').filterMap (fun pair =>
      if (⟨pair.data.takeWhile (fun c => decide (c ≠ '='))⟩ : String) = key then
        some (⟨(pair.data.dropWhile (fun c => decide (c ≠ '='))).drop 1⟩ : String)
      else none) with
  | [] => ""
  | v :: _ => v

/-! ## Points of a run of the parser -/

/-- A point of a run of `UnmarshalCSS`, at the head of one of its two loops:
between blocks, with the records parsed so far, or inside a block, with in
addition `lastGoodToken` and the record being filled.  `s` is what is left of
the token stream. -/
inductive Config where
  | between (s : List Token) (result : List Typeface)
  | inBlock (s : List Token) (result : List Typeface) (lastGoodToken : Token) (fface : Typeface)

/-- The rest of the run from a point: the loops of the parser from there. -/
def resume (parse : String → Option URL) : Config → Except ParseError (List Typeface)
  | .between s result => blockLoop parse (s.length + 1) s result
  | .inBlock s result lastGoodToken fface =>
    match declarationLoop parse (s.length + 1) s lastGoodToken fface with
    | .error e => .error e
    | .ok (fface, s) => blockLoop parse (s.length + 1) s (result ++ [fface])

/-- One iteration of a loop of the parser that ends without an error and
without ending the run: a token skipped between blocks, `@font-face` and `\x7b`
accepted, a declaration accepted, a token skipped inside a block, or `\x7d`
accepted. -/
inductive Step (parse : String → Option URL) : Config → Config → Prop
  | skip {s s1 : List Token} {result : List Typeface} {p : Token} :
      nextSig s = (p, s1) → p.isEnd = false →
      (p.Typ ≠ TokenAtKeyword ∨ p.Value ≠ "@font-face") →
      Step parse (.between s result) (.between s1 result)
  | openBlock {s s1 s2 : List Token} {result : List Typeface} {p q : Token} :
      nextSig s = (p, s1) → p.Typ = TokenAtKeyword → p.Value = "@font-face" →
      nextSig s1 = (q, s2) → q.isChar "\x7b" = true →
      Step parse (.between s result) (.inBlock s2 result q Typeface.zero)
  | decl {s s1 s2 : List Token} {result : List Typeface} {lg lg2 t : Token}
      {f f2 : Typeface} :
      nextSig s = (t, s1) → t.isEnd = false → t.isChar "\x7d" = false →
      declaration parse s1 t f = some (.ok (f2, lg2, s2)) →
      Step parse (.inBlock s result lg f) (.inBlock s2 result lg2 f2)
  | skipToken {s s1 : List Token} {result : List Typeface} {lg t : Token} {f : Typeface} :
      nextSig s = (t, s1) → t.isEnd = false → t.isChar "\x7d" = false →
      declaration parse s1 t f = none →
      Step parse (.inBlock s result lg f) (.inBlock s1 result lg f)
  | closeBlock {s s1 : List Token} {result : List Typeface} {lg t : Token} {f : Typeface} :
      nextSig s = (t, s1) → t.isChar "\x7d" = true →
      Step parse (.inBlock s result lg f) (.between s1 (result ++ [f]))

/-- The run of `UnmarshalCSS` on `tokens` comes to the point `c`. -/
def Reaches (parse : String → Option URL) (tokens : List Token) (c : Config) : Prop :=
  Relation.ReflTransGen (Step parse) (.between tokens []) c

/-- The result of `UnmarshalCSS` from the result of its loops. -/
def finish (tf : Typefaces) : Except ParseError (List Typeface) →
    Option Typefaces × Option ParseError
  | .error e => (some tf, some e)
  | .ok result => (some { tf with Fonts := result }, none)

/-! ## Skipped tokens and streams behind a prefix -/

/-- The token is one that the declaration loop passes over at a declaration
boundary: not an end of the stream, not `\x7d`, and not one of the five property
names. -/
def Token.isSkipped (t : Token) : Bool :=
  !t.isEnd && !t.isChar "\x7d" &&
    !(decide (t.Typ = TokenIdent) &&
      decide (t.Value ∈ ["font-family", "font-style", "font-weight", "src", "unicode-range"]))

/-- The point `c` of a run, with the tokens `b` after what is left of the
stream. -/
def Config.append (c : Config) (b : List Token) : Config :=
  match c with
  | .between s result => .between (s ++ b) result
  | .inBlock s result lastGoodToken fface => .inBlock (s ++ b) result lastGoodToken fface

/-! ## The layout of the single-record serializers -/

/-- The text without its white-space characters: blank, tab, line feed, form
feed and carriage return. -/
def stripWs (s : String) : String := ⟨s.data.filter (fun c => !isWc c)⟩

/-- The fields of a record in the order of the single-record serializers, up
to the end of the last declaration, laid out with `sp` after `@font-face`, after
a colon and after a comma between ranges, and with `brk` after the opening brace
and after a semicolon. -/
def recordBody (sp brk : String) (t : Typeface) : String :=
  "@font-face" ++ sp ++ "\x7b" ++ brk ++ "font-family:" ++ sp ++ quoteFamily t.Family ++ ";" ++
    brk ++ "font-style:" ++ sp ++ t.Style ++ ";" ++ brk ++ "font-weight:" ++ sp ++
    fmtInt t.Weight ++ ";" ++ brk ++ "src:" ++ sp ++ "url('" ++ fmtURL t.URL ++
    "') format('" ++ t.Format ++ "')" ++
    (if t.UnicodeRange.length > 0 then
      ";" ++ brk ++ "unicode-range:" ++ sp ++ Join t.UnicodeRange ("," ++ sp)
    else "")

/-! ## Tokens with their position

The method `String()` of a token, which every error message of `UnmarshalCSS`
quotes through `lastGoodToken`, prints the type, the line, the column and the
text of the token.  The definitions below are `UnmarshalCSS` once more,
statement by statement, on tokens that carry all four fields, so that an error
holds the tokens as its message prints them. -/

/-- A token of the scanner with the four fields of the struct: type, text, line
and column. -/
structure LToken where
  Typ : TokenType
  Value : String
  Line : Nat
  Column : Nat
deriving DecidableEq

/-- The type and the text of a token, its position left out. -/
def LToken.tok (t : LToken) : Token := ⟨t.Typ, t.Value⟩

/-- The errors returned by `UnmarshalCSS`, one constructor per message, the
quoted tokens with their position. -/
inductive LParseError where
  /-- The message `typefaces cannot be nil`. -/
  | nilTypefaces
  /-- The message `expect <what> after <lastGoodToken>`. -/
  | expect (what : String) (lastGoodToken : LToken)
  /-- The message `expect format( after <lastGoodToken> but got <got>`. -/
  | expectFormat (lastGoodToken got : LToken)
  /-- The message `unexpected EOF after <lastGoodToken>`. -/
  | unexpectedEOF (lastGoodToken : LToken)
  /-- The message `convert token to number failed after <lastGoodToken>`. -/
  | convertNumber (lastGoodToken : LToken)
  /-- The message `parse url failed after <lastGoodToken>`. -/
  | parseURL (lastGoodToken : LToken)
  /-- Not a message of the program: a loop of the model was given too few steps. -/
  | outOfSteps
deriving DecidableEq

/-- The error with the positions of its tokens left out: the kind of the
message, and the type and the text of the tokens it quotes. -/
def LParseError.erase : LParseError → ParseError
  | .nilTypefaces => .nilTypefaces
  | .expect what t => .expect what t.tok
  | .expectFormat t got => .expectFormat t.tok got.tok
  | .unexpectedEOF t => .unexpectedEOF t.tok
  | .convertNumber t => .convertNumber t.tok
  | .parseURL t => .parseURL t.tok
  | .outOfSteps => .outOfSteps

/-- The method `Next` of the scanner on tokens with their position; `eof` is the
end-of-stream token that the scanner returns at the end of the input. -/
def scannerNextL (eof : LToken) : List LToken → LToken × List LToken
  | [] => (eof, [])
  | t :: rest =>
    if t.Typ = TokenEOF ∨ t.Typ = TokenError then (t, t :: rest) else (t, rest)

/-- The helper `nextSig` on tokens with their position. -/
def nextSigL (eof : LToken) : List LToken → LToken × List LToken
  | [] => (eof, [])
  | t :: rest =>
    if t.Typ = TokenS ∨ t.Typ = TokenComment then nextSigL eof rest
    else scannerNextL eof (t :: rest)

/-- The inner loop of the `unicode-range` branch on tokens with their
position. -/
def unicodeRangeLoopL (eof : LToken) : Nat → List LToken → LToken → List String →
    Except LParseError (List String × LToken × List LToken)
  | 0, _, _, _ => .error .outOfSteps
  | steps + 1, s, lastGoodToken, unicodeRange =>
    let (subtoken, s) := nextSigL eof s
    if subtoken.Typ ≠ TokenUnicodeRange ∧ subtoken.tok.isEnd then
      .error (.unexpectedEOF lastGoodToken)
    else if subtoken.Typ ≠ TokenUnicodeRange ∧ subtoken.tok.isChar "," then
      unicodeRangeLoopL eof steps s lastGoodToken unicodeRange
    else if subtoken.Typ ≠ TokenUnicodeRange ∧ subtoken.tok.isChar ";" then
      .ok (unicodeRange, lastGoodToken, s)
    else
      unicodeRangeLoopL eof steps s subtoken (unicodeRange ++ [subtoken.Value])

/-- The `font-family` branch on tokens with their position. -/
def familyDeclL (eof : LToken) (s : List LToken) (token : LToken) (fface : Typeface) :
    Except LParseError (Typeface × LToken × List LToken) :=
  let lastGoodToken := token
  let (token, s) := nextSigL eof s
  if !token.tok.isChar ":" then .error (.expect ":" lastGoodToken) else
  let lastGoodToken := token
  let (token, s) := nextSigL eof s
  if token.Typ ≠ TokenString then .error (.expect "<string>" lastGoodToken) else
  let fface := { fface with Family := Trim token.Value "'" }
  let lastGoodToken := token
  let (token, s) := nextSigL eof s
  if !token.tok.isChar ";" then .error (.expect ";" lastGoodToken) else
  .ok (fface, lastGoodToken, s)

/-- The `font-style` branch on tokens with their position. -/
def styleDeclL (eof : LToken) (s : List LToken) (token : LToken) (fface : Typeface) :
    Except LParseError (Typeface × LToken × List LToken) :=
  let lastGoodToken := token
  let (token, s) := nextSigL eof s
  if !token.tok.isChar ":" then .error (.expect ":" lastGoodToken) else
  let lastGoodToken := token
  let (token, s) := nextSigL eof s
  if token.Typ ≠ TokenIdent then .error (.expect "<ident>" lastGoodToken) else
  let fface := { fface with Style := token.Value }
  let lastGoodToken := token
  let (token, s) := nextSigL eof s
  if !token.tok.isChar ";" then .error (.expect ";" lastGoodToken) else
  .ok (fface, lastGoodToken, s)

/-- The `font-weight` branch on tokens with their position. -/
def weightDeclL (eof : LToken) (s : List LToken) (token : LToken) (fface : Typeface) :
    Except LParseError (Typeface × LToken × List LToken) :=
  let lastGoodToken := token
  let (token, s) := nextSigL eof s
  if !token.tok.isChar ":" then .error (.expect ":" lastGoodToken) else
  let lastGoodToken := token
  let (token, s) := nextSigL eof s
  if token.Typ ≠ TokenNumber then .error (.expect "<number>" lastGoodToken) else
  match Atoi token.Value with
  | none => .error (.convertNumber lastGoodToken)
  | some n =>
    let fface := { fface with Weight := n }
    let lastGoodToken := token
    let (token, s) := nextSigL eof s
    if !token.tok.isChar ";" then .error (.expect ";" lastGoodToken) else
    .ok (fface, lastGoodToken, s)

/-- The `src` branch on tokens with their position.  `parse` is `url.Parse`. -/
def srcDeclL (parse : String → Option URL) (eof : LToken) (s : List LToken) (token : LToken)
    (fface : Typeface) : Except LParseError (Typeface × LToken × List LToken) :=
  let lastGoodToken := token
  let (token, s) := nextSigL eof s
  if !token.tok.isChar ":" then .error (.expect ":" lastGoodToken) else
  let lastGoodToken := token
  let (token, s) := nextSigL eof s
  if token.Typ ≠ TokenURI then .error (.expect "<uri>" lastGoodToken) else
  let urlString := Trim (TrimSuffix (TrimPrefix token.Value "url(") ")") "'"
  match parse urlString with
  | none => .error (.parseURL lastGoodToken)
  | some u =>
    let fface := { fface with URL := some u }
    let lastGoodToken := token
    let (token, s) := nextSigL eof s
    if token.tok.isChar ";" then .ok ({ fface with Format := "eot" }, lastGoodToken, s)
    else if token.Typ ≠ TokenFunction ∨ token.Value ≠ "format(" then
      .error (.expectFormat lastGoodToken token)
    else
    let lastGoodToken := token
    let (token, s) := nextSigL eof s
    if token.Typ ≠ TokenString then .error (.expect "<string>" lastGoodToken) else
    let fface := { fface with Format := Trim token.Value "'" }
    let lastGoodToken := token
    let (token, s) := nextSigL eof s
    if !token.tok.isChar ")" then .error (.expect ")" lastGoodToken) else
    let lastGoodToken := token
    let (token, s) := nextSigL eof s
    if !token.tok.isChar ";" then .error (.expect ";" lastGoodToken) else
    .ok (fface, lastGoodToken, s)

/-- The `unicode-range` branch on tokens with their position. -/
def unicodeRangeDeclL (eof : LToken) (s : List LToken) (token : LToken) (fface : Typeface) :
    Except LParseError (Typeface × LToken × List LToken) :=
  let lastGoodToken := token
  let (token, s) := nextSigL eof s
  if !token.tok.isChar ":" then .error (.expect ":" lastGoodToken) else
  match unicodeRangeLoopL eof (s.length + 1) s lastGoodToken [] with
  | .error e => .error e
  | .ok (unicodeRange, lastGoodToken, s) =>
    .ok ({ fface with UnicodeRange := unicodeRange }, lastGoodToken, s)

/-- The branch of the declaration loop for the token at a declaration
boundary, on tokens with their position; `none` when the token is skipped. -/
def declarationL (parse : String → Option URL) (eof : LToken) (s : List LToken)
    (token : LToken) (fface : Typeface) :
    Option (Except LParseError (Typeface × LToken × List LToken)) :=
  if token.Typ = TokenIdent ∧ token.Value = "font-family" then
    some (familyDeclL eof s token fface)
  else if token.Typ = TokenIdent ∧ token.Value = "font-style" then
    some (styleDeclL eof s token fface)
  else if token.Typ = TokenIdent ∧ token.Value = "font-weight" then
    some (weightDeclL eof s token fface)
  else if token.Typ = TokenIdent ∧ token.Value = "src" then
    some (srcDeclL parse eof s token fface)
  else if token.Typ = TokenIdent ∧ token.Value = "unicode-range" then
    some (unicodeRangeDeclL eof s token fface)
  else none

/-- The loop over the declarations of one block, on tokens with their
position. -/
def declarationLoopL (parse : String → Option URL) (eof : LToken) :
    Nat → List LToken → LToken → Typeface → Except LParseError (Typeface × List LToken)
  | 0, _, _, _ => .error .outOfSteps
  | steps + 1, s, lastGoodToken, fface =>
    let (token, s) := nextSigL eof s
    if token.tok.isEnd then .error (.unexpectedEOF lastGoodToken)
    else if token.tok.isChar "\x7d" then .ok (fface, s)
    else
      match declarationL parse eof s token fface with
      | some (.error e) => .error e
      | some (.ok (fface, lastGoodToken, s)) =>
        declarationLoopL parse eof steps s lastGoodToken fface
      | none => declarationLoopL parse eof steps s lastGoodToken fface

/-- The outer loop of `UnmarshalCSS`, on tokens with their position. -/
def blockLoopL (parse : String → Option URL) (eof : LToken) :
    Nat → List LToken → List Typeface → Except LParseError (List Typeface)
  | 0, _, _ => .error .outOfSteps
  | steps + 1, s, result =>
    let (ptoken, s) := nextSigL eof s
    if ptoken.tok.isEnd then .ok result
    else if ptoken.Typ ≠ TokenAtKeyword ∨ ptoken.Value ≠ "@font-face" then
      blockLoopL parse eof steps s result
    else
      let lastGoodToken := ptoken
      let (ptoken, s) := nextSigL eof s
      if !ptoken.tok.isChar "\x7b" then .error (.expect "\x7b" lastGoodToken) else
      match declarationLoopL parse eof (s.length + 1) s ptoken Typeface.zero with
      | .error e => .error e
      | .ok (fface, s) => blockLoopL parse eof steps s (result ++ [fface])

/-- UnmarshalCSS unmarshals a byte slice to Typefaces, on tokens with their
position.  `tokens` is the token stream of the scanner on the byte slice and
`eof` its end-of-stream token, `typefaces` the collection behind the pointer
argument; the result is the collection after the call and the returned
error. -/
def UnmarshalCSSL (parse : String → Option URL) (eof : LToken) (tokens : List LToken)
    (typefaces : Option Typefaces) : Option Typefaces × Option LParseError :=
  match typefaces with
  | none => (none, some .nilTypefaces)
  | some tf =>
    match blockLoopL parse eof (tokens.length + 1) tokens [] with
    | .error e => (some tf, some e)
    | .ok result => (some { tf with Fonts := result }, none)

/-- Modelled from the spec: the position of the scanner behind the text `v`,
from the position before it, for ASCII text (the scanner counts the columns of
some tokens in bytes).  A line break starts the next line at column 1, any other
character moves one column on. -/
def advance : List Char → Nat × Nat → Nat × Nat
  | [], p => p
  | c :: rest, (line, col) =>
    if c = '\n' then advance rest (line + 1, 1) else advance rest (line, col + 1)

/-- Modelled from the spec: the tokens of the scanner with their position, from
the position of the first one: the position of a token is that of the scanner
behind the text of the tokens before it. -/
def locateFrom : List Token → Nat × Nat → List LToken
  | [], _ => []
  | t :: rest, p => ⟨t.Typ, t.Value, p.1, p.2⟩ :: locateFrom rest (advance t.Value.data p)

/-- Modelled from the spec: the tokens of the scanner with their position; the
input starts at line 1, column 1. -/
def locate (tokens : List Token) : List LToken := locateFrom tokens (1, 1)

/-- Modelled from the spec: the end-of-stream token of the scanner behind the
tokens `tokens`, at the position of the end of the input. -/
def locateEnd (tokens : List Token) : LToken :=
  ⟨TokenEOF, "", (tokens.foldl (fun p t => advance t.Value.data p) (1, 1)).1,
    (tokens.foldl (fun p t => advance t.Value.data p) (1, 1)).2⟩

/-- The result of a branch of the declaration loop with the positions left
out. -/
def eraseDecl : Except LParseError (Typeface × LToken × List LToken) →
    Except ParseError (Typeface × Token × List Token)
  | .error e => .error e.erase
  | .ok (f, lg, s) => .ok (f, lg.tok, s.map LToken.tok)

/-- The result of the unicode-range loop with the positions left out. -/
def eraseRanges : Except LParseError (List String × LToken × List LToken) →
    Except ParseError (List String × Token × List Token)
  | .error e => .error e.erase
  | .ok (r, lg, s) => .ok (r, lg.tok, s.map LToken.tok)

/-- The result of the declaration loop with the positions left out. -/
def eraseBlock : Except LParseError (Typeface × List LToken) →
    Except ParseError (Typeface × List Token)
  | .error e => .error e.erase
  | .ok (f, s) => .ok (f, s.map LToken.tok)

/-- The result of the outer loop with the positions left out. -/
def eraseRecords : Except LParseError (List Typeface) → Except ParseError (List Typeface)
  | .error e => .error e.erase
  | .ok r => .ok r
/-! ## Lemmas on the helpers -/

theorem foldl_found_true {α : Type} [DecidableEq α] (s : α) (sl : List α) :
    sl.foldl (fun found r => if found then true else if s = r then true else false) true
      = true := by
  induction sl with
  | nil => rfl
  | cons r rest ih =>
    rw [List.foldl_cons, if_pos rfl]
    exact ih

theorem foldl_found_eq {α : Type} [DecidableEq α] (s : α) (sl : List α) :
    sl.foldl (fun found r => if found then true else if s = r then true else false) false
      = decide (s ∈ sl) := by
  induction sl with
  | nil => simp
  | cons r rest ih =>
    rw [List.foldl_cons]
    by_cases h : s = r
    · rw [if_neg Bool.false_ne_true, if_pos h, foldl_found_true]
      simp [h]
    · rw [if_neg Bool.false_ne_true, if_neg h, ih]
      simp [h]

theorem isUniqueString_eq (sl : List String) (s : String) :
    isUniqueString sl s = !decide (s ∈ sl) := by
  unfold isUniqueString
  simp only [foldl_found_eq]

theorem isUniqueInt_eq (sl : List Int) (s : Int) :
    isUniqueInt sl s = !decide (s ∈ sl) := by
  unfold isUniqueInt
  simp only [foldl_found_eq]

/-! ## Lemmas on the selector -/

theorem selectStep_eq (format family style : String) (weight : Int)
    (filtered : List Typeface) (v : Typeface) :
    selectStep format family style weight filtered v
      = filtered ++ (if matchesFilter format family style weight v then [v] else []) := by
  unfold selectStep matchesFilter
  by_cases h1 : format = "" <;> by_cases h2 : v.Format = format <;>
    by_cases h3 : family = "" <;> by_cases h4 : v.Family = family <;>
    by_cases h5 : style = "" <;> by_cases h6 : v.Style = style <;>
    by_cases h7 : weight = -1 <;> by_cases h8 : v.Weight = weight <;>
    simp [h1, h2, h3, h4, h5, h6, h7, h8]

theorem foldl_selectStep (format family style : String) (weight : Int)
    (fonts acc : List Typeface) :
    fonts.foldl (selectStep format family style weight) acc
      = acc ++ fonts.filter (matchesFilter format family style weight) := by
  induction fonts generalizing acc with
  | nil => simp
  | cons v rest ih =>
    rw [List.foldl_cons, ih, selectStep_eq]
    by_cases h : matchesFilter format family style weight v = true
    · simp [h, List.filter_cons]
    · simp [h, List.filter_cons]

theorem Select_eq_filter (ts : Typefaces) (format family style : String) (weight : Int) :
    ts.Select format family style weight
      = ts.Fonts.filter (matchesFilter format family style weight) := by
  unfold Typefaces.Select
  rw [foldl_selectStep]
  rfl

/-! ## Lemmas on first-seen order -/

theorem mem_firstSeen {α : Type} [DecidableEq α] (l : List α) (x : α) :
    x ∈ firstSeen l ↔ x ∈ l := by
  induction l with
  | nil => simp [firstSeen]
  | cons a l ih =>
    by_cases h : x = a
    · simp [firstSeen, h]
    · simp [firstSeen, h, List.mem_filter, ih]

theorem nodup_firstSeen {α : Type} [DecidableEq α] (l : List α) :
    (firstSeen l).Nodup := by
  induction l with
  | nil => simp [firstSeen]
  | cons a l ih =>
    simp only [firstSeen, List.nodup_cons]
    refine ⟨?_, ih.filter _⟩
    simp [List.mem_filter]

/-- A loop that appends the key of every kept element not yet in `result`
computes the first-seen list of the kept keys. -/
theorem foldl_firstSeen {α β : Type} [DecidableEq β] (f : α → β) (keep : α → Bool)
    (step : List β → α → List β)
    (hstep : ∀ result v, step result v =
      if keep v = true then (if f v ∈ result then result else result ++ [f v]) else result)
    (xs : List α) (acc : List β) :
    xs.foldl step acc
      = acc ++ (firstSeen ((xs.filter keep).map f)).filter (fun y => decide (y ∉ acc)) := by
  induction xs generalizing acc with
  | nil => simp [firstSeen]
  | cons v rest ih =>
    rw [List.foldl_cons, hstep]
    by_cases hk : keep v = true
    · rw [if_pos hk]
      by_cases hm : f v ∈ acc
      · rw [if_pos hm, ih]
        congr 1
        simp only [List.filter_cons, hk, if_true, List.map_cons, firstSeen, List.filter_filter]
        rw [if_neg (by simpa using hm)]
        apply List.filter_congr
        intro y _
        by_cases hy : y ∈ acc
        · simp [hy]
        · have : y ≠ f v := fun e => hy (e ▸ hm)
          simp [hy, this]
      · rw [if_neg hm, ih]
        simp only [List.filter_cons, hk, if_true, List.map_cons, firstSeen, List.filter_filter]
        rw [if_pos (by simpa using hm), List.append_assoc, List.singleton_append]
        congr 2
        apply List.filter_congr
        intro y _
        by_cases hy : y ∈ acc <;> by_cases hy2 : y = f v <;> simp [hy, hy2]
    · rw [if_neg hk, ih]
      simp [List.filter_cons, hk]

theorem foldl_firstSeen_nil {α β : Type} [DecidableEq β] (f : α → β) (keep : α → Bool)
    (step : List β → α → List β)
    (hstep : ∀ result v, step result v =
      if keep v = true then (if f v ∈ result then result else result ++ [f v]) else result)
    (xs : List α) :
    xs.foldl step [] = firstSeen ((xs.filter keep).map f) := by
  rw [foldl_firstSeen f keep step hstep]
  simp

theorem Format_eq (ts : Typefaces) :
    ts.Format = firstSeen ((ts.Fonts.filter (fun r => decide (r.Format ≠ ""))).map
      Typeface.Format) := by
  unfold Typefaces.Format
  apply foldl_firstSeen_nil
  intro result v
  by_cases h1 : v.Format = "" <;> by_cases h2 : v.Format ∈ result <;>
    simp [h1, h2, isUniqueString_eq]

theorem Family_eq (ts : Typefaces) :
    ts.Family = firstSeen ((ts.Fonts.filter (fun r => decide (r.Family ≠ ""))).map
      Typeface.Family) := by
  unfold Typefaces.Family
  apply foldl_firstSeen_nil
  intro result v
  by_cases h1 : v.Family = "" <;> by_cases h2 : v.Family ∈ result <;>
    simp [h1, h2, isUniqueString_eq]

theorem Style_eq (ts : Typefaces) :
    ts.Style = firstSeen ((ts.Fonts.filter (fun r => decide (r.Style ≠ ""))).map
      Typeface.Style) := by
  unfold Typefaces.Style
  apply foldl_firstSeen_nil
  intro result v
  by_cases h1 : v.Style = "" <;> by_cases h2 : v.Style ∈ result <;>
    simp [h1, h2, isUniqueString_eq]

theorem Weight_eq (ts : Typefaces) :
    ts.Weight = firstSeen ((ts.Fonts.filter (fun r => decide (1 ≤ r.Weight))).map
      Typeface.Weight) := by
  unfold Typefaces.Weight
  apply foldl_firstSeen_nil
  intro result v
  by_cases h1 : v.Weight < 1 <;> by_cases h2 : v.Weight ∈ result <;>
    simp [h1, h2, isUniqueInt_eq, not_le.mpr, not_lt.mp]

/-! ## Lemmas on the string helpers -/

theorem StartsWith.append_right {a : String} {c : Char} (h : StartsWith a c) (b : String) :
    StartsWith (a ++ b) c := by
  obtain ⟨l, hl⟩ := h
  exact ⟨l ++ b.data, by simp [String.data_append, hl]⟩

theorem EndsWith.append_left {b : String} {d : Char} (a : String) (h : EndsWith b d) :
    EndsWith (a ++ b) d := by
  obtain ⟨l, hl⟩ := h
  exact ⟨a.data ++ l, by simp [String.data_append, hl]⟩

theorem TrimSpace_eq_self {s : String} {c d : Char} (hs : StartsWith s c)
    (hc : isSpace c = false) (he : EndsWith s d) (hd : isSpace d = false) :
    TrimSpace s = s := by
  obtain ⟨l, hl⟩ := hs
  obtain ⟨k, hk⟩ := he
  have h1 : s.data.dropWhile isSpace = s.data := by
    rw [hl, List.dropWhile_cons_of_neg (by simp [hc])]
  unfold TrimSpace
  rw [h1]
  have h2 : List.rdropWhile isSpace s.data = s.data := by
    rw [hk, List.rdropWhile_concat_neg _ _ _ (by simp [hd])]
  rw [h2]

theorem TrimSpace_append_space {s ws : String} {c d : Char} (hs : StartsWith s c)
    (hc : isSpace c = false) (he : EndsWith s d) (hd : isSpace d = false)
    (hws : ∀ x ∈ ws.data, isSpace x = true) :
    TrimSpace (s ++ ws) = s := by
  obtain ⟨l, hl⟩ := hs
  obtain ⟨k, hk⟩ := he
  have h1 : (s ++ ws).data.dropWhile isSpace = (s ++ ws).data := by
    rw [String.data_append, hl, List.cons_append, List.dropWhile_cons_of_neg (by simp [hc])]
  unfold TrimSpace
  rw [h1, String.data_append]
  have h2 : ∀ (w : List Char), (∀ x ∈ w, isSpace x = true) →
      List.rdropWhile isSpace (s.data ++ w) = s.data := by
    intro w
    induction w using List.reverseRecOn with
    | nil =>
      intro _
      rw [List.append_nil, hk, List.rdropWhile_concat_neg _ _ _ (by simp [hd])]
    | append_singleton w x ih =>
      intro hw
      rw [← List.append_assoc, List.rdropWhile_concat_pos _ _ _ (hw x (by simp))]
      exact ih (fun y hy => hw y (by simp [hy]))
  rw [h2 _ hws]

theorem HasSuffix_append (a suf : String) : HasSuffix (a ++ suf) suf = true := by
  simp [HasSuffix, String.data_append]

theorem TrimSuffix_append (a suf : String) : TrimSuffix (a ++ suf) suf = a := by
  unfold TrimSuffix
  rw [HasSuffix_append, if_pos rfl]
  simp [String.data_append]

theorem HasSuffix_of_ends_ne {s suf : String} {c d : Char} (he : EndsWith s d)
    (hsuf : suf.data = [c]) (hne : d ≠ c) : HasSuffix s suf = false := by
  obtain ⟨k, hk⟩ := he
  simp only [HasSuffix, hsuf, hk, decide_eq_false_iff_not]
  intro h
  rw [List.suffix_concat_iff] at h
  rcases h with h | ⟨t, ht, _⟩
  · simp at h
  · have h2 : ([] : List Char) ++ [c] = t ++ [d] := ht
    have h3 := List.append_inj_right' h2 rfl
    simp at h3
    exact hne h3.symm

theorem TrimSuffix_of_ends_ne {s suf : String} {c d : Char} (he : EndsWith s d)
    (hsuf : suf.data = [c]) (hne : d ≠ c) : TrimSuffix s suf = s := by
  unfold TrimSuffix
  rw [HasSuffix_of_ends_ne he hsuf hne]
  simp

/-! ## Lemmas on maps and on the map `selected` -/

theorem find?_filter_key_ne {V : Type} (m : List (String × V)) (k x : String) (h : x ≠ k) :
    (m.filter (fun p => decide (p.1 ≠ k))).find? (fun p => decide (p.1 = x))
      = m.find? (fun p => decide (p.1 = x)) := by
  induction m with
  | nil => rfl
  | cons p m ih =>
    by_cases hp : p.1 = k
    · have hx : ¬ p.1 = x := fun e => h (e ▸ hp)
      rw [List.filter_cons_of_neg (by simp [hp]), List.find?_cons_of_neg _ (by simp [hx])]
      exact ih
    · rw [List.filter_cons_of_pos (by simp [hp])]
      by_cases hx : p.1 = x
      · rw [List.find?_cons_of_pos _ (by simp [hx]), List.find?_cons_of_pos _ (by simp [hx])]
      · rw [List.find?_cons_of_neg _ (by simp [hx]), List.find?_cons_of_neg _ (by simp [hx])]
        exact ih

theorem find?_filter_key_eq {V : Type} (m : List (String × V)) (k : String) :
    (m.filter (fun p => decide (p.1 ≠ k))).find? (fun p => decide (p.1 = k)) = none := by
  rw [List.find?_eq_none]
  intro p hp
  have := (List.mem_filter.mp hp).2
  simpa using this

theorem mapGet_mapSet {V : Type} (m : List (String × V)) (k x : String) (v : V) :
    mapGet (mapSet m k v) x = if x = k then some v else mapGet m x := by
  unfold mapGet mapSet
  rw [List.find?_append]
  by_cases h : x = k
  · subst h
    rw [find?_filter_key_eq, if_pos rfl]
    simp
  · rw [find?_filter_key_ne m k x h, if_neg h]
    have : ¬ k = x := fun e => h e.symm
    simp [this]

theorem mapGet_foldl_select (ts : Typefaces) (fam s : String) (w : Int) (formats : List String)
    (acc : List (String × List Typeface)) (m : String) :
    mapGet (formats.foldl (fun selected m =>
        let filtered := ts.Select m fam s w
        if filtered.length > 0 then mapSet selected m filtered else selected) acc) m
      = if m ∈ formats ∧ ts.Select m fam s w ≠ [] then some (ts.Select m fam s w)
        else mapGet acc m := by
  induction formats generalizing acc with
  | nil => simp
  | cons k rest ih =>
    rw [List.foldl_cons, ih]
    by_cases h1 : m ∈ rest ∧ ts.Select m fam s w ≠ []
    · have h2 : m ∈ k :: rest ∧ ts.Select m fam s w ≠ [] := ⟨by simp [h1.1], h1.2⟩
      rw [if_pos h1, if_pos h2]
    · rw [if_neg h1]
      by_cases hk : 0 < (ts.Select k fam s w).length
      · simp only [gt_iff_lt, hk, if_true, mapGet_mapSet]
        by_cases hm : m = k
        · subst hm
          have : ts.Select m fam s w ≠ [] := List.ne_nil_of_length_pos hk
          simp [this]
        · have : ¬ (m ∈ k :: rest ∧ ts.Select m fam s w ≠ []) := by
            rintro ⟨h3, h4⟩
            rcases List.mem_cons.mp h3 with h5 | h5
            · exact hm h5
            · exact h1 ⟨h5, h4⟩
          rw [if_neg hm, if_neg this]
      · simp only [gt_iff_lt, hk, if_false]
        have : ¬ (m ∈ k :: rest ∧ ts.Select m fam s w ≠ []) := by
          rintro ⟨h3, h4⟩
          rcases List.mem_cons.mp h3 with h5 | h5
          · subst h5
            exact hk (List.length_pos.mpr h4)
          · exact h1 ⟨h5, h4⟩
        rw [if_neg this]

theorem mapGet_selectFormats (ts : Typefaces) (formats : List String) (fam s : String)
    (w : Int) (m : String) :
    mapGet (selectFormats ts formats fam s w) m
      = if m ∈ formats ∧ ts.Select m fam s w ≠ [] then some (ts.Select m fam s w)
        else none := by
  unfold selectFormats
  rw [mapGet_foldl_select]
  rfl

/-! ## Lemmas on the rule loops -/

theorem mapOpt_cons {α β : Type} (g : α → Option β) (x : α) (xs : List α) :
    mapOpt g (x :: xs)
      = (g x).bind (fun b => (mapOpt g xs).map (fun bs => b :: bs)) := by
  cases hx : g x with
  | none => simp [mapOpt, hx]
  | some b => cases hm : mapOpt g xs <;> simp [mapOpt, hx, hm]

theorem mapOpt_append {α β : Type} (g : α → Option β) (a b : List α) :
    mapOpt g (a ++ b)
      = (mapOpt g a).bind (fun x => (mapOpt g b).map (fun y => x ++ y)) := by
  induction a with
  | nil => cases h : mapOpt g b <;> simp [mapOpt, h]
  | cons x a ih =>
    rw [List.cons_append, mapOpt_cons, mapOpt_cons, ih]
    cases hx : g x with
    | none => simp
    | some c =>
      cases ha : mapOpt g a with
      | none => simp
      | some as =>
        cases hb : mapOpt g b <;> simp

theorem mapOpt_eq_some_iff {α β : Type} (g : α → Option β) (xs : List α) (ys : List β) :
    mapOpt g xs = some ys ↔ List.Forall₂ (fun x y => g x = some y) xs ys := by
  induction xs generalizing ys with
  | nil =>
    cases ys <;> simp [mapOpt]
  | cons x xs ih =>
    cases hx : g x with
    | none =>
      simp only [mapOpt, hx]
      constructor
      · intro h; cases h
      · intro h
        cases h with
        | cons h1 _ => rw [hx] at h1; cases h1
    | some c =>
      cases hm : mapOpt g xs with
      | none =>
        simp only [mapOpt, hx, hm]
        constructor
        · intro h; cases h
        · intro h
          cases h with
          | cons h1 h2 =>
            have := (ih _).mpr h2
            rw [hm] at this; cases this
      | some bs =>
        simp only [mapOpt, hx, hm, Option.some.injEq]
        constructor
        · intro h
          subst h
          exact List.Forall₂.cons hx ((ih bs).mp hm)
        · intro h
          cases h with
          | cons h1 h2 =>
            rw [hx] at h1
            have h3 := (ih _).mpr h2
            rw [hm] at h3
            cases h1; cases h3; rfl

theorem foldl_bind_mapOpt {α γ : Type} (g : γ → Option String) (h : α → List γ)
    (F : Option (List String) → α → Option (List String))
    (hF : ∀ result x, F result x
      = result.bind (fun parts => (mapOpt g (h x)).map (fun l => parts ++ l)))
    (xs : List α) (acc : Option (List String)) :
    xs.foldl F acc
      = acc.bind (fun parts => (mapOpt g (xs.flatMap h)).map (fun l => parts ++ l)) := by
  induction xs generalizing acc with
  | nil => cases acc <;> simp [mapOpt]
  | cons x xs ih =>
    rw [List.foldl_cons, ih, hF, List.flatMap_cons, mapOpt_append]
    cases acc with
    | none => simp
    | some parts =>
      cases h1 : mapOpt g (h x) with
      | none => simp
      | some l1 =>
        cases h2 : mapOpt g (xs.flatMap h) <;> simp

theorem rulesLoop_eq (families : List String) (weights : List Int) (styles : List String)
    (rule : String → Int → String → Option String) :
    rulesLoop families weights styles rule
      = mapOpt (fun t => rule t.1 t.2.1 t.2.2)
          (families.flatMap (fun fam => weights.flatMap (fun w =>
            styles.map (fun s => (fam, w, s))))) := by
  unfold rulesLoop
  rw [foldl_bind_mapOpt (fun t : String × Int × String => rule t.1 t.2.1 t.2.2)
    (fun fam => weights.flatMap (fun w => styles.map (fun s => (fam, w, s))))]
  · cases h : mapOpt (fun t : String × Int × String => rule t.1 t.2.1 t.2.2)
      (families.flatMap (fun fam => weights.flatMap (fun w =>
        styles.map (fun s => (fam, w, s))))) <;> simp
  · intro result fam
    rw [foldl_bind_mapOpt (fun t : String × Int × String => rule t.1 t.2.1 t.2.2)
      (fun w => styles.map (fun s => (fam, w, s)))]
    intro result w
    rw [foldl_bind_mapOpt (fun t : String × Int × String => rule t.1 t.2.1 t.2.2)
      (fun s => [(fam, w, s)])]
    · rw [← List.map_eq_flatMap]
    · intro result s
      cases result with
      | none => rfl
      | some parts =>
        cases hr : rule fam w s <;> simp [mapOpt, hr]

/-! ## Lemmas on joined entries and on the final trimming -/

theorem Join_cons_empty (a : String) (rest : List String) :
    Join (a :: rest) "" = a ++ Join rest "" := by
  cases rest with
  | nil => simp [Join]
  | cons b rest => simp [Join, String.append_assoc]

theorem Join_map_sep (t : String) (es : List String) (h : es ≠ []) :
    Join (es.map (fun x => x ++ t)) "" = Join es t ++ t := by
  induction es with
  | nil => exact absurd rfl h
  | cons a rest ih =>
    cases rest with
    | nil => simp [Join]
    | cons b rest =>
      rw [List.map_cons, Join_cons_empty, ih (by simp)]
      simp [Join, String.append_assoc]

theorem sep_Join_map (t : String) (es : List String) :
    t ++ Join (es.map (fun x => x ++ t)) ""
      = Join (es.map (fun x => t ++ x)) "" ++ t := by
  induction es with
  | nil => simp [Join]
  | cons a rest ih =>
    rw [List.map_cons, List.map_cons, Join_cons_empty, Join_cons_empty]
    rw [String.append_assoc, String.append_assoc, ← ih]
    simp [String.append_assoc]

theorem EndsWith_Join (t : String) (es : List String) (d : Char) (h : es ≠ [])
    (he : ∀ e ∈ es, EndsWith e d) : EndsWith (Join es t) d := by
  induction es with
  | nil => exact absurd rfl h
  | cons a rest ih =>
    cases rest with
    | nil => simpa [Join] using he a (by simp)
    | cons b rest =>
      simp only [Join]
      exact EndsWith.append_left _ (ih (by simp) (fun e hm => he e (by simp [hm])))

theorem EndsWith_append_Join_map (t x : String) (es : List String) (d : Char)
    (hx : EndsWith x d) (he : ∀ e ∈ es, EndsWith e d) :
    EndsWith (x ++ Join (es.map (fun e => t ++ e)) "") d := by
  induction es generalizing x with
  | nil => simpa [Join] using hx
  | cons a rest ih =>
    rw [List.map_cons, Join_cons_empty, ← String.append_assoc]
    apply ih
    · rw [← String.append_assoc]
      exact EndsWith.append_left _ (he a (by simp))
    · exact fun e hm => he e (by simp [hm])

theorem EndsWith_lit_comma (x : String) : EndsWith (x ++ ",") ',' :=
  EndsWith.append_left x ⟨[], rfl⟩

theorem EndsWith_lit_semi (x : String) : EndsWith (x ++ ";") ';' :=
  EndsWith.append_left x ⟨[], rfl⟩

/-- The three trimming steps of `Typefaces.CSS` on a text that ends with a comma. -/
theorem trim_compact_comma (q : String) (hs : StartsWith q '@') (he : EndsWith q ')') :
    TrimSuffix (TrimSuffix (TrimSpace (q ++ ",")) ",") ";" = q := by
  rw [TrimSpace_eq_self (hs.append_right _) (by decide) (EndsWith_lit_comma q) (by decide),
    TrimSuffix_append, TrimSuffix_of_ends_ne he rfl (by decide)]

/-- The three trimming steps of `Typefaces.CSS` on a text that ends with a semicolon. -/
theorem trim_compact_semi (q : String) (hs : StartsWith q '@') :
    TrimSuffix (TrimSuffix (TrimSpace (q ++ ";")) ",") ";" = q := by
  rw [TrimSpace_eq_self (hs.append_right _) (by decide) (EndsWith_lit_semi q) (by decide),
    TrimSuffix_of_ends_ne (EndsWith_lit_semi q) rfl (by decide), TrimSuffix_append]

/-- The three trimming steps of `Typefaces.CSS` on a text that ends with a colon. -/
theorem trim_compact_colon (q : String) (hs : StartsWith q '@') (he : EndsWith q ':') :
    TrimSuffix (TrimSuffix (TrimSpace q) ",") ";" = q := by
  rw [TrimSpace_eq_self hs (by decide) he (by decide),
    TrimSuffix_of_ends_ne he rfl (by decide), TrimSuffix_of_ends_ne he rfl (by decide)]

theorem trim_compact_entries (x : String) (es : List String) (hs : StartsWith x '@')
    (hx : EndsWith x ':') (he : ∀ e ∈ es, EndsWith e ')') :
    TrimSuffix (TrimSuffix (TrimSpace (x ++ Join (es.map (fun e => e ++ ",")) "")) ",") ";"
      = x ++ Join es "," := by
  by_cases h : es = []
  · subst h
    simpa [Join] using trim_compact_colon x hs hx
  · rw [Join_map_sep "," es h, ← String.append_assoc]
    exact trim_compact_comma _ (hs.append_right _) (EndsWith.append_left _ (EndsWith_Join "," es _ h he))

theorem trim_compact_eot (x c : String) (es : List String) (hs : StartsWith x '@')
    (hx : EndsWith x ')') (he : ∀ e ∈ es, EndsWith e ')')
    (hc : c = "," ∨ (c = ";" ∧ es = [])) :
    TrimSuffix (TrimSuffix (TrimSpace (x ++ c ++ Join (es.map (fun e => e ++ ",")) "")) ",") ";"
      = x ++ Join (es.map (fun e => "," ++ e)) "" := by
  rcases hc with hc | ⟨hc, hes⟩
  · subst hc
    rw [String.append_assoc, sep_Join_map ",", ← String.append_assoc]
    exact trim_compact_comma _ (hs.append_right _) (EndsWith_append_Join_map "," x es _ hx he)
  · subst hc; subst hes
    simpa [Join] using trim_compact_semi x hs

/-! ### The trimming steps of `Typefaces.PrettyCSS` -/

theorem trim_pretty_comma (q : String) (hs : StartsWith q '@') (he : EndsWith q ')') :
    (if (!HasSuffix (TrimSuffix (TrimSpace (q ++ ",\n\t\t")) ",") ";") = true
      then TrimSuffix (TrimSpace (q ++ ",\n\t\t")) "," ++ ";"
      else TrimSuffix (TrimSpace (q ++ ",\n\t\t")) ",") = q ++ ";" := by
  have e1 : ",\n\t\t" = "," ++ "\n\t\t" := by decide
  rw [e1, ← String.append_assoc,
    TrimSpace_append_space (hs.append_right _) (by decide) (EndsWith_lit_comma q) (by decide)
      (by decide),
    TrimSuffix_append, HasSuffix_of_ends_ne he rfl (by decide)]
  rfl

theorem trim_pretty_semi (q : String) (hs : StartsWith q '@') :
    (if (!HasSuffix (TrimSuffix (TrimSpace (q ++ ";")) ",") ";") = true
      then TrimSuffix (TrimSpace (q ++ ";")) "," ++ ";"
      else TrimSuffix (TrimSpace (q ++ ";")) ",") = q ++ ";" := by
  rw [TrimSpace_eq_self (hs.append_right _) (by decide) (EndsWith_lit_semi q) (by decide),
    TrimSuffix_of_ends_ne (EndsWith_lit_semi q) rfl (by decide), HasSuffix_append]
  rfl

theorem trim_pretty_colon (q : String) (hs : StartsWith q '@') (he : EndsWith q ':') :
    (if (!HasSuffix (TrimSuffix (TrimSpace (q ++ " ")) ",") ";") = true
      then TrimSuffix (TrimSpace (q ++ " ")) "," ++ ";"
      else TrimSuffix (TrimSpace (q ++ " ")) ",") = q ++ ";" := by
  rw [TrimSpace_append_space hs (by decide) he (by decide) (by decide),
    TrimSuffix_of_ends_ne he rfl (by decide), HasSuffix_of_ends_ne he rfl (by decide)]
  rfl

theorem trim_pretty_entries (x : String) (es : List String) (hs : StartsWith x '@')
    (he : ∀ e ∈ es, EndsWith e ')') (hne : es ≠ []) :
    (if (!HasSuffix (TrimSuffix (TrimSpace
          (x ++ Join (es.map (fun e => e ++ ",\n\t\t")) "")) ",") ";") = true
      then TrimSuffix (TrimSpace (x ++ Join (es.map (fun e => e ++ ",\n\t\t")) "")) "," ++ ";"
      else TrimSuffix (TrimSpace (x ++ Join (es.map (fun e => e ++ ",\n\t\t")) "")) ",")
      = x ++ Join es ",\n\t\t" ++ ";" := by
  rw [Join_map_sep ",\n\t\t" es hne, ← String.append_assoc]
  exact trim_pretty_comma _ (hs.append_right _)
    (EndsWith.append_left _ (EndsWith_Join ",\n\t\t" es _ hne he))

theorem trim_pretty_eot (x c : String) (es : List String) (hs : StartsWith x '@')
    (hx : EndsWith x ')') (he : ∀ e ∈ es, EndsWith e ')')
    (hc : c = ",\n\t\t" ∨ (c = ";" ∧ es = [])) :
    (if (!HasSuffix (TrimSuffix (TrimSpace
          (x ++ c ++ Join (es.map (fun e => e ++ ",\n\t\t")) "")) ",") ";") = true
      then TrimSuffix (TrimSpace
          (x ++ c ++ Join (es.map (fun e => e ++ ",\n\t\t")) "")) "," ++ ";"
      else TrimSuffix (TrimSpace
          (x ++ c ++ Join (es.map (fun e => e ++ ",\n\t\t")) "")) ",")
      = x ++ Join (es.map (fun e => ",\n\t\t" ++ e)) "" ++ ";" := by
  rcases hc with hc | ⟨hc, hes⟩
  · subst hc
    rw [String.append_assoc, sep_Join_map ",\n\t\t", ← String.append_assoc]
    exact trim_pretty_comma _ (hs.append_right _)
      (EndsWith_append_Join_map ",\n\t\t" x es _ hx he)
  · subst hc; subst hes
    simpa [Join] using trim_pretty_semi x hs

/-! ## The rule of one combination -/

theorem mem_Format_of_mem (ts : Typefaces) (r : Typeface) (hr : r ∈ ts.Fonts)
    (hne : r.Format ≠ "") : r.Format ∈ ts.Format := by
  rw [Format_eq, mem_firstSeen, List.mem_map]
  exact ⟨r, List.mem_filter.mpr ⟨hr, by simpa using hne⟩, rfl⟩

theorem mem_Select (ts : Typefaces) (m fam s : String) (w : Int) (r : Typeface) :
    r ∈ ts.Select m fam s w ↔ r ∈ ts.Fonts ∧ (m = "" ∨ r.Format = m) ∧
      (fam = "" ∨ r.Family = fam) ∧ (s = "" ∨ r.Style = s) ∧ (w = -1 ∨ r.Weight = w) := by
  rw [Select_eq_filter, List.mem_filter]
  simp [matchesFilter]

theorem mapGet_selected (ts : Typefaces) (m fam s : String) (w : Int) (hm : m ≠ "") :
    mapGet (selectFormats ts ts.Format fam s w) m
      = if ts.Select m fam s w = [] then none else some (ts.Select m fam s w) := by
  rw [mapGet_selectFormats]
  by_cases h : ts.Select m fam s w = []
  · simp [h]
  · rw [if_neg h, if_pos]
    refine ⟨?_, h⟩
    obtain ⟨r, hr⟩ := List.exists_mem_of_ne_nil _ h
    have h2 := (mem_Select ts m fam s w r).mp hr
    have h3 : r.Format = m := h2.2.1.resolve_left hm
    exact h3 ▸ mem_Format_of_mem ts r h2.1 (h3 ▸ hm)

theorem HasURLs_local (ts : Typefaces) (hurl : HasURLs ts) (fam s : String) (w : Int) :
    ∀ m ∈ ["eot", "woff2", "woff", "ttf", "svg"], ∀ r rest,
      ts.Select m fam s w = r :: rest → r.URL ≠ none := by
  intro m hm r rest hsel
  have hne : m ≠ "" := by
    intro e; subst e; simp at hm
  have hr : r ∈ ts.Select m fam s w := by rw [hsel]; simp
  have h2 := (mem_Select ts m fam s w r).mp hr
  have h3 : r.Format = m := h2.2.1.resolve_left hne
  exact hurl r h2.1 (h3 ▸ hm)

theorem firstMatchURL_isSome_of (ts : Typefaces) (m fam s : String) (w : Int)
    (hloc : ∀ r rest, ts.Select m fam s w = r :: rest → r.URL ≠ none)
    (h : ts.Select m fam s w ≠ []) : ∃ u, firstMatchURL ts m fam s w = some u := by
  unfold firstMatchURL
  cases hsel : ts.Select m fam s w with
  | nil => exact absurd hsel h
  | cons r rest =>
    cases hu : r.URL with
    | none => exact absurd hu (hloc r rest hsel)
    | some u => exact ⟨u.String, by simp [firstURLString, hu]⟩

theorem firstMatchURL_isSome (ts : Typefaces) (hurl : HasURLs ts) (m fam s : String) (w : Int)
    (hm : m ∈ ["eot", "woff2", "woff", "ttf", "svg"]) (h : ts.Select m fam s w ≠ []) :
    ∃ u, firstMatchURL ts m fam s w = some u := by
  have hne : m ≠ "" := by
    intro e; subst e; simp at hm
  unfold firstMatchURL
  cases hsel : ts.Select m fam s w with
  | nil => exact absurd hsel h
  | cons r rest =>
    have hr : r ∈ ts.Select m fam s w := by rw [hsel]; simp
    have h2 := (mem_Select ts m fam s w r).mp hr
    have h3 : r.Format = m := h2.2.1.resolve_left hne
    have h4 := hurl r h2.1 (h3 ▸ hm)
    cases hu : r.URL with
    | none => exact absurd hu h4
    | some u => exact ⟨u.String, by simp [firstURLString, hu]⟩

theorem firstMatchURL_nil (ts : Typefaces) (m fam s : String) (w : Int)
    (h : ts.Select m fam s w = []) : firstMatchURL ts m fam s w = none := by
  simp [firstMatchURL, h, firstURLString]

/-- The text that one of the woff2, woff, ttf, svg statements appends, when the
first record of the format, if there is one, carries a URL. -/
theorem appendEntry_eq_of (ts : Typefaces) (m fam s : String) (w : Int) (hne : m ≠ "")
    (hloc : ∀ r rest, ts.Select m fam s w = r :: rest → r.URL ≠ none) (sep cssPart : String) :
    appendEntry (selectFormats ts ts.Format fam s w) m sep cssPart
      = some (cssPart ++ Join (((firstMatchURL ts m fam s w).map
          (fun u => srcEntry u m)).toList.map (fun e => e ++ ("," ++ sep))) "") := by
  unfold appendEntry
  rw [mapGet_selected ts m fam s w hne]
  by_cases h : ts.Select m fam s w = []
  · simp [h, firstMatchURL_nil ts m fam s w h, Join]
  · obtain ⟨u, hu⟩ := firstMatchURL_isSome_of ts m fam s w hloc h
    have hu2 : firstURLString (ts.Select m fam s w) = some u := hu
    simp only [h, if_false, hu2, hu, Option.map_some', Option.toList_some, List.map_cons,
      List.map_nil, Join, srcEntry, Option.some.injEq]
    have e1 : "')," = "')" ++ "," := by decide
    rw [e1]
    simp only [String.append_assoc]

/-- The text that one of the woff2, woff, ttf, svg statements appends. -/
theorem appendEntry_eq (ts : Typefaces) (hurl : HasURLs ts) (m fam s : String) (w : Int)
    (hm : m ∈ ["eot", "woff2", "woff", "ttf", "svg"]) (sep cssPart : String) :
    appendEntry (selectFormats ts ts.Format fam s w) m sep cssPart
      = some (cssPart ++ Join (((firstMatchURL ts m fam s w).map
          (fun u => srcEntry u m)).toList.map (fun e => e ++ ("," ++ sep))) "") := by
  have hne : m ≠ "" := by
    intro e; subst e; simp at hm
  exact appendEntry_eq_of ts m fam s w hne (HasURLs_local ts hurl fam s w m hm) sep cssPart

theorem Join_append_empty (a b : List String) :
    Join (a ++ b) "" = Join a "" ++ Join b "" := by
  induction a with
  | nil => simp [Join]
  | cons x a ih => rw [List.cons_append, Join_cons_empty, Join_cons_empty, ih, String.append_assoc]

theorem srcEntries_eq (ts : Typefaces) (fam s : String) (w : Int) :
    srcEntries ts fam s w
      = ((firstMatchURL ts "woff2" fam s w).map (fun u => srcEntry u "woff2")).toList
        ++ (((firstMatchURL ts "woff" fam s w).map (fun u => srcEntry u "woff")).toList
        ++ (((firstMatchURL ts "ttf" fam s w).map (fun u => srcEntry u "ttf")).toList
        ++ ((firstMatchURL ts "svg" fam s w).map (fun u => srcEntry u "svg")).toList)) := by
  unfold srcEntries
  simp only [List.filterMap]
  cases firstMatchURL ts "woff2" fam s w <;> cases firstMatchURL ts "woff" fam s w <;>
    cases firstMatchURL ts "ttf" fam s w <;> cases firstMatchURL ts "svg" fam s w <;>
    rfl

theorem EndsWith_srcEntry (u m : String) : EndsWith (srcEntry u m) ')' :=
  EndsWith.append_left _ ⟨['\''], rfl⟩

theorem EndsWith_srcEntries (ts : Typefaces) (fam s : String) (w : Int) :
    ∀ e ∈ srcEntries ts fam s w, EndsWith e ')' := by
  intro e he
  unfold srcEntries at he
  obtain ⟨m, _, hm⟩ := List.mem_filterMap.mp he
  cases hu : firstMatchURL ts m fam s w with
  | none => simp [hu] at hm
  | some u =>
    simp only [hu, Option.map_some', Option.some.injEq] at hm
    exact hm ▸ EndsWith_srcEntry u m

theorem StartsWith_cssTpl (fontFamily s : String) (w : Int) :
    StartsWith (cssTpl fontFamily s w) '@' := by
  unfold cssTpl
  have h : StartsWith "@font-face\x7bfont-family:" '@' := ⟨_, rfl⟩
  exact ((((((h.append_right _).append_right _).append_right _).append_right _).append_right _).append_right _)

theorem length_ne_one_of_two_keys {V : Type} (l : List (String × V)) (a b : String) (x y : V)
    (ha : mapGet l a = some x) (hb : mapGet l b = some y) (hab : a ≠ b) : l.length ≠ 1 := by
  intro h
  match l, h with
  | [p], _ =>
    unfold mapGet at ha hb
    by_cases h1 : p.1 = a
    · by_cases h2 : p.1 = b
      · exact hab (h1.symm.trans h2)
      · simp [List.find?, h2] at hb
    · simp [List.find?, h1] at ha

/-- With an eot record in the combination, no other entry is present when
`selected` has exactly one key. -/
theorem srcEntries_nil_of_length_one (ts : Typefaces) (fam s : String) (w : Int)
    (heot : ts.Select "eot" fam s w ≠ [])
    (hlen : (selectFormats ts ts.Format fam s w).length = 1) :
    srcEntries ts fam s w = [] := by
  have key : ∀ m, m ≠ "" → m ≠ "eot" → firstMatchURL ts m fam s w = none := by
    intro m hm1 hm2
    by_cases h : ts.Select m fam s w = []
    · exact firstMatchURL_nil ts m fam s w h
    · exfalso
      have h1 := mapGet_selected ts "eot" fam s w (by decide)
      have h2 := mapGet_selected ts m fam s w hm1
      rw [if_neg heot] at h1
      rw [if_neg h] at h2
      exact length_ne_one_of_two_keys _ _ _ _ _ h1 h2 (Ne.symm hm2) hlen
  rw [srcEntries_eq, key "woff2" (by decide) (by decide), key "woff" (by decide) (by decide),
    key "ttf" (by decide) (by decide), key "svg" (by decide) (by decide)]
  rfl

/-- The compact rule of one combination, when the first record of each of the
five formats, if there is one, carries a URL. -/
theorem cssRule_eq_of (ts : Typefaces) (fam s : String) (w : Int)
    (hloc : ∀ m ∈ ["eot", "woff2", "woff", "ttf", "svg"], ∀ r rest,
      ts.Select m fam s w = r :: rest → r.URL ≠ none) :
    cssRule ts ts.Format fam w s
      = some (cssTpl (quoteFamily fam) s w ++ cssSrc ts fam s w ++ "\x7d") := by
  have hchain : ∀ base : String,
      (some base >>= appendEntry (selectFormats ts ts.Format fam s w) "woff2" ""
        >>= appendEntry (selectFormats ts ts.Format fam s w) "woff" ""
        >>= appendEntry (selectFormats ts ts.Format fam s w) "ttf" ""
        >>= appendEntry (selectFormats ts ts.Format fam s w) "svg" "")
      = some (base ++ Join ((srcEntries ts fam s w).map (fun e => e ++ ",")) "") := by
    intro base
    simp only [Option.some_bind, Option.bind_eq_bind,
      appendEntry_eq_of ts "woff2" fam s w (by decide) (hloc "woff2" (by decide)),
      appendEntry_eq_of ts "woff" fam s w (by decide) (hloc "woff" (by decide)),
      appendEntry_eq_of ts "ttf" fam s w (by decide) (hloc "ttf" (by decide)),
      appendEntry_eq_of ts "svg" fam s w (by decide) (hloc "svg" (by decide))]
    rw [srcEntries_eq]
    simp only [List.map_append, Join_append_empty, String.append_assoc, String.append_empty]
  unfold cssRule
  simp only []
  rw [mapGet_selected ts "eot" fam s w (by decide)]
  by_cases heot : ts.Select "eot" fam s w = []
  · simp only [heot, if_true]
    rw [hchain]
    simp only []
    rw [trim_compact_entries _ _ ((StartsWith_cssTpl _ _ _).append_right _)
      (EndsWith.append_left _ (show EndsWith "src:" ':' from ⟨['s', 'r', 'c'], rfl⟩))
      (EndsWith_srcEntries ts fam s w)]
    unfold cssSrc
    rw [firstMatchURL_nil ts "eot" fam s w heot]
    simp only [String.append_assoc]
  · obtain ⟨e, he⟩ := firstMatchURL_isSome_of ts "eot" fam s w (hloc "eot" (by decide)) heot
    have he2 : firstURLString (ts.Select "eot" fam s w) = some e := he
    simp only [heot, if_false, he2]
    have hx : EndsWith (cssTpl (quoteFamily fam) s w ++ ("src:url('" ++ e ++ "');") ++
        ("src:url('" ++ (e ++ "?#iefix") ++ "') format('embedded-opentype')")) ')' :=
      EndsWith.append_left _ (EndsWith.append_left _ ⟨"') format('embedded-opentype'".data, rfl⟩)
    have hs : StartsWith (cssTpl (quoteFamily fam) s w ++ ("src:url('" ++ e ++ "');") ++
        ("src:url('" ++ (e ++ "?#iefix") ++ "') format('embedded-opentype')")) '@' :=
      ((StartsWith_cssTpl _ _ _).append_right _).append_right _
    by_cases hlen : (selectFormats ts ts.Format fam s w).length = 1
    · simp only [hlen, if_true]
      rw [hchain]
      simp only []
      rw [trim_compact_eot _ ";" _ hs hx (EndsWith_srcEntries ts fam s w)
        (Or.inr ⟨rfl, srcEntries_nil_of_length_one ts fam s w heot hlen⟩)]
      unfold cssSrc
      rw [he]
      simp only [String.append_assoc]
    · simp only [hlen, if_false]
      rw [hchain]
      simp only []
      rw [trim_compact_eot _ "," _ hs hx (EndsWith_srcEntries ts fam s w) (Or.inl rfl)]
      unfold cssSrc
      rw [he]
      simp only [String.append_assoc]

/-- The compact rule of one combination: the filled-in template, the `src`
part in format priority order, and the closing brace. -/
theorem cssRule_eq (ts : Typefaces) (hurl : HasURLs ts) (fam s : String) (w : Int) :
    cssRule ts ts.Format fam w s
      = some (cssTpl (quoteFamily fam) s w ++ cssSrc ts fam s w ++ "\x7d") :=
  cssRule_eq_of ts fam s w (HasURLs_local ts hurl fam s w)

theorem StartsWith_prettyTpl (fontFamily s : String) (w : Int) :
    StartsWith (prettyTpl fontFamily s w) '@' := by
  unfold prettyTpl
  have h : StartsWith "@font-face \x7b\n\tfont-family: " '@' := ⟨_, rfl⟩
  exact ((((((h.append_right _).append_right _).append_right _).append_right _).append_right _).append_right _)

/-- The pretty rule of one combination: the filled-in template, the `src`
part in format priority order closed by `;`, a line break and the closing
brace. -/
theorem prettyRule_eq (ts : Typefaces) (hurl : HasURLs ts) (fam s : String) (w : Int) :
    prettyRule ts ts.Format fam w s
      = some (prettyTpl (quoteFamily fam) s w ++ prettySrc ts fam s w ++ "\n\x7d") := by
  have hchain : ∀ base : String,
      (some base >>= appendEntry (selectFormats ts ts.Format fam s w) "woff2" "\n\t\t"
        >>= appendEntry (selectFormats ts ts.Format fam s w) "woff" "\n\t\t"
        >>= appendEntry (selectFormats ts ts.Format fam s w) "ttf" "\n\t\t"
        >>= appendEntry (selectFormats ts ts.Format fam s w) "svg" "\n\t\t")
      = some (base ++ Join ((srcEntries ts fam s w).map (fun e => e ++ ",\n\t\t")) "") := by
    intro base
    simp only [Option.some_bind, Option.bind_eq_bind,
      appendEntry_eq ts hurl _ fam s w (by decide : "woff2" ∈ ["eot", "woff2", "woff", "ttf", "svg"]),
      appendEntry_eq ts hurl _ fam s w (by decide : "woff" ∈ ["eot", "woff2", "woff", "ttf", "svg"]),
      appendEntry_eq ts hurl _ fam s w (by decide : "ttf" ∈ ["eot", "woff2", "woff", "ttf", "svg"]),
      appendEntry_eq ts hurl _ fam s w (by decide : "svg" ∈ ["eot", "woff2", "woff", "ttf", "svg"])]
    rw [srcEntries_eq]
    have e1 : "," ++ "\n\t\t" = ",\n\t\t" := by decide
    simp only [List.map_append, Join_append_empty, String.append_assoc, e1]
  unfold prettyRule
  simp only []
  rw [mapGet_selected ts "eot" fam s w (by decide)]
  by_cases heot : ts.Select "eot" fam s w = []
  · simp only [heot, if_true]
    rw [hchain]
    simp only []
    unfold prettySrc
    rw [firstMatchURL_nil ts "eot" fam s w heot]
    by_cases hes : srcEntries ts fam s w = []
    · simp only [hes, List.map_nil, Join, String.append_empty, if_true]
      have e2 : "\n\tsrc: " = "\n\tsrc:" ++ " " := by decide
      have e3 : "\n\tsrc:;" = "\n\tsrc:" ++ ";" := by decide
      rw [e2, e3, ← String.append_assoc,
        trim_pretty_colon _ ((StartsWith_prettyTpl _ _ _).append_right _)
          (EndsWith.append_left _ (show EndsWith "\n\tsrc:" ':' from ⟨"\n\tsrc".data, rfl⟩))]
      simp only [String.append_assoc]
    · rw [trim_pretty_entries _ _ ((StartsWith_prettyTpl _ _ _).append_right _)
        (EndsWith_srcEntries ts fam s w) hes]
      simp only [hes, if_false, String.append_assoc]
  · obtain ⟨e, he⟩ := firstMatchURL_isSome ts hurl "eot" fam s w (by decide) heot
    have he2 : firstURLString (ts.Select "eot" fam s w) = some e := he
    simp only [heot, if_false, he2]
    have hx : EndsWith (prettyTpl (quoteFamily fam) s w ++ ("\n\tsrc: url('" ++ e ++ "');") ++
        ("\n\tsrc: url('" ++ (e ++ "?#iefix") ++ "') format('embedded-opentype')")) ')' :=
      EndsWith.append_left _ (EndsWith.append_left _ ⟨"') format('embedded-opentype'".data, rfl⟩)
    have hs : StartsWith (prettyTpl (quoteFamily fam) s w ++ ("\n\tsrc: url('" ++ e ++ "');") ++
        ("\n\tsrc: url('" ++ (e ++ "?#iefix") ++ "') format('embedded-opentype')")) '@' :=
      ((StartsWith_prettyTpl _ _ _).append_right _).append_right _
    by_cases hlen : (selectFormats ts ts.Format fam s w).length = 1
    · simp only [hlen, if_true]
      rw [hchain]
      simp only []
      rw [trim_pretty_eot _ ";" _ hs hx (EndsWith_srcEntries ts fam s w)
        (Or.inr ⟨rfl, srcEntries_nil_of_length_one ts fam s w heot hlen⟩)]
      unfold prettySrc
      rw [he]
      simp only [String.append_assoc]
    · simp only [hlen, if_false]
      rw [hchain]
      simp only []
      rw [trim_pretty_eot _ ",\n\t\t" _ hs hx (EndsWith_srcEntries ts fam s w) (Or.inl rfl)]
      unfold prettySrc
      rw [he]
      simp only [String.append_assoc]

/-! ## The whole output -/

theorem mapOpt_of_forall {α β : Type} (g : α → Option β) (f : α → β) (xs : List α)
    (h : ∀ x, g x = some (f x)) : mapOpt g xs = some (xs.map f) := by
  induction xs with
  | nil => rfl
  | cons x xs ih => simp [mapOpt, h x, ih]

theorem cssParts_eq (ts : Typefaces) (hurl : HasURLs ts) :
    ts.cssParts = some (ts.triples.map (cssRuleText ts)) := by
  unfold Typefaces.cssParts
  rw [rulesLoop_eq]
  exact mapOpt_of_forall _ _ _ (fun t => cssRule_eq ts hurl t.1 t.2.2 t.2.1)

theorem prettyParts_eq (ts : Typefaces) (hurl : HasURLs ts) :
    ts.prettyParts = some (ts.triples.map (prettyRuleText ts)) := by
  unfold Typefaces.prettyParts
  rw [rulesLoop_eq]
  exact mapOpt_of_forall _ _ _ (fun t => prettyRule_eq ts hurl t.1 t.2.2 t.2.1)

theorem length_triples (ts : Typefaces) :
    ts.triples.length = ts.Family.length * ts.Weight.length * ts.Style.length := by
  unfold Typefaces.triples
  generalize ts.Family = fs
  generalize ts.Weight = ws
  generalize ts.Style = ss
  have h2 : ∀ (fam : String), (ws.flatMap (fun w => ss.map (fun s => (fam, w, s)))).length
      = ws.length * ss.length := by
    intro fam
    induction ws with
    | nil => simp
    | cons w ws ih => simp [List.flatMap_cons, ih, Nat.succ_mul, Nat.add_comm]
  induction fs with
  | nil => simp
  | cons f fs ih =>
    simp only [List.flatMap_cons, List.length_append, h2, ih, List.length_cons]
    ring

theorem mem_triples (ts : Typefaces) (fam s : String) (w : Int) :
    (fam, w, s) ∈ ts.triples ↔ fam ∈ ts.Family ∧ w ∈ ts.Weight ∧ s ∈ ts.Style := by
  simp only [Typefaces.triples, List.mem_flatMap, List.mem_map, Prod.mk.injEq]
  constructor
  · rintro ⟨a, ha, b, hb, c, hc, h1, h2, h3⟩
    subst h1; subst h2; subst h3
    exact ⟨ha, hb, hc⟩
  · rintro ⟨ha, hb, hc⟩
    exact ⟨fam, ha, w, hb, s, hc, rfl, rfl, rfl⟩

theorem mem_Format_of_select (ts : Typefaces) (m fam s : String) (w : Int) (hm : m ≠ "")
    (h : ts.Select m fam s w ≠ []) : m ∈ ts.Format := by
  obtain ⟨r, hr⟩ := List.exists_mem_of_ne_nil _ h
  have h2 := (mem_Select ts m fam s w r).mp hr
  have h3 : r.Format = m := h2.2.1.resolve_left hm
  exact h3 ▸ mem_Format_of_mem ts r h2.1 (h3 ▸ hm)

/-- Without a matching record in any format of the collection, the rule has an
empty `src:`. -/
theorem cssRuleText_unmatched (ts : Typefaces) (fam s : String) (w : Int)
    (h : ∀ m ∈ ts.Format, ts.Select m fam s w = []) :
    cssRuleText ts (fam, w, s) = cssTpl (quoteFamily fam) s w ++ "src:" ++ "\x7d" := by
  have key : ∀ m, m ≠ "" → firstMatchURL ts m fam s w = none := by
    intro m hm
    by_cases hsel : ts.Select m fam s w = []
    · exact firstMatchURL_nil ts m fam s w hsel
    · exact absurd (h m (mem_Format_of_select ts m fam s w hm hsel)) hsel
  simp only [cssRuleText, cssSrc, srcEntries_eq, key "eot" (by decide), key "woff2" (by decide),
    key "woff" (by decide), key "ttf" (by decide), key "svg" (by decide)]
  simp [Join, String.append_assoc]

/-- With an eot record in the combination, the rule carries both eot entries,
whatever else is present. -/
theorem cssRuleText_eot (ts : Typefaces) (fam s : String) (w : Int) (e : String)
    (he : firstMatchURL ts "eot" fam s w = some e) :
    cssRuleText ts (fam, w, s)
      = cssTpl (quoteFamily fam) s w ++ ("src:url('" ++ e ++ "');" ++
          ("src:url('" ++ (e ++ "?#iefix") ++ "') format('embedded-opentype')") ++
          Join ((srcEntries ts fam s w).map (fun x => "," ++ x)) "") ++ "\x7d" := by
  simp only [cssRuleText, cssSrc, he]

/-! ## Lemmas on `Trim`, `TrimPrefix` and `Atoi` -/

theorem Trim_quoted (s : String) : Trim ("'" ++ s ++ "'") "'" = Trim s "'" := by
  unfold Trim
  congr 1
  have hd : ("'" ++ s ++ "'").data = '\'' :: (s.data ++ ['\'']) := by
    simp [String.data_append]
  have hc : ("'" : String).data = ['\''] := rfl
  rw [hd, hc, List.dropWhile_cons_of_pos (by simp), List.dropWhile_append]
  by_cases h : (List.dropWhile (fun c => decide (c ∈ ['\''])) s.data).isEmpty = true
  · rw [if_pos h]
    have h2 : List.dropWhile (fun c => decide (c ∈ ['\''])) s.data = [] :=
      List.isEmpty_iff.mp h
    rw [h2]
    simp [List.rdropWhile]
  · rw [if_neg h, List.rdropWhile_concat_pos _ _ _ (by simp)]

theorem TrimPrefix_append (pre x : String) : TrimPrefix (pre ++ x) pre = x := by
  unfold TrimPrefix
  rw [if_pos (by simp [String.data_append])]
  simp [String.data_append]

/-- The raw URL string that the `src` branch hands to `url.Parse` for the URI
token `url('U')`. -/
theorem urlString_quoted (U : String) :
    Trim (TrimSuffix (TrimPrefix ("url('" ++ U ++ "')") "url(") ")") "'" = Trim U "'" := by
  have e1 : "url('" ++ U ++ "')" = "url(" ++ (("'" ++ U ++ "'") ++ ")") := by
    have a1 : "url('" = "url(" ++ "'" := by decide
    have a2 : "')" = "'" ++ ")" := by decide
    rw [a1, a2]
    simp only [String.append_assoc]
  rw [e1, TrimPrefix_append, TrimSuffix_append, Trim_quoted]

theorem digitChar_value (k : Nat) (hk : k < 10) :
    ('0' ≤ Nat.digitChar k ∧ Nat.digitChar k ≤ '9')
      ∧ (Nat.digitChar k).toNat - '0'.toNat = k := by
  interval_cases k <;> decide

theorem digitsValue_toDigitsCore (steps : Nat) :
    ∀ (n : Nat) (ds : List Char), n < steps →
      digitsValue (Nat.toDigitsCore 10 steps n ds) 0 = digitsValue ds n := by
  induction steps with
  | zero => intro n ds h; exact absurd h (Nat.not_lt_zero n)
  | succ steps ih =>
    intro n ds h
    have hd := digitChar_value (n % 10) (Nat.mod_lt n (by decide))
    unfold Nat.toDigitsCore
    simp only []
    by_cases h0 : n / 10 = 0
    · rw [if_pos h0]
      have hn : n % 10 = n := by omega
      simp only [digitsValue, hd.1, and_self, if_true, hd.2]
      congr 1
      omega
    · rw [if_neg h0, ih (n / 10) _ (by omega)]
      simp only [digitsValue, hd.1, and_self, if_true, hd.2]
      congr 1
      omega

theorem digitsValue_repr (n : Nat) : digitsValue (Nat.repr n).data 0 = some n := by
  have h := digitsValue_toDigitsCore (n + 1) n [] (Nat.lt_succ_self n)
  simpa [Nat.repr, Nat.toDigits, digitsValue] using h

theorem Atoi_fmtInt (w : Int) (h0 : 0 ≤ w) (h1 : w < 2 ^ 63) : Atoi (fmtInt w) = some w := by
  obtain ⟨n, rfl⟩ := Int.eq_ofNat_of_zero_le h0
  have hs : fmtInt (n : Int) = Nat.repr n := rfl
  have hv := digitsValue_repr n
  have hn : n < 2 ^ 63 := by exact_mod_cast h1
  rw [hs]
  unfold Atoi
  cases hl : (Nat.repr n).data with
  | nil =>
    rw [hl] at hv
    simp only [digitsValue, Option.some.injEq] at hv
    subst hv
    exact absurd hl (by decide)
  | cons c cs =>
    rw [hl] at hv
    have hc : '0' ≤ c ∧ c ≤ '9' := by
      by_contra hcon
      simp [digitsValue, hcon] at hv
    have hm : c ≠ '-' := by
      intro e; subst e; exact absurd hc (by decide)
    have hp : c ≠ '+' := by
      intro e; subst e; exact absurd hc (by decide)
    split
    · simp_all
    · rename_i heq
      simp only [List.cons.injEq] at heq
      exact absurd heq.1 hm
    · rename_i heq
      simp only [List.cons.injEq] at heq
      exact absurd heq.1 hp
    · simp only [hv]
      rw [if_pos hn]

/-! ## The parser on the declarations of a well-formed block -/

theorem unicodeRangeLoop_ranges (rest : List Token) (b : String) (rs : List String) :
    ∀ (x : String) (steps : Nat) (lg : Token) (acc : List String),
      2 * (rs.length + 1) ≤ steps →
      unicodeRangeLoop steps
          (⟨TokenS, x⟩ :: (rangeTokens (b :: rs) ++ ⟨TokenChar, ";"⟩ :: rest)) lg acc
        = .ok (acc ++ b :: rs, ⟨TokenUnicodeRange, lastOf b rs⟩, rest) := by
  induction rs generalizing b with
  | nil =>
    intro x steps lg acc h
    obtain ⟨k, rfl⟩ : ∃ k, steps = k + 2 := ⟨steps - 2, by simp at h; omega⟩
    simp [unicodeRangeLoop, rangeTokens, nextSig, scannerNext, Token.isChar, Token.isEnd,
      lastOf]
  | cons c rs ih =>
    intro x steps lg acc h
    obtain ⟨k, rfl⟩ : ∃ k, steps = k + 2 := ⟨steps - 2, by simp at h; omega⟩
    have h2 := ih c " " k ⟨TokenUnicodeRange, b⟩ (acc ++ [b]) (by simp at h ⊢; omega)
    have e : rangeTokens (b :: c :: rs)
        = ⟨TokenUnicodeRange, b⟩ :: ⟨TokenChar, ","⟩ :: ⟨TokenS, " "⟩ :: rangeTokens (c :: rs) :=
      rfl
    rw [e]
    simp only [unicodeRangeLoop, nextSig, scannerNext, Token.isChar, Token.isEnd,
      List.cons_append]
    simp [h2, lastOf]

theorem length_rangeTokens (l : List String) : 2 * l.length ≤ (rangeTokens l).length + 1 := by
  induction l with
  | nil => simp [rangeTokens]
  | cons a l ih =>
    cases l with
    | nil => simp [rangeTokens]
    | cons c l =>
      simp only [rangeTokens, List.length_cons] at ih ⊢
      omega

theorem decl_family (parse : String → Option URL) (steps : Nat) (x y v : String)
    (rest : List Token) (lg : Token) (f : Typeface) :
    declarationLoop parse (steps + 1)
        (⟨TokenS, x⟩ :: ⟨TokenIdent, "font-family"⟩ :: ⟨TokenChar, ":"⟩ :: ⟨TokenS, y⟩ ::
          ⟨TokenString, v⟩ :: ⟨TokenChar, ";"⟩ :: rest) lg f
      = declarationLoop parse steps rest ⟨TokenString, v⟩ { f with Family := Trim v "'" } := by
  rw [declarationLoop]
  simp [declaration, familyDecl, styleDecl, weightDecl, srcDecl, unicodeRangeDecl, nextSig,
    scannerNext, Token.isChar, Token.isEnd]

theorem decl_style (parse : String → Option URL) (steps : Nat) (x y v : String)
    (rest : List Token) (lg : Token) (f : Typeface) :
    declarationLoop parse (steps + 1)
        (⟨TokenS, x⟩ :: ⟨TokenIdent, "font-style"⟩ :: ⟨TokenChar, ":"⟩ :: ⟨TokenS, y⟩ ::
          ⟨TokenIdent, v⟩ :: ⟨TokenChar, ";"⟩ :: rest) lg f
      = declarationLoop parse steps rest ⟨TokenIdent, v⟩ { f with Style := v } := by
  rw [declarationLoop]
  simp [declaration, familyDecl, styleDecl, weightDecl, srcDecl, unicodeRangeDecl, nextSig,
    scannerNext, Token.isChar, Token.isEnd]

theorem decl_weight (parse : String → Option URL) (steps : Nat) (x y v : String) (n : Int)
    (hn : Atoi v = some n) (rest : List Token) (lg : Token) (f : Typeface) :
    declarationLoop parse (steps + 1)
        (⟨TokenS, x⟩ :: ⟨TokenIdent, "font-weight"⟩ :: ⟨TokenChar, ":"⟩ :: ⟨TokenS, y⟩ ::
          ⟨TokenNumber, v⟩ :: ⟨TokenChar, ";"⟩ :: rest) lg f
      = declarationLoop parse steps rest ⟨TokenNumber, v⟩ { f with Weight := n } := by
  rw [declarationLoop]
  simp [declaration, weightDecl, nextSig, scannerNext, Token.isChar, Token.isEnd, hn]

theorem decl_src (parse : String → Option URL) (steps : Nat) (x y z v fv : String) (u : URL)
    (hu : parse (Trim (TrimSuffix (TrimPrefix v "url(") ")") "'") = some u)
    (rest : List Token) (lg : Token) (f : Typeface) :
    declarationLoop parse (steps + 1)
        (⟨TokenS, x⟩ :: ⟨TokenIdent, "src"⟩ :: ⟨TokenChar, ":"⟩ :: ⟨TokenS, y⟩ ::
          ⟨TokenURI, v⟩ :: ⟨TokenS, z⟩ :: ⟨TokenFunction, "format("⟩ :: ⟨TokenString, fv⟩ ::
          ⟨TokenChar, ")"⟩ :: ⟨TokenChar, ";"⟩ :: rest) lg f
      = declarationLoop parse steps rest ⟨TokenChar, ")"⟩
          { f with URL := some u, Format := Trim fv "'" } := by
  rw [declarationLoop]
  simp [declaration, srcDecl, nextSig, scannerNext, Token.isChar, Token.isEnd, hu]

theorem decl_unicode_range (parse : String → Option URL) (steps : Nat) (x y : String)
    (b : String) (rs : List String) (rest : List Token) (lg : Token) (f : Typeface) :
    declarationLoop parse (steps + 1)
        (⟨TokenS, x⟩ :: ⟨TokenIdent, "unicode-range"⟩ :: ⟨TokenChar, ":"⟩ :: ⟨TokenS, y⟩ ::
          (rangeTokens (b :: rs) ++ ⟨TokenChar, ";"⟩ :: rest)) lg f
      = declarationLoop parse steps rest ⟨TokenUnicodeRange, lastOf b rs⟩
          { f with UnicodeRange := b :: rs } := by
  rw [declarationLoop]
  simp [declaration, familyDecl, styleDecl, weightDecl, srcDecl, unicodeRangeDecl, nextSig,
    scannerNext, Token.isChar, Token.isEnd]
  rw [unicodeRangeLoop_ranges]
  · simp
  · have := length_rangeTokens (b :: rs)
    simp only [List.length_cons] at this
    omega

theorem decl_close (parse : String → Option URL) (steps : Nat) (x : String)
    (rest : List Token) (lg : Token) (f : Typeface) :
    declarationLoop parse (steps + 1) (⟨TokenS, x⟩ :: ⟨TokenChar, "\x7d"⟩ :: rest) lg f
      = .ok (f, rest) := by
  rw [declarationLoop]
  simp [declaration, familyDecl, styleDecl, weightDecl, srcDecl, unicodeRangeDecl, nextSig,
    scannerNext, Token.isChar, Token.isEnd]

/-- The declarations of a pretty block, from after `{` to `}`, give back the
record. -/
theorem declarationLoop_pretty (parse : String → Option URL) (r : Typeface) (u : URL)
    (hurl : r.URL = some u) (hparse : parse u.String = some u)
    (hfam : Trim r.Family "'" = r.Family) (hfmt : Trim r.Format "'" = r.Format)
    (hustr : Trim u.String "'" = u.String) (hspace : Contains r.Family " " = true)
    (hw : 0 ≤ r.Weight) (hw2 : r.Weight < 2 ^ 63) (steps : Nat) (lg : Token)
    (rest : List Token) :
    declarationLoop parse (steps + 6)
        (prettyBody r ++ (⟨TokenS, "\n"⟩ :: ⟨TokenChar, "\x7d"⟩ :: rest)) lg Typeface.zero
      = .ok (r, rest) := by
  have hq : quoteFamily r.Family = "'" ++ r.Family ++ "'" := by
    simp [quoteFamily, hspace]
  have hu : fmtURL r.URL = u.String := by simp [fmtURL, hurl]
  have hp : parse (Trim (TrimSuffix (TrimPrefix ("url('" ++ u.String ++ "')") "url(") ")") "'")
      = some u := by
    rw [urlString_quoted, hustr, hparse]
  obtain ⟨fmt, wt, fam, sty, url, ur⟩ := r
  simp only at hurl hfam hfmt hw hw2 hq hu
  subst hurl
  simp only [prettyBody, hq, hu, List.cons_append, List.nil_append]
  rw [decl_family, decl_style, decl_weight _ _ _ _ _ wt (Atoi_fmtInt wt hw hw2),
    decl_src _ _ _ _ _ _ _ u hp]
  cases ur with
  | nil =>
    simp only [List.length_nil, gt_iff_lt, Nat.lt_irrefl, if_false, List.nil_append]
    rw [decl_close]
    simp [Typeface.zero, Trim_quoted, hfam, hfmt]
  | cons b rs =>
    simp only [List.length_cons, gt_iff_lt, Nat.succ_pos, Nat.zero_lt_succ, if_true,
      List.cons_append, List.nil_append, List.append_assoc]
    rw [decl_unicode_range, decl_close]
    simp [Typeface.zero, Trim_quoted, hfam, hfmt]

theorem length_prettyBody (r : Typeface) : 28 ≤ (prettyBody r).length := by
  simp [prettyBody]

theorem blockLoop_nil (parse : String → Option URL) (steps : Nat) (result : List Typeface) :
    blockLoop parse (steps + 1) [] result = .ok result := by
  rw [blockLoop]
  simp [nextSig, Token.isEnd]

theorem blockLoop_block (parse : String → Option URL) (steps : Nat) (x : String)
    (body : List Token) (result : List Typeface) :
    blockLoop parse (steps + 1)
        (⟨TokenAtKeyword, "@font-face"⟩ :: ⟨TokenS, x⟩ :: ⟨TokenChar, "\x7b"⟩ :: body) result
      = match declarationLoop parse (body.length + 1) body ⟨TokenChar, "\x7b"⟩ Typeface.zero with
        | .error e => .error e
        | .ok (fface, s) => blockLoop parse steps s (result ++ [fface]) := by
  rw [blockLoop]
  simp [nextSig, scannerNext, Token.isChar, Token.isEnd]

theorem blockLoop_pretty (parse : String → Option URL) (r : Typeface) (u : URL)
    (hurl : r.URL = some u) (hparse : parse u.String = some u)
    (hfam : Trim r.Family "'" = r.Family) (hfmt : Trim r.Format "'" = r.Format)
    (hustr : Trim u.String "'" = u.String) (hspace : Contains r.Family " " = true)
    (hw : 0 ≤ r.Weight) (hw2 : r.Weight < 2 ^ 63) :
    blockLoop parse ((prettyTokens r).length + 1) (prettyTokens r) [] = .ok [r] := by
  have hlen := length_prettyBody r
  obtain ⟨k, hk⟩ : ∃ k, (prettyBody r ++ [(⟨TokenS, "\n"⟩ : Token), ⟨TokenChar, "\x7d"⟩]).length + 1
      = k + 6 := ⟨(prettyBody r).length - 3, by simp; omega⟩
  have hd := declarationLoop_pretty parse r u hurl hparse hfam hfmt hustr hspace hw hw2 k
    ⟨TokenChar, "\x7b"⟩ []
  rw [← hk] at hd
  unfold prettyTokens
  rw [blockLoop_block, hd]
  simp only [List.length_cons]
  rw [blockLoop_nil]
  rfl

/-! ## The loops of the parser always have enough steps -/

theorem nextSig_length_le (s : List Token) : (nextSig s).2.length ≤ s.length := by
  induction s with
  | nil => simp [nextSig]
  | cons t rest ih =>
    unfold nextSig
    by_cases h1 : t.Typ = TokenS ∨ t.Typ = TokenComment
    · rw [if_pos h1]
      exact Nat.le_succ_of_le ih
    · rw [if_neg h1]
      simp only [scannerNext]
      by_cases h2 : t.Typ = TokenEOF ∨ t.Typ = TokenError
      · rw [if_pos h2]
      · rw [if_neg h2]
        exact Nat.le_succ _

theorem nextSig_length_lt (s : List Token) (h : (nextSig s).1.isEnd = false) :
    (nextSig s).2.length < s.length := by
  induction s with
  | nil => simp [nextSig, Token.isEnd] at h
  | cons t rest ih =>
    unfold nextSig at h ⊢
    by_cases h1 : t.Typ = TokenS ∨ t.Typ = TokenComment
    · rw [if_pos h1] at h ⊢
      by_cases h3 : (nextSig rest).1.isEnd = false
      · exact Nat.lt_succ_of_lt (ih h3)
      · exact absurd h h3
    · rw [if_neg h1] at h ⊢
      simp only [scannerNext] at h ⊢
      by_cases h2 : t.Typ = TokenEOF ∨ t.Typ = TokenError
      · rw [if_pos h2] at h
        simp only [Token.isEnd, Bool.or_eq_false_iff, decide_eq_false_iff_not] at h
        exact absurd h2 (by rintro (e | e); exacts [h.1 e, h.2 e])
      · rw [if_neg h2]
        exact Nat.lt_succ_self _

theorem isEnd_of_isChar (t : Token) (v : String) (h : t.isChar v = true) : t.isEnd = false := by
  simp only [Token.isChar, Bool.and_eq_true, decide_eq_true_eq] at h
  simp [Token.isEnd, h.1]

theorem isEnd_of_typ (t : Token) (T : TokenType) (h : t.Typ = T) (h1 : T ≠ TokenEOF)
    (h2 : T ≠ TokenError) : t.isEnd = false := by
  simp [Token.isEnd, h, h1, h2]

theorem unicodeRangeLoop_steps (steps : Nat) :
    ∀ (s : List Token) (lg : Token) (acc : List String), s.length < steps →
      unicodeRangeLoop steps s lg acc ≠ .error .outOfSteps
        ∧ ∀ r lg2 s2, unicodeRangeLoop steps s lg acc = .ok (r, lg2, s2) →
            s2.length < s.length := by
  induction steps with
  | zero => intro s lg acc h; exact absurd h (Nat.not_lt_zero _)
  | succ steps ih =>
    intro s lg acc h
    rw [unicodeRangeLoop]
    simp only []
    have hle := nextSig_length_le s
    by_cases hend : (nextSig s).1.isEnd = true
    · by_cases hty : (nextSig s).1.Typ = TokenUnicodeRange
      · have : (nextSig s).1.isEnd = false :=
          isEnd_of_typ _ _ hty (by decide) (by decide)
        rw [this] at hend
        exact absurd hend (by decide)
      · simp [hty, hend]
    · have hend2 : (nextSig s).1.isEnd = false := by simpa using hend
      have hlt := nextSig_length_lt s hend2
      have hrec := fun lg2 acc2 => ih (nextSig s).2 lg2 acc2 (by omega)
      simp only [hend2, and_false, if_false, Bool.false_eq_true]
      split
      · refine ⟨(hrec _ _).1, fun r lg2 s2 hr => ?_⟩
        have := (hrec _ _).2 r lg2 s2 hr
        omega
      · split
        · refine ⟨by simp, fun r lg2 s2 hr => ?_⟩
          simp only [Except.ok.injEq, Prod.mk.injEq] at hr
          rw [← hr.2.2]
          exact hlt
        · refine ⟨(hrec _ _).1, fun r lg2 s2 hr => ?_⟩
          have := (hrec _ _).2 r lg2 s2 hr
          omega

theorem familyDecl_steps (s : List Token) (t : Token) (f : Typeface) :
    familyDecl s t f ≠ .error .outOfSteps
      ∧ ∀ f2 lg s2, familyDecl s t f = .ok (f2, lg, s2) → s2.length ≤ s.length := by
  have l1 := nextSig_length_le s
  have l2 := nextSig_length_le (nextSig s).2
  have l3 := nextSig_length_le (nextSig (nextSig s).2).2
  unfold familyDecl
  simp only []
  split
  · exact ⟨by simp, by simp⟩
  · split
    · exact ⟨by simp, by simp⟩
    · split
      · exact ⟨by simp, by simp⟩
      · refine ⟨by simp, fun f2 lg s2 hr => ?_⟩
        simp only [Except.ok.injEq, Prod.mk.injEq] at hr
        rw [← hr.2.2]
        omega

theorem styleDecl_steps (s : List Token) (t : Token) (f : Typeface) :
    styleDecl s t f ≠ .error .outOfSteps
      ∧ ∀ f2 lg s2, styleDecl s t f = .ok (f2, lg, s2) → s2.length ≤ s.length := by
  have l1 := nextSig_length_le s
  have l2 := nextSig_length_le (nextSig s).2
  have l3 := nextSig_length_le (nextSig (nextSig s).2).2
  unfold styleDecl
  simp only []
  split
  · exact ⟨by simp, by simp⟩
  · split
    · exact ⟨by simp, by simp⟩
    · split
      · exact ⟨by simp, by simp⟩
      · refine ⟨by simp, fun f2 lg s2 hr => ?_⟩
        simp only [Except.ok.injEq, Prod.mk.injEq] at hr
        rw [← hr.2.2]
        omega

theorem weightDecl_steps (s : List Token) (t : Token) (f : Typeface) :
    weightDecl s t f ≠ .error .outOfSteps
      ∧ ∀ f2 lg s2, weightDecl s t f = .ok (f2, lg, s2) → s2.length ≤ s.length := by
  have l1 := nextSig_length_le s
  have l2 := nextSig_length_le (nextSig s).2
  have l3 := nextSig_length_le (nextSig (nextSig s).2).2
  unfold weightDecl
  simp only []
  split
  · exact ⟨by simp, by simp⟩
  · split
    · exact ⟨by simp, by simp⟩
    · split
      · exact ⟨by simp, by simp⟩
      · split
        · exact ⟨by simp, by simp⟩
        · refine ⟨by simp, fun f2 lg s2 hr => ?_⟩
          simp only [Except.ok.injEq, Prod.mk.injEq] at hr
          rw [← hr.2.2]
          omega

theorem srcDecl_steps (parse : String → Option URL) (s : List Token) (t : Token)
    (f : Typeface) :
    srcDecl parse s t f ≠ .error .outOfSteps
      ∧ ∀ f2 lg s2, srcDecl parse s t f = .ok (f2, lg, s2) → s2.length ≤ s.length := by
  have l1 := nextSig_length_le s
  have l2 := nextSig_length_le (nextSig s).2
  have l3 := nextSig_length_le (nextSig (nextSig s).2).2
  have l4 := nextSig_length_le (nextSig (nextSig (nextSig s).2).2).2
  have l5 := nextSig_length_le (nextSig (nextSig (nextSig (nextSig s).2).2).2).2
  have l6 := nextSig_length_le (nextSig (nextSig (nextSig (nextSig (nextSig s).2).2).2).2).2
  unfold srcDecl
  simp only []
  split
  · exact ⟨by simp, by simp⟩
  · split
    · exact ⟨by simp, by simp⟩
    · split
      · exact ⟨by simp, by simp⟩
      · split
        · refine ⟨by simp, fun f2 lg s2 hr => ?_⟩
          simp only [Except.ok.injEq, Prod.mk.injEq] at hr
          rw [← hr.2.2]
          omega
        · split
          · exact ⟨by simp, by simp⟩
          · split
            · exact ⟨by simp, by simp⟩
            · split
              · exact ⟨by simp, by simp⟩
              · split
                · exact ⟨by simp, by simp⟩
                · refine ⟨by simp, fun f2 lg s2 hr => ?_⟩
                  simp only [Except.ok.injEq, Prod.mk.injEq] at hr
                  rw [← hr.2.2]
                  omega

theorem unicodeRangeDecl_steps (s : List Token) (t : Token) (f : Typeface) :
    unicodeRangeDecl s t f ≠ .error .outOfSteps
      ∧ ∀ f2 lg s2, unicodeRangeDecl s t f = .ok (f2, lg, s2) → s2.length ≤ s.length := by
  have l1 := nextSig_length_le s
  have hu := unicodeRangeLoop_steps ((nextSig s).2.length + 1) (nextSig s).2 t []
    (Nat.lt_succ_self _)
  unfold unicodeRangeDecl
  simp only []
  split
  · exact ⟨by simp, by simp⟩
  · split
    · rename_i e heq
      refine ⟨?_, by simp⟩
      intro hcon
      simp only [Except.error.injEq] at hcon
      subst hcon
      exact hu.1 heq
    · rename_i r lg2 s3 heq
      have := hu.2 r lg2 s3 heq
      refine ⟨by simp, fun f2 lg s2 hr => ?_⟩
      simp only [Except.ok.injEq, Prod.mk.injEq] at hr
      rw [← hr.2.2]
      omega

theorem declaration_steps (parse : String → Option URL) (s : List Token) (t : Token)
    (f : Typeface) :
    declaration parse s t f ≠ some (.error .outOfSteps)
      ∧ ∀ f2 lg s2, declaration parse s t f = some (.ok (f2, lg, s2)) →
          s2.length ≤ s.length := by
  unfold declaration
  split
  · exact ⟨fun h => (familyDecl_steps s t f).1 (Option.some.inj h),
      fun f2 lg s2 h => (familyDecl_steps s t f).2 f2 lg s2 (Option.some.inj h)⟩
  · split
    · exact ⟨fun h => (styleDecl_steps s t f).1 (Option.some.inj h),
        fun f2 lg s2 h => (styleDecl_steps s t f).2 f2 lg s2 (Option.some.inj h)⟩
    · split
      · exact ⟨fun h => (weightDecl_steps s t f).1 (Option.some.inj h),
          fun f2 lg s2 h => (weightDecl_steps s t f).2 f2 lg s2 (Option.some.inj h)⟩
      · split
        · exact ⟨fun h => (srcDecl_steps parse s t f).1 (Option.some.inj h),
            fun f2 lg s2 h => (srcDecl_steps parse s t f).2 f2 lg s2 (Option.some.inj h)⟩
        · split
          · exact ⟨fun h => (unicodeRangeDecl_steps s t f).1 (Option.some.inj h),
              fun f2 lg s2 h => (unicodeRangeDecl_steps s t f).2 f2 lg s2 (Option.some.inj h)⟩
          · exact ⟨by simp, by simp⟩

theorem declarationLoop_steps (parse : String → Option URL) (steps : Nat) :
    ∀ (s : List Token) (lg : Token) (f : Typeface), s.length < steps →
      declarationLoop parse steps s lg f ≠ .error .outOfSteps
        ∧ ∀ f2 s2, declarationLoop parse steps s lg f = .ok (f2, s2) →
            s2.length < s.length := by
  induction steps with
  | zero => intro s lg f h; exact absurd h (Nat.not_lt_zero _)
  | succ steps ih =>
    intro s lg f h
    rw [declarationLoop]
    simp only []
    by_cases hend : (nextSig s).1.isEnd = true
    · rw [if_pos hend]
      exact ⟨by simp, by simp⟩
    · have hend2 : (nextSig s).1.isEnd = false := by simpa using hend
      have hlt := nextSig_length_lt s hend2
      have rec : ∀ (s' : List Token) (lg' : Token) (f' : Typeface),
          s'.length ≤ (nextSig s).2.length →
          declarationLoop parse steps s' lg' f' ≠ .error .outOfSteps
            ∧ ∀ f2 s2, declarationLoop parse steps s' lg' f' = .ok (f2, s2) →
                s2.length < s.length := by
        intro s' lg' f' hs'
        have := ih s' lg' f' (by omega)
        exact ⟨this.1, fun f2 s2 h2 => by have := this.2 f2 s2 h2; omega⟩
      have hd := declaration_steps parse (nextSig s).2 (nextSig s).1 f
      rw [if_neg hend]
      split
      · refine ⟨by simp, fun f2 s2 hr => ?_⟩
        simp only [Except.ok.injEq, Prod.mk.injEq] at hr
        rw [← hr.2]
        exact hlt
      · split
        · rename_i e heq
          refine ⟨?_, by simp⟩
          intro hcon
          simp only [Except.error.injEq] at hcon
          subst hcon
          exact hd.1 heq
        · rename_i f3 lg3 s3 heq
          exact rec _ _ _ (hd.2 f3 lg3 s3 heq)
        · exact rec _ _ _ (Nat.le_refl _)

theorem blockLoop_steps (parse : String → Option URL) (steps : Nat) :
    ∀ (s : List Token) (result : List Typeface), s.length < steps →
      blockLoop parse steps s result ≠ .error .outOfSteps := by
  induction steps with
  | zero => intro s result h; exact absurd h (Nat.not_lt_zero _)
  | succ steps ih =>
    intro s result h
    rw [blockLoop]
    simp only []
    have l1 := nextSig_length_le s
    have l2 := nextSig_length_le (nextSig s).2
    by_cases hend : (nextSig s).1.isEnd = true
    · rw [if_pos hend]
      simp
    · have hend2 : (nextSig s).1.isEnd = false := by simpa using hend
      have hlt := nextSig_length_lt s hend2
      rw [if_neg hend]
      split
      · exact ih _ _ (by omega)
      · split
        · simp
        · have hd := declarationLoop_steps parse ((nextSig (nextSig s).2).2.length + 1)
            (nextSig (nextSig s).2).2 (nextSig (nextSig s).2).1 Typeface.zero
            (Nat.lt_succ_self _)
          split
          · rename_i e heq
            intro hcon
            simp only [Except.error.injEq] at hcon
            subst hcon
            exact hd.1 heq
          · rename_i f2 s3 heq
            have := hd.2 f2 s3 heq
            exact ih _ _ (by omega)

/-- The parser never stops for want of steps: the error `outOfSteps` of the
model is not returned by `UnmarshalCSS`. -/
theorem UnmarshalCSS_steps (parse : String → Option URL) (tokens : List Token)
    (typefaces : Option Typefaces) :
    (UnmarshalCSS parse tokens typefaces).2 ≠ some .outOfSteps := by
  unfold UnmarshalCSS
  cases typefaces with
  | none => simp
  | some tf =>
    have h := blockLoop_steps parse (tokens.length + 1) tokens [] (Nat.lt_succ_self _)
    simp only []
    split
    · rename_i e heq
      intro hcon
      simp only [Option.some.injEq] at hcon
      subst hcon
      exact h heq
    · simp

/-! ## The result of a loop does not depend on the number of steps -/

theorem unicodeRangeLoop_mono (n : Nat) :
    ∀ (m : Nat) (s : List Token) (lg : Token) (acc : List String),
      s.length < n → s.length < m →
      unicodeRangeLoop n s lg acc = unicodeRangeLoop m s lg acc := by
  induction n with
  | zero => intro m s lg acc h; exact absurd h (Nat.not_lt_zero _)
  | succ n ih =>
    intro m s lg acc hn hm
    cases m with
    | zero => exact absurd hm (Nat.not_lt_zero _)
    | succ m =>
      rw [unicodeRangeLoop, unicodeRangeLoop]
      simp only []
      by_cases hend : (nextSig s).1.isEnd = true
      · by_cases hty : (nextSig s).1.Typ = TokenUnicodeRange
        · have : (nextSig s).1.isEnd = false :=
            isEnd_of_typ _ _ hty (by decide) (by decide)
          rw [this] at hend
          exact absurd hend (by decide)
        · simp [hty, hend]
      · have hend2 : (nextSig s).1.isEnd = false := by simpa using hend
        have hlt := nextSig_length_lt s hend2
        have hrec := fun lg2 acc2 => ih m (nextSig s).2 lg2 acc2 (by omega) (by omega)
        simp only [hrec]

theorem declarationLoop_mono (parse : String → Option URL) (n : Nat) :
    ∀ (m : Nat) (s : List Token) (lg : Token) (f : Typeface),
      s.length < n → s.length < m →
      declarationLoop parse n s lg f = declarationLoop parse m s lg f := by
  induction n with
  | zero => intro m s lg f h; exact absurd h (Nat.not_lt_zero _)
  | succ n ih =>
    intro m s lg f hn hm
    cases m with
    | zero => exact absurd hm (Nat.not_lt_zero _)
    | succ m =>
      rw [declarationLoop, declarationLoop]
      simp only []
      by_cases hend : (nextSig s).1.isEnd = true
      · rw [if_pos hend, if_pos hend]
      · have hend2 : (nextSig s).1.isEnd = false := by simpa using hend
        have hlt := nextSig_length_lt s hend2
        have hd := declaration_steps parse (nextSig s).2 (nextSig s).1 f
        rw [if_neg hend, if_neg hend]
        split
        · rfl
        · split
          · rfl
          · rename_i f3 lg3 s3 heq
            have := hd.2 f3 lg3 s3 heq
            exact ih m _ _ _ (by omega) (by omega)
          · exact ih m _ _ _ (by omega) (by omega)

theorem blockLoop_mono (parse : String → Option URL) (n : Nat) :
    ∀ (m : Nat) (s : List Token) (result : List Typeface),
      s.length < n → s.length < m →
      blockLoop parse n s result = blockLoop parse m s result := by
  induction n with
  | zero => intro m s result h; exact absurd h (Nat.not_lt_zero _)
  | succ n ih =>
    intro m s result hn hm
    cases m with
    | zero => exact absurd hm (Nat.not_lt_zero _)
    | succ m =>
      rw [blockLoop, blockLoop]
      simp only []
      have l2 := nextSig_length_le (nextSig s).2
      by_cases hend : (nextSig s).1.isEnd = true
      · rw [if_pos hend, if_pos hend]
      · have hend2 : (nextSig s).1.isEnd = false := by simpa using hend
        have hlt := nextSig_length_lt s hend2
        rw [if_neg hend, if_neg hend]
        split
        · exact ih m _ _ (by omega) (by omega)
        · split
          · rfl
          · have hd := declarationLoop_steps parse ((nextSig (nextSig s).2).2.length + 1)
              (nextSig (nextSig s).2).2 (nextSig (nextSig s).2).1 Typeface.zero
              (Nat.lt_succ_self _)
            split
            · rfl
            · rename_i f2 s3 heq
              have := hd.2 f2 s3 heq
              exact ih m _ _ (by omega) (by omega)

/-! ## The model tokenizer on the text of `Typeface.PrettyCSS` -/

theorem scanLoop_step (k : Nat) (input : List Char) (t : Token) (rest : List Char)
    (h : scanToken input = some (t, rest)) (hne : t.Typ ≠ TokenError) :
    scanLoop (k + 1) input = t :: scanLoop k rest := by
  rw [scanLoop, h]
  simp [hne]

theorem scanLoop_nil (k : Nat) : scanLoop k [] = [] := by
  cases k <;> simp [scanLoop, scanToken]

theorem scanToken_string (body rest : List Char)
    (h : ∀ c ∈ body, isStringChar '\'' c = true) :
    scanToken ('\'' :: body ++ '\'' :: rest)
      = some (⟨TokenString, ⟨'\'' :: body ++ ['\'']⟩⟩, rest) := by
  simp [scanToken, isWc, matchString, List.dropWhile_append_of_pos h,
    List.takeWhile_append_of_pos h, isStringChar]

theorem scanToken_uri (body rest : List Char)
    (h : ∀ c ∈ body, isStringChar '\'' c = true) :
    scanToken ('u' :: 'r' :: 'l' :: '(' :: '\'' :: body ++ '\'' :: ')' :: rest)
      = some (⟨TokenURI, ⟨'u' :: 'r' :: 'l' :: '(' :: '\'' :: body ++ ['\'', ')']⟩⟩, rest) := by
  simp [scanToken, isWc, matchURI, matchString, List.dropWhile_append_of_pos h,
    List.takeWhile_append_of_pos h, isStringChar]

theorem isNmStart_ne (c d : Char) (h : isNmStart c = true) (hd : isNmStart d = false) :
    c ≠ d := by
  intro e
  rw [e, hd] at h
  exact absurd h (by decide)

theorem isNmChar_ne (c d : Char) (h : isNmChar c = true) (hd : isNmChar d = false) :
    c ≠ d := by
  intro e
  rw [e, hd] at h
  exact absurd h (by decide)

theorem matchIdent_ident (c : Char) (cs rest : List Char) (hc : isNmStart c = true)
    (hcs : ∀ x ∈ cs, isNmChar x = true) :
    matchIdent (c :: cs ++ ';' :: rest) = some (c :: cs, ';' :: rest) := by
  have h1 : c ≠ '-' := isNmStart_ne c '-' hc (by decide)
  have ht : List.takeWhile isNmChar (cs ++ ';' :: rest) = cs := by
    rw [List.takeWhile_append_of_pos hcs]
    simp [List.takeWhile, show isNmChar ';' = false by decide]
  have hdr : List.dropWhile isNmChar (cs ++ ';' :: rest) = ';' :: rest := by
    rw [List.dropWhile_append_of_pos hcs]
    simp [List.dropWhile, show isNmChar ';' = false by decide]
  unfold matchIdent
  split
  · rename_i c2 rest2 heq
    simp only [List.cons_append, List.cons.injEq] at heq
    exact absurd heq.1 h1
  · rename_i c2 rest2 hne heq
    simp only [List.cons_append, List.cons.injEq] at heq
    obtain ⟨e1, e2⟩ := heq
    subst e1
    subst e2
    simp [hc, ht, hdr]
  · rename_i heq
    simp at heq

theorem matchURI_ident (c : Char) (cs rest : List Char)
    (hcs : ∀ x ∈ cs, isNmChar x = true) :
    matchURI (c :: cs ++ ';' :: rest) = none := by
  unfold matchURI
  split
  · rename_i r heq
    exfalso
    have hp : isNmChar '(' = false := by decide
    match cs, hcs, heq with
    | [], _, heq => simp at heq
    | [_], _, heq => simp at heq
    | [_, _], _, heq => simp at heq
    | _ :: _ :: d :: _, hcs, heq =>
      simp only [List.cons_append, List.cons.injEq] at heq
      have := hcs d (by simp)
      rw [heq.2.2.2.1, hp] at this
      exact absurd this (by decide)
  · rfl

theorem matchUnicodeRange_ident (c : Char) (cs rest : List Char)
    (hcs : ∀ x ∈ cs, isNmChar x = true) :
    matchUnicodeRange (c :: cs ++ ';' :: rest) = none := by
  unfold matchUnicodeRange
  split
  · rename_i r heq
    exfalso
    have hp : isNmChar '+' = false := by decide
    match cs, hcs, heq with
    | [], _, heq => simp at heq
    | d :: _, hcs, heq =>
      simp only [List.cons_append, List.cons.injEq] at heq
      have := hcs d (by simp)
      rw [heq.2.1, hp] at this
      exact absurd this (by decide)
  · rfl

theorem scanToken_ident (s : String) (rest : List Char) (h : IsIdentText s) :
    scanToken (s.data ++ ';' :: rest) = some (⟨TokenIdent, s⟩, ';' :: rest) := by
  obtain ⟨c, cs, hs, hc, hcs⟩ := h
  have hstr : s = ⟨c :: cs⟩ := by
    cases s; simp only at hs; rw [hs]
  rw [hs]
  have h1 := matchURI_ident c cs rest hcs
  have h2 := matchIdent_ident c cs rest hc hcs
  have h3 := matchUnicodeRange_ident c cs rest hcs
  have n1 : isWc c = false := by
    by_contra hcon
    have hw : isWc c = true := by simpa using hcon
    simp only [isWc, Bool.or_eq_true, decide_eq_true_eq] at hw
    rcases hw with (((h | h) | h) | h) | h <;>
      exact isNmStart_ne c _ hc (by decide) h
  have n2 : c ≠ '@' := isNmStart_ne c _ hc (by decide)
  have n3 : c ≠ '#' := isNmStart_ne c _ hc (by decide)
  have n4 : c ≠ '"' := isNmStart_ne c _ hc (by decide)
  have n5 : c ≠ '\'' := isNmStart_ne c _ hc (by decide)
  have n6 : c ≠ '/' := isNmStart_ne c _ hc (by decide)
  simp only [List.cons_append] at h1 h2 h3 ⊢
  unfold scanToken
  simp only [n1, n2, n3, n4, n5, n6, h1, h2, h3, hstr, Bool.false_eq_true, if_false, or_self]
  rfl

theorem isDigit_of_digitsValue (l : List Char) :
    ∀ (acc n : Nat), digitsValue l acc = some n → ∀ c ∈ l, isDigit c = true := by
  induction l with
  | nil => intro acc n _ c hc; simp at hc
  | cons d l ih =>
    intro acc n h c hc
    by_cases hd : '0' ≤ d ∧ d ≤ '9'
    · simp only [digitsValue, hd, and_self, if_true] at h
      rcases List.mem_cons.mp hc with e | e
      · subst e
        simp [isDigit, hd.1, hd.2]
      · exact ih _ n h c e
    · simp [digitsValue, hd] at h

theorem repr_digits (n : Nat) :
    (Nat.repr n).data ≠ [] ∧ ∀ c ∈ (Nat.repr n).data, isDigit c = true := by
  have hv := digitsValue_repr n
  refine ⟨?_, isDigit_of_digitsValue _ 0 n hv⟩
  intro h
  rw [h] at hv
  simp only [digitsValue, Option.some.injEq] at hv
  subst hv
  exact absurd h (by decide)

theorem isDigit_ne (c d : Char) (h : isDigit c = true) (hd : isDigit d = false) : c ≠ d := by
  intro e
  rw [e, hd] at h
  exact absurd h (by decide)

theorem scanToken_number (ds rest : List Char) (hne : ds ≠ [])
    (hds : ∀ c ∈ ds, isDigit c = true) :
    scanToken (ds ++ ';' :: rest) = some (⟨TokenNumber, ⟨ds⟩⟩, ';' :: rest) := by
  obtain ⟨c, cs, rfl⟩ : ∃ c cs, ds = c :: cs := by
    cases ds with
    | nil => exact absurd rfl hne
    | cons c cs => exact ⟨c, cs, rfl⟩
  have hc : isDigit c = true := hds c (by simp)
  have hcs : ∀ x ∈ cs, isDigit x = true := fun x hx => hds x (by simp [hx])
  have n1 : isWc c = false := by
    by_contra hcon
    have hw : isWc c = true := by simpa using hcon
    simp only [isWc, Bool.or_eq_true, decide_eq_true_eq] at hw
    rcases hw with (((h | h) | h) | h) | h <;>
      exact isDigit_ne c _ hc (by decide) h
  have n2 : c ≠ '@' := isDigit_ne c _ hc (by decide)
  have n3 : c ≠ '#' := isDigit_ne c _ hc (by decide)
  have n4 : c ≠ '"' := isDigit_ne c _ hc (by decide)
  have n5 : c ≠ '\'' := isDigit_ne c _ hc (by decide)
  have n6 : c ≠ '/' := isDigit_ne c _ hc (by decide)
  have n7 : c ≠ 'u' := isDigit_ne c _ hc (by decide)
  have n8 : c ≠ '-' := isDigit_ne c _ hc (by decide)
  have n9 : c ≠ 'U' := isDigit_ne c _ hc (by decide)
  have n10 : isNmStart c = false := by
    by_contra hcon
    have hw : isNmStart c = true := by simpa using hcon
    have hd := hc
    simp only [isDigit, Bool.and_eq_true, decide_eq_true_eq] at hd
    simp only [isNmStart, Bool.or_eq_true, Bool.and_eq_true, decide_eq_true_eq] at hw
    have h9 : c.toNat ≤ 57 := by
      have := hd.2
      exact this
    rcases hw with ((h | h) | h) | h
    · have : (97 : Nat) ≤ c.toNat := h.1
      omega
    · have : (65 : Nat) ≤ c.toNat := h.1
      omega
    · exact isDigit_ne c _ hc (by decide) h
    · simp only [isNonAscii, Bool.and_eq_true, decide_eq_true_eq] at h
      omega
  have h1 : matchURI (c :: cs ++ ';' :: rest) = none := by
    unfold matchURI
    split
    · rename_i r heq
      simp only [List.cons_append, List.cons.injEq] at heq
      exact absurd heq.1 n7
    · rfl
  have h2 : matchIdent (c :: cs ++ ';' :: rest) = none := by
    unfold matchIdent
    split
    · rename_i c2 rest2 heq
      simp only [List.cons_append, List.cons.injEq] at heq
      exact absurd heq.1 n8
    · rename_i c2 rest2 hne2 heq
      simp only [List.cons_append, List.cons.injEq] at heq
      rw [← heq.1, n10]
      simp
    · rfl
  have h3 : matchUnicodeRange (c :: cs ++ ';' :: rest) = none := by
    unfold matchUnicodeRange
    split
    · rename_i r heq
      simp only [List.cons_append, List.cons.injEq] at heq
      exact absurd heq.1 n9
    · rfl
  have h4 : matchNum (c :: cs ++ ';' :: rest) = some (c :: cs, ';' :: rest) := by
    have ht : List.takeWhile isDigit ((c :: cs) ++ ';' :: rest) = c :: cs := by
      rw [List.takeWhile_append_of_pos hds]
      simp [List.takeWhile, show isDigit ';' = false by decide]
    have hdr : List.dropWhile isDigit ((c :: cs) ++ ';' :: rest) = ';' :: rest := by
      rw [List.dropWhile_append_of_pos hds]
      simp [List.dropWhile, show isDigit ';' = false by decide]
    unfold matchNum
    simp only [ht, hdr]
    simp
  have h5 : matchIdent (';' :: rest) = none := by
    unfold matchIdent
    split
    · rename_i c2 rest2 heq
      simp at heq
    · rename_i c2 rest2 hne2 heq
      simp only [List.cons.injEq] at heq
      rw [← heq.1]
      simp [show isNmStart ';' = false by decide]
    · rfl
  simp only [List.cons_append] at h1 h2 h3 h4 ⊢
  unfold scanToken
  simp only [n1, n2, n3, n4, n5, n6, h1, h2, h3, h4, h5, Bool.false_eq_true, if_false, or_self]
  rfl

theorem matchUnicodeRange_range (s : String) (c : Char) (rest : List Char)
    (h : IsRangeText s) (hc : c = ',' ∨ c = ';') :
    matchUnicodeRange (s.data ++ c :: rest) = some (s.data, c :: rest) := by
  obtain ⟨a, b, hform, ha, hal, hap⟩ := h
  have hcp : (isHex c || decide (c = '?')) = false := by
    rcases hc with e | e <;> subst e <;> decide
  have hch : isHex c = false := by
    rcases hc with e | e <;> subst e <;> decide
  have hcm : c ≠ '-' := by
    rcases hc with e | e <;> subst e <;> decide
  rcases hform with ⟨hs, _⟩ | ⟨hs, hb, hbl, hbp⟩
  · rw [hs]
    have ht : List.takeWhile (fun c => isHex c || decide (c = '?')) (a ++ c :: rest) = a := by
      rw [List.takeWhile_append_of_pos hap]
      simp [List.takeWhile, hcp]
    simp only [matchUnicodeRange, List.cons_append, ht, List.take_of_length_le hal, ha,
      if_false, List.drop_left]
    split
    · rename_i r2 heq
      simp only [List.cons.injEq] at heq
      exact absurd heq.1 hcm
    · rfl
  · rw [hs]
    have ht : List.takeWhile (fun c => isHex c || decide (c = '?'))
        (a ++ '-' :: (b ++ c :: rest)) = a := by
      rw [List.takeWhile_append_of_pos hap]
      simp [List.takeWhile, show isHex '-' = false by decide]
    have ht2 : List.takeWhile isHex (b ++ c :: rest) = b := by
      rw [List.takeWhile_append_of_pos hbp]
      simp [List.takeWhile, hch]
    simp only [matchUnicodeRange, List.cons_append, List.append_assoc, ht,
      List.take_of_length_le hal, ha, if_false, List.drop_left, ht2,
      List.take_of_length_le hbl, hb]

theorem scanToken_range (s : String) (c : Char) (rest : List Char)
    (h : IsRangeText s) (hc : c = ',' ∨ c = ';') :
    scanToken (s.data ++ c :: rest) = some (⟨TokenUnicodeRange, s⟩, c :: rest) := by
  have hm := matchUnicodeRange_range s c rest h hc
  obtain ⟨a, b, hform, ha, hal, hap⟩ := h
  obtain ⟨t, ht⟩ : ∃ t, s.data = 'U' :: '+' :: t := by
    rcases hform with ⟨hs, _⟩ | ⟨hs, _⟩
    · exact ⟨a, hs⟩
    · exact ⟨a ++ '-' :: b, hs⟩
  have hstr : s = ⟨'U' :: '+' :: t⟩ := by
    cases s; simp only at ht; rw [ht]
  rw [ht] at hm ⊢
  simp only [List.cons_append] at hm ⊢
  unfold scanToken
  simp only [hm, hstr]
  rfl

set_option maxRecDepth 100000

/-! ### The tokenizer on the text of `Typeface.PrettyCSS` -/

theorem isWc_of_isNmStart (c : Char) (h : isNmStart c = true) : isWc c = false := by
  cases hw : isWc c with
  | false => rfl
  | true =>
    exfalso
    simp only [isWc, Bool.or_eq_true, decide_eq_true_eq] at hw
    rcases hw with (((e | e) | e) | e) | e <;> subst e <;> exact absurd h (by decide)

theorem isWc_of_isDigit (c : Char) (h : isDigit c = true) : isWc c = false := by
  cases hw : isWc c with
  | false => rfl
  | true =>
    exfalso
    simp only [isWc, Bool.or_eq_true, decide_eq_true_eq] at hw
    rcases hw with (((e | e) | e) | e) | e <;> subst e <;> exact absurd h (by decide)

theorem scanLoop_space (k : Nat) (c : Char) (rest : List Char) (hc : isWc c = false) :
    scanLoop (k + 1) (' ' :: c :: rest) = ⟨TokenS, " "⟩ :: scanLoop k (c :: rest) := by
  rw [scanLoop_step k _ ⟨TokenS, " "⟩ (c :: rest) _ (by decide)]
  simp only [scanToken, show isWc ' ' = true by decide, if_true, List.takeWhile, List.dropWhile,
    hc]

theorem scanLoop_head (k : Nat) (x : List Char) :
    scanLoop (k + 7) ("@font-face \x7b\n\tfont-family: ".data ++ '\'' :: x)
      = ⟨TokenAtKeyword, "@font-face"⟩ :: ⟨TokenS, " "⟩ :: ⟨TokenChar, "\x7b"⟩ ::
        ⟨TokenS, "\n\t"⟩ :: ⟨TokenIdent, "font-family"⟩ :: ⟨TokenChar, ":"⟩ ::
        ⟨TokenS, " "⟩ :: scanLoop k ('\'' :: x) := by
  rfl

theorem scanLoop_string (k : Nat) (body rest : List Char)
    (h : ∀ c ∈ body, isStringChar '\'' c = true) :
    scanLoop (k + 1) ('\'' :: body ++ '\'' :: rest)
      = ⟨TokenString, ⟨'\'' :: body ++ ['\'']⟩⟩ :: scanLoop k rest :=
  scanLoop_step k _ _ _ (scanToken_string body rest h) (by simp)

theorem scanLoop_style (k : Nat) (x : List Char) :
    scanLoop (k + 4) (";\n\tfont-style:".data ++ ' ' :: x)
      = ⟨TokenChar, ";"⟩ :: ⟨TokenS, "\n\t"⟩ :: ⟨TokenIdent, "font-style"⟩ ::
        ⟨TokenChar, ":"⟩ :: scanLoop k (' ' :: x) := by
  rfl

theorem scanLoop_ident (k : Nat) (s : String) (rest : List Char) (h : IsIdentText s) :
    scanLoop (k + 2) (' ' :: s.data ++ ';' :: rest)
      = ⟨TokenS, " "⟩ :: ⟨TokenIdent, s⟩ :: scanLoop k (';' :: rest) := by
  have h2 := scanLoop_step k _ _ _ (scanToken_ident s rest h) (by simp)
  obtain ⟨c, cs, hs, hc, hcs⟩ := h
  rw [hs] at h2 ⊢
  show scanLoop (k + 1 + 1) (' ' :: c :: (cs ++ ';' :: rest)) = _
  rw [scanLoop_space (k + 1) c _ (isWc_of_isNmStart c hc)]
  rw [← List.cons_append, h2]

theorem scanLoop_weight (k : Nat) (x : List Char) :
    scanLoop (k + 4) (';' :: "\n\tfont-weight:".data ++ ' ' :: x)
      = ⟨TokenChar, ";"⟩ :: ⟨TokenS, "\n\t"⟩ :: ⟨TokenIdent, "font-weight"⟩ ::
        ⟨TokenChar, ":"⟩ :: scanLoop k (' ' :: x) := by
  rfl

theorem scanLoop_number (k : Nat) (n : Nat) (rest : List Char) :
    scanLoop (k + 2) (' ' :: (Nat.repr n).data ++ ';' :: rest)
      = ⟨TokenS, " "⟩ :: ⟨TokenNumber, Nat.repr n⟩ :: scanLoop k (';' :: rest) := by
  obtain ⟨hne, hds⟩ := repr_digits n
  have h2 := scanLoop_step k _ _ _ (scanToken_number _ rest hne hds) (by simp)
  cases hd : (Nat.repr n).data with
  | nil => exact absurd hd hne
  | cons c cs =>
    rw [hd] at h2
    have hc : isDigit c = true := hds c (by rw [hd]; simp)
    show scanLoop (k + 1 + 1) (' ' :: c :: (cs ++ ';' :: rest)) = _
    rw [scanLoop_space (k + 1) c _ (isWc_of_isDigit c hc)]
    rw [← List.cons_append, h2, ← hd]

theorem scanLoop_src (k : Nat) (x : List Char) :
    scanLoop (k + 5) (';' :: "\n\tsrc: ".data ++ 'u' :: x)
      = ⟨TokenChar, ";"⟩ :: ⟨TokenS, "\n\t"⟩ :: ⟨TokenIdent, "src"⟩ ::
        ⟨TokenChar, ":"⟩ :: ⟨TokenS, " "⟩ :: scanLoop k ('u' :: x) := by
  rfl

theorem scanLoop_uri (k : Nat) (body rest : List Char)
    (h : ∀ c ∈ body, isStringChar '\'' c = true) :
    scanLoop (k + 1) ('u' :: 'r' :: 'l' :: '(' :: '\'' :: body ++ '\'' :: ')' :: rest)
      = ⟨TokenURI, ⟨'u' :: 'r' :: 'l' :: '(' :: '\'' :: body ++ ['\'', ')']⟩⟩
        :: scanLoop k rest :=
  scanLoop_step k _ _ _ (scanToken_uri body rest h) (by simp)

theorem scanLoop_format (k : Nat) (x : List Char) :
    scanLoop (k + 2) (" format(".data ++ '\'' :: x)
      = ⟨TokenS, " "⟩ :: ⟨TokenFunction, "format("⟩ :: scanLoop k ('\'' :: x) := by
  rfl

theorem scanLoop_close (k : Nat) :
    scanLoop (k + 4) ");\n\x7d".data
      = [⟨TokenChar, ")"⟩, ⟨TokenChar, ";"⟩, ⟨TokenS, "\n"⟩, ⟨TokenChar, "\x7d"⟩] := by
  cases k <;> rfl

theorem scanLoop_unicode_range (k : Nat) (x : List Char) :
    scanLoop (k + 6) (");\n\tunicode-range: ".data ++ 'U' :: x)
      = ⟨TokenChar, ")"⟩ :: ⟨TokenChar, ";"⟩ :: ⟨TokenS, "\n\t"⟩ ::
        ⟨TokenIdent, "unicode-range"⟩ :: ⟨TokenChar, ":"⟩ :: ⟨TokenS, " "⟩ ::
        scanLoop k ('U' :: x) := by
  rfl

theorem scanLoop_end (k : Nat) :
    scanLoop (k + 3) (';' :: "\n\x7d".data)
      = [⟨TokenChar, ";"⟩, ⟨TokenS, "\n"⟩, ⟨TokenChar, "\x7d"⟩] := by
  cases k <;> rfl

theorem scanLoop_comma (k : Nat) (x : List Char) :
    scanLoop (k + 2) (',' :: ' ' :: 'U' :: x)
      = ⟨TokenChar, ","⟩ :: ⟨TokenS, " "⟩ :: scanLoop k ('U' :: x) := by
  rfl

theorem IsRangeText_head (s : String) (h : IsRangeText s) : ∃ t, s.data = 'U' :: t := by
  obtain ⟨a, b, hform, _⟩ := h
  rcases hform with ⟨hs, _⟩ | ⟨hs, _⟩
  · exact ⟨_, hs⟩
  · exact ⟨_, hs⟩

theorem Join_head (b : String) (rs : List String) (h : IsRangeText b) :
    ∃ t, (Join (b :: rs) ", ").data = 'U' :: t := by
  obtain ⟨t, ht⟩ := IsRangeText_head b h
  cases rs with
  | nil => exact ⟨t, ht⟩
  | cons c rs =>
    refine ⟨t ++ (", " ++ Join (c :: rs) ", ").data, ?_⟩
    simp only [Join, String.append_assoc, String.data_append, ht, List.cons_append]

theorem scanLoop_ranges (rest : List Char) :
    ∀ (rs : List String) (a : String), (∀ x ∈ a :: rs, IsRangeText x) → ∀ k,
      scanLoop (k + (rangeTokens (a :: rs)).length) ((Join (a :: rs) ", ").data ++ ';' :: rest)
        = rangeTokens (a :: rs) ++ scanLoop k (';' :: rest) := by
  intro rs
  induction rs with
  | nil =>
    intro a h k
    exact scanLoop_step k _ _ _
      (scanToken_range a ';' rest (h a (by simp)) (Or.inr rfl)) (by simp)
  | cons b rs ih =>
    intro a h k
    have hb : ∀ x ∈ b :: rs, IsRangeText x := fun x hx => h x (List.mem_cons_of_mem _ hx)
    obtain ⟨t, ht⟩ := Join_head b rs (h b (by simp))
    have e : (Join (a :: b :: rs) ", ").data ++ ';' :: rest
        = a.data ++ ',' :: (' ' :: 'U' :: (t ++ ';' :: rest)) := by
      simp only [Join, String.append_assoc, String.data_append, ht, List.append_assoc,
        List.cons_append]
      rfl
    have hl : k + (rangeTokens (a :: b :: rs)).length
        = (k + (rangeTokens (b :: rs)).length + 2) + 1 := by
      simp only [rangeTokens, List.length_cons]; omega
    rw [e, hl, scanLoop_step _ _ _ _
      (scanToken_range a ',' _ (h a (by simp)) (Or.inl rfl)) (by simp), scanLoop_comma]
    have ih2 := ih b hb k
    rw [ht, List.cons_append] at ih2
    rw [ih2]
    simp [rangeTokens]

theorem scanLoop_quoted (k : Nat) (s : String) (rest : List Char) (h : IsStringText s) :
    scanLoop (k + 1) ('\'' :: (s.data ++ '\'' :: rest))
      = ⟨TokenString, "'" ++ s ++ "'"⟩ :: scanLoop k rest := by
  have e : ("'" ++ s ++ "'" : String) = ⟨'\'' :: s.data ++ ['\'']⟩ := by
    apply String.ext
    simp only [String.data_append]
    rfl
  rw [e]
  exact scanLoop_string k s.data rest h

theorem scanLoop_url (k : Nat) (s : String) (rest : List Char) (h : IsStringText s) :
    scanLoop (k + 1) ('u' :: 'r' :: 'l' :: '(' :: '\'' :: (s.data ++ '\'' :: ')' :: rest))
      = ⟨TokenURI, "url('" ++ s ++ "')"⟩ :: scanLoop k rest := by
  have e : ("url('" ++ s ++ "')" : String)
      = ⟨'u' :: 'r' :: 'l' :: '(' :: '\'' :: s.data ++ ['\'', ')']⟩ := by
    apply String.ext
    simp only [String.data_append]
    rfl
  rw [e]
  exact scanLoop_uri k s.data rest h

theorem scanLoop_style_value (k : Nat) (s : String) (rest : List Char) (h : IsIdentText s) :
    scanLoop (k + 2) (' ' :: (s.data ++ ';' :: rest))
      = ⟨TokenS, " "⟩ :: ⟨TokenIdent, s⟩ :: scanLoop k (';' :: rest) :=
  scanLoop_ident k s rest h

theorem scanLoop_weight_value (k : Nat) (n : Nat) (rest : List Char) :
    scanLoop (k + 2) (' ' :: ((Nat.repr n).data ++ ';' :: rest))
      = ⟨TokenS, " "⟩ :: ⟨TokenNumber, Nat.repr n⟩ :: scanLoop k (';' :: rest) :=
  scanLoop_number k n rest

theorem scanLoop_weight_key (k : Nat) (x : List Char) :
    scanLoop (k + 4) (';' :: ("\n\tfont-weight:".data ++ ' ' :: x))
      = ⟨TokenChar, ";"⟩ :: ⟨TokenS, "\n\t"⟩ :: ⟨TokenIdent, "font-weight"⟩ ::
        ⟨TokenChar, ":"⟩ :: scanLoop k (' ' :: x) := by
  rfl

theorem scanLoop_src_key (k : Nat) (x : List Char) :
    scanLoop (k + 5) (';' :: ("\n\tsrc: ".data ++ 'u' :: x))
      = ⟨TokenChar, ";"⟩ :: ⟨TokenS, "\n\t"⟩ :: ⟨TokenIdent, "src"⟩ ::
        ⟨TokenChar, ":"⟩ :: ⟨TokenS, " "⟩ :: scanLoop k ('u' :: x) := by
  rfl

theorem length_rangeTokens_le :
    ∀ (rs : List String) (a : String), (∀ x ∈ a :: rs, IsRangeText x) →
      (rangeTokens (a :: rs)).length ≤ (Join (a :: rs) ", ").data.length := by
  intro rs
  induction rs with
  | nil =>
    intro a h
    obtain ⟨t, ht⟩ := IsRangeText_head a (h a (by simp))
    simp [rangeTokens, Join, ht]
  | cons b rs ih =>
    intro a h
    have hb : ∀ x ∈ b :: rs, IsRangeText x := fun x hx => h x (List.mem_cons_of_mem _ hx)
    have := ih b hb
    obtain ⟨t, ht⟩ := IsRangeText_head a (h a (by simp))
    have ha : 1 ≤ a.data.length := by rw [ht]; simp
    have e : (", " : String).data.length = 2 := rfl
    simp only [rangeTokens, Join, String.data_append, List.length_append, List.length_cons, e]
    omega

/-- The model tokenizer splits the text `Typeface.PrettyCSS` emits for a record
with a quoted family into the emitted pieces, when the family, the URL text and
the format may stand inside a quoted string, the style is an identifier, the
weight is not negative and every unicode range is well formed. -/
theorem scan_pretty (r : Typeface) (u : URL) (hurl : r.URL = some u)
    (hspace : Contains r.Family " " = true) (hfam : IsStringText r.Family)
    (hsty : IsIdentText r.Style) (hw : 0 ≤ r.Weight) (hu : IsStringText u.String)
    (hfmt : IsStringText r.Format) (hr : ∀ x ∈ r.UnicodeRange, IsRangeText x) :
    scan r.PrettyCSS = prettyTokens r := by
  obtain ⟨fmt, w, fam, sty, url, ranges⟩ := r
  simp only at hurl hspace hfam hsty hw hfmt hr
  subst hurl
  obtain ⟨n, rfl⟩ := Int.eq_ofNat_of_zero_le hw
  have hW : fmtInt (n : Int) = Nat.repr n := rfl
  have l1 : "@font-face \x7b\n\tfont-family: ".data.length = 27 := rfl
  have l2 : ";\n\tfont-style:".data.length = 14 := rfl
  have l3 : "\n\tfont-weight:".data.length = 14 := rfl
  have l4 : "\n\tsrc: ".data.length = 7 := rfl
  have l5 : " format(".data.length = 8 := rfl
  have l6 : ");\n\x7d".data.length = 4 := rfl
  have l7 : ");\n\tunicode-range: ".data.length = 19 := rfl
  have l8 : "\n\x7d".data.length = 2 := rfl
  cases ranges with
  | nil =>
    have hd : (Typeface.PrettyCSS ⟨fmt, n, fam, sty, some u, []⟩).data
        = "@font-face \x7b\n\tfont-family: ".data ++ '\'' :: (fam.data ++ '\'' ::
          (";\n\tfont-style:".data ++ ' ' :: (sty.data ++ ';' ::
          ("\n\tfont-weight:".data ++ ' ' :: ((Nat.repr n).data ++ ';' ::
          ("\n\tsrc: ".data ++ 'u' :: 'r' :: 'l' :: '(' :: '\'' :: (u.String.data ++ '\'' :: ')' ::
          (" format(".data ++ '\'' :: (fmt.data ++ '\'' :: ");\n\x7d".data))))))))) := by
      simp only [Typeface.PrettyCSS, List.length_nil, gt_iff_lt, lt_self_iff_false, if_false,
        quoteFamily, hspace, if_true, fmtURL, hW, String.data_append, List.append_assoc]
      rfl
    unfold scan
    rw [hd]
    generalize hD : "@font-face \x7b\n\tfont-family: ".data ++ '\'' :: (fam.data ++ '\'' ::
          (";\n\tfont-style:".data ++ ' ' :: (sty.data ++ ';' ::
          ("\n\tfont-weight:".data ++ ' ' :: ((Nat.repr n).data ++ ';' ::
          ("\n\tsrc: ".data ++ 'u' :: 'r' :: 'l' :: '(' :: '\'' :: (u.String.data ++ '\'' :: ')' ::
          (" format(".data ++ '\'' :: (fmt.data ++ '\'' :: ");\n\x7d".data))))))))) = D
    obtain ⟨k, hk⟩ : ∃ k, D.length = k + 4 + 1 + 2 + 1 + 5 + 2 + 4 + 2 + 4 + 1 + 7 := by
      refine ⟨D.length - 33, ?_⟩
      have : 33 ≤ D.length := by
        rw [← hD]
        simp only [List.length_append, List.length_cons, l1, l2, l3, l4, l5, l6]
        omega
      omega
    rw [hk, ← hD, scanLoop_head, scanLoop_quoted _ _ _ hfam, scanLoop_style,
      scanLoop_style_value _ _ _ hsty, scanLoop_weight_key, scanLoop_weight_value,
      scanLoop_src_key, scanLoop_url _ _ _ hu, scanLoop_format, scanLoop_quoted _ _ _ hfmt,
      scanLoop_close]
    simp only [prettyTokens, prettyBody, List.length_nil, gt_iff_lt, lt_self_iff_false, if_false,
      quoteFamily, hspace, if_true, fmtURL, hW]
    rfl
  | cons a rs =>
    obtain ⟨t, ht⟩ := Join_head a rs (hr a (by simp))
    have hm := length_rangeTokens_le rs a hr
    have hd : (Typeface.PrettyCSS ⟨fmt, n, fam, sty, some u, a :: rs⟩).data
        = "@font-face \x7b\n\tfont-family: ".data ++ '\'' :: (fam.data ++ '\'' ::
          (";\n\tfont-style:".data ++ ' ' :: (sty.data ++ ';' ::
          ("\n\tfont-weight:".data ++ ' ' :: ((Nat.repr n).data ++ ';' ::
          ("\n\tsrc: ".data ++ 'u' :: 'r' :: 'l' :: '(' :: '\'' :: (u.String.data ++ '\'' :: ')' ::
          (" format(".data ++ '\'' :: (fmt.data ++ '\'' ::
          (");\n\tunicode-range: ".data ++ 'U' :: (t ++ ';' :: "\n\x7d".data))))))))))) := by
      simp only [Typeface.PrettyCSS, List.length_cons, gt_iff_lt, Nat.zero_lt_succ, if_true,
        quoteFamily, hspace, fmtURL, hW, String.data_append, List.append_assoc, ht]
      rfl
    have hj : 'U' :: (t ++ ';' :: "\n\x7d".data)
        = (Join (a :: rs) ", ").data ++ ';' :: "\n\x7d".data := by
      rw [ht]; rfl
    unfold scan
    rw [hd]
    generalize hD : "@font-face \x7b\n\tfont-family: ".data ++ '\'' :: (fam.data ++ '\'' ::
          (";\n\tfont-style:".data ++ ' ' :: (sty.data ++ ';' ::
          ("\n\tfont-weight:".data ++ ' ' :: ((Nat.repr n).data ++ ';' ::
          ("\n\tsrc: ".data ++ 'u' :: 'r' :: 'l' :: '(' :: '\'' :: (u.String.data ++ '\'' :: ')' ::
          (" format(".data ++ '\'' :: (fmt.data ++ '\'' ::
          (");\n\tunicode-range: ".data ++ 'U' :: (t ++ ';' :: "\n\x7d".data))))))))))) = D
    obtain ⟨k, hk⟩ : ∃ k, D.length
        = k + 3 + (rangeTokens (a :: rs)).length + 6 + 1 + 2 + 1 + 5 + 2 + 4 + 2 + 4 + 1 + 7 := by
      refine ⟨D.length - (38 + (rangeTokens (a :: rs)).length), ?_⟩
      have : 38 + (rangeTokens (a :: rs)).length ≤ D.length := by
        rw [← hD]
        rw [ht] at hm
        simp only [List.length_cons] at hm
        simp only [List.length_append, List.length_cons, l1, l2, l3, l4, l5, l7, l8]
        omega
      omega
    rw [hk, ← hD, scanLoop_head, scanLoop_quoted _ _ _ hfam, scanLoop_style,
      scanLoop_style_value _ _ _ hsty, scanLoop_weight_key, scanLoop_weight_value,
      scanLoop_src_key, scanLoop_url _ _ _ hu, scanLoop_format, scanLoop_quoted _ _ _ hfmt,
      scanLoop_unicode_range, hj, scanLoop_ranges _ rs a hr, scanLoop_end]
    simp only [prettyTokens, prettyBody, List.length_cons, gt_iff_lt, Nat.zero_lt_succ, if_true,
      quoteFamily, hspace, fmtURL, hW]
    simp

/-- The round trip with the model tokenizer: for a record whose fields are
lexically well formed, `UnmarshalCSS` on the tokens of the text that
`Typeface.PrettyCSS` emits gives back exactly that record. -/
theorem UnmarshalCSS_scan_pretty (parse : String → Option URL)
    (r : Typeface) (u : URL) (tf : Typefaces)
    (hurl : r.URL = some u) (hparse : parse u.String = some u)
    (hfam : Trim r.Family "'" = r.Family) (hfmt : Trim r.Format "'" = r.Format)
    (hustr : Trim u.String "'" = u.String) (hspace : Contains r.Family " " = true)
    (hw : 0 ≤ r.Weight) (hw2 : r.Weight < 2 ^ 63)
    (lfam : IsStringText r.Family) (lsty : IsIdentText r.Style) (lu : IsStringText u.String)
    (lfmt : IsStringText r.Format) (lr : ∀ x ∈ r.UnicodeRange, IsRangeText x) :
    UnmarshalCSS parse (scan r.PrettyCSS) (some tf) = (some ⟨[r]⟩, none) := by
  rw [scan_pretty r u hurl hspace lfam lsty hw lu lfmt lr]
  unfold UnmarshalCSS
  rw [blockLoop_pretty parse r u hurl hparse hfam hfmt hustr hspace hw hw2]

/-! ## The rule of a combination from the first records -/

theorem Select_exact (ts : Typefaces) (m fam s : String) (w : Int) (hm : m ≠ "")
    (hfam : fam ≠ "") (hs : s ≠ "") (hw : w ≠ -1) :
    ts.Select m fam s w = ts.Fonts.filter
      (fun r => decide (r.Format = m ∧ r.Family = fam ∧ r.Style = s ∧ r.Weight = w)) := by
  rw [Select_eq_filter]
  congr 1
  funext r
  simp [matchesFilter, hm, hfam, hs, hw]

theorem head?_Select (ts : Typefaces) (m fam s : String) (w : Int) (hm : m ≠ "")
    (hfam : fam ≠ "") (hs : s ≠ "") (hw : w ≠ -1) :
    (ts.Select m fam s w).head? = firstRecord ts m fam s w := by
  rw [Select_exact ts m fam s w hm hfam hs hw, List.filter_head?]
  rfl

theorem firstRecordURL_eq (ts : Typefaces) (m fam s : String) (w : Int) (hm : m ≠ "")
    (hfam : fam ≠ "") (hs : s ≠ "") (hw : w ≠ -1) :
    firstRecordURL ts m fam s w
      = match ts.Select m fam s w with
        | [] => some none
        | r :: _ =>
          match r.URL with
          | none => none
          | some u => some (some u.String) := by
  unfold firstRecordURL
  rw [← head?_Select ts m fam s w hm hfam hs hw]
  cases ts.Select m fam s w <;> rfl

theorem firstMatchURL_of_firstRecordURL (ts : Typefaces) (m fam s : String) (w : Int)
    (hm : m ≠ "") (hfam : fam ≠ "") (hs : s ≠ "") (hw : w ≠ -1) (o : Option String)
    (h : firstRecordURL ts m fam s w = some o) : firstMatchURL ts m fam s w = o := by
  rw [firstRecordURL_eq ts m fam s w hm hfam hs hw] at h
  unfold firstMatchURL
  cases hsel : ts.Select m fam s w with
  | nil =>
    rw [hsel] at h
    simp only [Option.some.injEq] at h
    rw [← h]; rfl
  | cons r rest =>
    rw [hsel] at h
    cases hu : r.URL with
    | none => simp [hu] at h
    | some u =>
      simp only [hu, Option.some.injEq] at h
      rw [← h]
      simp [firstURLString, hu]

theorem local_of_firstRecordURL (ts : Typefaces) (m fam s : String) (w : Int)
    (hm : m ≠ "") (hfam : fam ≠ "") (hs : s ≠ "") (hw : w ≠ -1)
    (h : firstRecordURL ts m fam s w ≠ none) :
    ∀ r rest, ts.Select m fam s w = r :: rest → r.URL ≠ none := by
  intro r rest hsel hu
  apply h
  rw [firstRecordURL_eq ts m fam s w hm hfam hs hw, hsel]
  simp [hu]

theorem mapGet_of_firstRecordURL_none (ts : Typefaces) (m fam s : String) (w : Int)
    (hm : m ≠ "") (hfam : fam ≠ "") (hs : s ≠ "") (hw : w ≠ -1)
    (h : firstRecordURL ts m fam s w = none) :
    ∃ v, mapGet (selectFormats ts ts.Format fam s w) m = some v ∧ firstURLString v = none := by
  rw [firstRecordURL_eq ts m fam s w hm hfam hs hw] at h
  rw [mapGet_selected ts m fam s w hm]
  cases hsel : ts.Select m fam s w with
  | nil => rw [hsel] at h; simp at h
  | cons r rest =>
    rw [hsel] at h
    cases hu : r.URL with
    | some u => simp [hu] at h
    | none => exact ⟨r :: rest, by simp, by simp [firstURLString, hu]⟩

theorem appendEntry_none (ts : Typefaces) (m fam s : String) (w : Int)
    (hm : m ≠ "") (hfam : fam ≠ "") (hs : s ≠ "") (hw : w ≠ -1)
    (h : firstRecordURL ts m fam s w = none) (sep : String) :
    appendEntry (selectFormats ts ts.Format fam s w) m sep = fun _ => none := by
  obtain ⟨v, hv, hu⟩ := mapGet_of_firstRecordURL_none ts m fam s w hm hfam hs hw h
  funext c
  simp [appendEntry, hv, hu]

theorem bind_const_none {α β : Type} (x : Option α) :
    (x >>= fun _ => (none : Option β)) = none := by
  cases x <;> rfl

/-- The rule of a combination fails as soon as the first record of one of the
five formats carries no URL. -/
theorem cssRule_none (ts : Typefaces) (fam s : String) (w : Int)
    (hfam : fam ≠ "") (hs : s ≠ "") (hw : w ≠ -1) (m : String)
    (hm : m ∈ ["eot", "woff2", "woff", "ttf", "svg"])
    (h : firstRecordURL ts m fam s w = none) :
    cssRule ts ts.Format fam w s = none := by
  unfold cssRule
  simp only []
  simp only [List.mem_cons, List.mem_singleton, List.not_mem_nil, or_false] at hm
  rcases hm with rfl | rfl | rfl | rfl | rfl
  · obtain ⟨v, hv, hu⟩ :=
      mapGet_of_firstRecordURL_none ts "eot" fam s w (by decide) hfam hs hw h
    simp [hv, hu]
  · rw [appendEntry_none ts "woff2" fam s w (by decide) hfam hs hw h, bind_const_none]
    rfl
  · rw [appendEntry_none ts "woff" fam s w (by decide) hfam hs hw h, bind_const_none]
    rfl
  · rw [appendEntry_none ts "ttf" fam s w (by decide) hfam hs hw h, bind_const_none]
    rfl
  · rw [appendEntry_none ts "svg" fam s w (by decide) hfam hs hw h, bind_const_none]

theorem cssSrc_eq_srcOfURLs (ts : Typefaces) (fam s : String) (w : Int) :
    cssSrc ts fam s w
      = srcOfURLs (firstMatchURL ts "eot" fam s w) (firstMatchURL ts "woff2" fam s w)
          (firstMatchURL ts "woff" fam s w) (firstMatchURL ts "ttf" fam s w)
          (firstMatchURL ts "svg" fam s w) := by
  unfold cssSrc srcOfURLs entriesOfURLs
  rw [srcEntries_eq]

/-- The rule of a combination of non-wildcard values is the rule built from
the first record of each of the five formats, and fails exactly when one of
these first records carries no URL. -/
theorem cssRule_total (ts : Typefaces) (fam s : String) (w : Int)
    (hfam : fam ≠ "") (hs : s ≠ "") (hw : w ≠ -1) :
    cssRule ts ts.Format fam w s = ruleOfFirst ts fam s w := by
  cases he : firstRecordURL ts "eot" fam s w with
  | none =>
    rw [cssRule_none ts fam s w hfam hs hw "eot" (by decide) he]
    simp [ruleOfFirst, he]
  | some e =>
  cases ha : firstRecordURL ts "woff2" fam s w with
  | none =>
    rw [cssRule_none ts fam s w hfam hs hw "woff2" (by decide) ha]
    simp [ruleOfFirst, he, ha]
  | some a =>
  cases hb : firstRecordURL ts "woff" fam s w with
  | none =>
    rw [cssRule_none ts fam s w hfam hs hw "woff" (by decide) hb]
    simp [ruleOfFirst, he, ha, hb]
  | some b =>
  cases hc : firstRecordURL ts "ttf" fam s w with
  | none =>
    rw [cssRule_none ts fam s w hfam hs hw "ttf" (by decide) hc]
    simp [ruleOfFirst, he, ha, hb, hc]
  | some c =>
  cases hd : firstRecordURL ts "svg" fam s w with
  | none =>
    rw [cssRule_none ts fam s w hfam hs hw "svg" (by decide) hd]
    simp [ruleOfFirst, he, ha, hb, hc, hd]
  | some d =>
    have hloc : ∀ m ∈ ["eot", "woff2", "woff", "ttf", "svg"], ∀ r rest,
        ts.Select m fam s w = r :: rest → r.URL ≠ none := by
      intro m hm
      simp only [List.mem_cons, List.mem_singleton, List.not_mem_nil, or_false] at hm
      rcases hm with rfl | rfl | rfl | rfl | rfl
      · exact local_of_firstRecordURL ts _ fam s w (by decide) hfam hs hw (by simp [he])
      · exact local_of_firstRecordURL ts _ fam s w (by decide) hfam hs hw (by simp [ha])
      · exact local_of_firstRecordURL ts _ fam s w (by decide) hfam hs hw (by simp [hb])
      · exact local_of_firstRecordURL ts _ fam s w (by decide) hfam hs hw (by simp [hc])
      · exact local_of_firstRecordURL ts _ fam s w (by decide) hfam hs hw (by simp [hd])
    rw [cssRule_eq_of ts fam s w hloc, cssSrc_eq_srcOfURLs,
      firstMatchURL_of_firstRecordURL ts "eot" fam s w (by decide) hfam hs hw e he,
      firstMatchURL_of_firstRecordURL ts "woff2" fam s w (by decide) hfam hs hw a ha,
      firstMatchURL_of_firstRecordURL ts "woff" fam s w (by decide) hfam hs hw b hb,
      firstMatchURL_of_firstRecordURL ts "ttf" fam s w (by decide) hfam hs hw c hc,
      firstMatchURL_of_firstRecordURL ts "svg" fam s w (by decide) hfam hs hw d hd]
    simp [ruleOfFirst, he, ha, hb, hc, hd]

/-! ## Records of one combination with distinct formats -/

theorem firstSeen_const {α : Type} [DecidableEq α] (a : α) :
    ∀ l : List α, l ≠ [] → (∀ x ∈ l, x = a) → firstSeen l = [a] := by
  intro l
  induction l with
  | nil => intro h; exact absurd rfl h
  | cons x xs ih =>
    intro _ hall
    have hx : x = a := hall x (by simp)
    subst hx
    unfold firstSeen
    congr 1
    rw [List.filter_eq_nil_iff]
    intro y hy
    have hy2 : y ∈ xs := (mem_firstSeen xs y).mp hy
    simp [hall y (List.mem_cons_of_mem _ hy2)]

theorem length_le_one_of_nodup_const {α : Type} (a : α) (l : List α) (hn : l.Nodup)
    (hall : ∀ x ∈ l, x = a) : l.length ≤ 1 := by
  match l, hn, hall with
  | [], _, _ => simp
  | [_], _, _ => simp
  | x :: y :: rest, hn, hall =>
    exfalso
    have hx : x = a := hall x (by simp)
    have hy : y = a := hall y (by simp)
    rw [List.nodup_cons] at hn
    exact hn.1 (by rw [hx, ← hy]; simp)

theorem filter_eq_of_perm {α : Type} (p : α → Bool) (l l2 : List α) (hperm : List.Perm l2 l)
    (hlen : (l.filter p).length ≤ 1) : l2.filter p = l.filter p := by
  have h := hperm.filter p
  match hf : l.filter p, hlen with
  | [], _ => rw [hf] at h; exact h.eq_nil
  | [a], _ => rw [hf] at h; exact List.perm_singleton.mp h
  | _ :: _ :: _, hlen => simp [hf] at hlen

theorem length_filter_format_le_one (l : List Typeface) (hdist : (l.map Typeface.Format).Nodup)
    (m : String) (q : Typeface → Bool) (hq : ∀ r, q r = true → r.Format = m) :
    (l.filter q).length ≤ 1 := by
  have h1 : ((l.filter q).map Typeface.Format).Nodup :=
    List.Nodup.sublist ((List.filter_sublist l).map _) hdist
  have h2 := length_le_one_of_nodup_const m _ h1 (by
    intro x hx
    obtain ⟨r, hr, rfl⟩ := List.mem_map.mp hx
    exact hq r (List.mem_filter.mp hr).2)
  simpa using h2

/-- With pairwise distinct formats, the selection of one format does not depend
on the order of the records. -/
theorem Select_perm (l l2 : List Typeface) (hdist : (l.map Typeface.Format).Nodup)
    (hperm : List.Perm l2 l) (m fam s : String) (w : Int) (hm : m ≠ "") :
    (Typefaces.mk l2).Select m fam s w = (Typefaces.mk l).Select m fam s w := by
  rw [Select_eq_filter, Select_eq_filter]
  apply filter_eq_of_perm _ _ _ hperm
  apply length_filter_format_le_one l hdist m
  intro r hr
  simp only [matchesFilter, decide_eq_true_eq] at hr
  exact hr.1.resolve_left hm

theorem Family_shared (l : List Typeface) (fam : String) (hfam : fam ≠ "") (hne : l ≠ [])
    (h : ∀ r ∈ l, r.Family = fam) : (Typefaces.mk l).Family = [fam] := by
  rw [Family_eq]
  have hf : l.filter (fun r => decide (r.Family ≠ "")) = l := by
    rw [List.filter_eq_self]
    intro r hr
    simp [h r hr, hfam]
  simp only [hf]
  apply firstSeen_const
  · simpa using hne
  · intro x hx
    obtain ⟨r, hr, rfl⟩ := List.mem_map.mp hx
    exact h r hr

theorem Style_shared (l : List Typeface) (sty : String) (hsty : sty ≠ "") (hne : l ≠ [])
    (h : ∀ r ∈ l, r.Style = sty) : (Typefaces.mk l).Style = [sty] := by
  rw [Style_eq]
  have hf : l.filter (fun r => decide (r.Style ≠ "")) = l := by
    rw [List.filter_eq_self]
    intro r hr
    simp [h r hr, hsty]
  simp only [hf]
  apply firstSeen_const
  · simpa using hne
  · intro x hx
    obtain ⟨r, hr, rfl⟩ := List.mem_map.mp hx
    exact h r hr

theorem Weight_shared (l : List Typeface) (w : Int) (hw : 1 ≤ w) (hne : l ≠ [])
    (h : ∀ r ∈ l, r.Weight = w) : (Typefaces.mk l).Weight = [w] := by
  rw [Weight_eq]
  have hf : l.filter (fun r => decide (1 ≤ r.Weight)) = l := by
    rw [List.filter_eq_self]
    intro r hr
    simp [h r hr, hw]
  simp only [hf]
  apply firstSeen_const
  · simpa using hne
  · intro x hx
    obtain ⟨r, hr, rfl⟩ := List.mem_map.mp hx
    exact h r hr

theorem firstMatchURL_shared (l : List Typeface) (fam sty : String) (w : Int)
    (hshare : ∀ r ∈ l, r.Family = fam ∧ r.Style = sty ∧ r.Weight = w)
    (m : String) (hm : m ≠ "") :
    firstMatchURL ⟨l⟩ m fam sty w = urlOfFormat l m := by
  unfold firstMatchURL urlOfFormat
  rw [Select_eq_filter]
  have hf : l.filter (matchesFilter m fam sty w)
      = l.filter (fun r => decide (r.Format = m)) := by
    apply List.filter_congr
    intro r hr
    obtain ⟨h1, h2, h3⟩ := hshare r hr
    simp [matchesFilter, hm, h1, h2, h3]
  simp only [hf]
  rw [← List.filter_head?]
  cases l.filter (fun r => decide (r.Format = m)) with
  | nil => rfl
  | cons r rest => cases hu : r.URL <;> simp [firstURLString, hu]

/-- The compact CSS of a non-empty collection whose records share one
combination: the one rule of that combination. -/
theorem CSS_shared (l : List Typeface) (fam sty : String) (w : Int)
    (hfam : fam ≠ "") (hsty : sty ≠ "") (hw : 1 ≤ w) (hne : l ≠ [])
    (hshare : ∀ r ∈ l, r.Family = fam ∧ r.Style = sty ∧ r.Weight = w)
    (hurl : HasURLs ⟨l⟩) :
    Typefaces.CSS ⟨l⟩ = some (cssTpl (quoteFamily fam) sty w
      ++ srcOfURLs (urlOfFormat l "eot") (urlOfFormat l "woff2") (urlOfFormat l "woff")
          (urlOfFormat l "ttf") (urlOfFormat l "svg") ++ "\x7d") := by
  have ht : (Typefaces.mk l).triples = [(fam, w, sty)] := by
    unfold Typefaces.triples
    rw [Family_shared l fam hfam hne (fun r hr => (hshare r hr).1),
      Style_shared l sty hsty hne (fun r hr => (hshare r hr).2.1),
      Weight_shared l w hw hne (fun r hr => (hshare r hr).2.2)]
    rfl
  rw [Typefaces.CSS, cssParts_eq _ hurl, ht]
  simp only [List.map_cons, List.map_nil, Option.map_some', Join, cssRuleText,
    cssSrc_eq_srcOfURLs]
  rw [firstMatchURL_shared l fam sty w hshare "eot" (by decide),
    firstMatchURL_shared l fam sty w hshare "woff2" (by decide),
    firstMatchURL_shared l fam sty w hshare "woff" (by decide),
    firstMatchURL_shared l fam sty w hshare "ttf" (by decide),
    firstMatchURL_shared l fam sty w hshare "svg" (by decide)]

theorem urlOfFormat_perm (l l2 : List Typeface) (hdist : (l.map Typeface.Format).Nodup)
    (hperm : List.Perm l2 l) (m : String) : urlOfFormat l2 m = urlOfFormat l m := by
  unfold urlOfFormat
  rw [← List.filter_head?, ← List.filter_head?,
    filter_eq_of_perm _ l l2 hperm
      (length_filter_format_le_one l hdist m _ (fun r hr => by simpa using hr))]

theorem mapOpt_congr {α β : Type} (f g : α → Option β) :
    ∀ l : List α, (∀ x ∈ l, f x = g x) → mapOpt f l = mapOpt g l := by
  intro l
  induction l with
  | nil => intro _; rfl
  | cons x xs ih =>
    intro h
    unfold mapOpt
    rw [h x (by simp), ih (fun y hy => h y (List.mem_cons_of_mem _ hy))]

theorem ne_of_mem_triples (ts : Typefaces) (fam s : String) (w : Int)
    (h : (fam, w, s) ∈ ts.triples) : fam ≠ "" ∧ s ≠ "" ∧ w ≠ -1 := by
  obtain ⟨h1, h2, h3⟩ := (mem_triples ts fam s w).mp h
  rw [Family_eq, mem_firstSeen, List.mem_map] at h1
  rw [Weight_eq, mem_firstSeen, List.mem_map] at h2
  rw [Style_eq, mem_firstSeen, List.mem_map] at h3
  obtain ⟨r1, hr1, rfl⟩ := h1
  obtain ⟨r2, hr2, rfl⟩ := h2
  obtain ⟨r3, hr3, rfl⟩ := h3
  have e1 := (List.mem_filter.mp hr1).2
  have e2 := (List.mem_filter.mp hr2).2
  have e3 := (List.mem_filter.mp hr3).2
  simp only [decide_eq_true_eq] at e1 e2 e3
  exact ⟨e1, e3, by omega⟩

theorem ruleOfFirst_congr (ts ts2 : Typefaces) (fam s : String) (w : Int)
    (h : ∀ m ∈ ["eot", "woff2", "woff", "ttf", "svg"],
      firstRecord ts2 m fam s w = firstRecord ts m fam s w) :
    ruleOfFirst ts2 fam s w = ruleOfFirst ts fam s w := by
  unfold ruleOfFirst firstRecordURL
  rw [h "eot" (by decide), h "woff2" (by decide), h "woff" (by decide), h "ttf" (by decide),
    h "svg" (by decide)]

theorem cssParts_total (ts : Typefaces) :
    ts.cssParts = mapOpt (fun t => ruleOfFirst ts t.1 t.2.2 t.2.1) ts.triples := by
  unfold Typefaces.cssParts
  rw [rulesLoop_eq]
  apply mapOpt_congr
  intro t ht
  obtain ⟨fam, w, s⟩ := t
  obtain ⟨h1, h2, h3⟩ := ne_of_mem_triples ts fam s w ht
  exact cssRule_total ts fam s w h1 h2 h3

/-! ## Version and file name -/

theorem length_splitChars (sep : Char) :
    ∀ (cs acc : List Char), (splitChars sep cs acc).length = cs.count sep + 1 := by
  intro cs
  induction cs with
  | nil => intro acc; rfl
  | cons c cs ih =>
    intro acc
    unfold splitChars
    by_cases h : c = sep
    · subst h
      simp [ih]
    · have h2 : (c == sep) = false := by simpa using h
      simp [h, ih, List.count_cons, h2]

theorem length_Split (s : String) (sep : Char) :
    (Split s sep).length = s.data.count sep + 1 :=
  length_splitChars sep s.data []

theorem indexAt_eq_none (l : List String) (i : Int) :
    indexAt l i = none ↔ ¬ (0 ≤ i ∧ i < l.length) := by
  unfold indexAt
  by_cases h : 0 ≤ i ∧ i < l.length
  · simp only [h, and_self, if_true, not_true_eq_false, iff_false]
    have : i.toNat < l.length := by omega
    simpa using this
  · simp [h]

theorem indexAt_append_two (pre : List String) (a b : String) :
    indexAt (pre ++ [a, b]) (((pre ++ [a, b]).length : Int) - 2) = some a := by
  unfold indexAt
  have h1 : ((pre ++ [a, b]).length : Int) - 2 = (pre.length : Int) := by
    simp
  rw [h1]
  have h2 : (0 : Int) ≤ pre.length ∧ (pre.length : Int) < (pre ++ [a, b]).length := by
    constructor
    · omega
    · simp
  rw [if_pos h2]
  simp [List.getElem_append_right]

theorem indexAt_append_one (pre : List String) (b : String) :
    indexAt (pre ++ [b]) (((pre ++ [b]).length : Int) - 1) = some b := by
  unfold indexAt
  have h1 : ((pre ++ [b]).length : Int) - 1 = (pre.length : Int) := by
    simp
  rw [h1]
  have h2 : (0 : Int) ≤ pre.length ∧ (pre.length : Int) < (pre ++ [b]).length := by
    constructor
    · omega
    · simp
  rw [if_pos h2]
  simp [List.getElem_append_right]

/-- Without a query, `Version` fails exactly on a path without `/`. -/
theorem Version_eq_none (query : String → String → String) (t : Typeface) (u : URL)
    (hurl : t.URL = some u) (hq : u.RawQuery = "") :
    t.Version query = none ↔ '/' ∉ u.Path.data := by
  unfold Typeface.Version
  simp only [hurl, hq, ne_eq, not_true_eq_false, if_false]
  have hlen := length_Split u.Path '/'
  cases hi : indexAt (Split u.Path '/') (((Split u.Path '/').length : Int) - 2) with
  | none =>
    simp only [true_iff]
    have := (indexAt_eq_none _ _).mp hi
    rw [← List.count_eq_zero]
    omega
  | some part =>
    have h2 : indexAt (Split u.Path '/') (((Split u.Path '/').length : Int) - 2) ≠ none := by
      rw [hi]; simp
    rw [Ne, indexAt_eq_none, not_not] at h2
    have hc : u.Path.data.count '/' ≠ 0 := by omega
    rw [Ne, List.count_eq_zero, not_not] at hc
    cases hp : HasPrefix part "v" <;> simp [hp, hc]

/-- Without a query and with at least two path segments, `Version` is the
second-to-last segment when it starts with `v`, and the empty string
otherwise. -/
theorem Version_of_segments (query : String → String → String) (t : Typeface) (u : URL)
    (hurl : t.URL = some u) (hq : u.RawQuery = "") (pre : List String) (a b : String)
    (hsplit : Split u.Path '/' = pre ++ [a, b]) :
    t.Version query = some (if HasPrefix a "v" then a else "") := by
  unfold Typeface.Version
  simp only [hurl, hq, ne_eq, not_true_eq_false, if_false, hsplit, indexAt_append_two]
  cases HasPrefix a "v" <;> simp

/-! ## Points of a run of the parser -/

theorem nextSig_fst_isEnd (s s1 : List Token) (p : Token) (h : nextSig s = (p, s1)) :
    (nextSig s).1.isEnd = p.isEnd := by rw [h]

theorem resume_step (parse : String → Option URL) (c c2 : Config) (h : Step parse c c2) :
    resume parse c = resume parse c2 := by
  cases h with
  | @skip s s1 result p hn he hp =>
    have hlt : s1.length < s.length := by
      have := nextSig_length_lt s (by rw [hn]; exact he)
      rwa [hn] at this
    simp only [resume]
    rw [blockLoop, hn]
    simp only [he, Bool.false_eq_true, if_false, hp, if_true]
    exact blockLoop_mono parse _ _ s1 result hlt (by omega)
  | @openBlock s s1 s2 result p q hn ht hv hn2 hq =>
    have he : p.isEnd = false := isEnd_of_typ p _ ht (by decide) (by decide)
    have hlt : s1.length < s.length := by
      have := nextSig_length_lt s (by rw [hn]; exact he)
      rwa [hn] at this
    have hle : s2.length ≤ s1.length := by
      have := nextSig_length_le s1
      rwa [hn2] at this
    simp only [resume]
    rw [blockLoop, hn]
    simp only [he, Bool.false_eq_true, if_false, ht, hv, ne_eq, not_true_eq_false, or_self,
      hn2, hq, Bool.not_true]
    cases hd : declarationLoop parse (s2.length + 1) s2 q Typeface.zero with
    | error e => rfl
    | ok r =>
      obtain ⟨f, s3⟩ := r
      have h3 := (declarationLoop_steps parse (s2.length + 1) s2 q Typeface.zero
        (by omega)).2 f s3 hd
      simp only []
      exact blockLoop_mono parse _ _ s3 _ (by omega) (by omega)
  | @decl s s1 s2 result lg lg2 t f f2 hn he hc hd =>
    have hlt : s1.length < s.length := by
      have := nextSig_length_lt s (by rw [hn]; exact he)
      rwa [hn] at this
    have hle := (declaration_steps parse s1 t f).2 f2 lg2 s2 hd
    simp only [resume]
    rw [declarationLoop, hn]
    simp only [he, Bool.false_eq_true, if_false, hc, hd]
    rw [declarationLoop_mono parse _ (s2.length + 1) s2 lg2 f2 (by omega) (by omega)]
  | @skipToken s s1 result lg t f hn he hc hd =>
    have hlt : s1.length < s.length := by
      have := nextSig_length_lt s (by rw [hn]; exact he)
      rwa [hn] at this
    simp only [resume]
    rw [declarationLoop, hn]
    simp only [he, Bool.false_eq_true, if_false, hc, hd]
    rw [declarationLoop_mono parse _ (s1.length + 1) s1 lg f (by omega) (by omega)]
  | @closeBlock s s1 result lg t f hn hc =>
    have he : t.isEnd = false := isEnd_of_isChar t _ hc
    simp only [resume]
    rw [declarationLoop, hn]
    simp only [he, Bool.false_eq_true, if_false, hc, if_true]

theorem resume_reaches (parse : String → Option URL) (tokens : List Token) (c : Config)
    (h : Reaches parse tokens c) :
    resume parse c = blockLoop parse (tokens.length + 1) tokens [] := by
  induction h with
  | refl => rfl
  | tail _ hstep ih => rw [← resume_step parse _ _ hstep, ih]

/-- The result of `UnmarshalCSS` is the result of the rest of the run from any
point that the run comes to. -/
theorem UnmarshalCSS_of_reaches (parse : String → Option URL) (tokens : List Token)
    (tf : Typefaces) (c : Config) (h : Reaches parse tokens c) :
    UnmarshalCSS parse tokens (some tf) = finish tf (resume parse c) := by
  rw [resume_reaches parse tokens c h]
  unfold UnmarshalCSS finish
  cases blockLoop parse (tokens.length + 1) tokens [] <;> rfl

/-! ## Streams without `@font-face` -/

theorem nextSig_mem (s : List Token) :
    ((nextSig s).1 ∈ s ∨ (nextSig s).1 = ⟨TokenEOF, ""⟩) ∧ ∀ x ∈ (nextSig s).2, x ∈ s := by
  induction s with
  | nil => simp [nextSig]
  | cons t rest ih =>
    unfold nextSig
    by_cases h : t.Typ = TokenS ∨ t.Typ = TokenComment
    · rw [if_pos h]
      refine ⟨?_, fun x hx => List.mem_cons_of_mem _ (ih.2 x hx)⟩
      rcases ih.1 with h1 | h1
      · exact Or.inl (List.mem_cons_of_mem _ h1)
      · exact Or.inr h1
    · rw [if_neg h]
      by_cases h2 : t.Typ = TokenEOF ∨ t.Typ = TokenError
      · simp only [scannerNext, h2, if_true]
        exact ⟨Or.inl (by simp), fun x hx => hx⟩
      · simp only [scannerNext, h2, if_false]
        exact ⟨Or.inl (by simp), fun x hx => List.mem_cons_of_mem _ hx⟩

theorem blockLoop_no_fontface (parse : String → Option URL) (steps : Nat) :
    ∀ (s : List Token) (result : List Typeface), s.length < steps →
      (∀ t ∈ s, ¬ (t.Typ = TokenAtKeyword ∧ t.Value = "@font-face")) →
      blockLoop parse steps s result = .ok result := by
  induction steps with
  | zero => intro s result h; omega
  | succ n ih =>
    intro s result hlen hno
    unfold blockLoop
    simp only []
    by_cases he : (nextSig s).1.isEnd = true
    · rw [if_pos he]
    · rw [if_neg he]
      have he2 : (nextSig s).1.isEnd = false := by simpa using he
      have hmem : (nextSig s).1 ∈ s := by
        rcases (nextSig_mem s).1 with h1 | h1
        · exact h1
        · rw [h1] at he2
          exact absurd he2 (by decide)
      have hp : (nextSig s).1.Typ ≠ TokenAtKeyword ∨ (nextSig s).1.Value ≠ "@font-face" := by
        have := hno _ hmem
        by_cases h1 : (nextSig s).1.Typ = TokenAtKeyword
        · exact Or.inr (fun h2 => this ⟨h1, h2⟩)
        · exact Or.inl h1
      rw [if_pos hp]
      exact ih _ result (by have := nextSig_length_lt s he2; omega)
        (fun t ht => hno t ((nextSig_mem s).2 t ht))

/-! ## The branches of the declaration loop -/

theorem isChar_of_ident (t : Token) (v : String) (h : t.Typ = TokenIdent) :
    t.isChar v = false := by
  simp [Token.isChar, h]

theorem declaration_family (parse : String → Option URL) (s : List Token) (t : Token)
    (f : Typeface) (ht : t.Typ = TokenIdent) (hv : t.Value = "font-family") :
    declaration parse s t f = some (familyDecl s t f) := by
  simp [declaration, ht, hv]

theorem declaration_style (parse : String → Option URL) (s : List Token) (t : Token)
    (f : Typeface) (ht : t.Typ = TokenIdent) (hv : t.Value = "font-style") :
    declaration parse s t f = some (styleDecl s t f) := by
  simp [declaration, ht, hv]

theorem declaration_weight (parse : String → Option URL) (s : List Token) (t : Token)
    (f : Typeface) (ht : t.Typ = TokenIdent) (hv : t.Value = "font-weight") :
    declaration parse s t f = some (weightDecl s t f) := by
  simp [declaration, ht, hv]

theorem declaration_src (parse : String → Option URL) (s : List Token) (t : Token)
    (f : Typeface) (ht : t.Typ = TokenIdent) (hv : t.Value = "src") :
    declaration parse s t f = some (srcDecl parse s t f) := by
  simp [declaration, ht, hv]

theorem declaration_unicode_range (parse : String → Option URL) (s : List Token) (t : Token)
    (f : Typeface) (ht : t.Typ = TokenIdent) (hv : t.Value = "unicode-range") :
    declaration parse s t f = some (unicodeRangeDecl s t f) := by
  simp [declaration, ht, hv]

theorem resume_inBlock_end (parse : String → Option URL) (s s1 : List Token)
    (result : List Typeface) (lg t : Token) (f : Typeface)
    (hn : nextSig s = (t, s1)) (he : t.isEnd = true) :
    resume parse (.inBlock s result lg f) = .error (.unexpectedEOF lg) := by
  simp only [resume]
  rw [declarationLoop, hn]
  simp only [he, if_true]

theorem resume_between_end (parse : String → Option URL) (s s1 : List Token)
    (result : List Typeface) (t : Token)
    (hn : nextSig s = (t, s1)) (he : t.isEnd = true) :
    resume parse (.between s result) = .ok result := by
  simp only [resume]
  rw [blockLoop, hn]
  simp only [he, if_true]

theorem resume_decl_error (parse : String → Option URL) (s s1 : List Token)
    (result : List Typeface) (lg t : Token) (f : Typeface) (e : ParseError)
    (hn : nextSig s = (t, s1)) (ht : t.Typ = TokenIdent)
    (hd : declaration parse s1 t f = some (.error e)) :
    resume parse (.inBlock s result lg f) = .error e := by
  have he : t.isEnd = false := isEnd_of_typ t _ ht (by decide) (by decide)
  simp only [resume]
  rw [declarationLoop, hn]
  simp only [he, Bool.false_eq_true, if_false, isChar_of_ident t _ ht, hd]

theorem Reaches_decl (parse : String → Option URL) (tokens s s1 s2 : List Token)
    (result : List Typeface) (lg lg2 t : Token) (f f2 : Typeface)
    (h : Reaches parse tokens (.inBlock s result lg f))
    (hn : nextSig s = (t, s1)) (ht : t.Typ = TokenIdent)
    (hd : declaration parse s1 t f = some (.ok (f2, lg2, s2))) :
    Reaches parse tokens (.inBlock s2 result lg2 f2) :=
  Relation.ReflTransGen.tail h
    (Step.decl hn (isEnd_of_typ t _ ht (by decide) (by decide)) (isChar_of_ident t _ ht) hd)

theorem weightDecl_convert (s0 s1 s2 : List Token) (t0 c v : Token) (f : Typeface)
    (h1 : nextSig s0 = (c, s1)) (hc : c.isChar ":" = true) (h2 : nextSig s1 = (v, s2))
    (hv : v.Typ = TokenNumber) (ha : Atoi v.Value = none) :
    weightDecl s0 t0 f = .error (.convertNumber c) := by
  simp [weightDecl, h1, hc, h2, hv, ha]

theorem weightDecl_not_number (s0 s1 s2 : List Token) (t0 c v : Token) (f : Typeface)
    (h1 : nextSig s0 = (c, s1)) (hc : c.isChar ":" = true) (h2 : nextSig s1 = (v, s2))
    (hv : v.Typ ≠ TokenNumber) :
    weightDecl s0 t0 f = .error (.expect "<number>" c) := by
  simp [weightDecl, h1, hc, h2, hv]

theorem familyDecl_ok (s0 s1 s2 s3 : List Token) (t0 c v e : Token) (f : Typeface)
    (h1 : nextSig s0 = (c, s1)) (hc : c.isChar ":" = true) (h2 : nextSig s1 = (v, s2))
    (hv : v.Typ = TokenString) (h3 : nextSig s2 = (e, s3)) (he : e.isChar ";" = true) :
    familyDecl s0 t0 f = .ok ({ f with Family := Trim v.Value "'" }, v, s3) := by
  simp [familyDecl, h1, hc, h2, hv, h3, he]

theorem srcDecl_parse_error (parse : String → Option URL) (s0 s1 s2 : List Token)
    (t0 c v : Token) (f : Typeface)
    (h1 : nextSig s0 = (c, s1)) (hc : c.isChar ":" = true) (h2 : nextSig s1 = (v, s2))
    (hv : v.Typ = TokenURI)
    (hp : parse (Trim (TrimSuffix (TrimPrefix v.Value "url(") ")") "'") = none) :
    srcDecl parse s0 t0 f = .error (.parseURL c) := by
  simp [srcDecl, h1, hc, h2, hv, hp]

theorem srcDecl_eot (parse : String → Option URL) (s0 s1 s2 s3 : List Token)
    (t0 c v e : Token) (f : Typeface) (u : URL)
    (h1 : nextSig s0 = (c, s1)) (hc : c.isChar ":" = true) (h2 : nextSig s1 = (v, s2))
    (hv : v.Typ = TokenURI)
    (hp : parse (Trim (TrimSuffix (TrimPrefix v.Value "url(") ")") "'") = some u)
    (h3 : nextSig s2 = (e, s3)) (he : e.isChar ";" = true) :
    srcDecl parse s0 t0 f = .ok ({ f with URL := some u, Format := "eot" }, v, s3) := by
  simp [srcDecl, h1, hc, h2, hv, hp, h3, he]

theorem srcDecl_format (parse : String → Option URL) (s0 s1 s2 s3 s4 s5 s6 : List Token)
    (t0 c v e n p q : Token) (f : Typeface) (u : URL)
    (h1 : nextSig s0 = (c, s1)) (hc : c.isChar ":" = true) (h2 : nextSig s1 = (v, s2))
    (hv : v.Typ = TokenURI)
    (hp : parse (Trim (TrimSuffix (TrimPrefix v.Value "url(") ")") "'") = some u)
    (h3 : nextSig s2 = (e, s3)) (het : e.Typ = TokenFunction) (hev : e.Value = "format(")
    (h4 : nextSig s3 = (n, s4)) (hn : n.Typ = TokenString)
    (h5 : nextSig s4 = (p, s5)) (hpc : p.isChar ")" = true)
    (h6 : nextSig s5 = (q, s6)) (hq : q.isChar ";" = true) :
    srcDecl parse s0 t0 f
      = .ok ({ f with URL := some u, Format := Trim n.Value "'" }, p, s6) := by
  have he : e.isChar ";" = false := by simp [Token.isChar, het]
  simp [srcDecl, h1, hc, h2, hv, hp, h3, he, het, hev, h4, hn, h5, hpc, h6, hq]

/-- The `src` branch uses the URL parser at one string only: the text of the
URI token without `url(`, `)` and the apostrophes around it. -/
theorem srcDecl_congr (parse parse2 : String → Option URL) (s0 : List Token) (t0 : Token)
    (f : Typeface)
    (h : parse2 (Trim (TrimSuffix (TrimPrefix (nextSig (nextSig s0).2).1.Value "url(") ")") "'")
      = parse (Trim (TrimSuffix (TrimPrefix (nextSig (nextSig s0).2).1.Value "url(") ")") "'")) :
    srcDecl parse2 s0 t0 f = srcDecl parse s0 t0 f := by
  unfold srcDecl
  simp only []
  rw [h]

/-! ## Streams that end inside a declaration -/

theorem nextSig_no_semicolon (s : List Token) (h : ∀ x ∈ s, x.isChar ";" = false) :
    (nextSig s).1.isChar ";" = false ∧ ∀ x ∈ (nextSig s).2, x.isChar ";" = false := by
  refine ⟨?_, fun x hx => h x ((nextSig_mem s).2 x hx)⟩
  rcases (nextSig_mem s).1 with h1 | h1
  · exact h _ h1
  · rw [h1]; decide

theorem familyDecl_no_semicolon (s0 : List Token) (t0 : Token) (f : Typeface)
    (h : ∀ x ∈ s0, x.isChar ";" = false) :
    ∃ e, familyDecl s0 t0 f = .error e ∧ ∀ lg, e ≠ .unexpectedEOF lg := by
  rcases h1 : nextSig s0 with ⟨c, s1⟩
  rcases h2 : nextSig s1 with ⟨v, s2⟩
  rcases h3 : nextSig s2 with ⟨e, s3⟩
  have m1 := nextSig_no_semicolon s0 h
  rw [h1] at m1
  have m2 := nextSig_no_semicolon s1 m1.2
  rw [h2] at m2
  have m3 := nextSig_no_semicolon s2 m2.2
  rw [h3] at m3
  by_cases hc : c.isChar ":" = true
  · by_cases hv : v.Typ = TokenString
    · exact ⟨.expect ";" v, by simp [familyDecl, h1, hc, h2, hv, h3, m3.1], by simp⟩
    · exact ⟨.expect "<string>" c, by simp [familyDecl, h1, hc, h2, hv], by simp⟩
  · exact ⟨.expect ":" t0, by simp [familyDecl, h1, hc], by simp⟩

theorem styleDecl_no_semicolon (s0 : List Token) (t0 : Token) (f : Typeface)
    (h : ∀ x ∈ s0, x.isChar ";" = false) :
    ∃ e, styleDecl s0 t0 f = .error e ∧ ∀ lg, e ≠ .unexpectedEOF lg := by
  rcases h1 : nextSig s0 with ⟨c, s1⟩
  rcases h2 : nextSig s1 with ⟨v, s2⟩
  rcases h3 : nextSig s2 with ⟨e, s3⟩
  have m1 := nextSig_no_semicolon s0 h
  rw [h1] at m1
  have m2 := nextSig_no_semicolon s1 m1.2
  rw [h2] at m2
  have m3 := nextSig_no_semicolon s2 m2.2
  rw [h3] at m3
  by_cases hc : c.isChar ":" = true
  · by_cases hv : v.Typ = TokenIdent
    · exact ⟨.expect ";" v, by simp [styleDecl, h1, hc, h2, hv, h3, m3.1], by simp⟩
    · exact ⟨.expect "<ident>" c, by simp [styleDecl, h1, hc, h2, hv], by simp⟩
  · exact ⟨.expect ":" t0, by simp [styleDecl, h1, hc], by simp⟩

theorem weightDecl_no_semicolon (s0 : List Token) (t0 : Token) (f : Typeface)
    (h : ∀ x ∈ s0, x.isChar ";" = false) :
    ∃ e, weightDecl s0 t0 f = .error e ∧ ∀ lg, e ≠ .unexpectedEOF lg := by
  rcases h1 : nextSig s0 with ⟨c, s1⟩
  rcases h2 : nextSig s1 with ⟨v, s2⟩
  rcases h3 : nextSig s2 with ⟨e, s3⟩
  have m1 := nextSig_no_semicolon s0 h
  rw [h1] at m1
  have m2 := nextSig_no_semicolon s1 m1.2
  rw [h2] at m2
  have m3 := nextSig_no_semicolon s2 m2.2
  rw [h3] at m3
  by_cases hc : c.isChar ":" = true
  · by_cases hv : v.Typ = TokenNumber
    · cases ha : Atoi v.Value with
      | none => exact ⟨.convertNumber c, by simp [weightDecl, h1, hc, h2, hv, ha], by simp⟩
      | some n =>
        exact ⟨.expect ";" v, by simp [weightDecl, h1, hc, h2, hv, ha, h3, m3.1], by simp⟩
    · exact ⟨.expect "<number>" c, by simp [weightDecl, h1, hc, h2, hv], by simp⟩
  · exact ⟨.expect ":" t0, by simp [weightDecl, h1, hc], by simp⟩

theorem srcDecl_no_semicolon (parse : String → Option URL) (s0 : List Token) (t0 : Token)
    (f : Typeface) (h : ∀ x ∈ s0, x.isChar ";" = false) :
    ∃ e, srcDecl parse s0 t0 f = .error e ∧ ∀ lg, e ≠ .unexpectedEOF lg := by
  rcases h1 : nextSig s0 with ⟨c, s1⟩
  rcases h2 : nextSig s1 with ⟨v, s2⟩
  rcases h3 : nextSig s2 with ⟨e, s3⟩
  rcases h4 : nextSig s3 with ⟨n, s4⟩
  rcases h5 : nextSig s4 with ⟨p, s5⟩
  rcases h6 : nextSig s5 with ⟨q, s6⟩
  have m1 := nextSig_no_semicolon s0 h
  rw [h1] at m1
  have m2 := nextSig_no_semicolon s1 m1.2
  rw [h2] at m2
  have m3 := nextSig_no_semicolon s2 m2.2
  rw [h3] at m3
  have m4 := nextSig_no_semicolon s3 m3.2
  rw [h4] at m4
  have m5 := nextSig_no_semicolon s4 m4.2
  rw [h5] at m5
  have m6 := nextSig_no_semicolon s5 m5.2
  rw [h6] at m6
  by_cases hc : c.isChar ":" = true
  · by_cases hv : v.Typ = TokenURI
    · cases hp : parse (Trim (TrimSuffix (TrimPrefix v.Value "url(") ")") "'") with
      | none => exact ⟨.parseURL c, by simp [srcDecl, h1, hc, h2, hv, hp], by simp⟩
      | some u =>
        by_cases hf : e.Typ ≠ TokenFunction ∨ e.Value ≠ "format("
        · exact ⟨.expectFormat v e,
            by simp only [srcDecl, h1, hc, h2, hv, hp, h3, m3.1, hf]; simp, by simp⟩
        · by_cases hn : n.Typ = TokenString
          · by_cases hpc : p.isChar ")" = true
            · exact ⟨.expect ";" p,
                by simp only [srcDecl, h1, hc, h2, hv, hp, h3, m3.1, hf, h4, hn, h5, hpc, h6,
                  m6.1]; simp, by simp⟩
            · exact ⟨.expect ")" n,
                by simp only [srcDecl, h1, hc, h2, hv, hp, h3, m3.1, hf, h4, hn, h5, hpc]; simp,
                by simp⟩
          · exact ⟨.expect "<string>" e,
              by simp only [srcDecl, h1, hc, h2, hv, hp, h3, m3.1, hf, h4]; simp [hn], by simp⟩
    · exact ⟨.expect "<uri>" c, by simp [srcDecl, h1, hc, h2, hv], by simp⟩
  · exact ⟨.expect ":" t0, by simp [srcDecl, h1, hc], by simp⟩

theorem unicodeRangeLoop_no_semicolon (steps : Nat) :
    ∀ (s : List Token) (lg : Token) (acc : List String), s.length < steps →
      (∀ x ∈ s, x.isChar ";" = false) →
      ∃ lg2, unicodeRangeLoop steps s lg acc = .error (.unexpectedEOF lg2) := by
  induction steps with
  | zero => intro s lg acc h; omega
  | succ k ih =>
    intro s lg acc hlen h
    rcases hn : nextSig s with ⟨sub, s1⟩
    have m := nextSig_no_semicolon s h
    rw [hn] at m
    unfold unicodeRangeLoop
    simp only [hn]
    by_cases h1 : sub.Typ ≠ TokenUnicodeRange ∧ sub.isEnd = true
    · exact ⟨lg, by rw [if_pos h1]⟩
    · rw [if_neg h1]
      have he : sub.isEnd = false := by
        by_cases ht : sub.Typ = TokenUnicodeRange
        · exact isEnd_of_typ sub _ ht (by decide) (by decide)
        · cases hb : sub.isEnd with
          | false => rfl
          | true => exact absurd ⟨ht, hb⟩ h1
      have hlt : s1.length < k := by
        have := nextSig_length_lt s (by rw [hn]; exact he)
        rw [hn] at this
        simp only at this
        omega
      by_cases h2 : sub.Typ ≠ TokenUnicodeRange ∧ sub.isChar "," = true
      · rw [if_pos h2]
        exact ih s1 lg acc hlt m.2
      · rw [if_neg h2, if_neg (by simp [m.1])]
        exact ih s1 sub _ hlt m.2

theorem unicodeRangeDecl_no_semicolon (s0 s1 : List Token) (t0 c : Token) (f : Typeface)
    (h : ∀ x ∈ s0, x.isChar ";" = false) (h1 : nextSig s0 = (c, s1)) :
    (c.isChar ":" = true → ∃ lg2, unicodeRangeDecl s0 t0 f = .error (.unexpectedEOF lg2))
      ∧ (c.isChar ":" = false → unicodeRangeDecl s0 t0 f = .error (.expect ":" t0)) := by
  constructor
  · intro hc
    have m := nextSig_no_semicolon s0 h
    rw [h1] at m
    obtain ⟨lg2, h2⟩ := unicodeRangeLoop_no_semicolon (s1.length + 1) s1 t0 [] (by omega) m.2
    exact ⟨lg2, by simp [unicodeRangeDecl, h1, hc, h2]⟩
  · intro hc
    simp [unicodeRangeDecl, h1, hc]

/-! ## Quotes around a token text -/

theorem Trim_eq_self {s cutset : String} {c d : Char} (hs : StartsWith s c)
    (hc : c ∉ cutset.data) (he : EndsWith s d) (hd : d ∉ cutset.data) :
    Trim s cutset = s := by
  obtain ⟨l, hl⟩ := hs
  obtain ⟨k, hk⟩ := he
  have h1 : s.data.dropWhile (fun c => decide (c ∈ cutset.data)) = s.data := by
    rw [hl, List.dropWhile_cons_of_neg (by simp [hc])]
  unfold Trim
  rw [h1]
  have h2 : List.rdropWhile (fun c => decide (c ∈ cutset.data)) s.data = s.data := by
    rw [hk, List.rdropWhile_concat_neg _ _ _ (by simp [hd])]
  rw [h2]

theorem Trim_dquoted (X : String) : Trim ("\"" ++ X ++ "\"") "'" = "\"" ++ X ++ "\"" :=
  Trim_eq_self (c := '"') (d := '"')
    ((show StartsWith "\"" '"' from ⟨[], rfl⟩).append_right _ |>.append_right _)
    (by decide) (EndsWith.append_left _ (show EndsWith "\"" '"' from ⟨[], rfl⟩)) (by decide)

/-- The raw URL string that the `src` branch hands to `url.Parse` for the URI
token `url(U)`. -/
theorem urlString_unquoted (U : String) :
    Trim (TrimSuffix (TrimPrefix ("url(" ++ U ++ ")") "url(") ")") "'" = Trim U "'" := by
  rw [String.append_assoc, TrimPrefix_append, TrimSuffix_append]

/-- The raw URL string that the `src` branch hands to `url.Parse` for the URI
token `url("U")`: the double quotes stay. -/
theorem urlString_dquoted (U : String) :
    Trim (TrimSuffix (TrimPrefix ("url(\"" ++ U ++ "\")") "url(") ")") "'"
      = "\"" ++ U ++ "\"" := by
  have e1 : "url(\"" ++ U ++ "\")" = "url(" ++ (("\"" ++ U ++ "\"") ++ ")") := by
    have a1 : "url(\"" = "url(" ++ "\"" := by decide
    have a2 : "\")" = "\"" ++ ")" := by decide
    rw [a1, a2]
    simp only [String.append_assoc]
  rw [e1, TrimPrefix_append, TrimSuffix_append, Trim_dquoted]

/-- A run that is inside a block, at its closing brace, with the end of the
stream after it, returns the records parsed so far and the record of the
block. -/
theorem UnmarshalCSS_close (parse : String → Option URL) (tokens s s1 s2 : List Token)
    (tf : Typefaces) (result : List Typeface) (lg b z : Token) (f : Typeface)
    (hreach : Reaches parse tokens (.inBlock s result lg f))
    (h1 : nextSig s = (b, s1)) (hb : b.isChar "\x7d" = true)
    (h2 : nextSig s1 = (z, s2)) (hz : z.isEnd = true) :
    UnmarshalCSS parse tokens (some tf) = (some ⟨result ++ [f]⟩, none) := by
  have hr2 : Reaches parse tokens (.between s1 (result ++ [f])) :=
    Relation.ReflTransGen.tail hreach (Step.closeBlock h1 hb)
  rw [UnmarshalCSS_of_reaches parse tokens tf _ hr2, resume_between_end parse s1 s2 _ z h2 hz]
  rfl

/-! ## The token stream behind a prefix -/

theorem nextSig_append (a a1 b : List Token) (t : Token) (h : nextSig a = (t, a1))
    (he : t.isEnd = false) : nextSig (a ++ b) = (t, a1 ++ b) := by
  induction a with
  | nil =>
    simp only [nextSig, Prod.mk.injEq] at h
    rw [← h.1] at he
    exact absurd he (by decide)
  | cons x rest ih =>
    rw [List.cons_append]
    unfold nextSig at h ⊢
    by_cases hx : x.Typ = TokenS ∨ x.Typ = TokenComment
    · rw [if_pos hx] at h ⊢
      exact ih h
    · rw [if_neg hx] at h ⊢
      by_cases h2 : x.Typ = TokenEOF ∨ x.Typ = TokenError
      · simp only [scannerNext, h2, if_true, Prod.mk.injEq] at h
        rw [← h.1] at he
        simp [Token.isEnd, h2] at he
        rcases h2 with h2 | h2 <;> simp [h2] at he
      · simp only [scannerNext, h2, if_false, Prod.mk.injEq] at h ⊢
        exact ⟨h.1, by rw [← h.2]⟩

theorem nextSig_append_ws (a b : List Token)
    (h : ∀ x ∈ a, x.Typ = TokenS ∨ x.Typ = TokenComment) : nextSig (a ++ b) = nextSig b := by
  induction a with
  | nil => rfl
  | cons x rest ih =>
    rw [List.cons_append]
    conv => lhs; unfold nextSig
    rw [if_pos (h x (by simp))]
    exact ih (fun y hy => h y (List.mem_cons_of_mem _ hy))

theorem ws_of_nextSig_end (a : List Token) (hno : ∀ x ∈ a, x.isEnd = false)
    (he : (nextSig a).1.isEnd = true) : ∀ x ∈ a, x.Typ = TokenS ∨ x.Typ = TokenComment := by
  induction a with
  | nil => intro x hx; simp at hx
  | cons y rest ih =>
    unfold nextSig at he
    by_cases hy : y.Typ = TokenS ∨ y.Typ = TokenComment
    · rw [if_pos hy] at he
      intro x hx
      rcases List.mem_cons.mp hx with rfl | hx
      · exact hy
      · exact ih (fun z hz => hno z (List.mem_cons_of_mem _ hz)) he x hx
    · rw [if_neg hy] at he
      exfalso
      have h1 := hno y (by simp)
      by_cases h2 : y.Typ = TokenEOF ∨ y.Typ = TokenError
      · simp only [scannerNext, h2, if_true] at he
        rw [h1] at he
        exact absurd he (by decide)
      · simp only [scannerNext, h2, if_false] at he
        rw [h1] at he
        exact absurd he (by decide)

theorem nextSig_rest_mem (s s1 : List Token) (t : Token) (h : nextSig s = (t, s1)) :
    ∀ x ∈ s1, x ∈ s := by
  have := (nextSig_mem s).2
  rw [h] at this
  exact this

/-! ## The branches of the declaration loop behind a prefix

A branch that accepts its declaration reads tokens of the declaration only:
it accepts the same declaration, with the same record, whatever follows. -/

theorem familyDecl_append (a a2 b : List Token) (t lg2 : Token) (f f2 : Typeface)
    (h : familyDecl a t f = .ok (f2, lg2, a2)) :
    familyDecl (a ++ b) t f = .ok (f2, lg2, a2 ++ b) ∧ (∀ x ∈ a2, x ∈ a)
      ∧ f2.URL = f.URL := by
  rcases h1 : nextSig a with ⟨c, a1⟩
  rcases h2 : nextSig a1 with ⟨v, a3⟩
  rcases h3 : nextSig a3 with ⟨e, a4⟩
  simp only [familyDecl, h1, h2, h3] at h
  by_cases hc : c.isChar ":" = true
  · by_cases hv : v.Typ = TokenString
    · by_cases he : e.isChar ";" = true
      · simp only [hc, hv, he, Bool.not_true, Bool.false_eq_true, if_false, ne_eq,
          not_true_eq_false, Except.ok.injEq, Prod.mk.injEq] at h
        obtain ⟨rfl, rfl, rfl⟩ := h
        have n1 := nextSig_append a a1 b c h1 (isEnd_of_isChar c _ hc)
        have n2 := nextSig_append a1 a3 b _ h2 (isEnd_of_typ _ _ hv (by decide) (by decide))
        have n3 := nextSig_append a3 _ b e h3 (isEnd_of_isChar e _ he)
        refine ⟨by simp [familyDecl, n1, n2, n3, hc, hv, he], ?_, rfl⟩
        intro x hx
        exact nextSig_rest_mem a a1 c h1 x (nextSig_rest_mem a1 a3 _ h2 x
          (nextSig_rest_mem a3 _ e h3 x hx))
      · simp [hc, hv, he] at h
    · simp [hc, hv] at h
  · simp [hc] at h

theorem styleDecl_append (a a2 b : List Token) (t lg2 : Token) (f f2 : Typeface)
    (h : styleDecl a t f = .ok (f2, lg2, a2)) :
    styleDecl (a ++ b) t f = .ok (f2, lg2, a2 ++ b) ∧ (∀ x ∈ a2, x ∈ a)
      ∧ f2.URL = f.URL := by
  rcases h1 : nextSig a with ⟨c, a1⟩
  rcases h2 : nextSig a1 with ⟨v, a3⟩
  rcases h3 : nextSig a3 with ⟨e, a4⟩
  simp only [styleDecl, h1, h2, h3] at h
  by_cases hc : c.isChar ":" = true
  · by_cases hv : v.Typ = TokenIdent
    · by_cases he : e.isChar ";" = true
      · simp only [hc, hv, he, Bool.not_true, Bool.false_eq_true, if_false, ne_eq,
          not_true_eq_false, Except.ok.injEq, Prod.mk.injEq] at h
        obtain ⟨rfl, rfl, rfl⟩ := h
        have n1 := nextSig_append a a1 b c h1 (isEnd_of_isChar c _ hc)
        have n2 := nextSig_append a1 a3 b _ h2 (isEnd_of_typ _ _ hv (by decide) (by decide))
        have n3 := nextSig_append a3 _ b e h3 (isEnd_of_isChar e _ he)
        refine ⟨by simp [styleDecl, n1, n2, n3, hc, hv, he], ?_, rfl⟩
        intro x hx
        exact nextSig_rest_mem a a1 c h1 x (nextSig_rest_mem a1 a3 _ h2 x
          (nextSig_rest_mem a3 _ e h3 x hx))
      · simp [hc, hv, he] at h
    · simp [hc, hv] at h
  · simp [hc] at h

theorem weightDecl_append (a a2 b : List Token) (t lg2 : Token) (f f2 : Typeface)
    (h : weightDecl a t f = .ok (f2, lg2, a2)) :
    weightDecl (a ++ b) t f = .ok (f2, lg2, a2 ++ b) ∧ (∀ x ∈ a2, x ∈ a)
      ∧ f2.URL = f.URL := by
  rcases h1 : nextSig a with ⟨c, a1⟩
  rcases h2 : nextSig a1 with ⟨v, a3⟩
  rcases h3 : nextSig a3 with ⟨e, a4⟩
  simp only [weightDecl, h1, h2, h3] at h
  by_cases hc : c.isChar ":" = true
  · by_cases hv : v.Typ = TokenNumber
    · cases ha : Atoi v.Value with
      | none => simp [hc, hv, ha] at h
      | some n =>
        by_cases he : e.isChar ";" = true
        · simp only [hc, hv, he, ha, Bool.not_true, Bool.false_eq_true, if_false, ne_eq,
            not_true_eq_false, Except.ok.injEq, Prod.mk.injEq] at h
          obtain ⟨rfl, rfl, rfl⟩ := h
          have n1 := nextSig_append a a1 b c h1 (isEnd_of_isChar c _ hc)
          have n2 := nextSig_append a1 a3 b _ h2 (isEnd_of_typ _ _ hv (by decide) (by decide))
          have n3 := nextSig_append a3 _ b e h3 (isEnd_of_isChar e _ he)
          refine ⟨by simp [weightDecl, n1, n2, n3, hc, hv, he, ha], ?_, rfl⟩
          intro x hx
          exact nextSig_rest_mem a a1 c h1 x (nextSig_rest_mem a1 a3 _ h2 x
            (nextSig_rest_mem a3 _ e h3 x hx))
        · simp [hc, hv, he, ha] at h
    · simp [hc, hv] at h
  · simp [hc] at h

theorem srcDecl_append (parse : String → Option URL) (a a2 b : List Token) (t lg2 : Token)
    (f f2 : Typeface) (h : srcDecl parse a t f = .ok (f2, lg2, a2)) :
    srcDecl parse (a ++ b) t f = .ok (f2, lg2, a2 ++ b) ∧ (∀ x ∈ a2, x ∈ a)
      ∧ f2.URL ≠ none := by
  rcases h1 : nextSig a with ⟨c, a1⟩
  rcases h2 : nextSig a1 with ⟨v, a3⟩
  rcases h3 : nextSig a3 with ⟨e, a4⟩
  rcases h4 : nextSig a4 with ⟨n, a5⟩
  rcases h5 : nextSig a5 with ⟨p, a6⟩
  rcases h6 : nextSig a6 with ⟨q, a7⟩
  simp only [srcDecl, h1, h2, h3, h4, h5, h6] at h
  by_cases hc : c.isChar ":" = true
  · by_cases hv : v.Typ = TokenURI
    · have n1 := nextSig_append a a1 b c h1 (isEnd_of_isChar c _ hc)
      have n2 := nextSig_append a1 a3 b _ h2 (isEnd_of_typ _ _ hv (by decide) (by decide))
      cases hp : parse (Trim (TrimSuffix (TrimPrefix v.Value "url(") ")") "'") with
      | none => simp [hc, hv, hp] at h
      | some u =>
        by_cases he : e.isChar ";" = true
        · simp only [hc, hv, he, hp, Bool.not_true, Bool.false_eq_true, if_false, ne_eq,
            not_true_eq_false, if_true, Except.ok.injEq, Prod.mk.injEq] at h
          obtain ⟨rfl, rfl, rfl⟩ := h
          have n3 := nextSig_append a3 _ b e h3 (isEnd_of_isChar e _ he)
          refine ⟨by simp [srcDecl, n1, n2, n3, hc, hv, he, hp], ?_, by simp⟩
          intro x hx
          exact nextSig_rest_mem a a1 c h1 x (nextSig_rest_mem a1 a3 _ h2 x
            (nextSig_rest_mem a3 _ e h3 x hx))
        · by_cases hf : e.Typ ≠ TokenFunction ∨ e.Value ≠ "format("
          · simp [hc, hv, he, hp, hf] at h
          · have hf1 : e.Typ = TokenFunction := by
              by_contra h0; exact hf (Or.inl h0)
            have hf2 : e.Value = "format(" := by
              by_contra h0; exact hf (Or.inr h0)
            by_cases hn : n.Typ = TokenString
            · by_cases hpc : p.isChar ")" = true
              · by_cases hq : q.isChar ";" = true
                · simp only [hc, hv, he, hp, hf1, hf2, hn, hpc, hq, Bool.not_true,
                    Bool.false_eq_true, if_false, ne_eq, not_true_eq_false, or_self,
                    Except.ok.injEq, Prod.mk.injEq] at h
                  obtain ⟨rfl, rfl, rfl⟩ := h
                  have n3 := nextSig_append a3 _ b e h3
                    (isEnd_of_typ _ _ hf1 (by decide) (by decide))
                  have n4 := nextSig_append a4 _ b n h4
                    (isEnd_of_typ _ _ hn (by decide) (by decide))
                  have n5 := nextSig_append a5 _ b _ h5 (isEnd_of_isChar _ _ hpc)
                  have n6 := nextSig_append a6 _ b q h6 (isEnd_of_isChar q _ hq)
                  refine ⟨by simp [srcDecl, n1, n2, n3, n4, n5, n6, hc, hv, he, hp, hf1, hf2,
                    hn, hpc, hq], ?_, by simp⟩
                  intro x hx
                  exact nextSig_rest_mem a a1 c h1 x (nextSig_rest_mem a1 a3 _ h2 x
                    (nextSig_rest_mem a3 _ e h3 x (nextSig_rest_mem a4 _ n h4 x
                    (nextSig_rest_mem a5 _ _ h5 x (nextSig_rest_mem a6 _ q h6 x hx)))))
                · simp [hc, hv, he, hp, hf1, hf2, hn, hpc, hq] at h
              · simp [hc, hv, he, hp, hf1, hf2, hn, hpc] at h
            · simp [hc, hv, he, hp, hf1, hf2, hn] at h
    · simp [hc, hv] at h
  · simp [hc] at h

theorem unicodeRangeLoop_append (steps : Nat) :
    ∀ (a a2 b : List Token) (lg lg2 : Token) (acc r : List String),
      unicodeRangeLoop steps a lg acc = .ok (r, lg2, a2) →
      (∀ m, steps ≤ m → unicodeRangeLoop m (a ++ b) lg acc = .ok (r, lg2, a2 ++ b))
        ∧ ∀ x ∈ a2, x ∈ a := by
  induction steps with
  | zero => intro a a2 b lg lg2 acc r h; simp [unicodeRangeLoop] at h
  | succ k ih =>
    intro a a2 b lg lg2 acc r h
    rcases hn : nextSig a with ⟨sub, a1⟩
    unfold unicodeRangeLoop at h
    simp only [hn] at h
    by_cases h1 : sub.Typ ≠ TokenUnicodeRange ∧ sub.isEnd = true
    · rw [if_pos h1] at h
      simp at h
    · rw [if_neg h1] at h
      have he : sub.isEnd = false := by
        by_cases ht : sub.Typ = TokenUnicodeRange
        · exact isEnd_of_typ sub _ ht (by decide) (by decide)
        · cases hb : sub.isEnd with
          | false => rfl
          | true => exact absurd ⟨ht, hb⟩ h1
      have n1 := nextSig_append a a1 b sub hn he
      have hmem := nextSig_rest_mem a a1 sub hn
      by_cases h2 : sub.Typ ≠ TokenUnicodeRange ∧ sub.isChar "," = true
      · rw [if_pos h2] at h
        obtain ⟨i1, i2⟩ := ih a1 a2 b lg lg2 acc r h
        refine ⟨?_, fun x hx => hmem x (i2 x hx)⟩
        intro m hm
        obtain ⟨m2, rfl⟩ : ∃ m2, m = m2 + 1 := ⟨m - 1, by omega⟩
        unfold unicodeRangeLoop
        simp only [n1]
        rw [if_neg h1, if_pos h2]
        exact i1 m2 (by omega)
      · rw [if_neg h2] at h
        by_cases h3 : sub.Typ ≠ TokenUnicodeRange ∧ sub.isChar ";" = true
        · rw [if_pos h3] at h
          simp only [Except.ok.injEq, Prod.mk.injEq] at h
          obtain ⟨rfl, rfl, rfl⟩ := h
          refine ⟨?_, hmem⟩
          intro m hm
          obtain ⟨m2, rfl⟩ : ∃ m2, m = m2 + 1 := ⟨m - 1, by omega⟩
          unfold unicodeRangeLoop
          simp only [n1]
          rw [if_neg h1, if_neg h2, if_pos h3]
        · rw [if_neg h3] at h
          obtain ⟨i1, i2⟩ := ih a1 a2 b sub lg2 _ r h
          refine ⟨?_, fun x hx => hmem x (i2 x hx)⟩
          intro m hm
          obtain ⟨m2, rfl⟩ : ∃ m2, m = m2 + 1 := ⟨m - 1, by omega⟩
          unfold unicodeRangeLoop
          simp only [n1]
          rw [if_neg h1, if_neg h2, if_neg h3]
          exact i1 m2 (by omega)

theorem unicodeRangeDecl_append (a a2 b : List Token) (t lg2 : Token) (f f2 : Typeface)
    (h : unicodeRangeDecl a t f = .ok (f2, lg2, a2)) :
    unicodeRangeDecl (a ++ b) t f = .ok (f2, lg2, a2 ++ b) ∧ (∀ x ∈ a2, x ∈ a)
      ∧ f2.URL = f.URL := by
  rcases h1 : nextSig a with ⟨c, a1⟩
  simp only [unicodeRangeDecl, h1] at h
  by_cases hc : c.isChar ":" = true
  · simp only [hc, Bool.not_true, Bool.false_eq_true, if_false] at h
    cases hl : unicodeRangeLoop (a1.length + 1) a1 t [] with
    | error e => simp [hl] at h
    | ok res =>
      obtain ⟨r, lg3, a3⟩ := res
      simp only [hl, Except.ok.injEq, Prod.mk.injEq] at h
      obtain ⟨rfl, rfl, rfl⟩ := h
      have n1 := nextSig_append a a1 b c h1 (isEnd_of_isChar c _ hc)
      obtain ⟨i1, i2⟩ := unicodeRangeLoop_append _ a1 _ b t _ [] r hl
      have i3 := i1 ((a1 ++ b).length + 1) (by simp)
      refine ⟨by simp only [unicodeRangeDecl, n1, hc, Bool.not_true, Bool.false_eq_true,
        if_false, i3], fun x hx => nextSig_rest_mem a a1 c h1 x (i2 x hx), rfl⟩
  · simp [hc] at h

theorem declaration_append (parse : String → Option URL) (a a2 b : List Token) (t lg2 : Token)
    (f f2 : Typeface) (h : declaration parse a t f = some (.ok (f2, lg2, a2))) :
    declaration parse (a ++ b) t f = some (.ok (f2, lg2, a2 ++ b)) ∧ (∀ x ∈ a2, x ∈ a)
      ∧ ((t.Typ = TokenIdent ∧ t.Value = "src") → f2.URL ≠ none)
      ∧ (¬ (t.Typ = TokenIdent ∧ t.Value = "src") → f2.URL = f.URL) := by
  by_cases ht : t.Typ = TokenIdent
  · by_cases h1 : t.Value = "font-family"
    · rw [declaration_family parse _ t f ht h1] at h ⊢
      obtain ⟨i1, i2, i3⟩ := familyDecl_append a a2 b t lg2 f f2 (Option.some.inj h)
      exact ⟨congrArg some i1, i2, fun hs => absurd (h1.symm.trans hs.2) (by decide),
        fun _ => i3⟩
    · by_cases h2 : t.Value = "font-style"
      · rw [declaration_style parse _ t f ht h2] at h ⊢
        obtain ⟨i1, i2, i3⟩ := styleDecl_append a a2 b t lg2 f f2 (Option.some.inj h)
        exact ⟨congrArg some i1, i2, fun hs => absurd (h2.symm.trans hs.2) (by decide),
          fun _ => i3⟩
      · by_cases h3 : t.Value = "font-weight"
        · rw [declaration_weight parse _ t f ht h3] at h ⊢
          obtain ⟨i1, i2, i3⟩ := weightDecl_append a a2 b t lg2 f f2 (Option.some.inj h)
          exact ⟨congrArg some i1, i2, fun hs => absurd (h3.symm.trans hs.2) (by decide),
            fun _ => i3⟩
        · by_cases h4 : t.Value = "src"
          · rw [declaration_src parse _ t f ht h4] at h ⊢
            obtain ⟨i1, i2, i3⟩ := srcDecl_append parse a a2 b t lg2 f f2 (Option.some.inj h)
            exact ⟨congrArg some i1, i2, fun _ => i3, fun hs => absurd ⟨ht, h4⟩ hs⟩
          · by_cases h5 : t.Value = "unicode-range"
            · rw [declaration_unicode_range parse _ t f ht h5] at h ⊢
              obtain ⟨i1, i2, i3⟩ :=
                unicodeRangeDecl_append a a2 b t lg2 f f2 (Option.some.inj h)
              exact ⟨congrArg some i1, i2, fun hs => absurd hs.2 h4, fun _ => i3⟩
            · simp [declaration, ht, h1, h2, h3, h4, h5] at h
  · simp [declaration, ht] at h

theorem declaration_none_of_isSkipped (parse : String → Option URL) (s : List Token)
    (t : Token) (f : Typeface) (h : t.isSkipped = true) :
    t.isEnd = false ∧ t.isChar "\x7d" = false ∧ declaration parse s t f = none := by
  simp only [Token.isSkipped, Bool.and_eq_true, Bool.not_eq_true', Bool.and_eq_false_iff,
    decide_eq_false_iff_not, List.mem_cons, List.mem_singleton, List.not_mem_nil, or_false,
    not_or] at h
  obtain ⟨⟨h1, h2⟩, h3⟩ := h
  refine ⟨h1, h2, ?_⟩
  rcases h3 with h3 | h3
  · simp [declaration, h3]
  · simp [declaration, h3.1, h3.2.1, h3.2.2.1, h3.2.2.2.1, h3.2.2.2.2]

theorem declaration_none (parse : String → Option URL) (a b : List Token) (t : Token)
    (f f2 : Typeface) (h : declaration parse a t f = none) :
    declaration parse b t f2 = none := by
  unfold declaration at h ⊢
  split_ifs at h ⊢
  rfl

theorem Step_append (parse : String → Option URL) (b : List Token) (c c2 : Config)
    (h : Step parse c c2) : Step parse (c.append b) (c2.append b) := by
  cases h with
  | @skip s s1 result p hn he hp =>
    exact Step.skip (nextSig_append s s1 b p hn he) he hp
  | @openBlock s s1 s2 result p q hn ht hv hn2 hq =>
    exact Step.openBlock
      (nextSig_append s s1 b p hn (isEnd_of_typ p _ ht (by decide) (by decide))) ht hv
      (nextSig_append s1 s2 b q hn2 (isEnd_of_isChar q _ hq)) hq
  | @decl s s1 s2 result lg lg2 t f f2 hn he hc hd =>
    exact Step.decl (nextSig_append s s1 b t hn he) he hc
      (declaration_append parse s1 s2 b t lg2 f f2 hd).1
  | @skipToken s s1 result lg t f hn he hc hd =>
    exact Step.skipToken (nextSig_append s s1 b t hn he) he hc
      (declaration_none parse s1 (s1 ++ b) t f f hd)
  | @closeBlock s s1 result lg t f hn hc =>
    exact Step.closeBlock (nextSig_append s s1 b t hn (isEnd_of_isChar t _ hc)) hc

/-- A run on a stream goes through the same points when tokens follow the
stream. -/
theorem Reaches_append (parse : String → Option URL) (tokens b : List Token) (c : Config)
    (h : Reaches parse tokens c) : Reaches parse (tokens ++ b) (c.append b) := by
  induction h with
  | refl => exact Relation.ReflTransGen.refl
  | tail _ hstep ih => exact Relation.ReflTransGen.tail ih (Step_append parse b _ _ hstep)

/-- At a declaration boundary, a sequence of skipped tokens is passed over: the
rest of the run is the same without it. -/
theorem resume_skipped (parse : String → Option URL) (result : List Typeface) (lg : Token)
    (f : Typeface) (post : List Token) :
    ∀ ins : List Token, (∀ t ∈ ins, t.isSkipped = true) →
      resume parse (.inBlock (ins ++ post) result lg f)
        = resume parse (.inBlock post result lg f) := by
  intro ins
  induction ins with
  | nil => intro _; rfl
  | cons x rest ih =>
    intro h
    have ih2 := ih (fun t ht => h t (List.mem_cons_of_mem _ ht))
    rw [← ih2]
    by_cases hx : x.Typ = TokenS ∨ x.Typ = TokenComment
    · have e : nextSig (x :: (rest ++ post)) = nextSig (rest ++ post) := by
        conv => lhs; unfold nextSig
        rw [if_pos hx]
      simp only [resume, List.cons_append]
      have hlen : (rest ++ post).length + 1 = (x :: (rest ++ post)).length := by simp
      rw [declarationLoop, declarationLoop, e]
      rcases hn : nextSig (rest ++ post) with ⟨t, s1⟩
      simp only []
      by_cases he : t.isEnd = true
      · simp [he]
      · have he2 : t.isEnd = false := by simpa using he
        have hlt : s1.length < (rest ++ post).length := by
          have := nextSig_length_lt (rest ++ post) (by rw [hn]; exact he2)
          rwa [hn] at this
        simp only [he2, Bool.false_eq_true, if_false]
        by_cases hc : t.isChar "\x7d" = true
        · simp [hc]
        · simp only [hc, if_false]
          cases hd : declaration parse s1 t f with
          | none =>
            simp only []
            rw [declarationLoop_mono parse _ (rest ++ post).length s1 lg f
              (by rw [List.length_cons]; omega) hlt]
          | some d =>
            cases d with
            | error e => rfl
            | ok r =>
              obtain ⟨f2, lg2, s2⟩ := r
              have hle := (declaration_steps parse s1 t f).2 f2 lg2 s2 hd
              simp only []
              rw [declarationLoop_mono parse _ (rest ++ post).length s2 lg2 f2
                (by rw [List.length_cons]; omega) (by omega)]
    · obtain ⟨h1, h2, h3⟩ :=
        declaration_none_of_isSkipped parse (rest ++ post) x f (h x (by simp))
      have hne : ¬ (x.Typ = TokenEOF ∨ x.Typ = TokenError) := by
        intro h0
        simp only [Token.isEnd, Bool.or_eq_false_iff, decide_eq_false_iff_not] at h1
        rcases h0 with h0 | h0
        · exact h1.1 h0
        · exact h1.2 h0
      have e : nextSig (x :: (rest ++ post)) = (x, rest ++ post) := by
        conv => lhs; unfold nextSig
        rw [if_neg hx]
        simp only [scannerNext, hne, if_false]
      exact resume_step parse _ _ (Step.skipToken e h1 h2 h3)

/-! ## The loops behind a prefix -/

theorem declarationLoop_append (parse : String → Option URL) (b : List Token) (n : Nat) :
    ∀ (a a2 : List Token) (lg : Token) (f f2 : Typeface),
      declarationLoop parse n a lg f = .ok (f2, a2) →
      (∀ m, n ≤ m → declarationLoop parse m (a ++ b) lg f = .ok (f2, a2 ++ b))
        ∧ ∀ x ∈ a2, x ∈ a := by
  induction n with
  | zero => intro a a2 lg f f2 h; simp [declarationLoop] at h
  | succ k ih =>
    intro a a2 lg f f2 h
    rcases hn : nextSig a with ⟨t, a1⟩
    unfold declarationLoop at h
    simp only [hn] at h
    by_cases he : t.isEnd = true
    · simp [he] at h
    · have he2 : t.isEnd = false := by simpa using he
      have n1 := nextSig_append a a1 b t hn he2
      have hmem := nextSig_rest_mem a a1 t hn
      simp only [he2, Bool.false_eq_true, if_false] at h
      by_cases hc : t.isChar "\x7d" = true
      · simp only [hc, if_true, Except.ok.injEq, Prod.mk.injEq] at h
        obtain ⟨rfl, rfl⟩ := h
        refine ⟨?_, hmem⟩
        intro m hm
        obtain ⟨m2, rfl⟩ : ∃ m2, m = m2 + 1 := ⟨m - 1, by omega⟩
        unfold declarationLoop
        simp only [n1, he2, Bool.false_eq_true, if_false, hc, if_true]
      · simp only [hc, if_false] at h
        cases hd : declaration parse a1 t f with
        | none =>
          simp only [hd] at h
          obtain ⟨i1, i2⟩ := ih a1 a2 lg f f2 h
          refine ⟨?_, fun x hx => hmem x (i2 x hx)⟩
          intro m hm
          obtain ⟨m2, rfl⟩ : ∃ m2, m = m2 + 1 := ⟨m - 1, by omega⟩
          unfold declarationLoop
          simp only [n1, he2, Bool.false_eq_true, if_false, hc,
            declaration_none parse a1 (a1 ++ b) t f f hd]
          exact i1 m2 (by omega)
        | some d =>
          cases d with
          | error e => simp [hd] at h
          | ok r =>
            obtain ⟨f3, lg3, a3⟩ := r
            simp only [hd] at h
            obtain ⟨d1, d2, _⟩ := declaration_append parse a1 a3 b t lg3 f f3 hd
            obtain ⟨i1, i2⟩ := ih a3 a2 lg3 f3 f2 h
            refine ⟨?_, fun x hx => hmem x (d2 x (i2 x hx))⟩
            intro m hm
            obtain ⟨m2, rfl⟩ : ∃ m2, m = m2 + 1 := ⟨m - 1, by omega⟩
            unfold declarationLoop
            simp only [n1, he2, Bool.false_eq_true, if_false, hc, d1]
            exact i1 m2 (by omega)

/-- The records of a successful run of the outer loop are the records it
started with followed by records that do not depend on them. -/
theorem blockLoop_acc (parse : String → Option URL) (n : Nat) :
    ∀ (s : List Token) (acc0 R : List Typeface), blockLoop parse n s acc0 = .ok R →
      ∃ R2, R = acc0 ++ R2 ∧ ∀ acc, blockLoop parse n s acc = .ok (acc ++ R2) := by
  induction n with
  | zero => intro s acc0 R h; simp [blockLoop] at h
  | succ k ih =>
    intro s acc0 R h
    rcases hn : nextSig s with ⟨p, s1⟩
    rcases hn2 : nextSig s1 with ⟨q, s2⟩
    unfold blockLoop at h
    simp only [hn, hn2] at h
    by_cases he : p.isEnd = true
    · simp only [he, if_true, Except.ok.injEq] at h
      subst h
      refine ⟨[], by simp, ?_⟩
      intro acc
      unfold blockLoop
      simp [hn, he]
    · simp only [he, if_false] at h
      by_cases hp : p.Typ ≠ TokenAtKeyword ∨ p.Value ≠ "@font-face"
      · rw [if_pos hp] at h
        obtain ⟨R2, h1, h2⟩ := ih s1 acc0 R h
        refine ⟨R2, h1, ?_⟩
        intro acc
        unfold blockLoop
        simp only [hn, he, if_false]
        rw [if_pos hp]
        exact h2 acc
      · rw [if_neg hp] at h
        by_cases hq : q.isChar "\x7b" = true
        · simp only [hq, Bool.not_true, Bool.false_eq_true, if_false] at h
          cases hd : declarationLoop parse (s2.length + 1) s2 q Typeface.zero with
          | error e => simp [hd] at h
          | ok r =>
            obtain ⟨f, s3⟩ := r
            simp only [hd] at h
            obtain ⟨R2, h1, h2⟩ := ih s3 (acc0 ++ [f]) R h
            refine ⟨f :: R2, by rw [h1]; simp, ?_⟩
            intro acc
            unfold blockLoop
            simp only [hn, hn2, he, if_false]
            rw [if_neg hp]
            simp only [hq, Bool.not_true, Bool.false_eq_true, if_false, hd]
            rw [h2 (acc ++ [f])]
            simp
        · simp [hq] at h

/-- A successful run of the outer loop on a stream without end tokens, when
tokens follow the stream: the run goes on with the tokens that follow and the
records of the stream. -/
theorem blockLoop_append (parse : String → Option URL) (B : List Token) (n : Nat) :
    ∀ (A : List Token) (acc R : List Typeface), (∀ x ∈ A, x.isEnd = false) →
      blockLoop parse n A acc = .ok R →
      ∀ m, n ≤ m → (A ++ B).length < m →
        blockLoop parse m (A ++ B) acc = blockLoop parse m B R := by
  induction n with
  | zero => intro A acc R _ h; simp [blockLoop] at h
  | succ k ih =>
    intro A acc R hno h m hm hlen
    obtain ⟨m2, rfl⟩ : ∃ m2, m = m2 + 1 := ⟨m - 1, by omega⟩
    rcases hn : nextSig A with ⟨p, A1⟩
    rcases hn2 : nextSig A1 with ⟨q, A2⟩
    have hmem1 := nextSig_rest_mem A A1 p hn
    unfold blockLoop at h
    simp only [hn, hn2] at h
    by_cases he : p.isEnd = true
    · simp only [he, if_true, Except.ok.injEq] at h
      subst h
      have hws := ws_of_nextSig_end A hno (by rw [hn]; exact he)
      have e := nextSig_append_ws A B hws
      conv => lhs; unfold blockLoop
      conv => rhs; unfold blockLoop
      simp only [e]
    · have he2 : p.isEnd = false := by simpa using he
      have n1 := nextSig_append A A1 B p hn he2
      have hlt : A1.length < A.length := by
        have := nextSig_length_lt A (by rw [hn]; exact he2)
        rwa [hn] at this
      simp only [he, if_false] at h
      have hlenB : B.length < m2 := by
        simp only [List.length_append] at hlen
        omega
      by_cases hp : p.Typ ≠ TokenAtKeyword ∨ p.Value ≠ "@font-face"
      · rw [if_pos hp] at h
        have i := ih A1 acc R (fun x hx => hno x (hmem1 x hx)) h m2 (by omega)
          (by simp only [List.length_append] at hlen ⊢; omega)
        conv => lhs; unfold blockLoop
        simp only [n1, he, if_false]
        rw [if_pos hp, i]
        exact blockLoop_mono parse m2 (m2 + 1) B R hlenB (by omega)
      · rw [if_neg hp] at h
        by_cases hq : q.isChar "\x7b" = true
        · simp only [hq, Bool.not_true, Bool.false_eq_true, if_false] at h
          have n2 := nextSig_append A1 A2 B q hn2 (isEnd_of_isChar q _ hq)
          have hmem2 := nextSig_rest_mem A1 A2 q hn2
          have hle2 : A2.length ≤ A1.length := by
            have := nextSig_length_le A1
            rwa [hn2] at this
          cases hd : declarationLoop parse (A2.length + 1) A2 q Typeface.zero with
          | error e => simp [hd] at h
          | ok r =>
            obtain ⟨f, A3⟩ := r
            simp only [hd] at h
            obtain ⟨d1, d2⟩ := declarationLoop_append parse B _ A2 A3 q Typeface.zero f hd
            have hl3 := (declarationLoop_steps parse (A2.length + 1) A2 q Typeface.zero
              (by omega)).2 f A3 hd
            have i := ih A3 (acc ++ [f]) R
              (fun x hx => hno x (hmem1 x (hmem2 x (d2 x hx)))) h m2 (by omega)
              (by simp only [List.length_append] at hlen ⊢; omega)
            conv => lhs; unfold blockLoop
            simp only [n1, n2, he, if_false]
            rw [if_neg hp]
            simp only [hq, Bool.not_true, Bool.false_eq_true, if_false,
              d1 ((A2 ++ B).length + 1) (by simp), i]
            exact blockLoop_mono parse m2 (m2 + 1) B R hlenB (by omega)
        · simp [hq] at h

/-! ## The unicode-range loop on other tokens, and the record of a block -/

/-- A token of the unicode-range list that is neither a unicode-range, an end,
a comma nor a semicolon is appended to the list, and the loop goes on. -/
theorem unicodeRangeLoop_other (steps : Nat) (s s1 : List Token) (lg t : Token)
    (acc : List String) (h : nextSig s = (t, s1)) (h1 : t.Typ ≠ TokenUnicodeRange)
    (h2 : t.isEnd = false) (h3 : t.isChar "," = false) (h4 : t.isChar ";" = false) :
    unicodeRangeLoop (steps + 1) s lg acc = unicodeRangeLoop steps s1 t (acc ++ [t.Value]) := by
  conv => lhs; unfold unicodeRangeLoop
  simp [h, h1, h2, h3, h4]

theorem ident_of_declaration (parse : String → Option URL) (s : List Token) (t : Token)
    (f : Typeface) (d : Except ParseError (Typeface × Token × List Token))
    (h : declaration parse s t f = some d) : t.Typ = TokenIdent := by
  by_contra ht
  simp [declaration, ht] at h

theorem getElem?_of_blockLoop (parse : String → Option URL) (n : Nat) (s : List Token)
    (result R : List Typeface) (f : Typeface)
    (h : blockLoop parse n s (result ++ [f]) = .ok R) : R.get? result.length = some f := by
  obtain ⟨R2, h1, _⟩ := blockLoop_acc parse n s _ R h
  rw [h1]
  simp [List.getElem_append_right]

/-! ## The two layouts of a record -/

theorem CSS_eq_recordBody (t : Typeface) : t.CSS = recordBody "" "" t ++ "\x7d" := by
  unfold Typeface.CSS recordBody
  apply String.ext
  by_cases h : t.UnicodeRange.length > 0
  · simp only [h, if_true, String.data_append, List.append_assoc]
    rfl
  · simp only [h, if_false, String.data_append, List.append_assoc]
    rfl

theorem PrettyCSS_eq_recordBody (t : Typeface) :
    t.PrettyCSS = recordBody " " "\n\t" t ++ ";" ++ "\n" ++ "\x7d" := by
  unfold Typeface.PrettyCSS recordBody
  apply String.ext
  by_cases h : t.UnicodeRange.length > 0
  · simp only [h, if_true, String.data_append, List.append_assoc]
    rfl
  · simp only [h, if_false, String.data_append, List.append_assoc]
    rfl

theorem stripWs_append (a b : String) : stripWs (a ++ b) = stripWs a ++ stripWs b := by
  apply String.ext
  simp [stripWs, String.data_append]

theorem stripWs_of_ws (a : String) (h : ∀ c ∈ a.data, isWc c = true) : stripWs a = "" := by
  apply String.ext
  simp only [stripWs]
  rw [List.filter_eq_nil_iff]
  intro c hc
  simp [h c hc]

theorem stripWs_Join (sp : String) (h : ∀ c ∈ sp.data, isWc c = true) (rs : List String) :
    stripWs (Join rs ("," ++ sp)) = stripWs (Join rs ",") := by
  induction rs with
  | nil => rfl
  | cons a rest ih =>
    cases rest with
    | nil => rfl
    | cons b rest =>
      simp only [Join] at ih ⊢
      rw [stripWs_append, stripWs_append, stripWs_append, stripWs_append, stripWs_append,
        stripWs_of_ws sp h, ih]
      simp

/-- Deleting the white space of a layout with white-space separators gives the
layout without separators. -/
theorem stripWs_recordBody (sp brk : String) (t : Typeface)
    (hsp : ∀ c ∈ sp.data, isWc c = true) (hbrk : ∀ c ∈ brk.data, isWc c = true) :
    stripWs (recordBody sp brk t) = stripWs (recordBody "" "" t) := by
  have e0 : stripWs "" = "" := rfl
  have ej := stripWs_Join sp hsp t.UnicodeRange
  have ej2 : Join t.UnicodeRange ("," ++ "") = Join t.UnicodeRange "," := by
    rw [String.append_empty]
  unfold recordBody
  by_cases h : t.UnicodeRange.length > 0
  · simp only [h, if_true, stripWs_append, stripWs_of_ws sp hsp, stripWs_of_ws brk hbrk,
      e0, ej, ej2]
  · simp only [h, if_false, stripWs_append, stripWs_of_ws sp hsp, stripWs_of_ws brk hbrk,
      e0]

theorem stripWs_PrettyCSS (t : Typeface) :
    stripWs t.PrettyCSS = stripWs (TrimSuffix t.CSS "\x7d" ++ ";\x7d") := by
  rw [CSS_eq_recordBody, TrimSuffix_append, PrettyCSS_eq_recordBody]
  have e1 : stripWs ";" ++ (stripWs "\n" ++ stripWs "\x7d") = stripWs ";\x7d" := by decide
  simp only [stripWs_append, String.append_assoc]
  rw [stripWs_recordBody " " "\n\t" t (by decide) (by decide), e1]

/-! ## Records of other formats -/

theorem urlOfFormat_singleton_ne (r : Typeface) (m : String) (h : r.Format ≠ m) :
    urlOfFormat [r] m = none := by
  simp [urlOfFormat, List.find?, h]

/-- The compact CSS of a collection of one record whose format is not one of
the five that are emitted: one rule with an empty `src:`. -/
theorem CSS_other_format (r : Typeface)
    (hfmt : r.Format ∉ ["eot", "woff2", "woff", "ttf", "svg"])
    (hfam : r.Family ≠ "") (hsty : r.Style ≠ "") (hw : 1 ≤ r.Weight) :
    Typefaces.CSS ⟨[r]⟩
      = some (cssTpl (quoteFamily r.Family) r.Style r.Weight ++ "src:" ++ "\x7d") := by
  have hurl : HasURLs ⟨[r]⟩ := by
    intro x hx hm
    simp only [List.mem_singleton] at hx
    subst hx
    exact absurd hm hfmt
  simp only [List.mem_cons, List.mem_singleton, List.not_mem_nil, or_false, not_or] at hfmt
  rw [CSS_shared [r] r.Family r.Style r.Weight hfam hsty hw (by simp)
    (by intro x hx; simp only [List.mem_singleton] at hx; subst hx; exact ⟨rfl, rfl, rfl⟩) hurl,
    urlOfFormat_singleton_ne r _ hfmt.1, urlOfFormat_singleton_ne r _ hfmt.2.1,
    urlOfFormat_singleton_ne r _ hfmt.2.2.1, urlOfFormat_singleton_ne r _ hfmt.2.2.2.1,
    urlOfFormat_singleton_ne r _ hfmt.2.2.2.2]
  simp [srcOfURLs, entriesOfURLs, Join, String.append_assoc]

theorem firstRecord_filter_formats (ts : Typefaces) (m fam s : String) (w : Int)
    (hm : m ∈ ["eot", "woff2", "woff", "ttf", "svg"]) :
    firstRecord ⟨ts.Fonts.filter
        (fun r => decide (r.Format ∈ ["eot", "woff2", "woff", "ttf", "svg"]))⟩ m fam s w
      = firstRecord ts m fam s w := by
  unfold firstRecord
  simp only [List.find?_filter]
  congr 1
  funext r
  by_cases h : r.Format = m
  · subst h
    simp [hm]
  · simp [h]

/-! ## The parser on tokens with their position, and without -/

theorem LToken.tok_Typ (t : LToken) : t.tok.Typ = t.Typ := rfl

theorem LToken.tok_Value (t : LToken) : t.tok.Value = t.Value := rfl

theorem scannerNextL_erase (eof : LToken) (he : eof.tok = ⟨TokenEOF, ""⟩) (L : List LToken) :
    scannerNext (L.map LToken.tok)
      = ((scannerNextL eof L).1.tok, (scannerNextL eof L).2.map LToken.tok) := by
  cases L with
  | nil => simp [scannerNext, scannerNextL, he]
  | cons t rest =>
    simp only [List.map_cons, scannerNext, scannerNextL, LToken.tok_Typ]
    split <;> simp

theorem nextSigL_erase (eof : LToken) (he : eof.tok = ⟨TokenEOF, ""⟩) :
    ∀ L : List LToken, nextSig (L.map LToken.tok)
      = ((nextSigL eof L).1.tok, (nextSigL eof L).2.map LToken.tok) := by
  intro L
  induction L with
  | nil => simp [nextSig, nextSigL, he]
  | cons t rest ih =>
    simp only [List.map_cons, nextSig, nextSigL, LToken.tok_Typ]
    split
    · exact ih
    · exact scannerNextL_erase eof he (t :: rest)

theorem familyDeclL_erase (eof : LToken) (he : eof.tok = ⟨TokenEOF, ""⟩) (L : List LToken)
    (t : LToken) (f : Typeface) :
    eraseDecl (familyDeclL eof L t f) = familyDecl (L.map LToken.tok) t.tok f := by
  simp only [familyDeclL, familyDecl, nextSigL_erase eof he, LToken.tok_Typ, LToken.tok_Value]
  split_ifs <;> simp [eraseDecl, LParseError.erase]

theorem styleDeclL_erase (eof : LToken) (he : eof.tok = ⟨TokenEOF, ""⟩) (L : List LToken)
    (t : LToken) (f : Typeface) :
    eraseDecl (styleDeclL eof L t f) = styleDecl (L.map LToken.tok) t.tok f := by
  simp only [styleDeclL, styleDecl, nextSigL_erase eof he, LToken.tok_Typ, LToken.tok_Value]
  split_ifs <;> simp [eraseDecl, LParseError.erase]

theorem weightDeclL_erase (eof : LToken) (he : eof.tok = ⟨TokenEOF, ""⟩) (L : List LToken)
    (t : LToken) (f : Typeface) :
    eraseDecl (weightDeclL eof L t f) = weightDecl (L.map LToken.tok) t.tok f := by
  simp only [weightDeclL, weightDecl, nextSigL_erase eof he, LToken.tok_Typ, LToken.tok_Value]
  generalize Atoi (nextSigL eof (nextSigL eof L).2).1.Value = a
  cases a <;> split_ifs <;> simp [eraseDecl, LParseError.erase]

theorem srcDeclL_erase (parse : String → Option URL) (eof : LToken)
    (he : eof.tok = ⟨TokenEOF, ""⟩) (L : List LToken) (t : LToken) (f : Typeface) :
    eraseDecl (srcDeclL parse eof L t f) = srcDecl parse (L.map LToken.tok) t.tok f := by
  simp only [srcDeclL, srcDecl, nextSigL_erase eof he, LToken.tok_Typ, LToken.tok_Value]
  generalize parse (Trim (TrimSuffix (TrimPrefix
    (nextSigL eof (nextSigL eof L).2).1.Value "url(") ")") "'") = a
  cases a <;> split_ifs <;> simp [eraseDecl, LParseError.erase]

theorem unicodeRangeLoopL_erase (eof : LToken) (he : eof.tok = ⟨TokenEOF, ""⟩) (n : Nat) :
    ∀ (L : List LToken) (lg : LToken) (acc : List String),
      eraseRanges (unicodeRangeLoopL eof n L lg acc)
        = unicodeRangeLoop n (L.map LToken.tok) lg.tok acc := by
  induction n with
  | zero => intro L lg acc; simp [unicodeRangeLoopL, unicodeRangeLoop, eraseRanges,
      LParseError.erase]
  | succ n ih =>
    intro L lg acc
    simp only [unicodeRangeLoopL, unicodeRangeLoop, nextSigL_erase eof he, LToken.tok_Typ,
      LToken.tok_Value]
    split_ifs
    · simp [eraseRanges, LParseError.erase]
    · exact ih _ _ _
    · simp [eraseRanges]
    · exact ih _ _ _

theorem unicodeRangeDeclL_erase (eof : LToken) (he : eof.tok = ⟨TokenEOF, ""⟩)
    (L : List LToken) (t : LToken) (f : Typeface) :
    eraseDecl (unicodeRangeDeclL eof L t f) = unicodeRangeDecl (L.map LToken.tok) t.tok f := by
  simp only [unicodeRangeDeclL, unicodeRangeDecl, nextSigL_erase eof he, LToken.tok_Typ,
    LToken.tok_Value]
  split_ifs
  · simp [eraseDecl, LParseError.erase]
  · rw [← unicodeRangeLoopL_erase eof he, List.length_map]
    generalize unicodeRangeLoopL eof ((nextSigL eof L).2.length + 1) (nextSigL eof L).2 t [] = a
    cases a with
    | error e => simp [eraseDecl, eraseRanges]
    | ok r =>
      obtain ⟨r1, lg, s⟩ := r
      simp [eraseDecl, eraseRanges]

theorem declarationL_erase (parse : String → Option URL) (eof : LToken)
    (he : eof.tok = ⟨TokenEOF, ""⟩) (L : List LToken) (t : LToken) (f : Typeface) :
    (declarationL parse eof L t f).map eraseDecl
      = declaration parse (L.map LToken.tok) t.tok f := by
  simp only [declarationL, declaration, LToken.tok_Typ, LToken.tok_Value]
  split_ifs
  · simp [familyDeclL_erase eof he]
  · simp [styleDeclL_erase eof he]
  · simp [weightDeclL_erase eof he]
  · simp [srcDeclL_erase parse eof he]
  · simp [unicodeRangeDeclL_erase eof he]
  · simp

theorem declarationLoopL_erase (parse : String → Option URL) (eof : LToken)
    (he : eof.tok = ⟨TokenEOF, ""⟩) (n : Nat) :
    ∀ (L : List LToken) (lg : LToken) (f : Typeface),
      eraseBlock (declarationLoopL parse eof n L lg f)
        = declarationLoop parse n (L.map LToken.tok) lg.tok f := by
  induction n with
  | zero => intro L lg f; simp [declarationLoopL, declarationLoop, eraseBlock,
      LParseError.erase]
  | succ n ih =>
    intro L lg f
    simp only [declarationLoopL, declarationLoop, nextSigL_erase eof he]
    split_ifs
    · simp [eraseBlock, LParseError.erase]
    · simp [eraseBlock]
    · rw [← declarationL_erase parse eof he]
      cases declarationL parse eof (nextSigL eof L).2 (nextSigL eof L).1 f with
      | none => simp only [Option.map_none']; exact ih _ _ _
      | some r =>
        cases r with
        | error e => simp [eraseDecl, eraseBlock]
        | ok v =>
          obtain ⟨f2, lg2, s2⟩ := v
          simp only [Option.map_some', eraseDecl]
          exact ih _ _ _

theorem blockLoopL_erase (parse : String → Option URL) (eof : LToken)
    (he : eof.tok = ⟨TokenEOF, ""⟩) (n : Nat) :
    ∀ (L : List LToken) (result : List Typeface),
      eraseRecords (blockLoopL parse eof n L result)
        = blockLoop parse n (L.map LToken.tok) result := by
  induction n with
  | zero => intro L result; simp [blockLoopL, blockLoop, eraseRecords, LParseError.erase]
  | succ n ih =>
    intro L result
    simp only [blockLoopL, blockLoop, nextSigL_erase eof he, LToken.tok_Typ, LToken.tok_Value]
    split_ifs
    · simp [eraseRecords]
    · exact ih _ _
    · simp [eraseRecords, LParseError.erase]
    · rw [← declarationLoopL_erase parse eof he, List.length_map]
      cases declarationLoopL parse eof ((nextSigL eof (nextSigL eof L).2).2.length + 1)
          (nextSigL eof (nextSigL eof L).2).2 (nextSigL eof (nextSigL eof L).2).1
          Typeface.zero with
      | error e => simp [eraseBlock, eraseRecords]
      | ok v =>
        obtain ⟨f2, s2⟩ := v
        simp only [eraseBlock]
        exact ih _ _

/-- The parser on tokens with their position does what the parser on the types
and texts of the tokens does: the same collection, and the same error up to the
positions of the tokens it quotes. -/
theorem UnmarshalCSSL_erase (parse : String → Option URL) (eof : LToken)
    (he : eof.tok = ⟨TokenEOF, ""⟩) (L : List LToken) (tf : Option Typefaces) :
    ((UnmarshalCSSL parse eof L tf).1, (UnmarshalCSSL parse eof L tf).2.map LParseError.erase)
      = UnmarshalCSS parse (L.map LToken.tok) tf := by
  cases tf with
  | none => simp [UnmarshalCSSL, UnmarshalCSS, LParseError.erase]
  | some tf =>
    simp only [UnmarshalCSSL, UnmarshalCSS]
    rw [← blockLoopL_erase parse eof he, List.length_map]
    cases blockLoopL parse eof (L.length + 1) L [] with
    | error e => simp [eraseRecords]
    | ok r => simp [eraseRecords]

theorem map_tok_locateFrom : ∀ (s : List Token) (p : Nat × Nat),
    (locateFrom s p).map LToken.tok = s := by
  intro s
  induction s with
  | nil => intro p; rfl
  | cons t rest ih =>
    intro p
    simp only [locateFrom, List.map_cons, ih]
    rfl

theorem map_tok_locate (s : List Token) : (locate s).map LToken.tok = s :=
  map_tok_locateFrom s (1, 1)

/-- Tokens that the declaration loop skips, inserted at a declaration boundary
inside a block, leave the result of the parser on the types and texts of the
tokens as it is. -/
theorem UnmarshalCSS_skipped (parse : String → Option URL) (pre r ins post : List Token)
    (tf : Typefaces) (result : List Typeface) (lg : Token) (f : Typeface)
    (hpre : Reaches parse pre (.inBlock r result lg f))
    (hr : ∀ t ∈ r, t.isSkipped = true) (hins : ∀ t ∈ ins, t.isSkipped = true) :
    UnmarshalCSS parse (pre ++ (ins ++ post)) (some tf)
      = UnmarshalCSS parse (pre ++ post) (some tf) := by
  have h1 := Reaches_append parse pre (ins ++ post) _ hpre
  have h2 := Reaches_append parse pre post _ hpre
  simp only [Config.append] at h1 h2
  rw [UnmarshalCSS_of_reaches parse _ tf _ h1, UnmarshalCSS_of_reaches parse _ tf _ h2,
    ← List.append_assoc, resume_skipped parse result lg f post (r ++ ins)
      (fun t ht => (List.mem_append.mp ht).elim (hr t) (hins t)),
    resume_skipped parse result lg f post r hr]

/-! ## Texts without the characters of a cutset -/

theorem Trim_of_not_mem (s cutset : String) (h : ∀ c ∈ s.data, c ∉ cutset.data) :
    Trim s cutset = s := by
  unfold Trim
  have h1 : s.data.dropWhile (fun c => decide (c ∈ cutset.data)) = s.data := by
    cases hs : s.data with
    | nil => rfl
    | cons a l =>
      rw [List.dropWhile_cons_of_neg]
      simpa using h a (by rw [hs]; simp)
  rw [h1]
  have h2 : List.rdropWhile (fun c => decide (c ∈ cutset.data)) s.data = s.data := by
    rw [List.rdropWhile_eq_self_iff]
    intro hne
    simpa using h _ (List.getLast_mem hne)
  rw [h2]

theorem Trim_of_IsStringText (s : String) (h : IsStringText s) : Trim s "'" = s := by
  apply Trim_of_not_mem
  intro c hc hm
  have h1 := h c hc
  have h2 : c = '\'' := by simpa using hm
  subst h2
  simp [isStringChar] at h1

/-! ## The lexical conditions at an example -/

theorem isStringText_open_sans : IsStringText "Open Sans" := by
  intro c hc
  have h : ∀ x ∈ "Open Sans".data, isStringChar '\'' x = true := by decide
  exact h c hc

theorem isStringText_example_url : IsStringText "https://f.example/s/os.woff2" := by
  intro c hc
  have h : ∀ x ∈ "https://f.example/s/os.woff2".data, isStringChar '\'' x = true := by decide
  exact h c hc

theorem isStringText_woff2 : IsStringText "woff2" := by
  intro c hc
  have h : ∀ x ∈ "woff2".data, isStringChar '\'' x = true := by decide
  exact h c hc

theorem isIdentText_normal : IsIdentText "normal" :=
  ⟨'n', ['o', 'r', 'm', 'a', 'l'], rfl, by decide, by decide⟩

theorem isRangeText_examples :
    ∀ x ∈ ["U+0000-00FF", "U+0131", "U+0152-0153"], IsRangeText x := by
  intro x hx
  simp only [List.mem_cons, List.mem_singleton, List.not_mem_nil, or_false] at hx
  rcases hx with rfl | rfl | rfl
  · exact ⟨['0', '0', '0', '0'], ['0', '0', 'F', 'F'],
      Or.inr ⟨rfl, by decide, by decide, by decide⟩, by decide, by decide, by decide⟩
  · exact ⟨['0', '1', '3', '1'], [], Or.inl ⟨rfl, rfl⟩, by decide, by decide, by decide⟩
  · exact ⟨['0', '1', '5', '2'], ['0', '1', '5', '3'],
      Or.inr ⟨rfl, by decide, by decide, by decide⟩, by decide, by decide, by decide⟩

set_option maxRecDepth 100000

/-! ## Round trip through the parser: the claim -/

/-- C1 (counterexample): the record (woff2, 400, Roboto, normal) with a URL is
emitted with an unquoted family, which the parser rejects, in the compact and
in the pretty form; the compact form of a record whose family is quoted is
rejected as well, for want of the `;` before the closing brace; and the pretty
form of a record with a quoted family and an empty style is rejected for want
of an identifier after `font-style:`. -/
theorem C1_counterexample :
    UnmarshalCSS parsePlain
        (scan (Typeface.CSS ⟨"woff2", 400, "Roboto", "normal",
          some ⟨"https://f.example/s/r.woff2", "", ""⟩, []⟩)) (some ⟨[]⟩)
      = (some ⟨[]⟩, some (.expect "<string>" ⟨TokenChar, ":"⟩))
    ∧ UnmarshalCSS parsePlain
        (scan (Typeface.PrettyCSS ⟨"woff2", 400, "Roboto", "normal",
          some ⟨"https://f.example/s/r.woff2", "", ""⟩, []⟩)) (some ⟨[]⟩)
      = (some ⟨[]⟩, some (.expect "<string>" ⟨TokenChar, ":"⟩))
    ∧ UnmarshalCSS parsePlain
        (scan (Typeface.CSS ⟨"woff2", 400, "Open Sans", "normal",
          some ⟨"https://f.example/s/os.woff2", "", ""⟩, []⟩)) (some ⟨[]⟩)
      = (some ⟨[]⟩, some (.expect ";" ⟨TokenChar, ")"⟩))
    ∧ UnmarshalCSS parsePlain
        (scan (Typeface.PrettyCSS ⟨"woff2", 400, "Open Sans", "",
          some ⟨"https://f.example/s/os.woff2", "", ""⟩, []⟩)) (some ⟨[]⟩)
      = (some ⟨[]⟩, some (.expect "<ident>" ⟨TokenChar, ":"⟩)) := by
  refine ⟨?_, ?_, ?_, ?_⟩ <;> rfl

/-- C1 (amended): for every record `r` with a URL `u` whose family contains a
space (and is therefore emitted quoted), whose family, format and URL text are
made of characters that may stand inside a string quoted by apostrophes, whose
style is an identifier, whose unicode ranges are well formed, whose weight is in
`0 .. 2^63 - 1` and whose URL text is parsed back to `u`, `UnmarshalCSS` on the
tokens of the text that `Typeface.PrettyCSS` emits for `r` succeeds and sets the
collection to exactly the one record `r`, equal in every field, the unicode
ranges in the same order. -/
theorem C1_pretty_round_trip (parse : String → Option URL)
    (r : Typeface) (u : URL) (tf : Typefaces)
    (hurl : r.URL = some u) (hparse : parse u.String = some u)
    (hspace : Contains r.Family " " = true)
    (hw : 0 ≤ r.Weight) (hw2 : r.Weight < 2 ^ 63)
    (lfam : IsStringText r.Family) (lsty : IsIdentText r.Style) (lu : IsStringText u.String)
    (lfmt : IsStringText r.Format) (lr : ∀ x ∈ r.UnicodeRange, IsRangeText x) :
    UnmarshalCSS parse (scan r.PrettyCSS) (some tf) = (some ⟨[r]⟩, none) :=
  UnmarshalCSS_scan_pretty parse r u tf hurl hparse (Trim_of_IsStringText _ lfam)
    (Trim_of_IsStringText _ lfmt) (Trim_of_IsStringText _ lu) hspace hw hw2 lfam lsty lu lfmt lr

/-- C1 (amended), at the record (woff2, 400, Open Sans, normal) with three
unicode ranges. -/
theorem C1_pretty_round_trip_witness :
    ((Typeface.mk "woff2" 400 "Open Sans" "normal"
          (some ⟨"https://f.example/s/os.woff2", "", ""⟩)
          ["U+0000-00FF", "U+0131", "U+0152-0153"]).URL
        = some ⟨"https://f.example/s/os.woff2", "", ""⟩
      ∧ parsePlain (URL.String ⟨"https://f.example/s/os.woff2", "", ""⟩)
        = some ⟨"https://f.example/s/os.woff2", "", ""⟩
      ∧ Contains "Open Sans" " " = true ∧ (0 : Int) ≤ 400 ∧ (400 : Int) < 2 ^ 63
      ∧ IsStringText "Open Sans" ∧ IsIdentText "normal"
      ∧ IsStringText "https://f.example/s/os.woff2" ∧ IsStringText "woff2"
      ∧ ∀ x ∈ ["U+0000-00FF", "U+0131", "U+0152-0153"], IsRangeText x)
    ∧ UnmarshalCSS parsePlain
        (scan (Typeface.PrettyCSS ⟨"woff2", 400, "Open Sans", "normal",
          some ⟨"https://f.example/s/os.woff2", "", ""⟩,
          ["U+0000-00FF", "U+0131", "U+0152-0153"]⟩)) (some ⟨[]⟩)
      = (some ⟨[⟨"woff2", 400, "Open Sans", "normal",
          some ⟨"https://f.example/s/os.woff2", "", ""⟩,
          ["U+0000-00FF", "U+0131", "U+0152-0153"]⟩]⟩, none) :=
  ⟨⟨rfl, rfl, by decide, by decide, by decide, isStringText_open_sans, isIdentText_normal,
      isStringText_example_url, isStringText_woff2, isRangeText_examples⟩,
    C1_pretty_round_trip parsePlain
      ⟨"woff2", 400, "Open Sans", "normal", some ⟨"https://f.example/s/os.woff2", "", ""⟩,
        ["U+0000-00FF", "U+0131", "U+0152-0153"]⟩
      ⟨"https://f.example/s/os.woff2", "", ""⟩ ⟨[]⟩
      rfl rfl (by decide) (by decide) (by decide) isStringText_open_sans isIdentText_normal
      isStringText_example_url isStringText_woff2 isRangeText_examples⟩

/-! ## Selector and accessors: the claims -/

/-- C2: for every collection and every filter, `Select` returns exactly the
records of `ts.Fonts` that satisfy every non-wildcard criterion by exact
equality, in their original order (the filter of `ts.Fonts` by that predicate);
with the all-wildcard filter `("", "", "", -1)` it returns `ts.Fonts` unchanged,
whatever the weights of the records. -/
theorem C2_select_is_filter (ts : Typefaces) (format family style : String) (weight : Int) :
    ts.Select format family style weight
        = ts.Fonts.filter (fun r => decide
            ((format = "" ∨ r.Format = format) ∧ (family = "" ∨ r.Family = family) ∧
              (style = "" ∨ r.Style = style) ∧ (weight = -1 ∨ r.Weight = weight)))
      ∧ ts.Select "" "" "" (-1) = ts.Fonts := by
  constructor
  · exact Select_eq_filter ts format family style weight
  · rw [Select_eq_filter]
    apply List.filter_eq_self.mpr
    intro r _
    simp [matchesFilter]

/-- C3: for every collection, `Format`, `Family` and `Style` are the non-empty
values of their field and `Weight` the weights `≥ 1`, each value once, in the
order of first occurrence in `ts.Fonts`, and without duplicates. -/
theorem C3_accessors_first_seen (ts : Typefaces) :
    (ts.Format = firstSeen ((ts.Fonts.map Typeface.Format).filter (fun x => decide (x ≠ "")))
        ∧ ts.Format.Nodup)
      ∧ (ts.Family = firstSeen ((ts.Fonts.map Typeface.Family).filter (fun x => decide (x ≠ "")))
        ∧ ts.Family.Nodup)
      ∧ (ts.Style = firstSeen ((ts.Fonts.map Typeface.Style).filter (fun x => decide (x ≠ "")))
        ∧ ts.Style.Nodup)
      ∧ (ts.Weight = firstSeen ((ts.Fonts.map Typeface.Weight).filter (fun x => decide (1 ≤ x)))
        ∧ ts.Weight.Nodup) := by
  refine ⟨⟨?_, ?_⟩, ⟨?_, ?_⟩, ⟨?_, ?_⟩, ⟨?_, ?_⟩⟩
  · rw [Format_eq, List.filter_map]; rfl
  · rw [Format_eq]; exact nodup_firstSeen _
  · rw [Family_eq, List.filter_map]; rfl
  · rw [Family_eq]; exact nodup_firstSeen _
  · rw [Style_eq, List.filter_map]; rfl
  · rw [Style_eq]; exact nodup_firstSeen _
  · rw [Weight_eq, List.filter_map]; rfl
  · rw [Weight_eq]; exact nodup_firstSeen _

/-- C4 (the code at the failing input): for two records with the same URL,
`Typefaces.URL` returns that URL twice, because `resultString` is never
appended to and the uniqueness test always sees an empty slice. -/
theorem C4_url_keeps_duplicates :
    (Typefaces.mk
      [ { Format := "woff2", Weight := 400, Family := "Roboto", Style := "normal",
          URL := some ⟨"https://fonts.example/roboto.woff2", "/roboto.woff2", ""⟩,
          UnicodeRange := [] },
        { Format := "woff2", Weight := 400, Family := "Roboto", Style := "normal",
          URL := some ⟨"https://fonts.example/roboto.woff2", "/roboto.woff2", ""⟩,
          UnicodeRange := [] } ]).URL
      = some [ ⟨"https://fonts.example/roboto.woff2", "/roboto.woff2", ""⟩,
               ⟨"https://fonts.example/roboto.woff2", "/roboto.woff2", ""⟩ ] := by
  decide

/-! ## Consolidated serializer: the claims -/

/-- C5: for every collection of exactly two records with the same non-empty
family, the same non-empty style and the same weight `≥ 1`, one of format woff2
(URL `A`) and one of format woff (URL `B`), in either order, `Typefaces.CSS`
produces exactly one rule, whose `src` lists `url('A') format('woff2')` before
`url('B') format('woff')`, joined by a comma. -/
theorem C5_woff2_before_woff (F S : String) (W : Int) (A B : URL) (ra rb : List String)
    (hF : F ≠ "") (hS : S ≠ "") (hW : 1 ≤ W) :
    let r2 : Typeface := ⟨"woff2", W, F, S, some A, ra⟩
    let r1 : Typeface := ⟨"woff", W, F, S, some B, rb⟩
    let rule := cssTpl (quoteFamily F) S W ++ "src:" ++ srcEntry A.String "woff2" ++ "," ++
      srcEntry B.String "woff" ++ "\x7d"
    (Typefaces.mk [r2, r1]).cssParts = some [rule] ∧ (Typefaces.mk [r2, r1]).CSS = some rule ∧
    (Typefaces.mk [r1, r2]).cssParts = some [rule] ∧ (Typefaces.mk [r1, r2]).CSS = some rule := by
  intro r2 r1 rule
  have h21 : HasURLs ⟨[r2, r1]⟩ := by
    intro r hr _
    simp only [List.mem_cons, List.mem_singleton, List.not_mem_nil, or_false] at hr
    rcases hr with h | h <;> subst h <;> simp [r1, r2]
  have h12 : HasURLs ⟨[r1, r2]⟩ := by
    intro r hr _
    simp only [List.mem_cons, List.mem_singleton, List.not_mem_nil, or_false] at hr
    rcases hr with h | h <;> subst h <;> simp [r1, r2]
  have t21 : (Typefaces.mk [r2, r1]).triples = [(F, W, S)] := by
    simp [Typefaces.triples, Family_eq, Weight_eq, Style_eq, firstSeen, r1, r2, hF, hS, hW]
  have t12 : (Typefaces.mk [r1, r2]).triples = [(F, W, S)] := by
    simp [Typefaces.triples, Family_eq, Weight_eq, Style_eq, firstSeen, r1, r2, hF, hS, hW]
  have c21 : cssRuleText ⟨[r2, r1]⟩ (F, W, S) = rule := by
    simp [cssRuleText, cssSrc, srcEntries, firstMatchURL, Select_eq_filter, matchesFilter,
      firstURLString, List.filter_cons, r1, r2, rule, Join, String.append_assoc]
  have c12 : cssRuleText ⟨[r1, r2]⟩ (F, W, S) = rule := by
    simp [cssRuleText, cssSrc, srcEntries, firstMatchURL, Select_eq_filter, matchesFilter,
      firstURLString, List.filter_cons, r1, r2, rule, Join, String.append_assoc]
  refine ⟨?_, ?_, ?_, ?_⟩
  · rw [cssParts_eq _ h21, t21, List.map_singleton, c21]
  · rw [Typefaces.CSS, cssParts_eq _ h21, t21, List.map_singleton, c21]; rfl
  · rw [cssParts_eq _ h12, t12, List.map_singleton, c12]
  · rw [Typefaces.CSS, cssParts_eq _ h12, t12, List.map_singleton, c12]; rfl

/-- C5, at a concrete collection (woff record first): the single rule lists the
woff2 entry before the woff entry. -/
theorem C5_woff2_before_woff_witness :
    ("Open Sans" ≠ "" ∧ "normal" ≠ "" ∧ (1 : Int) ≤ 400) ∧
    (Typefaces.mk
      [⟨"woff", 400, "Open Sans", "normal", some ⟨"https://f.example/os.woff", "/os.woff", ""⟩, []⟩,
       ⟨"woff2", 400, "Open Sans", "normal",
          some ⟨"https://f.example/os.woff2", "/os.woff2", ""⟩, []⟩]).CSS
      = some ("@font-face\x7bfont-family:'Open Sans';font-style:normal;font-weight:400;" ++
          "src:url('https://f.example/os.woff2') format('woff2')," ++
          "url('https://f.example/os.woff') format('woff')\x7d") :=
  ⟨⟨by decide, by decide, by decide⟩,
    (C5_woff2_before_woff "Open Sans" "normal" 400 ⟨"https://f.example/os.woff2", "/os.woff2", ""⟩
      ⟨"https://f.example/os.woff", "/os.woff", ""⟩ [] [] (by decide) (by decide)
      (by decide)).2.2.2⟩

/-- C6 (counterexample): for an eot record and a woff2 record of one
combination, the output is not the three entries joined by commas after one
`src:`. -/
theorem C6_counterexample :
    (Typefaces.mk
      [⟨"eot", 400, "Lato", "normal", some ⟨"https://f.example/l.eot", "/l.eot", ""⟩, []⟩,
       ⟨"woff2", 400, "Lato", "normal", some ⟨"https://f.example/l.woff2", "/l.woff2", ""⟩, []⟩]).CSS
      ≠ some ("@font-face\x7bfont-family:Lato;font-style:normal;font-weight:400;" ++
          "src:url('https://f.example/l.eot')," ++
          "url('https://f.example/l.eot?#iefix') format('embedded-opentype')," ++
          "url('https://f.example/l.woff2') format('woff2')\x7d") := by
  have h : (Typefaces.mk
      [⟨"eot", 400, "Lato", "normal", some ⟨"https://f.example/l.eot", "/l.eot", ""⟩, []⟩,
       ⟨"woff2", 400, "Lato", "normal", some ⟨"https://f.example/l.woff2", "/l.woff2", ""⟩, []⟩]).CSS
      = some ("@font-face\x7bfont-family:Lato;font-style:normal;font-weight:400;" ++
          "src:url('https://f.example/l.eot');" ++
          "src:url('https://f.example/l.eot?#iefix') format('embedded-opentype')," ++
          "url('https://f.example/l.woff2') format('woff2')\x7d") := rfl
  rw [h]
  decide

/-- C6 (amended): for every collection of an eot record (URL `E`) and a woff2
record (URL `W`) of one combination (non-empty family and style, weight `≥ 1`),
in either order, `Typefaces.CSS` is one rule with two `src` declarations: the
bare entry `src:url('E')` closed by `;`, then `src:` with
`url('E?#iefix') format('embedded-opentype')` and `url('W') format('woff2')`
joined by a comma. -/
theorem C6_eot_with_woff2 (F S : String) (W : Int) (E U : URL) (ra rb : List String)
    (hF : F ≠ "") (hS : S ≠ "") (hW : 1 ≤ W) :
    let re : Typeface := ⟨"eot", W, F, S, some E, ra⟩
    let r2 : Typeface := ⟨"woff2", W, F, S, some U, rb⟩
    let rule := cssTpl (quoteFamily F) S W ++ "src:url('" ++ E.String ++ "');" ++
      "src:url('" ++ E.String ++ "?#iefix') format('embedded-opentype')" ++ "," ++
      srcEntry U.String "woff2" ++ "\x7d"
    (Typefaces.mk [re, r2]).cssParts = some [rule] ∧ (Typefaces.mk [re, r2]).CSS = some rule ∧
    (Typefaces.mk [r2, re]).cssParts = some [rule] ∧ (Typefaces.mk [r2, re]).CSS = some rule := by
  intro re r2 rule
  have h12 : HasURLs ⟨[re, r2]⟩ := by
    intro r hr _
    simp only [List.mem_cons, List.mem_singleton, List.not_mem_nil, or_false] at hr
    rcases hr with h | h <;> subst h <;> simp [re, r2]
  have h21 : HasURLs ⟨[r2, re]⟩ := by
    intro r hr _
    simp only [List.mem_cons, List.mem_singleton, List.not_mem_nil, or_false] at hr
    rcases hr with h | h <;> subst h <;> simp [re, r2]
  have t12 : (Typefaces.mk [re, r2]).triples = [(F, W, S)] := by
    simp [Typefaces.triples, Family_eq, Weight_eq, Style_eq, firstSeen, re, r2, hF, hS, hW]
  have t21 : (Typefaces.mk [r2, re]).triples = [(F, W, S)] := by
    simp [Typefaces.triples, Family_eq, Weight_eq, Style_eq, firstSeen, re, r2, hF, hS, hW]
  have c12 : cssRuleText ⟨[re, r2]⟩ (F, W, S) = rule := by
    simp [cssRuleText, cssSrc, srcEntries, firstMatchURL, Select_eq_filter, matchesFilter,
      firstURLString, List.filter_cons, re, r2, rule, Join, String.append_assoc]
    rfl
  have c21 : cssRuleText ⟨[r2, re]⟩ (F, W, S) = rule := by
    simp [cssRuleText, cssSrc, srcEntries, firstMatchURL, Select_eq_filter, matchesFilter,
      firstURLString, List.filter_cons, re, r2, rule, Join, String.append_assoc]
    rfl
  refine ⟨?_, ?_, ?_, ?_⟩
  · rw [cssParts_eq _ h12, t12, List.map_singleton, c12]
  · rw [Typefaces.CSS, cssParts_eq _ h12, t12, List.map_singleton, c12]; rfl
  · rw [cssParts_eq _ h21, t21, List.map_singleton, c21]
  · rw [Typefaces.CSS, cssParts_eq _ h21, t21, List.map_singleton, c21]; rfl

/-- C6 (amended), at a concrete collection (woff2 record first). -/
theorem C6_eot_with_woff2_witness :
    ("Lato" ≠ "" ∧ "italic" ≠ "" ∧ (1 : Int) ≤ 700) ∧
    (Typefaces.mk
      [⟨"woff2", 700, "Lato", "italic", some ⟨"https://f.example/l.woff2", "/l.woff2", ""⟩, []⟩,
       ⟨"eot", 700, "Lato", "italic", some ⟨"https://f.example/l.eot", "/l.eot", ""⟩, []⟩]).CSS
      = some ("@font-face\x7bfont-family:Lato;font-style:italic;font-weight:700;" ++
          "src:url('https://f.example/l.eot');" ++
          "src:url('https://f.example/l.eot?#iefix') format('embedded-opentype')," ++
          "url('https://f.example/l.woff2') format('woff2')\x7d") :=
  ⟨⟨by decide, by decide, by decide⟩,
    (C6_eot_with_woff2 "Lato" "italic" 700 ⟨"https://f.example/l.eot", "/l.eot", ""⟩
      ⟨"https://f.example/l.woff2", "/l.woff2", ""⟩ [] [] (by decide) (by decide)
      (by decide)).2.2.2⟩

/-- C7 (counterexample): for a single eot record the output of `Typefaces.CSS`
closes the rule right after the second entry; the text
`format('embedded-opentype');` does not occur in it. -/
theorem C7_counterexample :
    (Typefaces.mk
      [⟨"eot", 400, "Lato", "normal", some ⟨"https://f.example/l.eot", "/l.eot", ""⟩, []⟩]).CSS
      = some ("@font-face\x7bfont-family:Lato;font-style:normal;font-weight:400;" ++
          "src:url('https://f.example/l.eot');" ++
          "src:url('https://f.example/l.eot?#iefix') format('embedded-opentype')\x7d")
    ∧ Contains ("@font-face\x7bfont-family:Lato;font-style:normal;font-weight:400;" ++
          "src:url('https://f.example/l.eot');" ++
          "src:url('https://f.example/l.eot?#iefix') format('embedded-opentype')\x7d")
        "format('embedded-opentype');" = false := by
  refine ⟨rfl, ?_⟩
  decide

/-- C7 (amended): for every collection of a single eot record with a URL
(non-empty family and style, weight `≥ 1`), both outputs contain the two-part
`src`; in `Typefaces.PrettyCSS` the second part is terminated by `;`, in
`Typefaces.CSS` that `;` is trimmed and the second part is directly followed by
the closing brace; in neither is it followed by a comma. -/
theorem C7_single_eot (F S : String) (W : Int) (E : URL) (ra : List String)
    (hF : F ≠ "") (hS : S ≠ "") (hW : 1 ≤ W) :
    (Typefaces.mk [⟨"eot", W, F, S, some E, ra⟩]).CSS
        = some (cssTpl (quoteFamily F) S W ++ "src:url('" ++ E.String ++ "');" ++
            "src:url('" ++ E.String ++ "?#iefix') format('embedded-opentype')" ++ "\x7d")
      ∧ (Typefaces.mk [⟨"eot", W, F, S, some E, ra⟩]).PrettyCSS
        = some (prettyTpl (quoteFamily F) S W ++ "\n\tsrc: url('" ++ E.String ++ "');" ++
            "\n\tsrc: url('" ++ E.String ++ "?#iefix') format('embedded-opentype')" ++ ";" ++
            "\n\x7d" ++ "\n") := by
  have hu : HasURLs ⟨[⟨"eot", W, F, S, some E, ra⟩]⟩ := by
    intro r hr _
    simp only [List.mem_singleton] at hr
    subst hr
    simp
  have ht : (Typefaces.mk [⟨"eot", W, F, S, some E, ra⟩]).triples = [(F, W, S)] := by
    simp [Typefaces.triples, Family_eq, Weight_eq, Style_eq, firstSeen, hF, hS, hW]
  constructor
  · rw [Typefaces.CSS, cssParts_eq _ hu, ht]
    simp [cssRuleText, cssSrc, srcEntries, firstMatchURL, Select_eq_filter, matchesFilter,
      firstURLString, List.filter_cons, Join, String.append_assoc]
    rfl
  · rw [Typefaces.PrettyCSS, prettyParts_eq _ hu, ht]
    simp [prettyRuleText, prettySrc, srcEntries, firstMatchURL, Select_eq_filter, matchesFilter,
      firstURLString, List.filter_cons, Join, String.append_assoc]
    rfl

/-- C7 (amended), at a concrete record: the pretty output, with the `;` kept. -/
theorem C7_single_eot_witness :
    ("Lato" ≠ "" ∧ "normal" ≠ "" ∧ (1 : Int) ≤ 400) ∧
    (Typefaces.mk
      [⟨"eot", 400, "Lato", "normal", some ⟨"https://f.example/l.eot", "/l.eot", ""⟩, []⟩]).PrettyCSS
      = some ("@font-face \x7b\n\tfont-family: Lato;\n\tfont-style: normal; \n\tfont-weight: 400;" ++
          "\n\tsrc: url('https://f.example/l.eot');" ++
          "\n\tsrc: url('https://f.example/l.eot?#iefix') format('embedded-opentype');\n\x7d\n") :=
  ⟨⟨by decide, by decide, by decide⟩,
    (C7_single_eot "Lato" "normal" 400 ⟨"https://f.example/l.eot", "/l.eot", ""⟩ []
      (by decide) (by decide) (by decide)).2⟩

/-- C8 (counterexample): an eot record alone in its combination still yields
the second entry `url(...?#iefix) format('embedded-opentype')`. -/
theorem C8_counterexample :
    (Typefaces.mk
      [⟨"eot", 300, "Inter", "normal", some ⟨"https://f.example/i.eot", "/i.eot", ""⟩, []⟩]).CSS
      = some ("@font-face\x7bfont-family:Inter;font-style:normal;font-weight:300;" ++
          "src:url('https://f.example/i.eot');" ++
          "src:url('https://f.example/i.eot?#iefix') format('embedded-opentype')\x7d")
    ∧ Contains ("@font-face\x7bfont-family:Inter;font-style:normal;font-weight:300;" ++
          "src:url('https://f.example/i.eot');" ++
          "src:url('https://f.example/i.eot?#iefix') format('embedded-opentype')\x7d")
        "url('https://f.example/i.eot?#iefix') format('embedded-opentype')" = true := by
  refine ⟨rfl, ?_⟩
  decide

/-- C8 (amended): for every collection in which every record of format eot,
woff2, woff, ttf or svg carries a URL, the second eot entry
`url(...?#iefix) format('embedded-opentype')` is emitted in the consolidated CSS
for a combination whenever an eot record is present in it, whether or not a
record of another format is present: the rule is the bare entry closed by `;`,
the second entry, then the other entries each preceded by a comma; an eot record
alone yields both entries and nothing else. -/
theorem C8_iefix_always (ts : Typefaces) (hurl : HasURLs ts) (fam s : String) (w : Int)
    (e : String) (hfam : fam ∈ ts.Family) (hw : w ∈ ts.Weight) (hs : s ∈ ts.Style)
    (he : firstMatchURL ts "eot" fam s w = some e) :
    ts.cssParts = some (ts.triples.map (cssRuleText ts))
      ∧ (fam, w, s) ∈ ts.triples
      ∧ cssRuleText ts (fam, w, s)
        = cssTpl (quoteFamily fam) s w ++ ("src:url('" ++ e ++ "');" ++
            ("src:url('" ++ (e ++ "?#iefix") ++ "') format('embedded-opentype')") ++
            Join ((srcEntries ts fam s w).map (fun x => "," ++ x)) "") ++ "\x7d"
      ∧ (srcEntries ts fam s w = [] →
          cssRuleText ts (fam, w, s)
            = cssTpl (quoteFamily fam) s w ++ ("src:url('" ++ e ++ "');" ++
              ("src:url('" ++ (e ++ "?#iefix") ++ "') format('embedded-opentype')")) ++
              "\x7d") := by
  refine ⟨cssParts_eq ts hurl, (mem_triples ts fam s w).mpr ⟨hfam, hw, hs⟩,
    cssRuleText_eot ts fam s w e he, ?_⟩
  intro hnil
  rw [cssRuleText_eot ts fam s w e he, hnil]
  simp [Join]

/-- C8 (amended), at a collection holding one eot record. -/
theorem C8_iefix_always_witness :
    (HasURLs ⟨[⟨"eot", 300, "Inter", "normal", some ⟨"https://f.example/i.eot", "/i.eot", ""⟩, []⟩]⟩
      ∧ "Inter" ∈ (Typefaces.mk
          [⟨"eot", 300, "Inter", "normal", some ⟨"https://f.example/i.eot", "/i.eot", ""⟩, []⟩]).Family
      ∧ (300 : Int) ∈ (Typefaces.mk
          [⟨"eot", 300, "Inter", "normal", some ⟨"https://f.example/i.eot", "/i.eot", ""⟩, []⟩]).Weight
      ∧ "normal" ∈ (Typefaces.mk
          [⟨"eot", 300, "Inter", "normal", some ⟨"https://f.example/i.eot", "/i.eot", ""⟩, []⟩]).Style
      ∧ firstMatchURL
          ⟨[⟨"eot", 300, "Inter", "normal", some ⟨"https://f.example/i.eot", "/i.eot", ""⟩, []⟩]⟩
          "eot" "Inter" "normal" 300 = some "https://f.example/i.eot")
    ∧ cssRuleText
        ⟨[⟨"eot", 300, "Inter", "normal", some ⟨"https://f.example/i.eot", "/i.eot", ""⟩, []⟩]⟩
        ("Inter", 300, "normal")
      = "@font-face\x7bfont-family:Inter;font-style:normal;font-weight:300;" ++
          "src:url('https://f.example/i.eot');" ++
          "src:url('https://f.example/i.eot?#iefix') format('embedded-opentype')\x7d" :=
  ⟨⟨by unfold HasURLs; decide, by decide, by decide, by decide, by decide⟩,
    (C8_iefix_always
      ⟨[⟨"eot", 300, "Inter", "normal", some ⟨"https://f.example/i.eot", "/i.eot", ""⟩, []⟩]⟩
      (by unfold HasURLs; decide) "Inter" "normal" 300 "https://f.example/i.eot"
      (by decide) (by decide) (by decide) (by decide)).2.2.1⟩

/-- C9 (counterexample): a collection with one woff2 record that has no URL has
one combination of family, weight and style, yet `Typefaces.CSS` and
`Typefaces.PrettyCSS` emit no rule at all: the call fails on the nil URL. -/
theorem C9_counterexample :
    (Typefaces.mk [⟨"woff2", 400, "Lato", "normal", none, []⟩]).Family.length
        * (Typefaces.mk [⟨"woff2", 400, "Lato", "normal", none, []⟩]).Weight.length
        * (Typefaces.mk [⟨"woff2", 400, "Lato", "normal", none, []⟩]).Style.length = 1
      ∧ (Typefaces.mk [⟨"woff2", 400, "Lato", "normal", none, []⟩]).cssParts = none
      ∧ (Typefaces.mk [⟨"woff2", 400, "Lato", "normal", none, []⟩]).CSS = none
      ∧ (Typefaces.mk [⟨"woff2", 400, "Lato", "normal", none, []⟩]).PrettyCSS = none := by
  refine ⟨by decide, rfl, rfl, rfl⟩

/-- C9 (amended): for every collection in which every record of format eot,
woff2, woff, ttf or svg carries a URL, `Typefaces.CSS` emits exactly one rule
per combination of a distinct family, a distinct weight and a distinct style,
that is `|Family()| * |Weight()| * |Style()|` rules, ordered family-major, then
weight, then style, and `Typefaces.PrettyCSS` emits the same number of rules in
the same order; each rule is the result of the loop body for its combination. -/
theorem C9_one_rule_per_combination (ts : Typefaces) (hurl : HasURLs ts) :
    ts.triples = ts.Family.flatMap (fun fam => ts.Weight.flatMap (fun w =>
        ts.Style.map (fun s => (fam, w, s))))
      ∧ ts.cssParts = some (ts.triples.map (cssRuleText ts))
      ∧ ts.CSS = some (Join (ts.triples.map (cssRuleText ts)) "")
      ∧ ts.prettyParts = some (ts.triples.map (prettyRuleText ts))
      ∧ ts.PrettyCSS = some (Join (ts.triples.map (prettyRuleText ts)) "\n" ++ "\n")
      ∧ (ts.triples.map (cssRuleText ts)).length
          = ts.Family.length * ts.Weight.length * ts.Style.length
      ∧ (ts.triples.map (prettyRuleText ts)).length
          = ts.Family.length * ts.Weight.length * ts.Style.length
      ∧ (∀ fam w s, cssRule ts ts.Format fam w s = some (cssRuleText ts (fam, w, s)))
      ∧ (∀ fam w s, prettyRule ts ts.Format fam w s = some (prettyRuleText ts (fam, w, s))) := by
  refine ⟨rfl, cssParts_eq ts hurl, ?_, prettyParts_eq ts hurl, ?_, ?_, ?_, ?_, ?_⟩
  · rw [Typefaces.CSS, cssParts_eq ts hurl]; rfl
  · rw [Typefaces.PrettyCSS, prettyParts_eq ts hurl]; rfl
  · rw [List.length_map, length_triples]
  · rw [List.length_map, length_triples]
  · exact fun fam w s => cssRule_eq ts hurl fam s w
  · exact fun fam w s => prettyRule_eq ts hurl fam s w

/-- C9 (amended), at a collection with one family, two weights and one style:
two rules, in weight order. -/
theorem C9_one_rule_per_combination_witness :
    HasURLs ⟨[⟨"woff2", 400, "Lato", "normal", some ⟨"https://f.example/a", "/a", ""⟩, []⟩,
              ⟨"woff2", 700, "Lato", "normal", some ⟨"https://f.example/b", "/b", ""⟩, []⟩]⟩
    ∧ (Typefaces.mk
        [⟨"woff2", 400, "Lato", "normal", some ⟨"https://f.example/a", "/a", ""⟩, []⟩,
         ⟨"woff2", 700, "Lato", "normal", some ⟨"https://f.example/b", "/b", ""⟩, []⟩]).cssParts
      = some
        ["@font-face\x7bfont-family:Lato;font-style:normal;font-weight:400;" ++
            "src:url('https://f.example/a') format('woff2')\x7d",
         "@font-face\x7bfont-family:Lato;font-style:normal;font-weight:700;" ++
            "src:url('https://f.example/b') format('woff2')\x7d"] :=
  ⟨by unfold HasURLs; decide,
    (C9_one_rule_per_combination
      ⟨[⟨"woff2", 400, "Lato", "normal", some ⟨"https://f.example/a", "/a", ""⟩, []⟩,
        ⟨"woff2", 700, "Lato", "normal", some ⟨"https://f.example/b", "/b", ""⟩, []⟩]⟩
      (by unfold HasURLs; decide)).2.1⟩

/-- C10 (counterexample): the combination (A, 700, normal) is drawn from the
distinct families, weights and styles and no record matches it in any format,
yet no rule is emitted for it: the call fails on the nil URL of the second
record. -/
theorem C10_counterexample :
    ("A" ∈ (Typefaces.mk
        [⟨"woff2", 400, "A", "normal", some ⟨"https://f.example/a", "/a", ""⟩, []⟩,
         ⟨"woff2", 700, "B", "italic", none, []⟩]).Family
      ∧ (700 : Int) ∈ (Typefaces.mk
        [⟨"woff2", 400, "A", "normal", some ⟨"https://f.example/a", "/a", ""⟩, []⟩,
         ⟨"woff2", 700, "B", "italic", none, []⟩]).Weight
      ∧ "normal" ∈ (Typefaces.mk
        [⟨"woff2", 400, "A", "normal", some ⟨"https://f.example/a", "/a", ""⟩, []⟩,
         ⟨"woff2", 700, "B", "italic", none, []⟩]).Style)
      ∧ (∀ m ∈ (Typefaces.mk
            [⟨"woff2", 400, "A", "normal", some ⟨"https://f.example/a", "/a", ""⟩, []⟩,
             ⟨"woff2", 700, "B", "italic", none, []⟩]).Format,
          (Typefaces.mk
            [⟨"woff2", 400, "A", "normal", some ⟨"https://f.example/a", "/a", ""⟩, []⟩,
             ⟨"woff2", 700, "B", "italic", none, []⟩]).Select m "A" "normal" 700 = [])
      ∧ (Typefaces.mk
          [⟨"woff2", 400, "A", "normal", some ⟨"https://f.example/a", "/a", ""⟩, []⟩,
           ⟨"woff2", 700, "B", "italic", none, []⟩]).CSS = none := by
  refine ⟨⟨by decide, by decide, by decide⟩, by decide, rfl⟩

/-- C10 (amended): for every collection in which every record of format eot,
woff2, woff, ttf or svg carries a URL, and every combination of one of its
distinct families, weights and styles for which no record matches in any
format, `Typefaces.CSS` still emits a rule for it, at the place of the
combination, whose `src` is empty: the rule text is font-family, font-style and
font-weight followed by `src:` and the closing brace. -/
theorem C10_unmatched_combination (ts : Typefaces) (hurl : HasURLs ts) (fam s : String)
    (w : Int) (hfam : fam ∈ ts.Family) (hw : w ∈ ts.Weight) (hs : s ∈ ts.Style)
    (hnone : ∀ m ∈ ts.Format, ts.Select m fam s w = []) :
    ts.cssParts = some (ts.triples.map (cssRuleText ts))
      ∧ ts.CSS = some (Join (ts.triples.map (cssRuleText ts)) "")
      ∧ (fam, w, s) ∈ ts.triples
      ∧ cssRuleText ts (fam, w, s)
        = "@font-face\x7bfont-family:" ++ quoteFamily fam ++ ";font-style:" ++ s ++
            ";font-weight:" ++ fmtInt w ++ ";" ++ "src:" ++ "\x7d"
      ∧ cssRule ts ts.Format fam w s
        = some ("@font-face\x7bfont-family:" ++ quoteFamily fam ++ ";font-style:" ++ s ++
            ";font-weight:" ++ fmtInt w ++ ";" ++ "src:" ++ "\x7d") := by
  have h1 : cssRuleText ts (fam, w, s)
      = "@font-face\x7bfont-family:" ++ quoteFamily fam ++ ";font-style:" ++ s ++
          ";font-weight:" ++ fmtInt w ++ ";" ++ "src:" ++ "\x7d" :=
    cssRuleText_unmatched ts fam s w hnone
  refine ⟨cssParts_eq ts hurl, ?_, (mem_triples ts fam s w).mpr ⟨hfam, hw, hs⟩, h1, ?_⟩
  · rw [Typefaces.CSS, cssParts_eq ts hurl]; rfl
  · rw [cssRule_eq ts hurl fam s w, ← h1]; rfl

/-- C10 (amended), at the records (A, normal, 400) and (B, italic, 700) and the
unmatched combination (A, 700, normal). -/
theorem C10_unmatched_combination_witness :
    (HasURLs ⟨[⟨"woff2", 400, "A", "normal", some ⟨"https://f.example/a", "/a", ""⟩, []⟩,
               ⟨"woff2", 700, "B", "italic", some ⟨"https://f.example/b", "/b", ""⟩, []⟩]⟩
      ∧ "A" ∈ (Typefaces.mk
          [⟨"woff2", 400, "A", "normal", some ⟨"https://f.example/a", "/a", ""⟩, []⟩,
           ⟨"woff2", 700, "B", "italic", some ⟨"https://f.example/b", "/b", ""⟩, []⟩]).Family
      ∧ (700 : Int) ∈ (Typefaces.mk
          [⟨"woff2", 400, "A", "normal", some ⟨"https://f.example/a", "/a", ""⟩, []⟩,
           ⟨"woff2", 700, "B", "italic", some ⟨"https://f.example/b", "/b", ""⟩, []⟩]).Weight
      ∧ "normal" ∈ (Typefaces.mk
          [⟨"woff2", 400, "A", "normal", some ⟨"https://f.example/a", "/a", ""⟩, []⟩,
           ⟨"woff2", 700, "B", "italic", some ⟨"https://f.example/b", "/b", ""⟩, []⟩]).Style
      ∧ ∀ m ∈ (Typefaces.mk
            [⟨"woff2", 400, "A", "normal", some ⟨"https://f.example/a", "/a", ""⟩, []⟩,
             ⟨"woff2", 700, "B", "italic", some ⟨"https://f.example/b", "/b", ""⟩, []⟩]).Format,
          (Typefaces.mk
            [⟨"woff2", 400, "A", "normal", some ⟨"https://f.example/a", "/a", ""⟩, []⟩,
             ⟨"woff2", 700, "B", "italic", some ⟨"https://f.example/b", "/b", ""⟩, []⟩]).Select
            m "A" "normal" 700 = [])
    ∧ cssRule
        ⟨[⟨"woff2", 400, "A", "normal", some ⟨"https://f.example/a", "/a", ""⟩, []⟩,
          ⟨"woff2", 700, "B", "italic", some ⟨"https://f.example/b", "/b", ""⟩, []⟩]⟩
        (Typefaces.mk
          [⟨"woff2", 400, "A", "normal", some ⟨"https://f.example/a", "/a", ""⟩, []⟩,
           ⟨"woff2", 700, "B", "italic", some ⟨"https://f.example/b", "/b", ""⟩, []⟩]).Format
        "A" 700 "normal"
      = some "@font-face\x7bfont-family:A;font-style:normal;font-weight:700;src:\x7d" :=
  ⟨⟨by unfold HasURLs; decide, by decide, by decide, by decide, by decide⟩,
    (C10_unmatched_combination
      ⟨[⟨"woff2", 400, "A", "normal", some ⟨"https://f.example/a", "/a", ""⟩, []⟩,
        ⟨"woff2", 700, "B", "italic", some ⟨"https://f.example/b", "/b", ""⟩, []⟩]⟩
      (by unfold HasURLs; decide) "A" "normal" 700 (by decide) (by decide) (by decide)
      (by decide)).2.2.2.2⟩

/-! ## Format priority and first match: the claims -/

/-- C11 (counterexample): the two records (woff2 with a URL, woff without a
URL) share one combination and have distinct formats, yet `Typefaces.CSS`
returns no string, for either order of the records: the call fails on the nil
URL. -/
theorem C11_counterexample :
    (∀ r ∈ [(⟨"woff2", 400, "Lato", "normal", some ⟨"https://f.example/a", "/a", ""⟩, []⟩ :
          Typeface), ⟨"woff", 400, "Lato", "normal", none, []⟩],
        r.Family = "Lato" ∧ r.Style = "normal" ∧ r.Weight = 400)
      ∧ ([(⟨"woff2", 400, "Lato", "normal", some ⟨"https://f.example/a", "/a", ""⟩, []⟩ :
          Typeface), ⟨"woff", 400, "Lato", "normal", none, []⟩].map Typeface.Format).Nodup
      ∧ (Typefaces.mk [⟨"woff2", 400, "Lato", "normal",
            some ⟨"https://f.example/a", "/a", ""⟩, []⟩,
          ⟨"woff", 400, "Lato", "normal", none, []⟩]).CSS = none
      ∧ (Typefaces.mk [⟨"woff", 400, "Lato", "normal", none, []⟩,
          ⟨"woff2", 400, "Lato", "normal",
            some ⟨"https://f.example/a", "/a", ""⟩, []⟩]).CSS = none := by
  refine ⟨by decide, by decide, rfl, rfl⟩

/-- C11 (amended): for every collection `l` whose records all share one
combination (non-empty family and style, weight at least 1), have pairwise
distinct formats and carry a URL when their format is eot, woff2, woff, ttf or
svg, `Typefaces.CSS` returns the same string for every permutation `l2` of the
records; for a non-empty collection it is the one rule whose `src` entries are
in the fixed order eot, woff2, woff, ttf, svg. -/
theorem C11_order_independent (l l2 : List Typeface) (fam sty : String) (w : Int)
    (hfam : fam ≠ "") (hsty : sty ≠ "") (hw : 1 ≤ w)
    (hshare : ∀ r ∈ l, r.Family = fam ∧ r.Style = sty ∧ r.Weight = w)
    (hdist : (l.map Typeface.Format).Nodup) (hurl : HasURLs ⟨l⟩)
    (hperm : List.Perm l2 l) :
    Typefaces.CSS ⟨l2⟩ = Typefaces.CSS ⟨l⟩
      ∧ (l = [] → Typefaces.CSS ⟨l⟩ = some "")
      ∧ (l ≠ [] → Typefaces.CSS ⟨l⟩ = some (cssTpl (quoteFamily fam) sty w
          ++ srcOfURLs (urlOfFormat l "eot") (urlOfFormat l "woff2") (urlOfFormat l "woff")
              (urlOfFormat l "ttf") (urlOfFormat l "svg") ++ "\x7d")) := by
  refine ⟨?_, ?_, fun hne => CSS_shared l fam sty w hfam hsty hw hne hshare hurl⟩
  · by_cases hne : l = []
    · subst hne
      rw [hperm.eq_nil]
    · have hne2 : l2 ≠ [] := by
        intro e
        subst e
        exact hne hperm.symm.eq_nil
      have hshare2 : ∀ r ∈ l2, r.Family = fam ∧ r.Style = sty ∧ r.Weight = w :=
        fun r hr => hshare r (hperm.mem_iff.mp hr)
      have hurl2 : HasURLs ⟨l2⟩ := fun r hr hm => hurl r (hperm.mem_iff.mp hr) hm
      rw [CSS_shared l fam sty w hfam hsty hw hne hshare hurl,
        CSS_shared l2 fam sty w hfam hsty hw hne2 hshare2 hurl2,
        urlOfFormat_perm l l2 hdist hperm, urlOfFormat_perm l l2 hdist hperm,
        urlOfFormat_perm l l2 hdist hperm, urlOfFormat_perm l l2 hdist hperm,
        urlOfFormat_perm l l2 hdist hperm]
  · intro e
    subst e
    rfl

/-- C11 (amended), at the records (svg, woff, eot) and their permutation (eot,
svg, woff): the same string, with the entries in the order eot, woff, svg. -/
theorem C11_order_independent_witness :
    ("Lato" ≠ "" ∧ "normal" ≠ "" ∧ (1 : Int) ≤ 400
      ∧ (∀ r ∈ [(⟨"svg", 400, "Lato", "normal", some ⟨"https://f.example/s", "/s", ""⟩, []⟩ :
            Typeface),
          ⟨"woff", 400, "Lato", "normal", some ⟨"https://f.example/w", "/w", ""⟩, []⟩,
          ⟨"eot", 400, "Lato", "normal", some ⟨"https://f.example/e", "/e", ""⟩, []⟩],
          r.Family = "Lato" ∧ r.Style = "normal" ∧ r.Weight = 400)
      ∧ ([(⟨"svg", 400, "Lato", "normal", some ⟨"https://f.example/s", "/s", ""⟩, []⟩ :
            Typeface),
          ⟨"woff", 400, "Lato", "normal", some ⟨"https://f.example/w", "/w", ""⟩, []⟩,
          ⟨"eot", 400, "Lato", "normal", some ⟨"https://f.example/e", "/e", ""⟩, []⟩].map
            Typeface.Format).Nodup
      ∧ HasURLs ⟨[⟨"svg", 400, "Lato", "normal", some ⟨"https://f.example/s", "/s", ""⟩, []⟩,
          ⟨"woff", 400, "Lato", "normal", some ⟨"https://f.example/w", "/w", ""⟩, []⟩,
          ⟨"eot", 400, "Lato", "normal", some ⟨"https://f.example/e", "/e", ""⟩, []⟩]⟩
      ∧ List.Perm
          [(⟨"eot", 400, "Lato", "normal", some ⟨"https://f.example/e", "/e", ""⟩, []⟩ :
            Typeface),
          ⟨"svg", 400, "Lato", "normal", some ⟨"https://f.example/s", "/s", ""⟩, []⟩,
          ⟨"woff", 400, "Lato", "normal", some ⟨"https://f.example/w", "/w", ""⟩, []⟩]
          [⟨"svg", 400, "Lato", "normal", some ⟨"https://f.example/s", "/s", ""⟩, []⟩,
          ⟨"woff", 400, "Lato", "normal", some ⟨"https://f.example/w", "/w", ""⟩, []⟩,
          ⟨"eot", 400, "Lato", "normal", some ⟨"https://f.example/e", "/e", ""⟩, []⟩])
    ∧ (Typefaces.mk
        [⟨"eot", 400, "Lato", "normal", some ⟨"https://f.example/e", "/e", ""⟩, []⟩,
          ⟨"svg", 400, "Lato", "normal", some ⟨"https://f.example/s", "/s", ""⟩, []⟩,
          ⟨"woff", 400, "Lato", "normal", some ⟨"https://f.example/w", "/w", ""⟩, []⟩]).CSS
      = (Typefaces.mk
        [⟨"svg", 400, "Lato", "normal", some ⟨"https://f.example/s", "/s", ""⟩, []⟩,
          ⟨"woff", 400, "Lato", "normal", some ⟨"https://f.example/w", "/w", ""⟩, []⟩,
          ⟨"eot", 400, "Lato", "normal", some ⟨"https://f.example/e", "/e", ""⟩, []⟩]).CSS
    ∧ (Typefaces.mk
        [⟨"svg", 400, "Lato", "normal", some ⟨"https://f.example/s", "/s", ""⟩, []⟩,
          ⟨"woff", 400, "Lato", "normal", some ⟨"https://f.example/w", "/w", ""⟩, []⟩,
          ⟨"eot", 400, "Lato", "normal", some ⟨"https://f.example/e", "/e", ""⟩, []⟩]).CSS
      = some ("@font-face\x7bfont-family:Lato;font-style:normal;font-weight:400;" ++
          "src:url('https://f.example/e');" ++
          "src:url('https://f.example/e?#iefix') format('embedded-opentype')," ++
          "url('https://f.example/w') format('woff')," ++
          "url('https://f.example/s') format('svg')\x7d") :=
  ⟨⟨by decide, by decide, by decide, by decide, by decide, by unfold HasURLs; decide,
      (List.perm_cons_append_cons _ (List.Perm.refl _) : List.Perm _ ([_, _] ++ _ :: []))⟩,
    (C11_order_independent
      [⟨"svg", 400, "Lato", "normal", some ⟨"https://f.example/s", "/s", ""⟩, []⟩,
        ⟨"woff", 400, "Lato", "normal", some ⟨"https://f.example/w", "/w", ""⟩, []⟩,
        ⟨"eot", 400, "Lato", "normal", some ⟨"https://f.example/e", "/e", ""⟩, []⟩]
      [⟨"eot", 400, "Lato", "normal", some ⟨"https://f.example/e", "/e", ""⟩, []⟩,
        ⟨"svg", 400, "Lato", "normal", some ⟨"https://f.example/s", "/s", ""⟩, []⟩,
        ⟨"woff", 400, "Lato", "normal", some ⟨"https://f.example/w", "/w", ""⟩, []⟩]
      "Lato" "normal" 400 (by decide) (by decide) (by decide) (by decide) (by decide)
      (by unfold HasURLs; decide)
      (List.perm_cons_append_cons _ (List.Perm.refl _) : List.Perm _ ([_, _] ++ _ :: []))).1,
    rfl⟩

/-- C12: for every collection and every combination (family, weight, style)
drawn from it, the consolidated rule of the combination is the rule built from
the first record, in collection order, of each of the formats eot, woff2, woff,
ttf and svg whose format, family, style and weight all match: its URL is the
one emitted for the format (the call fails when such a first record has no
URL).  Only these first records matter: a collection with the same first
records gives the same rule, whatever the URLs of its later records.  The
slice of rules of `Typefaces.CSS` is made of these rules. -/
theorem C12_first_match (ts : Typefaces) (fam s : String) (w : Int)
    (h : (fam, w, s) ∈ ts.triples) :
    cssRule ts ts.Format fam w s = ruleOfFirst ts fam s w
      ∧ (∀ ts2 : Typefaces,
          (∀ m ∈ ["eot", "woff2", "woff", "ttf", "svg"],
            firstRecord ts2 m fam s w = firstRecord ts m fam s w) →
          cssRule ts2 ts2.Format fam w s = cssRule ts ts.Format fam w s)
      ∧ ts.cssParts = mapOpt (fun t => ruleOfFirst ts t.1 t.2.2 t.2.1) ts.triples := by
  obtain ⟨h1, h2, h3⟩ := ne_of_mem_triples ts fam s w h
  refine ⟨cssRule_total ts fam s w h1 h2 h3, ?_, cssParts_total ts⟩
  intro ts2 hfirst
  rw [cssRule_total ts fam s w h1 h2 h3, cssRule_total ts2 fam s w h1 h2 h3]
  exact ruleOfFirst_congr ts ts2 fam s w hfirst

/-- C12, at a collection with two woff2 records of the same combination: the
rule carries the URL of the first one only. -/
theorem C12_first_match_witness :
    (("Lato", (400 : Int), "normal") ∈ (Typefaces.mk
        [⟨"woff2", 400, "Lato", "normal", some ⟨"https://f.example/a", "/a", ""⟩, []⟩,
          ⟨"woff2", 400, "Lato", "normal", some ⟨"https://g.example/b", "/b", ""⟩, []⟩,
          ⟨"woff", 400, "Lato", "normal", some ⟨"https://f.example/c", "/c", ""⟩, []⟩]).triples)
    ∧ cssRule ⟨[⟨"woff2", 400, "Lato", "normal", some ⟨"https://f.example/a", "/a", ""⟩, []⟩,
          ⟨"woff2", 400, "Lato", "normal", some ⟨"https://g.example/b", "/b", ""⟩, []⟩,
          ⟨"woff", 400, "Lato", "normal", some ⟨"https://f.example/c", "/c", ""⟩, []⟩]⟩
        ["woff2", "woff"] "Lato" 400 "normal"
      = some ("@font-face\x7bfont-family:Lato;font-style:normal;font-weight:400;" ++
          "src:url('https://f.example/a') format('woff2')," ++
          "url('https://f.example/c') format('woff')\x7d") :=
  ⟨by decide,
    (C12_first_match
      ⟨[⟨"woff2", 400, "Lato", "normal", some ⟨"https://f.example/a", "/a", ""⟩, []⟩,
        ⟨"woff2", 400, "Lato", "normal", some ⟨"https://g.example/b", "/b", ""⟩, []⟩,
        ⟨"woff", 400, "Lato", "normal", some ⟨"https://f.example/c", "/c", ""⟩, []⟩]⟩
      "Lato" "normal" 400 (by decide)).1.trans rfl⟩

/-! ## Version and file name: the claims -/

/-- C13 (the code at the failing input): for the relative URL `abc.woff2` and
for an empty path, both without a query, `Version` fails: `strings.Split` gives
one segment and `pathParts[len(pathParts)-2]` is out of range.  Without a query
`Version` fails exactly on a path without `/`; with at least two segments it
returns the second-to-last segment when that starts with `v` and the empty
string otherwise, as for `/fonts/s/domine/v10/abc.woff2`. -/
theorem C13_version_short_path :
    (Typeface.mk "woff2" 400 "Domine" "normal"
        (some ⟨"abc.woff2", "abc.woff2", ""⟩) []).Version queryPlain = none
      ∧ (Typeface.mk "woff2" 400 "Domine" "normal" (some ⟨"", "", ""⟩) []).Version queryPlain
          = none
      ∧ (∀ (query : String → String → String) (t : Typeface) (u : URL),
          t.URL = some u → u.RawQuery = "" →
          (t.Version query = none ↔ '/' ∉ u.Path.data))
      ∧ (∀ (query : String → String → String) (t : Typeface) (u : URL)
          (pre : List String) (a b : String),
          t.URL = some u → u.RawQuery = "" → Split u.Path '/' = pre ++ [a, b] →
          t.Version query = some (if HasPrefix a "v" then a else ""))
      ∧ (Typeface.mk "woff2" 400 "Domine" "normal"
          (some ⟨"https://fonts.example/fonts/s/domine/v10/abc.woff2",
            "/fonts/s/domine/v10/abc.woff2", ""⟩) []).Version queryPlain = some "v10" := by
  refine ⟨by decide, by decide, ?_, ?_, by decide⟩
  · exact fun query t u hurl hq => Version_eq_none query t u hurl hq
  · exact fun query t u pre a b hurl hq hsplit =>
      Version_of_segments query t u hurl hq pre a b hsplit

/-- C14: for every record whose URL carries a non-empty query string,
`Version` is the value that `URL.Query().Get` gives for the key `v` and
`FileName` is the value for the key `kit` with `.svg` appended, or the empty
string when that value is empty; both depend on the query only, not on the
path; for a record with no URL both are the empty string. -/
theorem C14_query_metadata (query : String → String → String) (t : Typeface) (u : URL)
    (hurl : t.URL = some u) (hq : u.RawQuery ≠ "") :
    t.Version query = some (query u.RawQuery "v")
      ∧ t.FileName query
          = some (if query u.RawQuery "kit" = "" then "" else query u.RawQuery "kit" ++ ".svg")
      ∧ (∀ (t2 : Typeface) (u2 : URL), t2.URL = some u2 → u2.RawQuery = u.RawQuery →
          t2.Version query = t.Version query ∧ t2.FileName query = t.FileName query)
      ∧ (∀ t0 : Typeface, t0.URL = none →
          t0.Version query = some "" ∧ t0.FileName query = some "") := by
  have hv : ∀ (t1 : Typeface) (u1 : URL), t1.URL = some u1 → u1.RawQuery ≠ "" →
      t1.Version query = some (query u1.RawQuery "v") := by
    intro t1 u1 h1 h2
    simp [Typeface.Version, h1, h2]
  have hf : ∀ (t1 : Typeface) (u1 : URL), t1.URL = some u1 → u1.RawQuery ≠ "" →
      t1.FileName query
        = some (if query u1.RawQuery "kit" = "" then ""
            else query u1.RawQuery "kit" ++ ".svg") := by
    intro t1 u1 h1 h2
    unfold Typeface.FileName
    simp only [h1, h2, ne_eq, not_false_eq_true, if_true]
    split <;> rfl
  refine ⟨hv t u hurl hq, hf t u hurl hq, ?_, ?_⟩
  · intro t2 u2 h2 he
    have hq2 : u2.RawQuery ≠ "" := he ▸ hq
    rw [hv t u hurl hq, hf t u hurl hq, hv t2 u2 h2 hq2, hf t2 u2 h2 hq2, he]
    exact ⟨rfl, rfl⟩
  · intro t0 h0
    simp [Typeface.Version, Typeface.FileName, h0]

/-- C14, at the URL `https://fonts.example/l/font?kit=XYZ&v=v10` with the
plain query reader: version `v10`, file name `XYZ.svg`. -/
theorem C14_query_metadata_witness :
    ((Typeface.mk "svg" 400 "Domine" "normal"
        (some ⟨"https://fonts.example/l/font?kit=XYZ&v=v10", "/l/font", "kit=XYZ&v=v10"⟩)
        []).URL
        = some ⟨"https://fonts.example/l/font?kit=XYZ&v=v10", "/l/font", "kit=XYZ&v=v10"⟩
      ∧ (URL.mk "https://fonts.example/l/font?kit=XYZ&v=v10" "/l/font"
          "kit=XYZ&v=v10").RawQuery ≠ "")
    ∧ (Typeface.mk "svg" 400 "Domine" "normal"
        (some ⟨"https://fonts.example/l/font?kit=XYZ&v=v10", "/l/font", "kit=XYZ&v=v10"⟩)
        []).Version queryPlain = some "v10"
    ∧ (Typeface.mk "svg" 400 "Domine" "normal"
        (some ⟨"https://fonts.example/l/font?kit=XYZ&v=v10", "/l/font", "kit=XYZ&v=v10"⟩)
        []).FileName queryPlain = some "XYZ.svg" :=
  ⟨⟨rfl, by decide⟩,
    (C14_query_metadata queryPlain
      ⟨"svg", 400, "Domine", "normal",
        some ⟨"https://fonts.example/l/font?kit=XYZ&v=v10", "/l/font", "kit=XYZ&v=v10"⟩, []⟩
      ⟨"https://fonts.example/l/font?kit=XYZ&v=v10", "/l/font", "kit=XYZ&v=v10"⟩
      rfl (by decide)).1.trans (by decide),
    (C14_query_metadata queryPlain
      ⟨"svg", 400, "Domine", "normal",
        some ⟨"https://fonts.example/l/font?kit=XYZ&v=v10", "/l/font", "kit=XYZ&v=v10"⟩, []⟩
      ⟨"https://fonts.example/l/font?kit=XYZ&v=v10", "/l/font", "kit=XYZ&v=v10"⟩
      rfl (by decide)).2.1.trans (by decide)⟩

/-! ## The declaration parser: the claims -/

/-- C15: for every token stream that contains no at-keyword token with the
value `@font-face`, whatever other tokens it contains, and for every collection
behind the pointer, `UnmarshalCSS` returns no error and sets the collection to
the empty list. -/
theorem C15_no_font_face (parse : String → Option URL) (tokens : List Token) (tf : Typefaces)
    (h : ∀ t ∈ tokens, ¬ (t.Typ = TokenAtKeyword ∧ t.Value = "@font-face")) :
    UnmarshalCSS parse tokens (some tf) = (some ⟨[]⟩, none) := by
  unfold UnmarshalCSS
  simp only []
  rw [blockLoop_no_fontface parse _ tokens [] (by omega) h]

/-- C15, at the empty stream and at the tokens of `@media \x7b p \x7b\x7d \x7d`. -/
theorem C15_no_font_face_witness :
    ((∀ t ∈ ([] : List Token), ¬ (t.Typ = TokenAtKeyword ∧ t.Value = "@font-face"))
      ∧ UnmarshalCSS parsePlain [] (some ⟨[⟨"woff", 400, "A", "normal", none, []⟩]⟩)
          = (some ⟨[]⟩, none))
    ∧ ((∀ t ∈ scan "@media \x7b p \x7b\x7d \x7d",
          ¬ (t.Typ = TokenAtKeyword ∧ t.Value = "@font-face"))
      ∧ UnmarshalCSS parsePlain (scan "@media \x7b p \x7b\x7d \x7d") (some ⟨[]⟩)
          = (some ⟨[]⟩, none)) :=
  ⟨⟨by decide, C15_no_font_face parsePlain [] _ (by decide)⟩,
    ⟨by decide, C15_no_font_face parsePlain _ _ (by decide)⟩⟩

/-- C16 (counterexample): on the tokens of `@font-face \x7b font-weight: bold; \x7d`
the value token is an identifier, and `UnmarshalCSS` fails with the grammar
error `expect <number> after :`, not with the conversion error. -/
theorem C16_counterexample :
    UnmarshalCSS parsePlain (scan "@font-face \x7b font-weight: bold; \x7d") (some ⟨[]⟩)
      = (some ⟨[]⟩, some (.expect "<number>" ⟨TokenChar, ":"⟩)) := by
  rfl

/-- C16 (amended): at every point of a run inside a block where the next
tokens are `font-weight`, `:` and a value token `v`: when `v` is a number token
whose text `strconv.Atoi` rejects, `UnmarshalCSS` fails with the conversion
error; when `v` is not a number token, it fails with the grammar error
`expect <number>`. -/
theorem C16_weight_conversion (parse : String → Option URL) (tokens s s0 s1 s2 : List Token)
    (tf : Typefaces) (result : List Typeface) (lg t0 c v : Token) (f : Typeface)
    (hreach : Reaches parse tokens (.inBlock s result lg f))
    (h0 : nextSig s = (t0, s0)) (ht : t0.Typ = TokenIdent) (htv : t0.Value = "font-weight")
    (h1 : nextSig s0 = (c, s1)) (hc : c.isChar ":" = true) (h2 : nextSig s1 = (v, s2)) :
    (v.Typ = TokenNumber → Atoi v.Value = none →
        UnmarshalCSS parse tokens (some tf) = (some tf, some (.convertNumber c)))
      ∧ (v.Typ ≠ TokenNumber →
        UnmarshalCSS parse tokens (some tf) = (some tf, some (.expect "<number>" c))) := by
  rw [UnmarshalCSS_of_reaches parse tokens tf _ hreach]
  constructor
  · intro hv ha
    rw [resume_decl_error parse s s0 result lg t0 f _ h0 ht
      ((declaration_weight parse s0 t0 f ht htv).trans
        (congrArg some (weightDecl_convert s0 s1 s2 t0 c v f h1 hc h2 hv ha)))]
    rfl
  · intro hv
    rw [resume_decl_error parse s s0 result lg t0 f _ h0 ht
      ((declaration_weight parse s0 t0 f ht htv).trans
        (congrArg some (weightDecl_not_number s0 s1 s2 t0 c v f h1 hc h2 hv)))]
    rfl

/-- C16 (amended), at the tokens of `@font-face\x7bfont-weight:1.5;\x7d`: the
number token `1.5` is not an integer, and the error is the conversion error. -/
theorem C16_weight_conversion_witness :
    (Reaches parsePlain
        [⟨TokenAtKeyword, "@font-face"⟩, ⟨TokenChar, "\x7b"⟩, ⟨TokenIdent, "font-weight"⟩,
          ⟨TokenChar, ":"⟩, ⟨TokenNumber, "1.5"⟩, ⟨TokenChar, ";"⟩, ⟨TokenChar, "\x7d"⟩]
        (.inBlock [⟨TokenIdent, "font-weight"⟩, ⟨TokenChar, ":"⟩, ⟨TokenNumber, "1.5"⟩,
          ⟨TokenChar, ";"⟩, ⟨TokenChar, "\x7d"⟩] [] ⟨TokenChar, "\x7b"⟩ Typeface.zero)
      ∧ nextSig [⟨TokenIdent, "font-weight"⟩, ⟨TokenChar, ":"⟩, ⟨TokenNumber, "1.5"⟩,
          ⟨TokenChar, ";"⟩, ⟨TokenChar, "\x7d"⟩]
        = (⟨TokenIdent, "font-weight"⟩,
          [⟨TokenChar, ":"⟩, ⟨TokenNumber, "1.5"⟩, ⟨TokenChar, ";"⟩, ⟨TokenChar, "\x7d"⟩])
      ∧ (Token.mk TokenIdent "font-weight").Typ = TokenIdent
      ∧ (Token.mk TokenIdent "font-weight").Value = "font-weight"
      ∧ nextSig [⟨TokenChar, ":"⟩, ⟨TokenNumber, "1.5"⟩, ⟨TokenChar, ";"⟩, ⟨TokenChar, "\x7d"⟩]
        = (⟨TokenChar, ":"⟩, [⟨TokenNumber, "1.5"⟩, ⟨TokenChar, ";"⟩, ⟨TokenChar, "\x7d"⟩])
      ∧ (Token.mk TokenChar ":").isChar ":" = true
      ∧ nextSig [⟨TokenNumber, "1.5"⟩, ⟨TokenChar, ";"⟩, ⟨TokenChar, "\x7d"⟩]
        = (⟨TokenNumber, "1.5"⟩, [⟨TokenChar, ";"⟩, ⟨TokenChar, "\x7d"⟩])
      ∧ (Token.mk TokenNumber "1.5").Typ = TokenNumber
      ∧ Atoi (Token.mk TokenNumber "1.5").Value = none)
    ∧ UnmarshalCSS parsePlain
        [⟨TokenAtKeyword, "@font-face"⟩, ⟨TokenChar, "\x7b"⟩, ⟨TokenIdent, "font-weight"⟩,
          ⟨TokenChar, ":"⟩, ⟨TokenNumber, "1.5"⟩, ⟨TokenChar, ";"⟩, ⟨TokenChar, "\x7d"⟩]
        (some ⟨[]⟩)
      = (some ⟨[]⟩, some (.convertNumber ⟨TokenChar, ":"⟩)) :=
  ⟨⟨Relation.ReflTransGen.single (Step.openBlock rfl rfl rfl rfl rfl), rfl, rfl, rfl, rfl,
      rfl, rfl, rfl, by decide⟩,
    (C16_weight_conversion parsePlain
      [⟨TokenAtKeyword, "@font-face"⟩, ⟨TokenChar, "\x7b"⟩, ⟨TokenIdent, "font-weight"⟩,
        ⟨TokenChar, ":"⟩, ⟨TokenNumber, "1.5"⟩, ⟨TokenChar, ";"⟩, ⟨TokenChar, "\x7d"⟩]
      [⟨TokenIdent, "font-weight"⟩, ⟨TokenChar, ":"⟩, ⟨TokenNumber, "1.5"⟩,
        ⟨TokenChar, ";"⟩, ⟨TokenChar, "\x7d"⟩] _ _ _ ⟨[]⟩ [] ⟨TokenChar, "\x7b"⟩
      ⟨TokenIdent, "font-weight"⟩ ⟨TokenChar, ":"⟩ ⟨TokenNumber, "1.5"⟩ Typeface.zero
      (Relation.ReflTransGen.single (Step.openBlock rfl rfl rfl rfl rfl))
      rfl rfl rfl rfl rfl rfl).1 rfl (by decide)⟩

/-- C17 (counterexample): the stream `@font-face \x7b font-family` ends in the
middle of a declaration, and `UnmarshalCSS` fails with the grammar error
`expect : after font-family`, not with the unexpected-end-of-input error; so
does the stream `@font-face \x7b font-family: 'X'`, with `expect ; after 'X'`. -/
theorem C17_counterexample :
    UnmarshalCSS parsePlain (scan "@font-face \x7b font-family") (some ⟨[]⟩)
        = (some ⟨[]⟩, some (.expect ":" ⟨TokenIdent, "font-family"⟩))
      ∧ UnmarshalCSS parsePlain (scan "@font-face \x7b font-family: 'X'") (some ⟨[]⟩)
        = (some ⟨[]⟩, some (.expect ";" ⟨TokenString, "'X'"⟩)) := by
  constructor <;> rfl

/-- C17 (amended): at every point of a run inside a block:
when the stream ends where a property name or the closing brace is expected,
`UnmarshalCSS` fails with the unexpected-end-of-input error; when the next
token is `font-family`, `font-style`, `font-weight` or `src` and no `;` follows
in the stream, it fails with another error (a grammar, conversion or URL
error), never with the unexpected-end-of-input error; when the next token is
`unicode-range` and no `;` follows, it fails with the
unexpected-end-of-input error if the name is followed by `:` and with the
grammar error `expect :` otherwise.  At every point between blocks, a stream
that ends there makes `UnmarshalCSS` succeed with the records parsed so far. -/
theorem C17_end_of_input (parse : String → Option URL) (tokens s s0 : List Token)
    (tf : Typefaces) (result : List Typeface) (lg t0 : Token) (f : Typeface)
    (hreach : Reaches parse tokens (.inBlock s result lg f))
    (h0 : nextSig s = (t0, s0)) :
    (t0.isEnd = true →
        UnmarshalCSS parse tokens (some tf) = (some tf, some (.unexpectedEOF lg)))
      ∧ (t0.Typ = TokenIdent →
          t0.Value = "font-family" ∨ t0.Value = "font-style" ∨ t0.Value = "font-weight"
            ∨ t0.Value = "src" →
          (∀ x ∈ s0, x.isChar ";" = false) →
          ∃ e, UnmarshalCSS parse tokens (some tf) = (some tf, some e)
            ∧ ∀ lg2, e ≠ .unexpectedEOF lg2)
      ∧ (t0.Typ = TokenIdent → t0.Value = "unicode-range" →
          (∀ x ∈ s0, x.isChar ";" = false) →
          ((nextSig s0).1.isChar ":" = true →
            ∃ lg2, UnmarshalCSS parse tokens (some tf) = (some tf, some (.unexpectedEOF lg2)))
          ∧ ((nextSig s0).1.isChar ":" = false →
            UnmarshalCSS parse tokens (some tf) = (some tf, some (.expect ":" t0))))
      ∧ (∀ (s3 s4 : List Token) (result3 : List Typeface) (t3 : Token),
          Reaches parse tokens (.between s3 result3) → nextSig s3 = (t3, s4) →
          t3.isEnd = true →
          UnmarshalCSS parse tokens (some tf) = (some ⟨result3⟩, none)) := by
  refine ⟨?_, ?_, ?_, ?_⟩
  · intro he
    rw [UnmarshalCSS_of_reaches parse tokens tf _ hreach,
      resume_inBlock_end parse s s0 result lg t0 f h0 he]
    rfl
  · intro ht hv hno
    rw [UnmarshalCSS_of_reaches parse tokens tf _ hreach]
    have key : ∀ (d : Except ParseError (Typeface × Token × List Token)),
        declaration parse s0 t0 f = some d →
        (∃ e, d = .error e ∧ ∀ lg2, e ≠ .unexpectedEOF lg2) →
        ∃ e, finish tf (resume parse (.inBlock s result lg f)) = (some tf, some e)
          ∧ ∀ lg2, e ≠ .unexpectedEOF lg2 := by
      intro d hd hex
      obtain ⟨e, rfl, hne⟩ := hex
      exact ⟨e, by rw [resume_decl_error parse s s0 result lg t0 f e h0 ht hd]; rfl, hne⟩
    rcases hv with hv | hv | hv | hv
    · exact key _ (declaration_family parse s0 t0 f ht hv) (familyDecl_no_semicolon s0 t0 f hno)
    · exact key _ (declaration_style parse s0 t0 f ht hv) (styleDecl_no_semicolon s0 t0 f hno)
    · exact key _ (declaration_weight parse s0 t0 f ht hv) (weightDecl_no_semicolon s0 t0 f hno)
    · exact key _ (declaration_src parse s0 t0 f ht hv) (srcDecl_no_semicolon parse s0 t0 f hno)
  · intro ht hv hno
    rw [UnmarshalCSS_of_reaches parse tokens tf _ hreach]
    have hd := declaration_unicode_range parse s0 t0 f ht hv
    have hu := unicodeRangeDecl_no_semicolon s0 (nextSig s0).2 t0 (nextSig s0).1 f hno rfl
    constructor
    · intro hc
      obtain ⟨lg2, h2⟩ := hu.1 hc
      exact ⟨lg2, by
        rw [resume_decl_error parse s s0 result lg t0 f _ h0 ht (hd.trans (congrArg some h2))]
        rfl⟩
    · intro hc
      rw [resume_decl_error parse s s0 result lg t0 f _ h0 ht
        (hd.trans (congrArg some (hu.2 hc)))]
      rfl
  · intro s3 s4 result3 t3 hr hn he
    rw [UnmarshalCSS_of_reaches parse tokens tf _ hr,
      resume_between_end parse s3 s4 result3 t3 hn he]
    rfl

/-- C17 (amended), at the stream `@font-face \x7b`, which ends right after the
opening brace: the unexpected-end-of-input error, quoting the brace. -/
theorem C17_end_of_input_witness :
    (Reaches parsePlain [⟨TokenAtKeyword, "@font-face"⟩, ⟨TokenChar, "\x7b"⟩]
        (.inBlock [] [] ⟨TokenChar, "\x7b"⟩ Typeface.zero)
      ∧ nextSig [] = (⟨TokenEOF, ""⟩, [])
      ∧ (Token.mk TokenEOF "").isEnd = true)
    ∧ UnmarshalCSS parsePlain [⟨TokenAtKeyword, "@font-face"⟩, ⟨TokenChar, "\x7b"⟩]
        (some ⟨[]⟩)
      = (some ⟨[]⟩, some (.unexpectedEOF ⟨TokenChar, "\x7b"⟩)) :=
  ⟨⟨Relation.ReflTransGen.single (Step.openBlock rfl rfl rfl rfl rfl), rfl, rfl⟩,
    (C17_end_of_input parsePlain [⟨TokenAtKeyword, "@font-face"⟩, ⟨TokenChar, "\x7b"⟩] [] []
      ⟨[]⟩ [] ⟨TokenChar, "\x7b"⟩ ⟨TokenEOF, ""⟩ Typeface.zero
      (Relation.ReflTransGen.single (Step.openBlock rfl rfl rfl rfl rfl)) rfl).1 rfl⟩

/-- C18 (counterexample): for the declaration `font-family: "X";`, with double
quotes, the parsed record keeps the quote characters in its family. -/
theorem C18_counterexample :
    UnmarshalCSS parsePlain (scan "@font-face \x7b font-family: \"X\"; \x7d") (some ⟨[]⟩)
      = (some ⟨[⟨"", 0, "\"X\"", "", none, []⟩]⟩, none) := by
  rfl

/-- C18 (amended): at every point of a run inside a block where the next
tokens are `font-family`, `:`, a string token `v` and `;`, the run goes on with
a record whose family is the text of `v` without its leading and trailing
apostrophes: the content `X` for a token `'X'` when `X` neither begins nor ends
with an apostrophe, and the whole text, quote characters included, for a token
`"X"`.  When the block is closed and the stream ends right after the
declaration, that record is the last one of the collection. -/
theorem C18_family_quotes (parse : String → Option URL) (tokens s s0 s1 s2 s3 : List Token)
    (result : List Typeface) (lg t0 c v e : Token) (f : Typeface)
    (hreach : Reaches parse tokens (.inBlock s result lg f))
    (h0 : nextSig s = (t0, s0)) (ht : t0.Typ = TokenIdent) (htv : t0.Value = "font-family")
    (h1 : nextSig s0 = (c, s1)) (hc : c.isChar ":" = true)
    (h2 : nextSig s1 = (v, s2)) (hv : v.Typ = TokenString)
    (h3 : nextSig s2 = (e, s3)) (he : e.isChar ";" = true) :
    Reaches parse tokens (.inBlock s3 result v { f with Family := Trim v.Value "'" })
      ∧ (∀ X : String, v.Value = "'" ++ X ++ "'" → Trim X "'" = X →
          Reaches parse tokens (.inBlock s3 result v { f with Family := X }))
      ∧ (∀ X : String, v.Value = "\"" ++ X ++ "\"" →
          Reaches parse tokens (.inBlock s3 result v { f with Family := "\"" ++ X ++ "\"" }))
      ∧ (∀ (tf : Typefaces) (s4 s5 : List Token) (b z : Token), nextSig s3 = (b, s4) →
          b.isChar "\x7d" = true → nextSig s4 = (z, s5) → z.isEnd = true →
          UnmarshalCSS parse tokens (some tf)
            = (some ⟨result ++ [{ f with Family := Trim v.Value "'" }]⟩, none)) := by
  have hr : Reaches parse tokens (.inBlock s3 result v { f with Family := Trim v.Value "'" }) :=
    Reaches_decl parse tokens s s0 s3 result lg v t0 f _ hreach h0 ht
      ((declaration_family parse s0 t0 f ht htv).trans
        (congrArg some (familyDecl_ok s0 s1 s2 s3 t0 c v e f h1 hc h2 hv h3 he)))
  refine ⟨hr, ?_, ?_, ?_⟩
  · intro X hX hT
    rw [hX, Trim_quoted, hT] at hr
    exact hr
  · intro X hX
    rw [hX, Trim_dquoted] at hr
    exact hr
  · intro tf s4 s5 b z h4 hb h5 hz
    have hr2 : Reaches parse tokens
        (.between s4 (result ++ [{ f with Family := Trim v.Value "'" }])) :=
      Relation.ReflTransGen.tail hr (Step.closeBlock h4 hb)
    rw [UnmarshalCSS_of_reaches parse tokens tf _ hr2, resume_between_end parse s4 s5 _ z h5 hz]
    rfl

/-- C18 (amended), at the tokens of `@font-face\x7bfont-family:'Open Sans';\x7d`:
the family of the parsed record is `Open Sans`. -/
theorem C18_family_quotes_witness :
    (Reaches parsePlain
        [⟨TokenAtKeyword, "@font-face"⟩, ⟨TokenChar, "\x7b"⟩, ⟨TokenIdent, "font-family"⟩,
          ⟨TokenChar, ":"⟩, ⟨TokenString, "'Open Sans'"⟩, ⟨TokenChar, ";"⟩, ⟨TokenChar, "\x7d"⟩]
        (.inBlock [⟨TokenIdent, "font-family"⟩, ⟨TokenChar, ":"⟩,
          ⟨TokenString, "'Open Sans'"⟩, ⟨TokenChar, ";"⟩, ⟨TokenChar, "\x7d"⟩] []
          ⟨TokenChar, "\x7b"⟩ Typeface.zero)
      ∧ nextSig [⟨TokenIdent, "font-family"⟩, ⟨TokenChar, ":"⟩,
          ⟨TokenString, "'Open Sans'"⟩, ⟨TokenChar, ";"⟩, ⟨TokenChar, "\x7d"⟩]
        = (⟨TokenIdent, "font-family"⟩, [⟨TokenChar, ":"⟩,
          ⟨TokenString, "'Open Sans'"⟩, ⟨TokenChar, ";"⟩, ⟨TokenChar, "\x7d"⟩])
      ∧ (Token.mk TokenIdent "font-family").Typ = TokenIdent
      ∧ (Token.mk TokenIdent "font-family").Value = "font-family"
      ∧ nextSig [⟨TokenChar, ":"⟩, ⟨TokenString, "'Open Sans'"⟩, ⟨TokenChar, ";"⟩,
          ⟨TokenChar, "\x7d"⟩]
        = (⟨TokenChar, ":"⟩, [⟨TokenString, "'Open Sans'"⟩, ⟨TokenChar, ";"⟩,
          ⟨TokenChar, "\x7d"⟩])
      ∧ (Token.mk TokenChar ":").isChar ":" = true
      ∧ nextSig [⟨TokenString, "'Open Sans'"⟩, ⟨TokenChar, ";"⟩, ⟨TokenChar, "\x7d"⟩]
        = (⟨TokenString, "'Open Sans'"⟩, [⟨TokenChar, ";"⟩, ⟨TokenChar, "\x7d"⟩])
      ∧ (Token.mk TokenString "'Open Sans'").Typ = TokenString
      ∧ nextSig [⟨TokenChar, ";"⟩, ⟨TokenChar, "\x7d"⟩]
        = (⟨TokenChar, ";"⟩, [⟨TokenChar, "\x7d"⟩])
      ∧ (Token.mk TokenChar ";").isChar ";" = true)
    ∧ UnmarshalCSS parsePlain
        [⟨TokenAtKeyword, "@font-face"⟩, ⟨TokenChar, "\x7b"⟩, ⟨TokenIdent, "font-family"⟩,
          ⟨TokenChar, ":"⟩, ⟨TokenString, "'Open Sans'"⟩, ⟨TokenChar, ";"⟩, ⟨TokenChar, "\x7d"⟩]
        (some ⟨[]⟩)
      = (some ⟨[⟨"", 0, "Open Sans", "", none, []⟩]⟩, none) :=
  ⟨⟨Relation.ReflTransGen.single (Step.openBlock rfl rfl rfl rfl rfl), rfl, rfl, rfl, rfl,
      rfl, rfl, rfl, rfl, rfl⟩,
    ((C18_family_quotes parsePlain
      [⟨TokenAtKeyword, "@font-face"⟩, ⟨TokenChar, "\x7b"⟩, ⟨TokenIdent, "font-family"⟩,
        ⟨TokenChar, ":"⟩, ⟨TokenString, "'Open Sans'"⟩, ⟨TokenChar, ";"⟩, ⟨TokenChar, "\x7d"⟩]
      [⟨TokenIdent, "font-family"⟩, ⟨TokenChar, ":"⟩,
        ⟨TokenString, "'Open Sans'"⟩, ⟨TokenChar, ";"⟩, ⟨TokenChar, "\x7d"⟩]
      _ _ _ _ [] ⟨TokenChar, "\x7b"⟩ ⟨TokenIdent, "font-family"⟩ ⟨TokenChar, ":"⟩
      ⟨TokenString, "'Open Sans'"⟩ ⟨TokenChar, ";"⟩ Typeface.zero
      (Relation.ReflTransGen.single (Step.openBlock rfl rfl rfl rfl rfl))
      rfl rfl rfl rfl rfl rfl rfl rfl rfl).2.2.2 ⟨[]⟩ [] [] ⟨TokenChar, "\x7d"⟩ ⟨TokenEOF, ""⟩
      rfl rfl rfl rfl).trans (by rfl)⟩

/-- C19 (counterexample): for the URI token `url("https://f.example/a.woff2")`,
with double quotes, the string handed to the URL parser is
`"https://f.example/a.woff2"`, the quote characters included: whatever the URL
parser is, the call fails with the URL error when the parser rejects that string,
and stores what the parser returns for that string otherwise. -/
theorem C19_counterexample :
    Trim (TrimSuffix (TrimPrefix "url(\"https://f.example/a.woff2\")" "url(") ")") "'"
        = "\"https://f.example/a.woff2\""
    ∧ scan "@font-face \x7b src: url(\"https://f.example/a.woff2\") format('woff2'); \x7d"
        = [⟨TokenAtKeyword, "@font-face"⟩, ⟨TokenS, " "⟩, ⟨TokenChar, "\x7b"⟩, ⟨TokenS, " "⟩,
            ⟨TokenIdent, "src"⟩, ⟨TokenChar, ":"⟩, ⟨TokenS, " "⟩,
            ⟨TokenURI, "url(\"https://f.example/a.woff2\")"⟩, ⟨TokenS, " "⟩,
            ⟨TokenFunction, "format("⟩, ⟨TokenString, "'woff2'"⟩, ⟨TokenChar, ")"⟩,
            ⟨TokenChar, ";"⟩, ⟨TokenS, " "⟩, ⟨TokenChar, "\x7d"⟩]
    ∧ ∀ parse : String → Option URL,
        UnmarshalCSS parse
            (scan "@font-face \x7b src: url(\"https://f.example/a.woff2\") format('woff2'); \x7d")
            (some ⟨[]⟩)
          = match parse "\"https://f.example/a.woff2\"" with
            | none => (some ⟨[]⟩, some (.parseURL ⟨TokenChar, ":"⟩))
            | some u => (some ⟨[⟨"woff2", 0, "", "", some u, []⟩]⟩, none) := by
  have hs : Trim (TrimSuffix (TrimPrefix "url(\"https://f.example/a.woff2\")" "url(") ")") "'"
        = "\"https://f.example/a.woff2\"" := by decide
  have hsc : scan "@font-face \x7b src: url(\"https://f.example/a.woff2\") format('woff2'); \x7d"
        = [⟨TokenAtKeyword, "@font-face"⟩, ⟨TokenS, " "⟩, ⟨TokenChar, "\x7b"⟩, ⟨TokenS, " "⟩,
            ⟨TokenIdent, "src"⟩, ⟨TokenChar, ":"⟩, ⟨TokenS, " "⟩,
            ⟨TokenURI, "url(\"https://f.example/a.woff2\")"⟩, ⟨TokenS, " "⟩,
            ⟨TokenFunction, "format("⟩, ⟨TokenString, "'woff2'"⟩, ⟨TokenChar, ")"⟩,
            ⟨TokenChar, ";"⟩, ⟨TokenS, " "⟩, ⟨TokenChar, "\x7d"⟩] := by rfl
  refine ⟨hs, hsc, ?_⟩
  intro parse
  rw [hsc]
  have hreach : Reaches parse
      [⟨TokenAtKeyword, "@font-face"⟩, ⟨TokenS, " "⟩, ⟨TokenChar, "\x7b"⟩, ⟨TokenS, " "⟩,
        ⟨TokenIdent, "src"⟩, ⟨TokenChar, ":"⟩, ⟨TokenS, " "⟩,
        ⟨TokenURI, "url(\"https://f.example/a.woff2\")"⟩, ⟨TokenS, " "⟩,
        ⟨TokenFunction, "format("⟩, ⟨TokenString, "'woff2'"⟩, ⟨TokenChar, ")"⟩,
        ⟨TokenChar, ";"⟩, ⟨TokenS, " "⟩, ⟨TokenChar, "\x7d"⟩]
      (.inBlock [⟨TokenS, " "⟩,
        ⟨TokenIdent, "src"⟩, ⟨TokenChar, ":"⟩, ⟨TokenS, " "⟩,
        ⟨TokenURI, "url(\"https://f.example/a.woff2\")"⟩, ⟨TokenS, " "⟩,
        ⟨TokenFunction, "format("⟩, ⟨TokenString, "'woff2'"⟩, ⟨TokenChar, ")"⟩,
        ⟨TokenChar, ";"⟩, ⟨TokenS, " "⟩, ⟨TokenChar, "\x7d"⟩] [] ⟨TokenChar, "\x7b"⟩
        Typeface.zero) :=
    Relation.ReflTransGen.single (Step.openBlock rfl rfl rfl rfl rfl)
  cases hp : parse "\"https://f.example/a.woff2\"" with
  | none =>
    rw [UnmarshalCSS_of_reaches parse _ _ _ hreach,
      resume_decl_error parse
        [⟨TokenS, " "⟩, ⟨TokenIdent, "src"⟩, ⟨TokenChar, ":"⟩, ⟨TokenS, " "⟩,
          ⟨TokenURI, "url(\"https://f.example/a.woff2\")"⟩, ⟨TokenS, " "⟩,
          ⟨TokenFunction, "format("⟩, ⟨TokenString, "'woff2'"⟩, ⟨TokenChar, ")"⟩,
          ⟨TokenChar, ";"⟩, ⟨TokenS, " "⟩, ⟨TokenChar, "\x7d"⟩]
        [⟨TokenChar, ":"⟩, ⟨TokenS, " "⟩,
          ⟨TokenURI, "url(\"https://f.example/a.woff2\")"⟩, ⟨TokenS, " "⟩,
          ⟨TokenFunction, "format("⟩, ⟨TokenString, "'woff2'"⟩, ⟨TokenChar, ")"⟩,
          ⟨TokenChar, ";"⟩, ⟨TokenS, " "⟩, ⟨TokenChar, "\x7d"⟩]
        [] ⟨TokenChar, "\x7b"⟩ ⟨TokenIdent, "src"⟩ Typeface.zero _ rfl rfl
        ((declaration_src parse _ _ _ rfl rfl).trans
          (congrArg some (srcDecl_parse_error parse _
            [⟨TokenS, " "⟩,
              ⟨TokenURI, "url(\"https://f.example/a.woff2\")"⟩, ⟨TokenS, " "⟩,
              ⟨TokenFunction, "format("⟩, ⟨TokenString, "'woff2'"⟩, ⟨TokenChar, ")"⟩,
              ⟨TokenChar, ";"⟩, ⟨TokenS, " "⟩, ⟨TokenChar, "\x7d"⟩]
            [⟨TokenS, " "⟩,
              ⟨TokenFunction, "format("⟩, ⟨TokenString, "'woff2'"⟩, ⟨TokenChar, ")"⟩,
              ⟨TokenChar, ";"⟩, ⟨TokenS, " "⟩, ⟨TokenChar, "\x7d"⟩]
            ⟨TokenIdent, "src"⟩ ⟨TokenChar, ":"⟩
            ⟨TokenURI, "url(\"https://f.example/a.woff2\")"⟩ Typeface.zero rfl rfl rfl rfl
            (by rw [hs]; exact hp))))]
    rfl
  | some u =>
    have hd := Reaches_decl parse _
      [⟨TokenS, " "⟩, ⟨TokenIdent, "src"⟩, ⟨TokenChar, ":"⟩, ⟨TokenS, " "⟩,
        ⟨TokenURI, "url(\"https://f.example/a.woff2\")"⟩, ⟨TokenS, " "⟩,
        ⟨TokenFunction, "format("⟩, ⟨TokenString, "'woff2'"⟩, ⟨TokenChar, ")"⟩,
        ⟨TokenChar, ";"⟩, ⟨TokenS, " "⟩, ⟨TokenChar, "\x7d"⟩]
      [⟨TokenChar, ":"⟩, ⟨TokenS, " "⟩,
        ⟨TokenURI, "url(\"https://f.example/a.woff2\")"⟩, ⟨TokenS, " "⟩,
        ⟨TokenFunction, "format("⟩, ⟨TokenString, "'woff2'"⟩, ⟨TokenChar, ")"⟩,
        ⟨TokenChar, ";"⟩, ⟨TokenS, " "⟩, ⟨TokenChar, "\x7d"⟩]
      [⟨TokenS, " "⟩, ⟨TokenChar, "\x7d"⟩]
      [] ⟨TokenChar, "\x7b"⟩ ⟨TokenChar, ")"⟩ ⟨TokenIdent, "src"⟩ Typeface.zero
      { Typeface.zero with URL := some u, Format := Trim "'woff2'" "'" } hreach rfl rfl
      ((declaration_src parse _ _ _ rfl rfl).trans
        (congrArg some (srcDecl_format parse _
          [⟨TokenS, " "⟩,
            ⟨TokenURI, "url(\"https://f.example/a.woff2\")"⟩, ⟨TokenS, " "⟩,
            ⟨TokenFunction, "format("⟩, ⟨TokenString, "'woff2'"⟩, ⟨TokenChar, ")"⟩,
            ⟨TokenChar, ";"⟩, ⟨TokenS, " "⟩, ⟨TokenChar, "\x7d"⟩]
          [⟨TokenS, " "⟩,
            ⟨TokenFunction, "format("⟩, ⟨TokenString, "'woff2'"⟩, ⟨TokenChar, ")"⟩,
            ⟨TokenChar, ";"⟩, ⟨TokenS, " "⟩, ⟨TokenChar, "\x7d"⟩]
          [⟨TokenString, "'woff2'"⟩, ⟨TokenChar, ")"⟩,
            ⟨TokenChar, ";"⟩, ⟨TokenS, " "⟩, ⟨TokenChar, "\x7d"⟩]
          [⟨TokenChar, ")"⟩, ⟨TokenChar, ";"⟩, ⟨TokenS, " "⟩, ⟨TokenChar, "\x7d"⟩]
          [⟨TokenChar, ";"⟩, ⟨TokenS, " "⟩, ⟨TokenChar, "\x7d"⟩]
          [⟨TokenS, " "⟩, ⟨TokenChar, "\x7d"⟩]
          ⟨TokenIdent, "src"⟩ ⟨TokenChar, ":"⟩
          ⟨TokenURI, "url(\"https://f.example/a.woff2\")"⟩ ⟨TokenFunction, "format("⟩
          ⟨TokenString, "'woff2'"⟩ ⟨TokenChar, ")"⟩ ⟨TokenChar, ";"⟩ Typeface.zero u
          rfl rfl rfl rfl (by rw [hs]; exact hp) rfl rfl rfl rfl rfl rfl rfl rfl rfl)))
    rw [UnmarshalCSS_close parse _ _ [] [] _ _ _ ⟨TokenChar, "\x7d"⟩ ⟨TokenEOF, ""⟩ _ hd
      rfl rfl rfl rfl]
    have ht : Trim "'woff2'" "'" = "woff2" := by decide
    simp only [ht]
    rfl

/-- C19 (amended): at every point of a run inside a block where the next
tokens are `src`, `:` and a URI token `v`, the only string handed to the URL
parser is the text of `v` without `url(`, `)` and its leading and trailing
apostrophes: the branch is the same for any two parsers that agree on that
string, it fails with the URL error when the parser rejects it, and the URL of
the record is what the parser returns for it.  That string is `U` for the
tokens `url(U)` and `url('U')` when `U` neither begins nor ends with an
apostrophe, and `"U"`, quote characters included, for the token `url("U")`. -/
theorem C19_raw_url (parse : String → Option URL) (tokens s s0 s1 s2 : List Token)
    (tf : Typefaces) (result : List Typeface) (lg t0 c v : Token) (f : Typeface)
    (hreach : Reaches parse tokens (.inBlock s result lg f))
    (h0 : nextSig s = (t0, s0)) (ht : t0.Typ = TokenIdent) (htv : t0.Value = "src")
    (h1 : nextSig s0 = (c, s1)) (hc : c.isChar ":" = true)
    (h2 : nextSig s1 = (v, s2)) (hv : v.Typ = TokenURI) :
    (∀ parse2 : String → Option URL,
        parse2 (Trim (TrimSuffix (TrimPrefix v.Value "url(") ")") "'")
          = parse (Trim (TrimSuffix (TrimPrefix v.Value "url(") ")") "'") →
        srcDecl parse2 s0 t0 f = srcDecl parse s0 t0 f)
      ∧ (parse (Trim (TrimSuffix (TrimPrefix v.Value "url(") ")") "'") = none →
          UnmarshalCSS parse tokens (some tf) = (some tf, some (.parseURL c)))
      ∧ (∀ (u : URL) (e : Token) (s3 : List Token),
          parse (Trim (TrimSuffix (TrimPrefix v.Value "url(") ")") "'") = some u →
          nextSig s2 = (e, s3) → e.isChar ";" = true →
          Reaches parse tokens (.inBlock s3 result v { f with URL := some u, Format := "eot" }))
      ∧ (∀ U : String, v.Value = "url(" ++ U ++ ")" → Trim U "'" = U →
          Trim (TrimSuffix (TrimPrefix v.Value "url(") ")") "'" = U)
      ∧ (∀ U : String, v.Value = "url('" ++ U ++ "')" → Trim U "'" = U →
          Trim (TrimSuffix (TrimPrefix v.Value "url(") ")") "'" = U)
      ∧ (∀ U : String, v.Value = "url(\"" ++ U ++ "\")" →
          Trim (TrimSuffix (TrimPrefix v.Value "url(") ")") "'" = "\"" ++ U ++ "\"") := by
  refine ⟨?_, ?_, ?_, ?_, ?_, ?_⟩
  · intro parse2 h
    apply srcDecl_congr
    rw [h1, h2]
    exact h
  · intro hp
    rw [UnmarshalCSS_of_reaches parse tokens tf _ hreach,
      resume_decl_error parse s s0 result lg t0 f _ h0 ht
        ((declaration_src parse s0 t0 f ht htv).trans
          (congrArg some (srcDecl_parse_error parse s0 s1 s2 t0 c v f h1 hc h2 hv hp)))]
    rfl
  · intro u e s3 hp h3 he
    exact Reaches_decl parse tokens s s0 s3 result lg v t0 f _ hreach h0 ht
      ((declaration_src parse s0 t0 f ht htv).trans
        (congrArg some (srcDecl_eot parse s0 s1 s2 s3 t0 c v e f u h1 hc h2 hv hp h3 he)))
  · intro U hU hT
    rw [hU, urlString_unquoted, hT]
  · intro U hU hT
    rw [hU, urlString_quoted, hT]
  · intro U hU
    rw [hU, urlString_dquoted]

/-- C19 (amended), at the tokens of
`@font-face\x7bsrc:url('https://f.example/a.eot');\x7d`: the parser is handed
`https://f.example/a.eot`. -/
theorem C19_raw_url_witness :
    (Reaches parsePlain
        [⟨TokenAtKeyword, "@font-face"⟩, ⟨TokenChar, "\x7b"⟩, ⟨TokenIdent, "src"⟩,
          ⟨TokenChar, ":"⟩, ⟨TokenURI, "url('https://f.example/a.eot')"⟩, ⟨TokenChar, ";"⟩,
          ⟨TokenChar, "\x7d"⟩]
        (.inBlock [⟨TokenIdent, "src"⟩, ⟨TokenChar, ":"⟩,
          ⟨TokenURI, "url('https://f.example/a.eot')"⟩, ⟨TokenChar, ";"⟩, ⟨TokenChar, "\x7d"⟩]
          [] ⟨TokenChar, "\x7b"⟩ Typeface.zero)
      ∧ nextSig [⟨TokenIdent, "src"⟩, ⟨TokenChar, ":"⟩,
          ⟨TokenURI, "url('https://f.example/a.eot')"⟩, ⟨TokenChar, ";"⟩, ⟨TokenChar, "\x7d"⟩]
        = (⟨TokenIdent, "src"⟩, [⟨TokenChar, ":"⟩,
          ⟨TokenURI, "url('https://f.example/a.eot')"⟩, ⟨TokenChar, ";"⟩, ⟨TokenChar, "\x7d"⟩])
      ∧ (Token.mk TokenIdent "src").Typ = TokenIdent
      ∧ (Token.mk TokenIdent "src").Value = "src"
      ∧ nextSig [⟨TokenChar, ":"⟩, ⟨TokenURI, "url('https://f.example/a.eot')"⟩,
          ⟨TokenChar, ";"⟩, ⟨TokenChar, "\x7d"⟩]
        = (⟨TokenChar, ":"⟩, [⟨TokenURI, "url('https://f.example/a.eot')"⟩,
          ⟨TokenChar, ";"⟩, ⟨TokenChar, "\x7d"⟩])
      ∧ (Token.mk TokenChar ":").isChar ":" = true
      ∧ nextSig [⟨TokenURI, "url('https://f.example/a.eot')"⟩, ⟨TokenChar, ";"⟩,
          ⟨TokenChar, "\x7d"⟩]
        = (⟨TokenURI, "url('https://f.example/a.eot')"⟩, [⟨TokenChar, ";"⟩,
          ⟨TokenChar, "\x7d"⟩])
      ∧ (Token.mk TokenURI "url('https://f.example/a.eot')").Typ = TokenURI
      ∧ "url('https://f.example/a.eot')" = "url('" ++ "https://f.example/a.eot" ++ "')"
      ∧ Trim "https://f.example/a.eot" "'" = "https://f.example/a.eot")
    ∧ Trim (TrimSuffix (TrimPrefix
        (Token.mk TokenURI "url('https://f.example/a.eot')").Value "url(") ")") "'"
      = "https://f.example/a.eot" :=
  ⟨⟨Relation.ReflTransGen.single (Step.openBlock rfl rfl rfl rfl rfl), rfl, rfl, rfl, rfl,
      rfl, rfl, rfl, by decide, by decide⟩,
    (C19_raw_url parsePlain
      [⟨TokenAtKeyword, "@font-face"⟩, ⟨TokenChar, "\x7b"⟩, ⟨TokenIdent, "src"⟩,
        ⟨TokenChar, ":"⟩, ⟨TokenURI, "url('https://f.example/a.eot')"⟩, ⟨TokenChar, ";"⟩,
        ⟨TokenChar, "\x7d"⟩]
      [⟨TokenIdent, "src"⟩, ⟨TokenChar, ":"⟩,
        ⟨TokenURI, "url('https://f.example/a.eot')"⟩, ⟨TokenChar, ";"⟩, ⟨TokenChar, "\x7d"⟩]
      _ _ _ ⟨[]⟩ [] ⟨TokenChar, "\x7b"⟩ ⟨TokenIdent, "src"⟩ ⟨TokenChar, ":"⟩
      ⟨TokenURI, "url('https://f.example/a.eot')"⟩ Typeface.zero
      (Relation.ReflTransGen.single (Step.openBlock rfl rfl rfl rfl rfl))
      rfl rfl rfl rfl rfl rfl rfl).2.2.2.2.1 "https://f.example/a.eot" (by decide)
      (by decide)⟩

/-- C20 (counterexample): for `format('a\'')`, whose name ends with an escaped
apostrophe, the string token is `'a\''` and the format of the parsed record is
`a\`, not the name `a\'`. -/
theorem C20_counterexample :
    UnmarshalCSS parsePlain
        [⟨TokenAtKeyword, "@font-face"⟩, ⟨TokenChar, "\x7b"⟩, ⟨TokenIdent, "src"⟩,
          ⟨TokenChar, ":"⟩, ⟨TokenURI, "url(a.ttf)"⟩, ⟨TokenFunction, "format("⟩,
          ⟨TokenString, "'a\\''"⟩, ⟨TokenChar, ")"⟩, ⟨TokenChar, ";"⟩, ⟨TokenChar, "\x7d"⟩]
        (some ⟨[]⟩)
      = (some ⟨[⟨"a\\", 0, "", "", some ⟨"a.ttf", "", ""⟩, []⟩]⟩, none)
    ∧ "'a\\''" = "'" ++ "a\\'" ++ "'" ∧ "a\\" ≠ "a\\'" := by
  refine ⟨rfl, by decide, by decide⟩

/-- C20 (amended): at every point of a run inside a block where the next
tokens are `src`, `:` and a URI token whose URL the parser accepts as `u`: when
the next token is `;`, the run goes on with a record whose format is `eot`,
whatever `u` is; when the next tokens are `format(`, a string token `n`, `)`
and `;`, the run goes on with a record whose format is the text of `n` without
its leading and trailing apostrophes, with no validation: the name itself for a
token `'name'` when the name neither begins nor ends with an apostrophe. -/
theorem C20_format_after_url (parse : String → Option URL)
    (tokens s s0 s1 s2 s3 : List Token) (result : List Typeface) (lg t0 c v e : Token)
    (f : Typeface) (u : URL)
    (hreach : Reaches parse tokens (.inBlock s result lg f))
    (h0 : nextSig s = (t0, s0)) (ht : t0.Typ = TokenIdent) (htv : t0.Value = "src")
    (h1 : nextSig s0 = (c, s1)) (hc : c.isChar ":" = true)
    (h2 : nextSig s1 = (v, s2)) (hv : v.Typ = TokenURI)
    (hp : parse (Trim (TrimSuffix (TrimPrefix v.Value "url(") ")") "'") = some u)
    (h3 : nextSig s2 = (e, s3)) :
    (e.isChar ";" = true →
        Reaches parse tokens (.inBlock s3 result v { f with URL := some u, Format := "eot" }))
      ∧ (∀ (s4 s5 s6 : List Token) (n p q : Token),
          e.Typ = TokenFunction → e.Value = "format(" →
          nextSig s3 = (n, s4) → n.Typ = TokenString →
          nextSig s4 = (p, s5) → p.isChar ")" = true →
          nextSig s5 = (q, s6) → q.isChar ";" = true →
          Reaches parse tokens
              (.inBlock s6 result p { f with URL := some u, Format := Trim n.Value "'" })
            ∧ ∀ name : String, n.Value = "'" ++ name ++ "'" → Trim name "'" = name →
              Reaches parse tokens
                (.inBlock s6 result p { f with URL := some u, Format := name })) := by
  constructor
  · intro he
    exact Reaches_decl parse tokens s s0 s3 result lg v t0 f _ hreach h0 ht
      ((declaration_src parse s0 t0 f ht htv).trans
        (congrArg some (srcDecl_eot parse s0 s1 s2 s3 t0 c v e f u h1 hc h2 hv hp h3 he)))
  · intro s4 s5 s6 n p q het hev h4 hn h5 hpc h6 hq
    have hr : Reaches parse tokens
        (.inBlock s6 result p { f with URL := some u, Format := Trim n.Value "'" }) :=
      Reaches_decl parse tokens s s0 s6 result lg p t0 f _ hreach h0 ht
        ((declaration_src parse s0 t0 f ht htv).trans
          (congrArg some (srcDecl_format parse s0 s1 s2 s3 s4 s5 s6 t0 c v e n p q f u
            h1 hc h2 hv hp h3 het hev h4 hn h5 hpc h6 hq)))
    refine ⟨hr, ?_⟩
    intro name hname hT
    rw [hname, Trim_quoted, hT] at hr
    exact hr

/-- C20 (amended), at the tokens of
`@font-face\x7bsrc:url(https://f.example/a.ttf);\x7d`: the URL is followed by
`;` and the format is `eot`, although the path ends in `.ttf`. -/
theorem C20_format_after_url_witness :
    (Reaches parsePlain
        [⟨TokenAtKeyword, "@font-face"⟩, ⟨TokenChar, "\x7b"⟩, ⟨TokenIdent, "src"⟩,
          ⟨TokenChar, ":"⟩, ⟨TokenURI, "url(https://f.example/a.ttf)"⟩, ⟨TokenChar, ";"⟩,
          ⟨TokenChar, "\x7d"⟩]
        (.inBlock [⟨TokenIdent, "src"⟩, ⟨TokenChar, ":"⟩,
          ⟨TokenURI, "url(https://f.example/a.ttf)"⟩, ⟨TokenChar, ";"⟩, ⟨TokenChar, "\x7d"⟩]
          [] ⟨TokenChar, "\x7b"⟩ Typeface.zero)
      ∧ nextSig [⟨TokenIdent, "src"⟩, ⟨TokenChar, ":"⟩,
          ⟨TokenURI, "url(https://f.example/a.ttf)"⟩, ⟨TokenChar, ";"⟩, ⟨TokenChar, "\x7d"⟩]
        = (⟨TokenIdent, "src"⟩, [⟨TokenChar, ":"⟩,
          ⟨TokenURI, "url(https://f.example/a.ttf)"⟩, ⟨TokenChar, ";"⟩, ⟨TokenChar, "\x7d"⟩])
      ∧ (Token.mk TokenIdent "src").Typ = TokenIdent
      ∧ (Token.mk TokenIdent "src").Value = "src"
      ∧ nextSig [⟨TokenChar, ":"⟩, ⟨TokenURI, "url(https://f.example/a.ttf)"⟩,
          ⟨TokenChar, ";"⟩, ⟨TokenChar, "\x7d"⟩]
        = (⟨TokenChar, ":"⟩, [⟨TokenURI, "url(https://f.example/a.ttf)"⟩,
          ⟨TokenChar, ";"⟩, ⟨TokenChar, "\x7d"⟩])
      ∧ (Token.mk TokenChar ":").isChar ":" = true
      ∧ nextSig [⟨TokenURI, "url(https://f.example/a.ttf)"⟩, ⟨TokenChar, ";"⟩,
          ⟨TokenChar, "\x7d"⟩]
        = (⟨TokenURI, "url(https://f.example/a.ttf)"⟩, [⟨TokenChar, ";"⟩,
          ⟨TokenChar, "\x7d"⟩])
      ∧ (Token.mk TokenURI "url(https://f.example/a.ttf)").Typ = TokenURI
      ∧ parsePlain (Trim (TrimSuffix (TrimPrefix
          (Token.mk TokenURI "url(https://f.example/a.ttf)").Value "url(") ")") "'")
        = some ⟨"https://f.example/a.ttf", "", ""⟩
      ∧ nextSig [⟨TokenChar, ";"⟩, ⟨TokenChar, "\x7d"⟩]
        = (⟨TokenChar, ";"⟩, [⟨TokenChar, "\x7d"⟩])
      ∧ (Token.mk TokenChar ";").isChar ";" = true)
    ∧ Reaches parsePlain
        [⟨TokenAtKeyword, "@font-face"⟩, ⟨TokenChar, "\x7b"⟩, ⟨TokenIdent, "src"⟩,
          ⟨TokenChar, ":"⟩, ⟨TokenURI, "url(https://f.example/a.ttf)"⟩, ⟨TokenChar, ";"⟩,
          ⟨TokenChar, "\x7d"⟩]
        (.inBlock [⟨TokenChar, "\x7d"⟩] [] ⟨TokenURI, "url(https://f.example/a.ttf)"⟩
          ⟨"eot", 0, "", "", some ⟨"https://f.example/a.ttf", "", ""⟩, []⟩) :=
  ⟨⟨Relation.ReflTransGen.single (Step.openBlock rfl rfl rfl rfl rfl), rfl, rfl, rfl, rfl,
      rfl, rfl, rfl, by rfl, rfl, rfl⟩,
    (C20_format_after_url parsePlain
      [⟨TokenAtKeyword, "@font-face"⟩, ⟨TokenChar, "\x7b"⟩, ⟨TokenIdent, "src"⟩,
        ⟨TokenChar, ":"⟩, ⟨TokenURI, "url(https://f.example/a.ttf)"⟩, ⟨TokenChar, ";"⟩,
        ⟨TokenChar, "\x7d"⟩]
      [⟨TokenIdent, "src"⟩, ⟨TokenChar, ":"⟩,
        ⟨TokenURI, "url(https://f.example/a.ttf)"⟩, ⟨TokenChar, ";"⟩, ⟨TokenChar, "\x7d"⟩]
      _ _ _ [⟨TokenChar, "\x7d"⟩] [] ⟨TokenChar, "\x7b"⟩ ⟨TokenIdent, "src"⟩ ⟨TokenChar, ":"⟩
      ⟨TokenURI, "url(https://f.example/a.ttf)"⟩ ⟨TokenChar, ";"⟩ Typeface.zero
      ⟨"https://f.example/a.ttf", "", ""⟩
      (Relation.ReflTransGen.single (Step.openBlock rfl rfl rfl rfl rfl))
      rfl rfl rfl rfl rfl rfl rfl (by rfl) rfl).1 rfl⟩

/-! ## The unicode-range list, the stored records and the caller's collection:
the claims -/

/-- C21 (the code at the failing input): on the tokens of
`@font-face \x7b unicode-range: U+0025-00FF, foo; \x7d` the identifier `foo` is
added to the stored list and the loop goes on; on
`@font-face \x7b unicode-range: U+0025-00FF \x7d` the closing brace is taken into
the list and the run ends with the unexpected-end-of-input error quoting it.
In general a token of the list that is neither a unicode-range, an end, a comma
nor a semicolon is appended and the loop goes on with the next token. -/
theorem C21_other_token_appended :
    UnmarshalCSS parsePlain (scan "@font-face \x7b unicode-range: U+0025-00FF, foo; \x7d")
        (some ⟨[]⟩)
      = (some ⟨[⟨"", 0, "", "", none, ["U+0025-00FF", "foo"]⟩]⟩, none)
    ∧ UnmarshalCSS parsePlain (scan "@font-face \x7b unicode-range: U+0025-00FF \x7d")
        (some ⟨[]⟩)
      = (some ⟨[]⟩, some (.unexpectedEOF ⟨TokenChar, "\x7d"⟩))
    ∧ (∀ (steps : Nat) (s s1 : List Token) (lg t : Token) (acc : List String),
        nextSig s = (t, s1) → t.Typ ≠ TokenUnicodeRange → t.isEnd = false →
        t.isChar "," = false → t.isChar ";" = false →
        unicodeRangeLoop (steps + 1) s lg acc
          = unicodeRangeLoop steps s1 t (acc ++ [t.Value])) := by
  refine ⟨rfl, rfl, ?_⟩
  intro steps s s1 lg t acc h h1 h2 h3 h4
  exact unicodeRangeLoop_other steps s s1 lg t acc h h1 h2 h3 h4

/-- C22 (counterexample): the empty block `@font-face \x7b \x7d` parses
successfully to a record with no URL and an empty family, and the block
`@font-face \x7b font-family: 'A'; \x7d`, with no src declaration, to a record
with no URL. -/
theorem C22_counterexample :
    UnmarshalCSS parsePlain (scan "@font-face \x7b \x7d") (some ⟨[]⟩)
        = (some ⟨[⟨"", 0, "", "", none, []⟩]⟩, none)
      ∧ UnmarshalCSS parsePlain (scan "@font-face \x7b font-family: 'A'; \x7d") (some ⟨[]⟩)
        = (some ⟨[⟨"", 0, "A", "", none, []⟩]⟩, none) := by
  constructor <;> rfl

/-- C22 (amended): a record of the collection produced by a successful
`UnmarshalCSS` is the record of its block as its declarations filled it.  At
every point of a run inside a block with the next token `t`: an accepted
declaration gives a record with a URL when it is a src declaration and leaves
the URL of the record as it is otherwise; at the closing brace the record is
stored as it is, at the next position of the collection.  At every point
between blocks, `@font-face` and the opening brace start a block with the zero
record, which has no URL and an empty family. -/
theorem C22_record_of_block (parse : String → Option URL) (tokens s s1 : List Token)
    (result : List Typeface) (lg t : Token) (f : Typeface)
    (hreach : Reaches parse tokens (.inBlock s result lg f))
    (h0 : nextSig s = (t, s1)) :
    (∀ (f2 : Typeface) (lg2 : Token) (s2 : List Token),
        declaration parse s1 t f = some (.ok (f2, lg2, s2)) →
        Reaches parse tokens (.inBlock s2 result lg2 f2)
          ∧ ((t.Typ = TokenIdent ∧ t.Value = "src") → f2.URL ≠ none)
          ∧ (¬ (t.Typ = TokenIdent ∧ t.Value = "src") → f2.URL = f.URL))
      ∧ (t.isChar "\x7d" = true →
          Reaches parse tokens (.between s1 (result ++ [f]))
            ∧ ∀ tf tf2 : Typefaces, UnmarshalCSS parse tokens (some tf) = (some tf2, none) →
              tf2.Fonts.get? result.length = some f)
      ∧ (∀ (s3 s4 s5 : List Token) (result3 : List Typeface) (p q : Token),
          Reaches parse tokens (.between s3 result3) → nextSig s3 = (p, s4) →
          p.Typ = TokenAtKeyword → p.Value = "@font-face" → nextSig s4 = (q, s5) →
          q.isChar "\x7b" = true →
          Reaches parse tokens (.inBlock s5 result3 q Typeface.zero)
            ∧ Typeface.zero.URL = none ∧ Typeface.zero.Family = "") := by
  refine ⟨?_, ?_, ?_⟩
  · intro f2 lg2 s2 hd
    have ht := ident_of_declaration parse s1 t f _ hd
    obtain ⟨_, _, i3, i4⟩ := declaration_append parse s1 s2 [] t lg2 f f2 hd
    exact ⟨Reaches_decl parse tokens s s1 s2 result lg lg2 t f f2 hreach h0 ht hd, i3, i4⟩
  · intro hc
    have hr2 : Reaches parse tokens (.between s1 (result ++ [f])) :=
      Relation.ReflTransGen.tail hreach (Step.closeBlock h0 hc)
    refine ⟨hr2, ?_⟩
    intro tf tf2 h
    rw [UnmarshalCSS_of_reaches parse tokens tf _ hr2] at h
    simp only [resume] at h
    cases hb : blockLoop parse (s1.length + 1) s1 (result ++ [f]) with
    | error e => simp [hb, finish] at h
    | ok R =>
      simp only [hb, finish, Prod.mk.injEq, Option.some.injEq, and_true] at h
      rw [← h]
      exact getElem?_of_blockLoop parse _ s1 result R f hb
  · intro s3 s4 s5 result3 p q hr hn hp hv hn2 hq
    exact ⟨Relation.ReflTransGen.tail hr (Step.openBlock hn hp hv hn2 hq), rfl, rfl⟩

/-- C22 (amended), at the tokens of `@font-face\x7bsrc:url(a.ttf);\x7d`: after
the src declaration the record has a URL. -/
theorem C22_record_of_block_witness :
    (Reaches parsePlain
        [⟨TokenAtKeyword, "@font-face"⟩, ⟨TokenChar, "\x7b"⟩, ⟨TokenIdent, "src"⟩,
          ⟨TokenChar, ":"⟩, ⟨TokenURI, "url(a.ttf)"⟩, ⟨TokenChar, ";"⟩, ⟨TokenChar, "\x7d"⟩]
        (.inBlock [⟨TokenIdent, "src"⟩, ⟨TokenChar, ":"⟩, ⟨TokenURI, "url(a.ttf)"⟩,
          ⟨TokenChar, ";"⟩, ⟨TokenChar, "\x7d"⟩] [] ⟨TokenChar, "\x7b"⟩ Typeface.zero)
      ∧ nextSig [⟨TokenIdent, "src"⟩, ⟨TokenChar, ":"⟩, ⟨TokenURI, "url(a.ttf)"⟩,
          ⟨TokenChar, ";"⟩, ⟨TokenChar, "\x7d"⟩]
        = (⟨TokenIdent, "src"⟩, [⟨TokenChar, ":"⟩, ⟨TokenURI, "url(a.ttf)"⟩,
          ⟨TokenChar, ";"⟩, ⟨TokenChar, "\x7d"⟩])
      ∧ declaration parsePlain [⟨TokenChar, ":"⟩, ⟨TokenURI, "url(a.ttf)"⟩,
          ⟨TokenChar, ";"⟩, ⟨TokenChar, "\x7d"⟩] ⟨TokenIdent, "src"⟩ Typeface.zero
        = some (.ok (⟨"eot", 0, "", "", some ⟨"a.ttf", "", ""⟩, []⟩,
            ⟨TokenURI, "url(a.ttf)"⟩, [⟨TokenChar, "\x7d"⟩])))
    ∧ Reaches parsePlain
        [⟨TokenAtKeyword, "@font-face"⟩, ⟨TokenChar, "\x7b"⟩, ⟨TokenIdent, "src"⟩,
          ⟨TokenChar, ":"⟩, ⟨TokenURI, "url(a.ttf)"⟩, ⟨TokenChar, ";"⟩, ⟨TokenChar, "\x7d"⟩]
        (.inBlock [⟨TokenChar, "\x7d"⟩] [] ⟨TokenURI, "url(a.ttf)"⟩
          ⟨"eot", 0, "", "", some ⟨"a.ttf", "", ""⟩, []⟩) :=
  ⟨⟨Relation.ReflTransGen.single (Step.openBlock rfl rfl rfl rfl rfl), rfl, by rfl⟩,
    ((C22_record_of_block parsePlain
      [⟨TokenAtKeyword, "@font-face"⟩, ⟨TokenChar, "\x7b"⟩, ⟨TokenIdent, "src"⟩,
        ⟨TokenChar, ":"⟩, ⟨TokenURI, "url(a.ttf)"⟩, ⟨TokenChar, ";"⟩, ⟨TokenChar, "\x7d"⟩]
      [⟨TokenIdent, "src"⟩, ⟨TokenChar, ":"⟩, ⟨TokenURI, "url(a.ttf)"⟩,
        ⟨TokenChar, ";"⟩, ⟨TokenChar, "\x7d"⟩] _ [] ⟨TokenChar, "\x7b"⟩ ⟨TokenIdent, "src"⟩
      Typeface.zero
      (Relation.ReflTransGen.single (Step.openBlock rfl rfl rfl rfl rfl)) rfl).1
      ⟨"eot", 0, "", "", some ⟨"a.ttf", "", ""⟩, []⟩ ⟨TokenURI, "url(a.ttf)"⟩
      [⟨TokenChar, "\x7d"⟩] (by rfl)).1⟩

/-- C23: `UnmarshalCSS` is all-or-nothing.  When it returns an error, the
collection behind the pointer is the one before the call, at whatever point of
the run the error arises, also after well-formed blocks; the error does not
depend on the collection.  When it returns no error, the collection is made of
the parsed records only, whatever it held before.  With a nil pointer it
returns an error and there is no collection.  On the tokens of a well-formed
block followed by a block with the weight `bold`, a collection of one record
is left as it was. -/
theorem C23_all_or_nothing (parse : String → Option URL) (tokens : List Token)
    (tf : Typefaces) :
    (∀ e, (UnmarshalCSS parse tokens (some tf)).2 = some e →
        (UnmarshalCSS parse tokens (some tf)).1 = some tf)
      ∧ (∀ (c : Config) (e : ParseError), Reaches parse tokens c →
          resume parse c = .error e →
          UnmarshalCSS parse tokens (some tf) = (some tf, some e))
      ∧ (∀ tf2 : Typefaces, (UnmarshalCSS parse tokens (some tf2)).2
          = (UnmarshalCSS parse tokens (some tf)).2)
      ∧ ((UnmarshalCSS parse tokens (some tf)).2 = none →
          ∃ result, blockLoop parse (tokens.length + 1) tokens [] = .ok result
            ∧ ∀ tf2 : Typefaces,
              UnmarshalCSS parse tokens (some tf2) = (some ⟨result⟩, none))
      ∧ UnmarshalCSS parse tokens none = (none, some .nilTypefaces)
      ∧ UnmarshalCSS parsePlain
          (scan ("@font-face \x7b font-family: 'A'; \x7d " ++
            "@font-face \x7b font-weight: bold; \x7d"))
          (some ⟨[⟨"woff", 400, "Old", "normal", none, []⟩]⟩)
        = (some ⟨[⟨"woff", 400, "Old", "normal", none, []⟩]⟩,
            some (.expect "<number>" ⟨TokenChar, ":"⟩)) := by
  refine ⟨?_, ?_, ?_, ?_, rfl, rfl⟩
  · intro e h
    unfold UnmarshalCSS at h ⊢
    cases hb : blockLoop parse (tokens.length + 1) tokens [] with
    | error e2 => rfl
    | ok R => simp [hb] at h
  · intro c e hr he
    rw [UnmarshalCSS_of_reaches parse tokens tf c hr, he]
    rfl
  · intro tf2
    unfold UnmarshalCSS
    cases blockLoop parse (tokens.length + 1) tokens [] <;> rfl
  · intro h
    unfold UnmarshalCSS at h
    cases hb : blockLoop parse (tokens.length + 1) tokens [] with
    | error e2 => simp [hb] at h
    | ok R =>
      refine ⟨R, rfl, ?_⟩
      intro tf2
      unfold UnmarshalCSS
      simp [hb]

/-! ## Layouts, other formats, skipped tokens and concatenation: the claims -/

/-- C24 (counterexample): for the record (woff2, 400, Roboto, normal) with a
URL, the compact and the pretty output still differ after all white space is
deleted: only the pretty output has a `;` before the closing brace. -/
theorem C24_counterexample :
    stripWs (Typeface.CSS ⟨"woff2", 400, "Roboto", "normal",
        some ⟨"https://f.example/r.woff2", "/r.woff2", ""⟩, []⟩)
      = "@font-face\x7bfont-family:Roboto;font-style:normal;font-weight:400;" ++
          "src:url('https://f.example/r.woff2')format('woff2')\x7d"
    ∧ stripWs (Typeface.PrettyCSS ⟨"woff2", 400, "Roboto", "normal",
        some ⟨"https://f.example/r.woff2", "/r.woff2", ""⟩, []⟩)
      = "@font-face\x7bfont-family:Roboto;font-style:normal;font-weight:400;" ++
          "src:url('https://f.example/r.woff2')format('woff2');\x7d"
    ∧ stripWs (Typeface.CSS ⟨"woff2", 400, "Roboto", "normal",
        some ⟨"https://f.example/r.woff2", "/r.woff2", ""⟩, []⟩)
      ≠ stripWs (Typeface.PrettyCSS ⟨"woff2", 400, "Roboto", "normal",
        some ⟨"https://f.example/r.woff2", "/r.woff2", ""⟩, []⟩) := by
  refine ⟨by decide, by decide, by decide⟩

/-- C24 (amended): for every record, the compact and the pretty output have
the same fields in the same order: both are the one layout `recordBody`, the
compact one without separators and closed by the brace, the pretty one with a
blank, a line break and a tab as separators and closed by `;`, a line break and
the brace.  Deleting the white space of the pretty output gives the compact
output with a `;` before its closing brace (its white space deleted as
well). -/
theorem C24_same_fields (t : Typeface) :
    t.CSS = recordBody "" "" t ++ "\x7d"
      ∧ t.PrettyCSS = recordBody " " "\n\t" t ++ ";" ++ "\n" ++ "\x7d"
      ∧ stripWs (recordBody " " "\n\t" t) = stripWs (recordBody "" "" t)
      ∧ stripWs t.PrettyCSS = stripWs (TrimSuffix t.CSS "\x7d" ++ ";\x7d") :=
  ⟨CSS_eq_recordBody t, PrettyCSS_eq_recordBody t,
    stripWs_recordBody " " "\n\t" t (by decide) (by decide), stripWs_PrettyCSS t⟩

/-- C25: for every record whose format is not one of eot, woff2, woff, ttf and
svg, with a non-empty family and style and a weight of at least 1, the compact
CSS of the collection of that one record is the single rule with an empty
`src:`, built from the family, the style and the weight only: it is the same
whatever the URL of the record is, a missing URL included.  In every collection
and for every combination of non-wildcard values, the rule is the same as in
the collection without the records of other formats. -/
theorem C25_other_formats (r : Typeface)
    (hfmt : r.Format ∉ ["eot", "woff2", "woff", "ttf", "svg"])
    (hfam : r.Family ≠ "") (hsty : r.Style ≠ "") (hw : 1 ≤ r.Weight) :
    Typefaces.CSS ⟨[r]⟩
        = some (cssTpl (quoteFamily r.Family) r.Style r.Weight ++ "src:" ++ "\x7d")
      ∧ (∀ u : Option URL, Typefaces.CSS ⟨[{ r with URL := u }]⟩ = Typefaces.CSS ⟨[r]⟩)
      ∧ (∀ (ts : Typefaces) (fam s : String) (w : Int), fam ≠ "" → s ≠ "" → w ≠ -1 →
          cssRule ts ts.Format fam w s
            = cssRule ⟨ts.Fonts.filter
                (fun x => decide (x.Format ∈ ["eot", "woff2", "woff", "ttf", "svg"]))⟩
              (Typefaces.Format ⟨ts.Fonts.filter
                (fun x => decide (x.Format ∈ ["eot", "woff2", "woff", "ttf", "svg"]))⟩)
              fam w s) := by
  refine ⟨CSS_other_format r hfmt hfam hsty hw, ?_, ?_⟩
  · intro u
    rw [CSS_other_format r hfmt hfam hsty hw,
      CSS_other_format { r with URL := u } hfmt hfam hsty hw]
  · intro ts fam s w h1 h2 h3
    rw [cssRule_total ts fam s w h1 h2 h3, cssRule_total _ fam s w h1 h2 h3]
    exact (ruleOfFirst_congr ts _ fam s w
      (fun m hm => firstRecord_filter_formats ts m fam s w hm)).symm

/-- C25, at the record (truetype, 400, Lato, normal): a rule with an empty
`src:`, without the URL. -/
theorem C25_other_formats_witness :
    ("truetype" ∉ ["eot", "woff2", "woff", "ttf", "svg"] ∧ "Lato" ≠ "" ∧ "normal" ≠ ""
      ∧ (1 : Int) ≤ 400)
    ∧ Typefaces.CSS ⟨[⟨"truetype", 400, "Lato", "normal",
        some ⟨"https://f.example/l.ttf", "/l.ttf", ""⟩, []⟩]⟩
      = some "@font-face\x7bfont-family:Lato;font-style:normal;font-weight:400;src:\x7d" :=
  ⟨⟨by decide, by decide, by decide, by decide⟩,
    (C25_other_formats ⟨"truetype", 400, "Lato", "normal",
      some ⟨"https://f.example/l.ttf", "/l.ttf", ""⟩, []⟩
      (by decide) (by decide) (by decide) (by decide)).1.trans rfl⟩

/-- C27: for every token stream `A` without end-of-stream or error token and
every token stream `B` on which `UnmarshalCSS` succeeds, with the records `RA`
and `RB`, `UnmarshalCSS` succeeds on `A ++ B` and yields `RA ++ RB`: the records
of `A` followed by the records of `B`, each as parsed on its own. -/
theorem C27_concatenation (parse : String → Option URL) (A B : List Token) (tf : Typefaces)
    (RA RB : List Typeface) (hA : ∀ x ∈ A, x.isEnd = false)
    (h1 : UnmarshalCSS parse A (some tf) = (some ⟨RA⟩, none))
    (h2 : UnmarshalCSS parse B (some tf) = (some ⟨RB⟩, none)) :
    UnmarshalCSS parse (A ++ B) (some tf) = (some ⟨RA ++ RB⟩, none) := by
  unfold UnmarshalCSS at h1 h2 ⊢
  cases ha : blockLoop parse (A.length + 1) A [] with
  | error e => simp [ha] at h1
  | ok R1 =>
    cases hb : blockLoop parse (B.length + 1) B [] with
    | error e => simp [hb] at h2
    | ok R2 =>
      simp only [ha, Prod.mk.injEq, Option.some.injEq, Typefaces.mk.injEq, and_true] at h1
      simp only [hb, Prod.mk.injEq, Option.some.injEq, Typefaces.mk.injEq, and_true] at h2
      subst h1
      subst h2
      obtain ⟨R3, e3, h3⟩ := blockLoop_acc parse _ B [] R2 hb
      simp only [List.nil_append] at e3
      subst e3
      have h4 := blockLoop_append parse B _ A [] R1 hA ha ((A ++ B).length + 1)
        (by simp) (by omega)
      rw [h4, blockLoop_mono parse _ (B.length + 1) B R1 (by simp; omega) (by omega), h3 R1]

/-- C27, at the tokens of `@font-face\x7bfont-family:'A';src:url(a.ttf);\x7d` and
of `@font-face\x7bsrc:url(b.ttf);\x7d`: the second record has no family. -/
theorem C27_concatenation_witness :
    ((∀ x ∈ [(⟨TokenAtKeyword, "@font-face"⟩ : Token), ⟨TokenChar, "\x7b"⟩,
          ⟨TokenIdent, "font-family"⟩, ⟨TokenChar, ":"⟩, ⟨TokenString, "'A'"⟩,
          ⟨TokenChar, ";"⟩, ⟨TokenIdent, "src"⟩, ⟨TokenChar, ":"⟩, ⟨TokenURI, "url(a.ttf)"⟩,
          ⟨TokenChar, ";"⟩, ⟨TokenChar, "\x7d"⟩], x.isEnd = false)
      ∧ UnmarshalCSS parsePlain
          [⟨TokenAtKeyword, "@font-face"⟩, ⟨TokenChar, "\x7b"⟩,
            ⟨TokenIdent, "font-family"⟩, ⟨TokenChar, ":"⟩, ⟨TokenString, "'A'"⟩,
            ⟨TokenChar, ";"⟩, ⟨TokenIdent, "src"⟩, ⟨TokenChar, ":"⟩, ⟨TokenURI, "url(a.ttf)"⟩,
            ⟨TokenChar, ";"⟩, ⟨TokenChar, "\x7d"⟩] (some ⟨[]⟩)
        = (some ⟨[⟨"eot", 0, "A", "", some ⟨"a.ttf", "", ""⟩, []⟩]⟩, none)
      ∧ UnmarshalCSS parsePlain
          [⟨TokenAtKeyword, "@font-face"⟩, ⟨TokenChar, "\x7b"⟩, ⟨TokenIdent, "src"⟩,
            ⟨TokenChar, ":"⟩, ⟨TokenURI, "url(b.ttf)"⟩, ⟨TokenChar, ";"⟩,
            ⟨TokenChar, "\x7d"⟩] (some ⟨[]⟩)
        = (some ⟨[⟨"eot", 0, "", "", some ⟨"b.ttf", "", ""⟩, []⟩]⟩, none))
    ∧ UnmarshalCSS parsePlain
        ([⟨TokenAtKeyword, "@font-face"⟩, ⟨TokenChar, "\x7b"⟩,
            ⟨TokenIdent, "font-family"⟩, ⟨TokenChar, ":"⟩, ⟨TokenString, "'A'"⟩,
            ⟨TokenChar, ";"⟩, ⟨TokenIdent, "src"⟩, ⟨TokenChar, ":"⟩, ⟨TokenURI, "url(a.ttf)"⟩,
            ⟨TokenChar, ";"⟩, ⟨TokenChar, "\x7d"⟩] ++
          [⟨TokenAtKeyword, "@font-face"⟩, ⟨TokenChar, "\x7b"⟩, ⟨TokenIdent, "src"⟩,
            ⟨TokenChar, ":"⟩, ⟨TokenURI, "url(b.ttf)"⟩, ⟨TokenChar, ";"⟩,
            ⟨TokenChar, "\x7d"⟩]) (some ⟨[]⟩)
      = (some ⟨[⟨"eot", 0, "A", "", some ⟨"a.ttf", "", ""⟩, []⟩] ++
          [⟨"eot", 0, "", "", some ⟨"b.ttf", "", ""⟩, []⟩]⟩, none) :=
  ⟨⟨by decide, by rfl, by rfl⟩,
    C27_concatenation parsePlain
      [⟨TokenAtKeyword, "@font-face"⟩, ⟨TokenChar, "\x7b"⟩,
        ⟨TokenIdent, "font-family"⟩, ⟨TokenChar, ":"⟩, ⟨TokenString, "'A'"⟩,
        ⟨TokenChar, ";"⟩, ⟨TokenIdent, "src"⟩, ⟨TokenChar, ":"⟩, ⟨TokenURI, "url(a.ttf)"⟩,
        ⟨TokenChar, ";"⟩, ⟨TokenChar, "\x7d"⟩]
      [⟨TokenAtKeyword, "@font-face"⟩, ⟨TokenChar, "\x7b"⟩, ⟨TokenIdent, "src"⟩,
        ⟨TokenChar, ":"⟩, ⟨TokenURI, "url(b.ttf)"⟩, ⟨TokenChar, ";"⟩,
        ⟨TokenChar, "\x7d"⟩]
      ⟨[]⟩ [⟨"eot", 0, "A", "", some ⟨"a.ttf", "", ""⟩, []⟩]
      [⟨"eot", 0, "", "", some ⟨"b.ttf", "", ""⟩, []⟩]
      (by decide) (by rfl) (by rfl)⟩

/-- C26 (counterexample): the tokens of `font-display:swap;` inserted between
the declarations of `@font-face\x7bfont-family:'A';font-weight:bold;\x7d` are
skipped, and the call fails as before on the weight `bold`, but not with the
same error: the message quotes the `:` before `bold` with its line and column,
column 39 without the insertion and column 57 with it. -/
theorem C26_counterexample :
    scan "@font-face\x7bfont-family:'A';font-display:swap;font-weight:bold;\x7d"
        = [⟨TokenAtKeyword, "@font-face"⟩, ⟨TokenChar, "\x7b"⟩, ⟨TokenIdent, "font-family"⟩,
            ⟨TokenChar, ":"⟩, ⟨TokenString, "'A'"⟩, ⟨TokenChar, ";"⟩] ++
          ([⟨TokenIdent, "font-display"⟩, ⟨TokenChar, ":"⟩, ⟨TokenIdent, "swap"⟩,
            ⟨TokenChar, ";"⟩] ++
          [⟨TokenIdent, "font-weight"⟩, ⟨TokenChar, ":"⟩, ⟨TokenIdent, "bold"⟩,
            ⟨TokenChar, ";"⟩, ⟨TokenChar, "\x7d"⟩])
    ∧ scan "@font-face\x7bfont-family:'A';font-weight:bold;\x7d"
        = [⟨TokenAtKeyword, "@font-face"⟩, ⟨TokenChar, "\x7b"⟩, ⟨TokenIdent, "font-family"⟩,
            ⟨TokenChar, ":"⟩, ⟨TokenString, "'A'"⟩, ⟨TokenChar, ";"⟩] ++
          [⟨TokenIdent, "font-weight"⟩, ⟨TokenChar, ":"⟩, ⟨TokenIdent, "bold"⟩,
            ⟨TokenChar, ";"⟩, ⟨TokenChar, "\x7d"⟩]
    ∧ (∀ t ∈ [(⟨TokenIdent, "font-display"⟩ : Token), ⟨TokenChar, ":"⟩, ⟨TokenIdent, "swap"⟩,
        ⟨TokenChar, ";"⟩], t.isSkipped = true)
    ∧ UnmarshalCSSL parsePlain
        (locateEnd (scan "@font-face\x7bfont-family:'A';font-display:swap;font-weight:bold;\x7d"))
        (locate (scan "@font-face\x7bfont-family:'A';font-display:swap;font-weight:bold;\x7d"))
        (some ⟨[]⟩)
      = (some ⟨[]⟩, some (.expect "<number>" ⟨TokenChar, ":", 1, 57⟩))
    ∧ UnmarshalCSSL parsePlain
        (locateEnd (scan "@font-face\x7bfont-family:'A';font-weight:bold;\x7d"))
        (locate (scan "@font-face\x7bfont-family:'A';font-weight:bold;\x7d"))
        (some ⟨[]⟩)
      = (some ⟨[]⟩, some (.expect "<number>" ⟨TokenChar, ":", 1, 39⟩))
    ∧ UnmarshalCSSL parsePlain
        (locateEnd (scan "@font-face\x7bfont-family:'A';font-display:swap;font-weight:bold;\x7d"))
        (locate (scan "@font-face\x7bfont-family:'A';font-display:swap;font-weight:bold;\x7d"))
        (some ⟨[]⟩)
      ≠ UnmarshalCSSL parsePlain
        (locateEnd (scan "@font-face\x7bfont-family:'A';font-weight:bold;\x7d"))
        (locate (scan "@font-face\x7bfont-family:'A';font-weight:bold;\x7d"))
        (some ⟨[]⟩) := by
  have h1 : UnmarshalCSSL parsePlain
        (locateEnd (scan "@font-face\x7bfont-family:'A';font-display:swap;font-weight:bold;\x7d"))
        (locate (scan "@font-face\x7bfont-family:'A';font-display:swap;font-weight:bold;\x7d"))
        (some ⟨[]⟩)
      = (some ⟨[]⟩, some (.expect "<number>" ⟨TokenChar, ":", 1, 57⟩)) := by rfl
  have h2 : UnmarshalCSSL parsePlain
        (locateEnd (scan "@font-face\x7bfont-family:'A';font-weight:bold;\x7d"))
        (locate (scan "@font-face\x7bfont-family:'A';font-weight:bold;\x7d"))
        (some ⟨[]⟩)
      = (some ⟨[]⟩, some (.expect "<number>" ⟨TokenChar, ":", 1, 39⟩)) := by rfl
  refine ⟨by rfl, by rfl, by decide, h1, h2, ?_⟩
  rw [h1, h2]
  decide

/-- C26 (amended): let `pre` be the beginning of a stream at whose end the run
is at a declaration boundary inside a block, up to tokens `r` that the
declaration loop skips, and let `ins` be any sequence of tokens that are
neither `\x7d`, an end of the stream, nor one of the identifiers font-family,
font-style, font-weight, src and unicode-range.  Whatever follows and whatever
the positions of the tokens are, `UnmarshalCSS` on the stream with `ins`
inserted there leaves the same collection as on the stream without it, and it
returns an error on the one exactly when it does on the other, of the same
kind and quoting tokens of the same type and text: only the line and the column
of the quoted tokens may differ. -/
theorem C26_skipped_tokens (parse : String → Option URL) (eof1 eof2 : LToken)
    (L1 L2 : List LToken) (pre r ins post : List Token)
    (tf : Typefaces) (result : List Typeface) (lg : Token) (f : Typeface)
    (he1 : eof1.tok = ⟨TokenEOF, ""⟩) (he2 : eof2.tok = ⟨TokenEOF, ""⟩)
    (h1 : L1.map LToken.tok = pre ++ (ins ++ post)) (h2 : L2.map LToken.tok = pre ++ post)
    (hpre : Reaches parse pre (.inBlock r result lg f))
    (hr : ∀ t ∈ r, t.isSkipped = true) (hins : ∀ t ∈ ins, t.isSkipped = true) :
    (UnmarshalCSSL parse eof1 L1 (some tf)).1 = (UnmarshalCSSL parse eof2 L2 (some tf)).1
      ∧ (UnmarshalCSSL parse eof1 L1 (some tf)).2.map LParseError.erase
        = (UnmarshalCSSL parse eof2 L2 (some tf)).2.map LParseError.erase
      ∧ ((UnmarshalCSSL parse eof1 L1 (some tf)).2 = none
        ↔ (UnmarshalCSSL parse eof2 L2 (some tf)).2 = none) := by
  have e1 := UnmarshalCSSL_erase parse eof1 he1 L1 (some tf)
  have e2 := UnmarshalCSSL_erase parse eof2 he2 L2 (some tf)
  rw [h1, UnmarshalCSS_skipped parse pre r ins post tf result lg f hpre hr hins, ← h2, ← e2,
    Prod.mk.injEq] at e1
  refine ⟨e1.1, e1.2, ?_⟩
  have e3 := e1.2
  constructor
  · intro h
    rw [h] at e3
    cases hx : (UnmarshalCSSL parse eof2 L2 (some tf)).2 with
    | none => rfl
    | some x => rw [hx] at e3; simp at e3
  · intro h
    rw [h] at e3
    cases hx : (UnmarshalCSSL parse eof1 L1 (some tf)).2 with
    | none => rfl
    | some x => rw [hx] at e3; simp at e3

/-- C26 (amended), at the tokens of `@font-face\x7bfont-family:'A';` followed by
`src:url(a.ttf);\x7d`, with the tokens of `font-display: swap;` inserted between
the two declarations, each stream with the positions of the scanner. -/
theorem C26_skipped_tokens_witness :
    ((locateEnd ([⟨TokenAtKeyword, "@font-face"⟩, ⟨TokenChar, "\x7b"⟩, ⟨TokenIdent, "font-family"⟩,
          ⟨TokenChar, ":"⟩, ⟨TokenString, "'A'"⟩, ⟨TokenChar, ";"⟩] ++
          ([⟨TokenIdent, "font-display"⟩, ⟨TokenChar, ":"⟩, ⟨TokenS, " "⟩,
          ⟨TokenIdent, "swap"⟩, ⟨TokenChar, ";"⟩] ++
          [⟨TokenIdent, "src"⟩, ⟨TokenChar, ":"⟩, ⟨TokenURI, "url(a.ttf)"⟩, ⟨TokenChar, ";"⟩,
          ⟨TokenChar, "\x7d"⟩]))).tok = ⟨TokenEOF, ""⟩
      ∧ (locateEnd ([⟨TokenAtKeyword, "@font-face"⟩, ⟨TokenChar, "\x7b"⟩, ⟨TokenIdent, "font-family"⟩,
          ⟨TokenChar, ":"⟩, ⟨TokenString, "'A'"⟩, ⟨TokenChar, ";"⟩] ++
          [⟨TokenIdent, "src"⟩, ⟨TokenChar, ":"⟩, ⟨TokenURI, "url(a.ttf)"⟩, ⟨TokenChar, ";"⟩,
          ⟨TokenChar, "\x7d"⟩])).tok = ⟨TokenEOF, ""⟩
      ∧ (locate ([⟨TokenAtKeyword, "@font-face"⟩, ⟨TokenChar, "\x7b"⟩, ⟨TokenIdent, "font-family"⟩,
          ⟨TokenChar, ":"⟩, ⟨TokenString, "'A'"⟩, ⟨TokenChar, ";"⟩] ++
          ([⟨TokenIdent, "font-display"⟩, ⟨TokenChar, ":"⟩, ⟨TokenS, " "⟩,
          ⟨TokenIdent, "swap"⟩, ⟨TokenChar, ";"⟩] ++
          [⟨TokenIdent, "src"⟩, ⟨TokenChar, ":"⟩, ⟨TokenURI, "url(a.ttf)"⟩, ⟨TokenChar, ";"⟩,
          ⟨TokenChar, "\x7d"⟩]))).map LToken.tok
        = [⟨TokenAtKeyword, "@font-face"⟩, ⟨TokenChar, "\x7b"⟩, ⟨TokenIdent, "font-family"⟩,
          ⟨TokenChar, ":"⟩, ⟨TokenString, "'A'"⟩, ⟨TokenChar, ";"⟩] ++
          ([⟨TokenIdent, "font-display"⟩, ⟨TokenChar, ":"⟩, ⟨TokenS, " "⟩,
          ⟨TokenIdent, "swap"⟩, ⟨TokenChar, ";"⟩] ++
          [⟨TokenIdent, "src"⟩, ⟨TokenChar, ":"⟩, ⟨TokenURI, "url(a.ttf)"⟩, ⟨TokenChar, ";"⟩,
          ⟨TokenChar, "\x7d"⟩])
      ∧ (locate ([⟨TokenAtKeyword, "@font-face"⟩, ⟨TokenChar, "\x7b"⟩, ⟨TokenIdent, "font-family"⟩,
          ⟨TokenChar, ":"⟩, ⟨TokenString, "'A'"⟩, ⟨TokenChar, ";"⟩] ++
          [⟨TokenIdent, "src"⟩, ⟨TokenChar, ":"⟩, ⟨TokenURI, "url(a.ttf)"⟩, ⟨TokenChar, ";"⟩,
          ⟨TokenChar, "\x7d"⟩])).map LToken.tok
        = [⟨TokenAtKeyword, "@font-face"⟩, ⟨TokenChar, "\x7b"⟩, ⟨TokenIdent, "font-family"⟩,
          ⟨TokenChar, ":"⟩, ⟨TokenString, "'A'"⟩, ⟨TokenChar, ";"⟩] ++
          [⟨TokenIdent, "src"⟩, ⟨TokenChar, ":"⟩, ⟨TokenURI, "url(a.ttf)"⟩, ⟨TokenChar, ";"⟩,
          ⟨TokenChar, "\x7d"⟩]
      ∧ Reaches parsePlain
          [⟨TokenAtKeyword, "@font-face"⟩, ⟨TokenChar, "\x7b"⟩, ⟨TokenIdent, "font-family"⟩,
          ⟨TokenChar, ":"⟩, ⟨TokenString, "'A'"⟩, ⟨TokenChar, ";"⟩]
          (.inBlock [] [] ⟨TokenString, "'A'"⟩ ⟨"", 0, "A", "", none, []⟩)
      ∧ (∀ t ∈ ([] : List Token), t.isSkipped = true)
      ∧ (∀ t ∈ ([⟨TokenIdent, "font-display"⟩, ⟨TokenChar, ":"⟩, ⟨TokenS, " "⟩,
          ⟨TokenIdent, "swap"⟩, ⟨TokenChar, ";"⟩] : List Token), t.isSkipped = true))
    ∧ (UnmarshalCSSL parsePlain
          (locateEnd ([⟨TokenAtKeyword, "@font-face"⟩, ⟨TokenChar, "\x7b"⟩, ⟨TokenIdent, "font-family"⟩,
          ⟨TokenChar, ":"⟩, ⟨TokenString, "'A'"⟩, ⟨TokenChar, ";"⟩] ++
          ([⟨TokenIdent, "font-display"⟩, ⟨TokenChar, ":"⟩, ⟨TokenS, " "⟩,
          ⟨TokenIdent, "swap"⟩, ⟨TokenChar, ";"⟩] ++
          [⟨TokenIdent, "src"⟩, ⟨TokenChar, ":"⟩, ⟨TokenURI, "url(a.ttf)"⟩, ⟨TokenChar, ";"⟩,
          ⟨TokenChar, "\x7d"⟩])))
          (locate ([⟨TokenAtKeyword, "@font-face"⟩, ⟨TokenChar, "\x7b"⟩, ⟨TokenIdent, "font-family"⟩,
          ⟨TokenChar, ":"⟩, ⟨TokenString, "'A'"⟩, ⟨TokenChar, ";"⟩] ++
          ([⟨TokenIdent, "font-display"⟩, ⟨TokenChar, ":"⟩, ⟨TokenS, " "⟩,
          ⟨TokenIdent, "swap"⟩, ⟨TokenChar, ";"⟩] ++
          [⟨TokenIdent, "src"⟩, ⟨TokenChar, ":"⟩, ⟨TokenURI, "url(a.ttf)"⟩, ⟨TokenChar, ";"⟩,
          ⟨TokenChar, "\x7d"⟩]))) (some ⟨[]⟩)).1
      = (UnmarshalCSSL parsePlain
          (locateEnd ([⟨TokenAtKeyword, "@font-face"⟩, ⟨TokenChar, "\x7b"⟩, ⟨TokenIdent, "font-family"⟩,
          ⟨TokenChar, ":"⟩, ⟨TokenString, "'A'"⟩, ⟨TokenChar, ";"⟩] ++
          [⟨TokenIdent, "src"⟩, ⟨TokenChar, ":"⟩, ⟨TokenURI, "url(a.ttf)"⟩, ⟨TokenChar, ";"⟩,
          ⟨TokenChar, "\x7d"⟩]))
          (locate ([⟨TokenAtKeyword, "@font-face"⟩, ⟨TokenChar, "\x7b"⟩, ⟨TokenIdent, "font-family"⟩,
          ⟨TokenChar, ":"⟩, ⟨TokenString, "'A'"⟩, ⟨TokenChar, ";"⟩] ++
          [⟨TokenIdent, "src"⟩, ⟨TokenChar, ":"⟩, ⟨TokenURI, "url(a.ttf)"⟩, ⟨TokenChar, ";"⟩,
          ⟨TokenChar, "\x7d"⟩])) (some ⟨[]⟩)).1 :=
  ⟨⟨rfl, rfl, map_tok_locate _, map_tok_locate _,
      Relation.ReflTransGen.tail
        (Relation.ReflTransGen.single (Step.openBlock rfl rfl rfl rfl rfl))
        (Step.decl rfl rfl rfl (by rfl)),
      by simp, by decide⟩,
    (C26_skipped_tokens parsePlain
      (locateEnd ([⟨TokenAtKeyword, "@font-face"⟩, ⟨TokenChar, "\x7b"⟩, ⟨TokenIdent, "font-family"⟩,
          ⟨TokenChar, ":"⟩, ⟨TokenString, "'A'"⟩, ⟨TokenChar, ";"⟩] ++
          ([⟨TokenIdent, "font-display"⟩, ⟨TokenChar, ":"⟩, ⟨TokenS, " "⟩,
          ⟨TokenIdent, "swap"⟩, ⟨TokenChar, ";"⟩] ++
          [⟨TokenIdent, "src"⟩, ⟨TokenChar, ":"⟩, ⟨TokenURI, "url(a.ttf)"⟩, ⟨TokenChar, ";"⟩,
          ⟨TokenChar, "\x7d"⟩])))
      (locateEnd ([⟨TokenAtKeyword, "@font-face"⟩, ⟨TokenChar, "\x7b"⟩, ⟨TokenIdent, "font-family"⟩,
          ⟨TokenChar, ":"⟩, ⟨TokenString, "'A'"⟩, ⟨TokenChar, ";"⟩] ++
          [⟨TokenIdent, "src"⟩, ⟨TokenChar, ":"⟩, ⟨TokenURI, "url(a.ttf)"⟩, ⟨TokenChar, ";"⟩,
          ⟨TokenChar, "\x7d"⟩]))
      (locate ([⟨TokenAtKeyword, "@font-face"⟩, ⟨TokenChar, "\x7b"⟩, ⟨TokenIdent, "font-family"⟩,
          ⟨TokenChar, ":"⟩, ⟨TokenString, "'A'"⟩, ⟨TokenChar, ";"⟩] ++
          ([⟨TokenIdent, "font-display"⟩, ⟨TokenChar, ":"⟩, ⟨TokenS, " "⟩,
          ⟨TokenIdent, "swap"⟩, ⟨TokenChar, ";"⟩] ++
          [⟨TokenIdent, "src"⟩, ⟨TokenChar, ":"⟩, ⟨TokenURI, "url(a.ttf)"⟩, ⟨TokenChar, ";"⟩,
          ⟨TokenChar, "\x7d"⟩])))
      (locate ([⟨TokenAtKeyword, "@font-face"⟩, ⟨TokenChar, "\x7b"⟩, ⟨TokenIdent, "font-family"⟩,
          ⟨TokenChar, ":"⟩, ⟨TokenString, "'A'"⟩, ⟨TokenChar, ";"⟩] ++
          [⟨TokenIdent, "src"⟩, ⟨TokenChar, ":"⟩, ⟨TokenURI, "url(a.ttf)"⟩, ⟨TokenChar, ";"⟩,
          ⟨TokenChar, "\x7d"⟩]))
      [⟨TokenAtKeyword, "@font-face"⟩, ⟨TokenChar, "\x7b"⟩, ⟨TokenIdent, "font-family"⟩,
          ⟨TokenChar, ":"⟩, ⟨TokenString, "'A'"⟩, ⟨TokenChar, ";"⟩]
      []
      [⟨TokenIdent, "font-display"⟩, ⟨TokenChar, ":"⟩, ⟨TokenS, " "⟩,
          ⟨TokenIdent, "swap"⟩, ⟨TokenChar, ";"⟩]
      [⟨TokenIdent, "src"⟩, ⟨TokenChar, ":"⟩, ⟨TokenURI, "url(a.ttf)"⟩, ⟨TokenChar, ";"⟩,
          ⟨TokenChar, "\x7d"⟩]
      ⟨[]⟩ [] ⟨TokenString, "'A'"⟩ ⟨"", 0, "A", "", none, []⟩
      rfl rfl (map_tok_locate _) (map_tok_locate _)
      (Relation.ReflTransGen.tail
        (Relation.ReflTransGen.single (Step.openBlock rfl rfl rfl rfl rfl))
        (Step.decl rfl rfl rfl (by rfl)))
      (by simp) (by decide)).1⟩

end Gfont
